import Mathlib

/-!
# eiquadprog-fast: the dual active-set solver of `src/eiquadprog-fast.cpp`

A shallow embedding of `EiquadprogFast` (Goldfarb-Idnani dual active-set QP solver).

* Numbers: the solver's `double` is an arbitrary linearly ordered field `α` with exact
  arithmetic; the two things exact arithmetic does not fix, the library square root and
  the machine epsilon, are fields of `Arith`.  `+inf` step lengths are `Option α` with
  `none` for `+inf`.  Division is the field's; the divisors of the rotations and of the
  ratio test are guarded by the source (`h == 0`, `r(k) > 0`), and the one quotient whose
  being `+inf` changes the control flow, the full step length of line 512, is `none` when
  the double quotient overflows (see `full_step`).
* Buffers: an Eigen vector is a function `Nat → α`, a matrix a function `Nat → Nat → α`
  (row, column); only the indices below the size given by `reset` are meaningful.  An
  element access outside the size given by `reset` is undefined behaviour in the source:
  every function that can make one returns `Option`, with `none` for such an access.
* Control flow: the labels `l1`, `l2`, `l2a` of `solve_quadprog` are the program points of
  a step function; `run` iterates it with fuel.
-/

namespace Eiquadprog

/-- Dense vector buffer (`VectorXd`). -/
abbrev Vec (α : Type) := Nat → α

/-- Dense matrix buffer (`MatrixXd`), indexed row then column. -/
abbrev Mat (α : Type) := Nat → Nat → α

/-- Integer vector buffer (`VectorXi`). -/
abbrev IVec := Nat → Int

/-- What exact arithmetic leaves open: `std::sqrt`, `std::numeric_limits<double>::epsilon()`,
and the build switch `OPTIMIZE_UNCONSTR_MINIM` of the header, which decides whether the
negation `x = -x` of the unconstrained minimiser is shared by both factorisation modes. -/
structure Arith (α : Type) where
  sqrt : α → α
  eps : α
  OPTIMIZE_UNCONSTR_MINIM : Bool

/-- Return codes `EiquadprogFast_status`. -/
inductive Status where
  | EIQUADPROG_FAST_OPTIMAL
  | EIQUADPROG_FAST_UNBOUNDED
  | EIQUADPROG_FAST_MAX_ITER_REACHED
  | EIQUADPROG_FAST_REDUNDANT_EQUALITIES
  deriving DecidableEq, Repr

/-- The caller's problem data.  The sizes are `g0.size()`, `ce0.size()`, `ci0.size()`;
`CE` is `nEqCon × nVars`, `CI` is `nIneqCon × nVars` (the asserts of `solve_quadprog`). -/
structure Problem (α : Type) where
  nVars : Nat
  nEqCon : Nat
  nIneqCon : Nat
  Hess : Mat α
  g0 : Vec α
  CE : Mat α
  ce0 : Vec α
  CI : Mat α
  ci0 : Vec α

/-- The members of `EiquadprogFast`. -/
structure Solver (α : Type) where
  m_maxIter : Nat
  q : Nat
  is_inverse_provided_ : Bool
  m_nVars : Nat
  m_nEqCon : Nat
  m_nIneqCon : Nat
  m_J : Mat α
  R : Mat α
  s : Vec α
  r : Vec α
  u : Vec α
  z : Vec α
  d : Vec α
  np : Vec α
  A : IVec
  iai : IVec
  iaexcl : IVec
  x_old : Vec α
  u_old : Vec α
  A_old : IVec
  iter : Nat
  f_value : α

section Defs

variable {α : Type} [LinearOrderedField α]

/-- Sum of `f 0 + ... + f (n-1)`. -/
def sumTo (n : Nat) (f : Nat → α) : α :=
  match n with
  | 0 => 0
  | k + 1 => sumTo k f + f k

/-- Dot product of the first `n` entries (`a.dot(b)`). -/
def dot (n : Nat) (a b : Vec α) : α := sumTo n (fun k => a k * b k)

/-- Write one entry of a vector. -/
def vset {β : Type} (v : Nat → β) (i : Nat) (a : β) : Nat → β :=
  fun k => if k = i then a else v k

/-- Write one entry of a matrix. -/
def mset (M : Mat α) (i j : Nat) (a : α) : Mat α :=
  fun r c => if r = i ∧ c = j then a else M r c

/-- Modelled from the spec: `utils::distance` of the header, the "numerically-stable
hypotenuse computation for the rotation magnitude": `sqrt(a² + b²)` computed as
`max·sqrt(1 + (min/max)²)`, and `|a|·sqrt(2)` when `|a| = |b|`. -/
def distance (ar : Arith α) (a b : α) : α :=
  let a1 := |a|
  let b1 := |b|
  if b1 < a1 then
    let t := b1 / a1
    a1 * ar.sqrt (1 + t * t)
  else if a1 < b1 then
    let t := a1 / b1
    b1 * ar.sqrt (1 + t * t)
  else a1 * ar.sqrt 2

/-- One pass of the loop body of `add_constraint` (lines 70-100) at index `j`. -/
def add_rot (ar : Arith α) (nVars : Nat) (j : Nat) (Jd : Mat α × Vec α) : Mat α × Vec α :=
  let J := Jd.1
  let d := Jd.2
  let cc := d (j - 1)
  let ss := d j
  let h := distance ar cc ss
  if h = 0 then (J, d)
  else
    let d1 := vset d j 0
    let ss := ss / h
    let cc := cc / h
    let d2 := if cc < 0 then vset d1 (j - 1) (-h) else vset d1 (j - 1) h
    let ss := if cc < 0 then -ss else ss
    let cc := if cc < 0 then -cc else cc
    let xny := ss / (1 + cc)
    let J2 : Mat α := fun k c =>
      if k < nVars then
        if c = j - 1 then J k (j - 1) * cc + J k j * ss
        else if c = j then xny * (J k (j - 1) + (J k (j - 1) * cc + J k j * ss)) - J k j
        else J k c
      else J k c
    (J2, d2)

/-- The loop `for (j = d.size() - 1; j >= iq + 1; j--)` of `add_constraint`:
`cnt` passes remain, the next one at `j = iq + cnt`. -/
def add_loop (ar : Arith α) (nVars iq : Nat) (cnt : Nat) (Jd : Mat α × Vec α) :
    Mat α × Vec α :=
  match cnt with
  | 0 => Jd
  | c + 1 => add_loop ar nVars iq c (add_rot ar nVars (iq + c + 1) Jd)

/-- Results of `add_constraint`: the return value and the reference parameters. -/
structure AddResult (α : Type) where
  ok : Bool
  R : Mat α
  J : Mat α
  d : Vec α
  iq : Nat
  R_norm : α

/-- The function `EiquadprogFast::add_constraint`.  With `iq ≥ nVars` the write of
`R.col(iq - 1).head(iq)` after `iq++` (and, for `nVars = 0`, the loop itself) is out of
range. -/
def add_constraint (ar : Arith α) (nVars : Nat) (R J : Mat α) (d : Vec α) (iq : Nat)
    (R_norm : α) : Option (AddResult α) :=
  if nVars ≤ iq then none
  else
    let Jd := add_loop ar nVars iq (nVars - 1 - iq) (J, d)
    let iq1 := iq + 1
    let R1 : Mat α := fun i c => if c = iq1 - 1 ∧ i < iq1 then Jd.2 i else R i c
    if |Jd.2 (iq1 - 1)| ≤ ar.eps * R_norm then
      some ⟨false, R1, Jd.1, Jd.2, iq1, R_norm⟩
    else
      some ⟨true, R1, Jd.1, Jd.2, iq1, max R_norm |Jd.2 (iq1 - 1)|⟩

/-- The search `for (i = nEqCon; i < iq; i++) if (A(i) == l) { qq = i; break; }` of
`delete_constraint`, with `cnt` indices left from `i`; `qq` stays `0` when `l` is absent. -/
def find_qq (A : IVec) (l : Int) (i cnt : Nat) : Nat :=
  match cnt with
  | 0 => 0
  | c + 1 => if A i = l then i else find_qq A l (i + 1) c

/-- One pass of the second loop of `delete_constraint` (lines 158-186) at index `j`;
`iq` is the decremented size. -/
def del_rot (ar : Arith α) (nVars iq : Nat) (j : Nat) (RJ : Mat α × Mat α) : Mat α × Mat α :=
  let R := RJ.1
  let J := RJ.2
  let cc := R j j
  let ss := R (j + 1) j
  let h := distance ar cc ss
  if h = 0 then (R, J)
  else
    let cc := cc / h
    let ss := ss / h
    let R1 := mset R (j + 1) j 0
    let R2 := if cc < 0 then mset R1 j j (-h) else mset R1 j j h
    let ss := if cc < 0 then -ss else ss
    let cc := if cc < 0 then -cc else cc
    let xny := ss / (1 + cc)
    let R3 : Mat α := fun i k =>
      if j + 1 ≤ k ∧ k < iq then
        if i = j then R2 j k * cc + R2 (j + 1) k * ss
        else if i = j + 1 then xny * (R2 j k + (R2 j k * cc + R2 (j + 1) k * ss)) - R2 (j + 1) k
        else R2 i k
      else R2 i k
    let J2 : Mat α := fun k c =>
      if k < nVars then
        if c = j then J k j * cc + J k (j + 1) * ss
        else if c = j + 1 then xny * ((J k j * cc + J k (j + 1) * ss) + J k j) - J k (j + 1)
        else J k c
      else J k c
    (R3, J2)

/-- The loop `for (j = qq; j < iq; j++)` of `delete_constraint`, `cnt` passes from `j`. -/
def del_loop (ar : Arith α) (nVars iq : Nat) (j cnt : Nat) (RJ : Mat α × Mat α) :
    Mat α × Mat α :=
  match cnt with
  | 0 => RJ
  | c + 1 => del_loop ar nVars iq (j + 1) c (del_rot ar nVars iq j RJ)

/-- Results of `delete_constraint`: the reference parameters. -/
structure DelResult (α : Type) where
  R : Mat α
  J : Mat α
  A : IVec
  u : Vec α
  iq : Nat

/-- The function `EiquadprogFast::delete_constraint`; `asz = nIneqCon + nEqCon` is the size
of `A` and `u`.  The reads `A(iq)`, `u(iq)` need `iq < asz`, the write of `R(j, iq - 1)`
needs `1 ≤ iq ≤ nVars`; `l` is the constraint index as compared with `A(i)`. -/
def delete_constraint (ar : Arith α) (nVars asz : Nat) (R J : Mat α) (A : IVec) (u : Vec α)
    (nEqCon iq : Nat) (l : Int) : Option (DelResult α) :=
  if iq = 0 ∨ asz ≤ iq ∨ nVars < iq then none
  else
    let qq := find_qq A l nEqCon (iq - nEqCon)
    -- the shift loop, then A(iq-1) = A(iq), u(iq-1) = u(iq), A(iq) = 0, u(iq) = 0
    let A1 : IVec := fun i => if i = iq then 0 else if qq ≤ i ∧ i < iq then A (i + 1) else A i
    let u1 : Vec α := fun i => if i = iq then 0 else if qq ≤ i ∧ i < iq then u (i + 1) else u i
    let R1 : Mat α := fun i c =>
      if c = iq - 1 ∧ i < iq then 0
      else if qq ≤ c ∧ c < iq - 1 then R i (c + 1) else R i c
    let iq1 := iq - 1
    if iq1 = 0 then some ⟨R1, J, A1, u1, iq1⟩
    else
      let RJ := del_loop ar nVars iq1 qq (iq1 - qq) (R1, J)
      some ⟨RJ.1, RJ.2, A1, u1, iq1⟩

/-- Modelled from the spec: `compute_d` of the header, `d = Jᵀ·np`. -/
def compute_d (nVars : Nat) (J : Mat α) (np : Vec α) : Vec α :=
  fun j => sumTo nVars (fun k => J k j * np k)

/-- Modelled from the spec: `update_z` of the header, `z = J.rightCols(nVars - iq) ·
d.tail(nVars - iq)`: the tail of `d` mapped through the trailing columns of `J`. -/
def update_z (nVars : Nat) (J : Mat α) (d : Vec α) (iq : Nat) : Vec α :=
  fun i => sumTo nVars (fun j => if iq ≤ j then J i j * d j else 0)

/-- Back substitution on the leading `n × n` upper triangle of `U`: `m` rows solved,
from row `n - 1` upwards. -/
def back_subst (n : Nat) (U : Mat α) (b : Vec α) (m : Nat) : Vec α :=
  match m with
  | 0 => fun _ => 0
  | k + 1 =>
    let x := back_subst n U b k
    let i := n - (k + 1)
    vset x i ((b i - sumTo n (fun j => if i < j then U i j * x j else 0)) / U i i)

/-- Forward substitution on the leading `n × n` lower triangle of `L`: `m` rows solved,
from row `0` downwards. -/
def fwd_subst (L : Mat α) (b : Vec α) (m : Nat) : Vec α :=
  match m with
  | 0 => fun _ => 0
  | k + 1 =>
    let y := fwd_subst L b k
    vset y k ((b k - sumTo k (fun j => L k j * y j)) / L k k)

/-- Modelled from the spec: `update_r` of the header: the head of `d` solved against the
leading `iq × iq` upper triangle of `R`; entries of `r` from `iq` on are kept. -/
def update_r (R : Mat α) (r d : Vec α) (iq : Nat) : Vec α :=
  fun k => if k < iq then back_subst iq R d iq k else r k

/-- Modelled from the spec: the library's Cholesky factorisation `chol_.compute(Hess)`
(`H = L·Lᵀ`, read from the lower triangle of `H`), with the first `m` columns of `L`
computed. -/
def chol (ar : Arith α) (n : Nat) (H : Mat α) (m : Nat) : Mat α :=
  match m with
  | 0 => fun _ _ => 0
  | k + 1 =>
    let L := chol ar n H k
    let lkk := ar.sqrt (H k k - sumTo k (fun j => L k j * L k j))
    fun i c =>
      if c = k then
        if i = k then lkk
        else if k < i ∧ i < n then (H i k - sumTo k (fun j => L i j * L k j)) / lkk
        else 0
      else L i c

/-- Modelled from the spec: `chol_.matrixU().solve(I)`, the matrix `J = L⁻ᵀ` obtained by
solving the upper-triangular system `Lᵀ·J = I` column by column. -/
def chol_inverse (n : Nat) (L : Mat α) : Mat α :=
  fun i c => back_subst n (fun a b => L b a) (fun k => if k = c then 1 else 0) n i

/-- Modelled from the spec: `chol_.solve(g0)`, the solution of `L·Lᵀ·x = g0` by a forward
and a back substitution. -/
def chol_solve (n : Nat) (L : Mat α) (g : Vec α) : Vec α :=
  back_subst n (fun a b => L b a) (fun k => fwd_subst L g n k) n

/-- Trace of the leading `n × n` block. -/
def trace (n : Nat) (M : Mat α) : α := sumTo n (fun k => M k k)

/-- The method `EiquadprogFast::reset`: the sizes are recorded and `m_J` is zeroed; the
resized buffers keep whatever they hold. -/
def reset (slv : Solver α) (nVars nEqCon nIneqCon : Nat) : Solver α :=
  { slv with m_nVars := nVars, m_nEqCon := nEqCon, m_nIneqCon := nIneqCon,
             m_J := fun _ _ => 0 }

/-- The first statement of `solve_quadprog` (lines 196-197): `reset` when a size of the
problem differs from the recorded one. -/
def resized (slv0 : Solver α) (P : Problem α) : Solver α :=
  if P.nVars ≠ slv0.m_nVars ∨ P.nEqCon ≠ slv0.m_nEqCon ∨ P.nIneqCon ≠ slv0.m_nIneqCon then
    reset slv0 P.nVars P.nEqCon P.nIneqCon
  else slv0

/-- The local variables of `solve_quadprog` that live across its labels, with the solver's
members and the output vector `x`. -/
structure Frame (α : Type) where
  slv : Solver α
  x : Vec α
  ip : Nat
  iq : Nat
  ss : α
  c1 : α
  c2 : α
  R_norm : α

/-- The preprocessing phase of `solve_quadprog` (lines 192-288): sizes, traces, the
factorisation of `Hess`, `J`, the unconstrained minimiser and its value.  The incoming
contents of `x` are overwritten. -/
def preprocess (ar : Arith α) (slv0 : Solver α) (P : Problem α) : Frame α :=
  let slv1 := resized slv0 P
  let n := P.nVars
  let c1 := trace n P.Hess
  let L := chol ar n P.Hess n
  let J : Mat α := if slv1.is_inverse_provided_ then slv1.m_J else chol_inverse n L
  let c2 := trace n J
  let x : Vec α :=
    if slv1.is_inverse_provided_ then
      let y : Vec α := fun i => sumTo n (fun j => J i j * compute_d n J P.g0 j)
      if ar.OPTIMIZE_UNCONSTR_MINIM then y else fun i => -(y i)
    else if ar.OPTIMIZE_UNCONSTR_MINIM then chol_solve n L (fun i => -(P.g0 i))
    else fun i => -(chol_solve n L P.g0 i)
  let f := (1 / 2) * dot n P.g0 x
  { slv := { slv1 with iter := 0, d := fun _ => 0, R := fun _ _ => 0, m_J := J, f_value := f },
    x := x, ip := 0, iq := 0, ss := 0, c1 := c1, c2 := c2, R_norm := 1 }

/-- What a block of `solve_quadprog` does next: jump to a label or return a status. -/
inductive Next (α : Type) where
  | goto_l1 (f : Frame α)
  | goto_l2 (f : Frame α)
  | goto_l2a (f : Frame α)
  | ret (st : Status) (f : Frame α)

/-- The full step length of the equality phase (lines 311-314). -/
def eq_t2 (ar : Arith α) (n : Nat) (z np x : Vec α) (c : α) : α :=
  if ar.eps < |dot n z z| then (-(dot n np x) - c) / dot n z np else 0

/-- One pass of the loop that adds equality constraint `i` (lines 294-333).  The result is
the frame and whether `add_constraint` succeeded. -/
def eq_step (ar : Arith α) (P : Problem α) (i : Nat) (f : Frame α) :
    Option (Bool × Frame α) :=
  let n := P.nVars
  let asz := P.nIneqCon + P.nEqCon
  let s := f.slv
  let np : Vec α := fun k => P.CE i k
  let d := compute_d n s.m_J np
  if n < f.iq ∨ asz ≤ f.iq then none
  else
    let z := update_z n s.m_J d f.iq
    let r := update_r s.R s.r d f.iq
    let t2 := eq_t2 ar n z np f.x (P.ce0 i)
    let x : Vec α := fun k => f.x k + t2 * z k
    let u : Vec α := fun k => if k < f.iq then s.u k - t2 * r k else if k = f.iq then t2 else s.u k
    let fv := s.f_value + (1 / 2) * (t2 * t2) * dot n z np
    let A := vset s.A i (-(i : Int) - 1)
    (add_constraint ar n s.R s.m_J d f.iq f.R_norm).map fun a =>
      (a.ok,
        { f with slv := { s with np := np, d := a.d, z := z, r := r, u := u, f_value := fv, A := A,
                                 R := a.R, m_J := a.J },
                 x := x, iq := a.iq, R_norm := a.R_norm })

/-- The loop `for (i = 0; i < nEqCon; i++)` of the equality phase, `cnt` rows left from
`i`.  The flag is `false` when a degenerate add made the solver return
`EIQUADPROG_FAST_REDUNDANT_EQUALITIES` at once, `true` when all rows were added. -/
def eq_loop (ar : Arith α) (P : Problem α) (i cnt : Nat) (f : Frame α) :
    Option (Bool × Frame α) :=
  match cnt with
  | 0 => some (true, f)
  | c + 1 =>
    match eq_step ar P i f with
    | none => none
    | some (false, f1) => some (false, f1)
    | some (true, f1) => eq_loop ar P (i + 1) c f1

/-- The loop `for (i = nEqCon; i < iq; i++) { ip = A(i); iai(ip) = -1; }` of step 1, `cnt`
indices left from `i`; `A(i)` outside `[0, nIneqCon)` indexes `iai` out of range. -/
def mark_active (nIneqCon : Nat) (A : IVec) (i cnt : Nat) (iai : IVec) : Option IVec :=
  match cnt with
  | 0 => some iai
  | c + 1 =>
    if 0 ≤ A i ∧ A i < nIneqCon then mark_active nIneqCon A (i + 1) c (vset iai (A i).toNat (-1))
    else none

/-- The sum of infeasibilities `psi` of step 1 over the first `n` inequalities. -/
def psi_sum (n : Nat) (s : Vec α) : α := sumTo n (fun i => min 0 (s i))

/-- The selection loop of step 2 (lines 441-446) over the first `n` inequalities, started
from the current `(ss, ip)`. -/
def select (s : Vec α) (iai iaexcl : IVec) (n : Nat) (sel : α × Nat) : α × Nat :=
  match n with
  | 0 => sel
  | k + 1 =>
    let p := select s iai iaexcl k sel
    if s k < p.1 ∧ iai k ≠ -1 ∧ iaexcl k ≠ 0 then (s k, k) else p

/-- The loop of step 2b that computes the partial step length `t1` and the constraint `l`
to drop (lines 501-507), over `k = nEqCon, ..., nEqCon + cnt - 1`; `none` is `+inf`. -/
def ratio_loop (r u : Vec α) (A : IVec) (nEqCon : Nat) (cnt : Nat) : Option α × Int :=
  match cnt with
  | 0 => (none, 0)
  | c + 1 =>
    let p := ratio_loop r u A nEqCon c
    let k := nEqCon + c
    if 0 < r k then
      match p.1 with
      | none => (some (u k / r k), A k)
      | some t1 => if u k / r k < t1 then (some (u k / r k), A k) else p
    else p

/-- The full step length `t2` of step 2b (lines 510-514); `none` is `+inf`.  Behind the
guard `|z·z| > ε` the value is the quotient `-s(ip) / z·np` of doubles, which is `+inf` when
the divisor has no non-zero double (`|z·np| ≤ 2⁻¹⁰⁷⁵` rounds to zero) or when the quotient
rounds beyond the largest finite double (`|q| ≥ 2¹⁰²⁴ - 2⁹⁷⁰`); in the states the solver
reaches the quotient is positive, `-s(ip) > 0` and `z·np = Σ d(j)²` over `j ≥ iq`. -/
def full_step (ar : Arith α) (n : Nat) (z np : Vec α) (sip : α) : Option α :=
  if ar.eps < |dot n z z| then
    if |dot n z np| ≤ 1 / 2 ^ 1075 ∨ 2 ^ 1024 - 2 ^ 970 ≤ |-sip / dot n z np| then none
    else some (-sip / dot n z np)
  else none

/-- The loop `for (i = 0; i < iq; i++) { A(i) = A_old(i); iai(A(i)) = -1; u(i) = u_old(i); }`
of the rollback (lines 581-585), `cnt` indices left from `i`. -/
def restore_loop (nIneqCon : Nat) (A_old : IVec) (u_old : Vec α) (i cnt : Nat)
    (st : IVec × IVec × Vec α) : Option (IVec × IVec × Vec α) :=
  match cnt with
  | 0 => some st
  | c + 1 =>
    if 0 ≤ A_old i ∧ A_old i < nIneqCon then
      restore_loop nIneqCon A_old u_old (i + 1) c
        (vset st.1 i (A_old i), vset st.2.1 (A_old i).toNat (-1), vset st.2.2 i (u_old i))
    else none

/-- Label `l1` (lines 379-435): count the iteration, mark the active set, compute the
slacks and `psi`, test optimality, take the snapshot. -/
def step_l1 (ar : Arith α) (P : Problem α) (f : Frame α) : Option (Next α) :=
  let s := f.slv
  let asz := P.nIneqCon + P.nEqCon
  let iter := s.iter + 1
  if s.m_maxIter ≤ iter then
    some (Next.ret Status.EIQUADPROG_FAST_MAX_ITER_REACHED
      { f with slv := { s with iter := iter, q := f.iq } })
  else if asz < f.iq then none
  else
    (mark_active P.nIneqCon s.A P.nEqCon (f.iq - P.nEqCon) s.iai).map fun iai =>
      let iaexcl : IVec := fun i => if i < P.nIneqCon then 1 else s.iaexcl i
      let sv : Vec α := fun i =>
        if i < P.nIneqCon then dot P.nVars (fun k => P.CI i k) f.x + P.ci0 i else s.s i
      let psi := psi_sum P.nIneqCon sv
      let s1 := { s with iter := iter, iai := iai, iaexcl := iaexcl, s := sv }
      if |psi| ≤ (P.nIneqCon : α) * ar.eps * f.c1 * f.c2 * 100 then
        Next.ret Status.EIQUADPROG_FAST_OPTIMAL
          { f with slv := { s1 with q := f.iq }, ss := 0, ip := 0 }
      else
        let u_old : Vec α := fun i => if i < f.iq then s.u i else s.u_old i
        let A_old : IVec := fun i => if i < f.iq then s.A i else s.A_old i
        Next.goto_l2
          { f with slv := { s1 with u_old := u_old, A_old := A_old, x_old := f.x },
                   ss := 0, ip := 0 }

/-- Label `l2` (lines 437-466): choose the most violated eligible inequality `ip`, return
`EIQUADPROG_FAST_OPTIMAL` if there is none, else open slot `iq` for it. -/
def step_l2 (P : Problem α) (f : Frame α) : Option (Next α) :=
  let s := f.slv
  let asz := P.nIneqCon + P.nEqCon
  let sel := select s.s s.iai s.iaexcl P.nIneqCon (f.ss, f.ip)
  let f1 := { f with ss := sel.1, ip := sel.2 }
  if 0 ≤ sel.1 then
    some (Next.ret Status.EIQUADPROG_FAST_OPTIMAL { f1 with slv := { s with q := f.iq } })
  else if P.nIneqCon ≤ sel.2 ∨ asz ≤ f.iq then none
  else
    let np : Vec α := fun k => P.CI sel.2 k
    some (Next.goto_l2a
      { f1 with slv := { s with np := np, u := vset s.u f.iq 0, A := vset s.A f.iq (sel.2 : Int) } })

/-- The update `u.head(iq) -= t * r.head(iq); u(iq) += t` of step 2c. -/
def dual_update (u r : Vec α) (iq : Nat) (t : α) : Vec α :=
  fun k => if k < iq then u k - t * r k else if k = iq then u k + t else u k

/-- The drop of constraint `l` shared by the dual step and the partial step:
`iai(l) = l; delete_constraint(R, m_J, A, u, nEqCon, iq, l)`.  The index `l` is the value
read from `A(k)` (or the initial `0`); outside `[0, nIneqCon)` it indexes `iai` out of
range. -/
def drop_l (ar : Arith α) (P : Problem α) (f : Frame α) (u : Vec α) (l : Int) :
    Option (Frame α) :=
  let s := f.slv
  if 0 ≤ l ∧ l < P.nIneqCon then
    (delete_constraint ar P.nVars (P.nIneqCon + P.nEqCon) s.R s.m_J s.A u P.nEqCon f.iq l).map
      fun dr =>
        { f with slv := { s with iai := vset s.iai l.toNat l, R := dr.R, m_J := dr.J,
                                 A := dr.A, u := dr.u },
                 iq := dr.iq }
  else none

/-- The rollback after a degenerate add in step 2c (lines 574-588); `a` is what
`add_constraint` left in `R`, `m_J`, `d`, `iq`. -/
def rollback (ar : Arith α) (P : Problem α) (f : Frame α) (a : AddResult α) :
    Option (Next α) :=
  let s := f.slv
  if P.nIneqCon ≤ f.ip then none
  else
    let iaexcl := vset s.iaexcl f.ip 0
    (delete_constraint ar P.nVars (P.nIneqCon + P.nEqCon) a.R a.J s.A s.u P.nEqCon a.iq
        (f.ip : Int)).bind fun dr =>
      let iai : IVec := fun i => if i < P.nIneqCon then (i : Int) else s.iai i
      (restore_loop P.nIneqCon s.A_old s.u_old 0 dr.iq (dr.A, iai, dr.u)).map fun r =>
        Next.goto_l2
          { f with slv := { s with iaexcl := iaexcl, R := dr.R, m_J := dr.J, d := a.d,
                                   A := r.1, iai := r.2.1, u := r.2.2 },
                   x := s.x_old, iq := dr.iq }

/-- Step 2a (lines 472-482): `d = Jᵀ·np`, the primal direction `z` (zero once
`iq ≥ nVars`) and the dual direction `r`. -/
def direction (P : Problem α) (f : Frame α) : Frame α :=
  let s := f.slv
  let d := compute_d P.nVars s.m_J s.np
  let z : Vec α := if P.nVars ≤ f.iq then fun _ => 0 else update_z P.nVars s.m_J d f.iq
  { f with slv := { s with d := d, z := z, r := update_r s.R s.r d f.iq } }

/-- The step length `t = std::min(t1, t2)` for a finite `t2 = b`; `none` is `t1 = +inf`. -/
def step_length (t1 : Option α) (b : α) : α :=
  match t1 with
  | none => b
  | some a => min a b

/-- Step 2c, case (iii) (lines 550-613): a step in primal and dual space of length
`t = min(t1, t2)` with `t2 = b` finite; a full step (`t == t2`) tries to add `ip` and rolls
back when the add is degenerate, a partial step drops constraint `l`. -/
def primal_dual_step (ar : Arith α) (P : Problem α) (f : Frame α) (t1 : Option α) (l : Int)
    (b : α) : Option (Next α) :=
  let s := f.slv
  let n := P.nVars
  let t := step_length t1 b
  let x : Vec α := fun k => f.x k + t * s.z k
  let fv := s.f_value + t * dot n s.z s.np * ((1 / 2) * t + s.u f.iq)
  let u := dual_update s.u s.r f.iq t
  let f2 := { f with slv := { s with f_value := fv, u := u }, x := x }
  if t = b then
    (add_constraint ar n s.R s.m_J s.d f.iq f.R_norm).bind fun a =>
      if a.ok then
        some (Next.goto_l1
          { f2 with slv := { f2.slv with R := a.R, m_J := a.J, d := a.d,
                                         iai := vset s.iai f.ip (-1) },
                    iq := a.iq, R_norm := a.R_norm })
      else rollback ar P f2 a
  else
    (drop_l ar P f2 u l).map fun f3 =>
      let sip := dot n (fun k => P.CI f.ip k) f3.x + P.ci0 f.ip
      Next.goto_l2a { f3 with slv := { f3.slv with s := vset f3.slv.s f.ip sip } }

/-- Step 2c (lines 524-613) for the step lengths `t1` (with its constraint `l`) and `t2`:
case (i) returns `EIQUADPROG_FAST_UNBOUNDED`, case (ii) is the step in dual space, case
(iii) the step in both spaces.  The cases that take a step read and write `u(iq)`. -/
def step_2c (ar : Arith α) (P : Problem α) (f : Frame α) (t1 : Option α) (l : Int)
    (t2 : Option α) : Option (Next α) :=
  match t2 with
  | none =>
    match t1 with
    | none =>
      some (Next.ret Status.EIQUADPROG_FAST_UNBOUNDED { f with slv := { f.slv with q := f.iq } })
    | some t =>
      if P.nIneqCon + P.nEqCon ≤ f.iq then none
      else (drop_l ar P f (dual_update f.slv.u f.slv.r f.iq t) l).map Next.goto_l2a
  | some b =>
    if P.nIneqCon + P.nEqCon ≤ f.iq then none
    else primal_dual_step ar P f t1 l b

/-- Label `l2a` with steps 2a, 2b, 2c (lines 468-613): step direction, step lengths, and
the step.  The guards are the index conditions of the accesses made: `update_r` takes
`R.topLeftCorner(iq, iq)` and `r.head(iq)`, and behind the guard `|z·z| > ε` the full step
length reads `s(ip)`. -/
def step_l2a (ar : Arith α) (P : Problem α) (f : Frame α) : Option (Next α) :=
  if P.nVars < f.iq ∨ P.nIneqCon + P.nEqCon < f.iq then none
  else
    let f1 := direction P f
    let tl := ratio_loop f1.slv.r f1.slv.u f1.slv.A P.nEqCon (f.iq - P.nEqCon)
    let t2 := full_step ar P.nVars f1.slv.z f1.slv.np (f1.slv.s f.ip)
    if ar.eps < |dot P.nVars f1.slv.z f1.slv.z| ∧ P.nIneqCon ≤ f.ip then none
    else step_2c ar P f1 tl.1 tl.2 t2

/-- How a call of `solve_quadprog` ends: it returns a status (with the final members and
`x`), it makes an out-of-range access, or the fuel of the model ran out. -/
inductive Outcome (α : Type) where
  | done (st : Status) (f : Frame α)
  | fault
  | out_of_fuel

/-- The main loop of `solve_quadprog`: at most `fuel` blocks are run from `nx`. -/
def run (ar : Arith α) (P : Problem α) (fuel : Nat) (nx : Next α) : Outcome α :=
  match fuel with
  | 0 =>
    match nx with
    | Next.ret st f => Outcome.done st f
    | _ => Outcome.out_of_fuel
  | k + 1 =>
    match nx with
    | Next.ret st f => Outcome.done st f
    | Next.goto_l1 f =>
      match step_l1 ar P f with
      | none => Outcome.fault
      | some nx1 => run ar P k nx1
    | Next.goto_l2 f =>
      match step_l2 P f with
      | none => Outcome.fault
      | some nx1 => run ar P k nx1
    | Next.goto_l2a f =>
      match step_l2a ar P f with
      | none => Outcome.fault
      | some nx1 => run ar P k nx1

/-- The part of `solve_quadprog` before label `l1`: preprocessing, the equality phase and
`iai = K \ A` (lines 192-337). -/
def start (ar : Arith α) (slv : Solver α) (P : Problem α) : Option (Next α) :=
  match eq_loop ar P 0 P.nEqCon (preprocess ar slv P) with
  | none => none
  | some (false, f) => some (Next.ret Status.EIQUADPROG_FAST_REDUNDANT_EQUALITIES f)
  | some (true, f) =>
    some (Next.goto_l1
      { f with slv := { f.slv with iai := fun i => if i < P.nIneqCon then (i : Int) else f.slv.iai i } })

/-- The method `EiquadprogFast::solve_quadprog`, with `fuel` bounding the number of blocks
of the main loop that are run. -/
def solve_quadprog (ar : Arith α) (fuel : Nat) (slv : Solver α) (P : Problem α) : Outcome α :=
  match start ar slv P with
  | none => Outcome.fault
  | some nx => run ar P fuel nx

/-- The status a call returned, if it returned. -/
def Outcome.status (o : Outcome α) : Option Status :=
  match o with
  | Outcome.done st _ => some st
  | _ => none

/-- The frame of a call on return; `d` when the call did not return. -/
def Outcome.frame (o : Outcome α) (d : Frame α) : Frame α :=
  match o with
  | Outcome.done _ f => f
  | _ => d

end Defs

/-! ### A concrete arithmetic: rationals with a rounded square root -/

/-- Newton iteration for the integer square root, `fuel` passes from the guess `x`. -/
def isqrt_loop (n : Nat) (fuel : Nat) (x : Nat) : Nat :=
  match fuel with
  | 0 => x
  | k + 1 =>
    let y := (x + n / x) / 2
    if y < x then isqrt_loop n k y else x

/-- Integer square root, rounded down. -/
def isqrt (n : Nat) : Nat := isqrt_loop n 4000 (n + 1)

/-- Square root of a rational rounded down to a multiple of `1 / (den · 2^64)`; exact on
squares of rationals. -/
def rat_sqrt (q : ℚ) : ℚ := (isqrt (q.num.toNat * q.den * 2 ^ 128) : ℚ) / (q.den * 2 ^ 64)

/-- Rational arithmetic with the rounded square root and the epsilon `2^-52` of IEEE
doubles. -/
def rat_arith : Arith ℚ := { sqrt := rat_sqrt, eps := 1 / 2 ^ 52, OPTIMIZE_UNCONSTR_MINIM := true }

/-- A solver as the constructor leaves it, with iteration cap `maxIter`; the buffers, empty
in the source, hold zeros. -/
def fresh_solver (maxIter : Nat) : Solver ℚ :=
  { m_maxIter := maxIter, q := 0, is_inverse_provided_ := false, m_nVars := 0, m_nEqCon := 0,
    m_nIneqCon := 0, m_J := fun _ _ => 0, R := fun _ _ => 0, s := fun _ => 0, r := fun _ => 0,
    u := fun _ => 0, z := fun _ => 0, d := fun _ => 0, np := fun _ => 0, A := fun _ => 0,
    iai := fun _ => 0, iaexcl := fun _ => 0, x_old := fun _ => 0, u_old := fun _ => 0,
    A_old := fun _ => 0, iter := 0, f_value := 0 }

/-- The unconstrained problem `min 0.5·x²` in one variable. -/
def qp_unconstrained : Problem ℚ :=
  { nVars := 1, nEqCon := 0, nIneqCon := 0, Hess := fun _ _ => 1, g0 := fun _ => 0,
    CE := fun _ _ => 0, ce0 := fun _ => 0, CI := fun _ _ => 0, ci0 := fun _ => 0 }

end Eiquadprog

namespace Eiquadprog

/-- The frame a program point or a return carries. -/
def Next.frame {α : Type} (nx : Next α) : Frame α :=
  match nx with
  | Next.goto_l1 f => f
  | Next.goto_l2 f => f
  | Next.goto_l2a f => f
  | Next.ret _ f => f

/-- The status of a return, `none` for a jump. -/
def Next.status {α : Type} (nx : Next α) : Option Status :=
  match nx with
  | Next.ret st _ => some st
  | _ => none

/-- A test on the status and frame of a call that returned; `false` when it did not. -/
def Outcome.check {α : Type} (o : Outcome α) (p : Status → Frame α → Bool) : Bool :=
  match o with
  | Outcome.done st f => p st f
  | _ => false

end Eiquadprog

namespace Eiquadprog

/-- Two buffers agree on their first `n` entries. -/
def AgreeOn {β : Type} (n : Nat) (a b : Nat → β) : Prop := ∀ k, k < n → a k = b k

/-- Two optional results are both absent, or both present and related. -/
def OptRel {β γ : Type} (r : β → γ → Prop) (a : Option β) (b : Option γ) : Prop :=
  match a, b with
  | none, none => True
  | some x, some y => r x y
  | _, _ => False

/-- What two frames share during the equality phase and at label `l1`, apart from `iai`:
everything the rest of the call can read before writing it.  `A` and `u` count up to `m`. -/
structure AgreeCore {α : Type} (m : Nat) (f g : Frame α) : Prop where
  maxIter : f.slv.m_maxIter = g.slv.m_maxIter
  iter : f.slv.iter = g.slv.iter
  f_value : f.slv.f_value = g.slv.f_value
  J : f.slv.m_J = g.slv.m_J
  R : f.slv.R = g.slv.R
  x : f.x = g.x
  iq : f.iq = g.iq
  R_norm : f.R_norm = g.R_norm
  c1 : f.c1 = g.c1
  c2 : f.c2 = g.c2
  A : AgreeOn m f.slv.A g.slv.A
  u : AgreeOn m f.slv.u g.slv.u

/-- Agreement of two frames at label `l1`. -/
structure Agree1 {α : Type} (P : Problem α) (f g : Frame α) : Prop where
  core : AgreeCore f.iq f g
  iai : AgreeOn P.nIneqCon f.slv.iai g.slv.iai

/-- What two frames share in addition at labels `l2` and `l2a`. -/
structure AgreeSel {α : Type} (P : Problem α) (f g : Frame α) : Prop where
  iai : AgreeOn P.nIneqCon f.slv.iai g.slv.iai
  s : AgreeOn P.nIneqCon f.slv.s g.slv.s
  iaexcl : AgreeOn P.nIneqCon f.slv.iaexcl g.slv.iaexcl
  ss : f.ss = g.ss
  ip : f.ip = g.ip
  x_old : f.slv.x_old = g.slv.x_old
  A_old : AgreeOn f.iq f.slv.A_old g.slv.A_old
  u_old : AgreeOn f.iq f.slv.u_old g.slv.u_old

/-- Agreement of two frames at label `l2`. -/
structure Agree2 {α : Type} (P : Problem α) (f g : Frame α) : Prop where
  core : AgreeCore f.iq f g
  sel : AgreeSel P f g

/-- Agreement of two frames at label `l2a`: slot `iq` of `A` and `u` is in use. -/
structure Agree2a {α : Type} (P : Problem α) (f g : Frame α) : Prop where
  core : AgreeCore (f.iq + 1) f g
  sel : AgreeSel P f g
  np : f.slv.np = g.slv.np

/-- Agreement of two frames after step 2a, which computed `d`, `z`, `r`. -/
structure AgreeDir {α : Type} (P : Problem α) (f g : Frame α) : Prop where
  base : Agree2a P f g
  d : f.slv.d = g.slv.d
  z : f.slv.z = g.slv.z
  r : AgreeOn f.iq f.slv.r g.slv.r

/-- Agreement of the outputs of two returns: `x`, `f_value`, `iter`, `q` and `A[0..q)`. -/
structure AgreeOut {α : Type} (f g : Frame α) : Prop where
  x : f.x = g.x
  f_value : f.slv.f_value = g.slv.f_value
  iter : f.slv.iter = g.slv.iter
  q : f.slv.q = g.slv.q
  A : AgreeOn f.slv.q f.slv.A g.slv.A

/-- Agreement of what two blocks do next. -/
def AgreeNext {α : Type} (P : Problem α) (a b : Next α) : Prop :=
  match a, b with
  | Next.goto_l1 f, Next.goto_l1 g => Agree1 P f g
  | Next.goto_l2 f, Next.goto_l2 g => Agree2 P f g
  | Next.goto_l2a f, Next.goto_l2a g => Agree2a P f g
  | Next.ret st f, Next.ret st1 g => st = st1 ∧ AgreeOut f g
  | _, _ => False

/-- Agreement of how two calls end. -/
def AgreeOutcome {α : Type} (a b : Outcome α) : Prop :=
  match a, b with
  | Outcome.done st f, Outcome.done st1 g => st = st1 ∧ AgreeOut f g
  | Outcome.fault, Outcome.fault => True
  | Outcome.out_of_fuel, Outcome.out_of_fuel => True
  | _, _ => False

end Eiquadprog

namespace Eiquadprog

/-- Agreement of what two calls do after the part before label `l1`: both enter `l1` with
agreeing frames, or both return `EIQUADPROG_FAST_REDUNDANT_EQUALITIES` with agreeing
frames (`q` is not written on that return). -/
def AgreeStart {α : Type} (P : Problem α) (a b : Next α) : Prop :=
  match a, b with
  | Next.goto_l1 f, Next.goto_l1 g => Agree1 P f g
  | Next.ret st f, Next.ret st1 g =>
    st = Status.EIQUADPROG_FAST_REDUNDANT_EQUALITIES ∧
      st1 = Status.EIQUADPROG_FAST_REDUNDANT_EQUALITIES ∧ AgreeCore f.iq f g
  | _, _ => False

end Eiquadprog

namespace Eiquadprog

/-- A solver in the mode where the caller supplies the inverse factor: `m_J` is the 2×2
identity, the sizes are those of `qp_two_inequalities`, the iteration cap is 100. -/
def inverse_mode_solver : Solver ℚ :=
  { fresh_solver 100 with is_inverse_provided_ := true, m_nVars := 2, m_nEqCon := 0, m_nIneqCon := 2, m_J := fun i j => if i = j then 1 else 0 }

/-- The problem `H = I` (2×2), `g0 = 0`, with the inequalities `x₀ + x₁ ≥ 1` and
`x₀ ≥ 1/2 + 2⁻⁵⁰`. -/
def qp_two_inequalities : Problem ℚ :=
  { nVars := 2, nEqCon := 0, nIneqCon := 2, Hess := fun i j => if i = j then 1 else 0,
    g0 := fun _ => 0, CE := fun _ _ => 0, ce0 := fun _ => 0,
    CI := fun i j => if i = 0 then 1 else (if j = 0 then 1 else 0),
    ci0 := fun i => if i = 0 then -1 else -(1 / 2 + 1 / 2 ^ 50) }

end Eiquadprog

namespace Eiquadprog

/-- A problem on which a degenerate add occurs in the main loop: one variable,
`H = [2⁻⁸⁰]`, `g0 = 0`, and the inequalities `2⁻¹⁰⁰·x - 1 ≥ 0` and `0·x + 1 ≥ 0`. -/
def qp_degenerate_add : Problem ℚ :=
  { nVars := 1, nEqCon := 0, nIneqCon := 2, Hess := fun _ _ => 1 / 2 ^ 80, g0 := fun _ => 0,
    CE := fun _ _ => 0, ce0 := fun _ => 0,
    CI := fun i _ => if i = 0 then 1 / 2 ^ 100 else 0,
    ci0 := fun i => if i = 0 then -1 else 1 }

/-- The state in which label `l2` is reached again and again on `qp_degenerate_add`: no
active constraint, the excluded candidate `ip = 0` still selected with `ss = s(0) = -1`. -/
def CycleState (f : Frame ℚ) : Prop :=
  f.iq = 0 ∧ f.ip = 0 ∧ f.ss = -1 ∧ f.slv.s 0 = -1 ∧ f.slv.s 1 = 1 ∧
    f.slv.m_J 0 0 = 2 ^ 40 ∧ f.R_norm = 1

end Eiquadprog

namespace Eiquadprog

/-- The 2×2 identity Hessian of the concrete scenarios. -/
def identity2 (α : Type) [LinearOrderedField α] : Mat α := fun i j => if i = j then 1 else 0

/-- The problem of the second concrete scenario: `H = I` (2×2), `g0 = [0,0]`, no
inequalities, and the two equalities `x₀ = 1`, `x₀ = 2`: `CE = [[1,0],[1,0]]`,
`ce0 = [-1,-2]`. -/
def qp_two_equalities (α : Type) [LinearOrderedField α] : Problem α :=
  { nVars := 2, nEqCon := 2, nIneqCon := 0, Hess := identity2 α, g0 := fun _ => 0,
    CE := fun _ j => if j = 0 then 1 else 0, ce0 := fun i => if i = 0 then -1 else -2,
    CI := fun _ _ => 0, ci0 := fun _ => 0 }

/-- The problem of the first concrete scenario: `H = I` (2×2), `g0 = [0,0]`, no equalities,
and the inequality `x₀ + x₁ ≥ 1`: `CI = [[1,1]]`, `ci0 = [-1]`. -/
def qp_one_inequality (α : Type) [LinearOrderedField α] : Problem α :=
  { nVars := 2, nEqCon := 0, nIneqCon := 1, Hess := identity2 α, g0 := fun _ => 0,
    CE := fun _ _ => 0, ce0 := fun _ => 0, CI := fun _ _ => 1, ci0 := fun _ => -1 }

end Eiquadprog

namespace Eiquadprog

/-- The point `x` satisfies every constraint of `P`: `CE·x + ce0 = 0` and
`CI·x + ci0 ≥ 0`. -/
def Feasible {α : Type} [LinearOrderedField α] (P : Problem α) (x : Vec α) : Prop :=
  (∀ i, i < P.nEqCon → dot P.nVars (fun k => P.CE i k) x + P.ce0 i = 0) ∧
  (∀ i, i < P.nIneqCon → 0 ≤ dot P.nVars (fun k => P.CI i k) x + P.ci0 i)

/-- The point `x` satisfies every equality of `P` and every inequality strictly. -/
def StrictlyFeasible {α : Type} [LinearOrderedField α] (P : Problem α) (x : Vec α) : Prop :=
  (∀ i, i < P.nEqCon → dot P.nVars (fun k => P.CE i k) x + P.ce0 i = 0) ∧
  (∀ i, i < P.nIneqCon → 0 < dot P.nVars (fun k => P.CI i k) x + P.ci0 i)

/-- The leading `n × n` block of `H` is symmetric positive definite. -/
def SymPosDef {α : Type} [LinearOrderedField α] (n : Nat) (H : Mat α) : Prop :=
  (∀ i j, i < n → j < n → H i j = H j i) ∧
  ∀ v : Vec α, (∃ i, i < n ∧ v i ≠ 0) → 0 < dot n v (fun i => dot n (H i) v)

end Eiquadprog

namespace Eiquadprog

/-- The first `m` rows of `M` (of length `n`) are linearly independent: `M` has full row
rank. -/
def RowsIndependent {α : Type} [LinearOrderedField α] (n m : Nat) (M : Mat α) : Prop :=
  ∀ c : Vec α, (∀ k, k < n → sumTo m (fun i => c i * M i k) = 0) → ∀ i, i < m → c i = 0

/-- One variable, `H = [1]`, `g0 = 0` and the single equality `2^-60·x = 1`. -/
def qp_tiny_equality : Problem ℚ :=
  { nVars := 1, nEqCon := 1, nIneqCon := 0, Hess := fun _ _ => 1, g0 := fun _ => 0,
    CE := fun _ _ => 1 / 2 ^ 60, ce0 := fun _ => -1, CI := fun _ _ => 0, ci0 := fun _ => 0 }

end Eiquadprog

namespace Eiquadprog

/-- The buffer `s` of the frame holds the inequality residuals `CI·x + ci0` at its `x`. -/
def ResidualsCurrent {α : Type} [LinearOrderedField α] (P : Problem α) (f : Frame α) : Prop :=
  ∀ i, i < P.nIneqCon → f.slv.s i = dot P.nVars (fun k => P.CI i k) f.x + P.ci0 i

end Eiquadprog

namespace Eiquadprog

/-- The square root of the arithmetic is exact on positive numbers: the positive root. -/
def Arith.exact_sqrt {α : Type} [LinearOrderedField α] (ar : Arith α) : Prop :=
  ∀ a, 0 < a → 0 < ar.sqrt a ∧ ar.sqrt a * ar.sqrt a = a

/-- A solver as the constructor leaves it, over any number type, with iteration cap
`maxIter`; the buffers, empty in the source, hold zeros. -/
def new_solver (α : Type) [LinearOrderedField α] (maxIter : Nat) : Solver α :=
  { m_maxIter := maxIter, q := 0, is_inverse_provided_ := false, m_nVars := 0, m_nEqCon := 0,
    m_nIneqCon := 0, m_J := fun _ _ => 0, R := fun _ _ => 0, s := fun _ => 0, r := fun _ => 0,
    u := fun _ => 0, z := fun _ => 0, d := fun _ => 0, np := fun _ => 0, A := fun _ => 0,
    iai := fun _ => 0, iaexcl := fun _ => 0, x_old := fun _ => 0, u_old := fun _ => 0,
    A_old := fun _ => 0, iter := 0, f_value := 0 }

/-- The unconstrained problem with `H = [[2, 1], [1, 2]]` and `g0 = [1, -1]`. -/
def qp_two_unconstrained (α : Type) [LinearOrderedField α] : Problem α :=
  { nVars := 2, nEqCon := 0, nIneqCon := 0, Hess := fun i j => if i = j then 2 else 1,
    g0 := fun i => if i = 0 then 1 else -1,
    CE := fun _ _ => 0, ce0 := fun _ => 0, CI := fun _ _ => 0, ci0 := fun _ => 0 }

/-- The lower-triangular matrix `L` satisfies the recurrences of the Cholesky factorisation
of the leading `n × n` block of `H`. -/
def CholRec {α : Type} [LinearOrderedField α] (ar : Arith α) (n : Nat) (H L : Mat α) : Prop :=
  (∀ k, k < n → L k k = ar.sqrt (H k k - sumTo k (fun j => L k j * L k j))) ∧
  (∀ k i, k < i → i < n → L i k = (H i k - sumTo k (fun j => L i j * L k j)) / L k k) ∧
  (∀ i k, i < k → L i k = 0)

end Eiquadprog

namespace Eiquadprog

/-- Entry `(a, b)` of the product `J·Jᵀ` for the leading `n` columns of `J`. -/
def gram {α : Type} [LinearOrderedField α] (n : Nat) (J : Mat α) (a b : Nat) : α :=
  sumTo n (fun c => J a c * J b c)

/-- The program point reached from `nx` after at most `k` blocks of the main loop of
`solve_quadprog` (a return stays where it is); `none` when a block makes an out-of-range
access. -/
def advance {α : Type} [LinearOrderedField α] (ar : Arith α) (P : Problem α) (k : Nat)
    (nx : Next α) : Option (Next α) :=
  match k with
  | 0 => some nx
  | m + 1 =>
    match nx with
    | Next.ret st f => some (Next.ret st f)
    | Next.goto_l1 f => (step_l1 ar P f).bind (advance ar P m)
    | Next.goto_l2 f => (step_l2 P f).bind (advance ar P m)
    | Next.goto_l2a f => (step_l2a ar P f).bind (advance ar P m)

end Eiquadprog

namespace Eiquadprog

/-- A problem with more equalities than variables: one variable, `H = [1]`, `g0 = 0`, the
equality `x - 1 = 0` stated twice, no inequalities. -/
def qp_overdetermined : Problem ℚ :=
  { nVars := 1, nEqCon := 2, nIneqCon := 0, Hess := fun _ _ => 1, g0 := fun _ => 0,
    CE := fun _ _ => 1, ce0 := fun _ => -1, CI := fun _ _ => 0, ci0 := fun _ => 0 }

end Eiquadprog

namespace Eiquadprog

/-- The active set `A[0..iq)` with the flags `iai` is well formed: the first `nEqCon` slots
hold the equality codes `-(i+1)`, the later slots hold inequality indices, and every
inequality flagged active (`iai(i) = -1`) occupies one of the later slots. -/
def ActiveSet {α : Type} (P : Problem α) (A iai : IVec) (iq : Nat) : Prop :=
  P.nEqCon ≤ iq ∧ (∀ i, i < P.nEqCon → A i = -(i : Int) - 1) ∧
    (∀ k, P.nEqCon ≤ k → k < iq → 0 ≤ A k ∧ A k < (P.nIneqCon : Int)) ∧
    ∀ i, i < P.nIneqCon → iai i = -1 → ∃ k, P.nEqCon ≤ k ∧ k < iq ∧ A k = (i : Int)

/-- The invariant of the main loop about the active set, per program point: at `l2` and
`l2a` the snapshot `A_old` still holds the equality codes, at `l2a` slot `iq` holds the
candidate `ip`; a return other than `EIQUADPROG_FAST_REDUNDANT_EQUALITIES` reports a well
formed active set of size `q`. -/
def ActiveInv {α : Type} (P : Problem α) (nx : Next α) : Prop :=
  match nx with
  | Next.goto_l1 f => ActiveSet P f.slv.A f.slv.iai f.iq
  | Next.goto_l2 f => ActiveSet P f.slv.A f.slv.iai f.iq ∧
      ∀ i, i < P.nEqCon → f.slv.A_old i = -(i : Int) - 1
  | Next.goto_l2a f => ActiveSet P f.slv.A f.slv.iai f.iq ∧
      (∀ i, i < P.nEqCon → f.slv.A_old i = -(i : Int) - 1) ∧
      f.slv.A f.iq = (f.ip : Int) ∧ f.ip < P.nIneqCon
  | Next.ret st f => st ≠ Status.EIQUADPROG_FAST_REDUNDANT_EQUALITIES →
      ActiveSet P f.slv.A f.slv.iai f.slv.q

end Eiquadprog

namespace Eiquadprog

/-- A problem with one equality and one inequality: `H = I` (2×2), `g0 = 0`, the equality
`x₀ - 1 = 0` and the inequality `x₁ - 1 ≥ 0`. -/
def qp_mixed : Problem ℚ :=
  { nVars := 2, nEqCon := 1, nIneqCon := 1, Hess := fun i j => if i = j then 1 else 0,
    g0 := fun _ => 0, CE := fun _ j => if j = 0 then 1 else 0, ce0 := fun _ => -1,
    CI := fun _ j => if j = 1 then 1 else 0, ci0 := fun _ => -1 }

end Eiquadprog

namespace Eiquadprog

/-- The tolerance of the optimality test of step 1 (lines 422-424),
`nIneqCon · ε · c1 · c2 · 100`, with `c1 = Hess.trace()` and `c2 = m_J.trace()` taken in
the preprocessing phase. -/
def psi_tolerance {α : Type} [LinearOrderedField α] (ar : Arith α) (slv : Solver α)
    (P : Problem α) : α :=
  (P.nIneqCon : α) * ar.eps * trace P.nVars P.Hess
    * trace P.nVars (preprocess ar slv P).slv.m_J * 100

/-- One variable, `H = [1]`, `g0 = 0` and the inequality `x ≥ 0`, which holds with slack `0`
at the unconstrained minimiser `x = 0`. -/
def qp_boundary : Problem ℚ :=
  { nVars := 1, nEqCon := 0, nIneqCon := 1, Hess := fun _ _ => 1, g0 := fun _ => 0,
    CE := fun _ _ => 0, ce0 := fun _ => 0, CI := fun _ _ => 1, ci0 := fun _ => 0 }

/-- A solver in the mode where the caller supplies the inverse factor, holding `m_J = [-1]`
(so that `J·Jᵀ = [1]` is the inverse of `H = [1]`), with the sizes of `qp_boundary`. -/
def inverse_negative_solver : Solver ℚ :=
  { fresh_solver 100 with is_inverse_provided_ := true, m_nVars := 1, m_nEqCon := 0, m_nIneqCon := 1, m_J := fun _ _ => -1 }

end Eiquadprog

namespace Eiquadprog

/-- A problem with one equality on which a degenerate add occurs in the main loop: two
variables, `H = diag(1, 2⁻⁸⁰)`, `g0 = 0`, the equality `x₀ = 0`, and the inequalities
`2⁻¹⁰⁰·x₁ - 1 ≥ 0` and `0·x + 1 ≥ 0`. -/
def qp_equality_degenerate : Problem ℚ :=
  { nVars := 2, nEqCon := 1, nIneqCon := 2,
    Hess := fun i j => if i = j then (if i = 0 then 1 else 1 / 2 ^ 80) else 0,
    g0 := fun _ => 0, CE := fun _ j => if j = 0 then 1 else 0, ce0 := fun _ => 0,
    CI := fun i j => if i = 0 ∧ j = 1 then 1 / 2 ^ 100 else 0,
    ci0 := fun i => if i = 0 then -1 else 1 }

/-- A problem whose only constraint fails to be added: one variable, `H = [2⁻⁸⁰]`,
`g0 = 0`, and the single inequality `2⁻¹⁰⁰·x - 1 ≥ 0`. -/
def qp_full_degenerate : Problem ℚ :=
  { nVars := 1, nEqCon := 0, nIneqCon := 1, Hess := fun _ _ => 1 / 2 ^ 80, g0 := fun _ => 0,
    CE := fun _ _ => 0, ce0 := fun _ => 0, CI := fun _ _ => 1 / 2 ^ 100,
    ci0 := fun _ => -1 }

end Eiquadprog

namespace Eiquadprog

/-- One variable, `H = [1]`, `g0 = [1]`, no constraints: the minimiser of
`0.5·x² + x` is `x = -1`. -/
def qp_unit_gradient : Problem ℚ :=
  { nVars := 1, nEqCon := 0, nIneqCon := 0, Hess := fun _ _ => 1, g0 := fun _ => 1,
    CE := fun _ _ => 0, ce0 := fun _ => 0, CI := fun _ _ => 0, ci0 := fun _ => 0 }

/-- A solver in the mode where the caller supplies the inverse factor, holding `m_J = [1]`
(so that `J·Jᵀ = [1]` is the inverse of `H = [1]`), with the sizes of `qp_unit_gradient`. -/
def inverse_unit_solver : Solver ℚ :=
  { fresh_solver 100 with is_inverse_provided_ := true, m_nVars := 1, m_nEqCon := 0, m_nIneqCon := 0, m_J := fun _ _ => 1 }

/-- Two contradictory equalities with proportional rows: `H = I` (2×2), `g0 = 0`,
`x₀ + x₁ = 1` and `2²⁰·(x₀ + x₁) = 2²¹`, that is `CE = [[1,1],[2²⁰,2²⁰]]`,
`ce0 = [-1, -2²¹]`. -/
def qp_dependent_rows : Problem ℚ :=
  { nVars := 2, nEqCon := 2, nIneqCon := 0, Hess := fun i j => if i = j then 1 else 0,
    g0 := fun _ => 0, CE := fun i _ => if i = 0 then 1 else 2 ^ 20,
    ce0 := fun i => if i = 0 then -1 else -(2 ^ 21), CI := fun _ _ => 0, ci0 := fun _ => 0 }

/-- Two equalities with proportional rows whose first add needs a rotation: `H = I` (2×2),
`g0 = 0`, `CE = [[1,1],[4,4]]`, `ce0 = [-1,-8]`. -/
def qp_scaled_rows (α : Type) [LinearOrderedField α] : Problem α :=
  { nVars := 2, nEqCon := 2, nIneqCon := 0, Hess := fun i j => if i = j then 1 else 0,
    g0 := fun _ => 0, CE := fun i _ => if i = 0 then 1 else 4,
    ce0 := fun i => if i = 0 then -1 else -8, CI := fun _ _ => 0, ci0 := fun _ => 0 }

end Eiquadprog

namespace Eiquadprog

end Eiquadprog

namespace Eiquadprog

end Eiquadprog

namespace Eiquadprog

end Eiquadprog

namespace Eiquadprog

end Eiquadprog

namespace Eiquadprog

/-- No block of the call ends in the rollback of a degenerate add of step 2c (lines
574-588): no frame reached at label `l2a` continues at label `l2`. -/
def NoRollback {α : Type} [LinearOrderedField α] (ar : Arith α) (slv : Solver α)
    (P : Problem α) : Prop :=
  ∀ nx0 j f g, start ar slv P = some nx0 → advance ar P j nx0 = some (Next.goto_l2a f) →
    step_l2a ar P f ≠ some (Next.goto_l2 g)

/-- In the main loop every full step length `t2 = +inf` comes from a step direction that is
exactly zero: at no frame reached at label `l2a` is `0 < |z·z| ≤ ε`, and no quotient
`-s(ip) / z·np` overflows. -/
def StepGuards {α : Type} [LinearOrderedField α] (ar : Arith α) (slv : Solver α)
    (P : Problem α) : Prop :=
  ∀ nx0 j f, start ar slv P = some nx0 → advance ar P j nx0 = some (Next.goto_l2a f) →
    full_step ar P.nVars (direction P f).slv.z (direction P f).slv.np
      ((direction P f).slv.s f.ip) = none →
    ∀ k, k < P.nVars → (direction P f).slv.z k = 0

end Eiquadprog

namespace Eiquadprog

end Eiquadprog

namespace Eiquadprog

/-- One variable, `H = [1]`, `g0 = 0` and the inequality `2^-20·x ≥ 2^1000`, feasible at
`x = 2^1020`. -/
def qp_overflow : Problem ℚ :=
  { nVars := 1, nEqCon := 0, nIneqCon := 1, Hess := fun _ _ => 1, g0 := fun _ => 0,
    CE := fun _ _ => 0, ce0 := fun _ => 0, CI := fun _ _ => 1 / 2 ^ 20,
    ci0 := fun _ => -(2 ^ 1000) }

/-- One variable, the stiff Hessian `H = [2^60]`, `g0 = 0`, the equality `x = 1` and the
inequality `x ≥ 1/2`, feasible at `x = 1`. -/
def qp_stiff_mixed : Problem ℚ :=
  { nVars := 1, nEqCon := 1, nIneqCon := 1, Hess := fun _ _ => 2 ^ 60, g0 := fun _ => 0,
    CE := fun _ _ => 1, ce0 := fun _ => -1, CI := fun _ _ => 1, ci0 := fun _ => -(1 / 2) }

end Eiquadprog

namespace Eiquadprog

/-- The objective of the QP (line 265: "0.5 * x Hess x + g0 x"),
`f(x) = ½·xᵀ·H·x + g0ᵀ·x`. -/
def objective {α : Type} [LinearOrderedField α] (P : Problem α) (x : Vec α) : α :=
  1 / 2 * dot P.nVars x (fun i => dot P.nVars (P.Hess i) x) + dot P.nVars P.g0 x

/-- Two variables, `H = 2^-80·I`, `g0 = 0` and the inequalities `2^-50·(x0 - 1) ≥ 0`,
`2^-88·(x1 - 2^32) ≥ 0` and `2^-100·(x0 - 1) + 2^-90·(x1 - 2^32) ≥ 2^-80`.  With the first
two active the third makes the solver drop the first; its full step then fails to add the
third, whose normal is numerically dependent on the second, and the rollback puts the first
back into slot 0 of `A` while `R` and `m_J` factor the second. -/
def qp_stale_rollback : Problem ℚ :=
  { nVars := 2, nEqCon := 0, nIneqCon := 3, Hess := fun i j => if i = j then 1 / 2 ^ 80 else 0,
    g0 := fun _ => 0, CE := fun _ _ => 0, ce0 := fun _ => 0,
    CI := fun i j => if i = 0 then (if j = 0 then 1 / 2 ^ 50 else 0)
      else if i = 1 then (if j = 0 then 0 else 1 / 2 ^ 88)
      else (if j = 0 then 1 / 2 ^ 100 else 1 / 2 ^ 90),
    ci0 := fun i => if i = 0 then -(1 / 2 ^ 50) else if i = 1 then -(2 ^ 32 / 2 ^ 88)
      else -(1 / 2 ^ 80) - 1 / 2 ^ 100 - 2 ^ 32 / 2 ^ 90 }

/-- Two variables, the stiff Hessian `H = 2^60·I`, `g0 = 0` and the inequalities
`2^40·x0 ≥ 2^40` and `2^35·x0 + 2^33·x1 ≥ 2^36`, with the minimiser `(32/17, 8/17)`.  With
the first active the step direction of the second is `z = (0, 2^-27)`, which the guard
`|z·z| > ε` treats as zero. -/
def qp_skipped_step : Problem ℚ :=
  { nVars := 2, nEqCon := 0, nIneqCon := 2, Hess := fun i j => if i = j then 2 ^ 60 else 0,
    g0 := fun _ => 0, CE := fun _ _ => 0, ce0 := fun _ => 0,
    CI := fun i j => if i = 0 then (if j = 0 then 2 ^ 40 else 0)
      else (if j = 0 then 2 ^ 35 else 2 ^ 33),
    ci0 := fun i => if i = 0 then -(2 ^ 40) else -(2 ^ 36) }

end Eiquadprog

namespace Eiquadprog

end Eiquadprog

namespace Eiquadprog

end Eiquadprog

namespace Eiquadprog

end Eiquadprog

namespace Eiquadprog

end Eiquadprog

namespace Eiquadprog

end Eiquadprog

/-! # Properties of the embedded solver -/

namespace Eiquadprog

section Basic

variable {α : Type} [LinearOrderedField α]

omit [LinearOrderedField α] in
theorem Outcome.eq_done_of_status {o : Outcome α} {st : Status} (d : Frame α)
    (h : o.status = some st) : o = Outcome.done st (o.frame d) := by
  cases o <;> simp_all [Outcome.status, Outcome.frame]

theorem run_ret (ar : Arith α) (P : Problem α) (fuel : Nat) (st : Status) (f : Frame α) :
    run ar P fuel (Next.ret st f) = Outcome.done st f := by
  cases fuel <;> rfl

/-- A property of the program points that every block preserves holds of the returned
frame. -/
theorem run_invariant (ar : Arith α) (P : Problem α) (Q : Next α → Prop)
    (h1 : ∀ f nx, Q (Next.goto_l1 f) → step_l1 ar P f = some nx → Q nx)
    (h2 : ∀ f nx, Q (Next.goto_l2 f) → step_l2 P f = some nx → Q nx)
    (h2a : ∀ f nx, Q (Next.goto_l2a f) → step_l2a ar P f = some nx → Q nx) :
    ∀ (fuel : Nat) (nx : Next α), Q nx → ∀ st f, run ar P fuel nx = Outcome.done st f →
      Q (Next.ret st f) := by
  intro fuel
  induction fuel with
  | zero =>
    intro nx hQ st f h
    cases nx <;> simp [run] at h
    obtain ⟨rfl, rfl⟩ := h
    exact hQ
  | succ k ih =>
    intro nx hQ st f h
    cases nx with
    | ret st1 f1 =>
      simp [run] at h
      obtain ⟨rfl, rfl⟩ := h
      exact hQ
    | goto_l1 f1 =>
      simp only [run] at h
      cases hs : step_l1 ar P f1 with
      | none => simp [hs] at h
      | some nx1 =>
        rw [hs] at h
        exact ih nx1 (h1 f1 nx1 hQ hs) st f h
    | goto_l2 f1 =>
      simp only [run] at h
      cases hs : step_l2 P f1 with
      | none => simp [hs] at h
      | some nx1 =>
        rw [hs] at h
        exact ih nx1 (h2 f1 nx1 hQ hs) st f h
    | goto_l2a f1 =>
      simp only [run] at h
      cases hs : step_l2a ar P f1 with
      | none => simp [hs] at h
      | some nx1 =>
        rw [hs] at h
        exact ih nx1 (h2a f1 nx1 hQ hs) st f h

end Basic

end Eiquadprog

namespace Eiquadprog

section Counter

variable {α : Type} [LinearOrderedField α]

theorem drop_l_slv (ar : Arith α) (P : Problem α) (f f1 : Frame α) (u : Vec α) (l : Int)
    (h : drop_l ar P f u l = some f1) :
    f1.slv.iter = f.slv.iter ∧ f1.slv.m_maxIter = f.slv.m_maxIter := by
  unfold drop_l at h
  dsimp only at h
  split_ifs at h
  simp only [Option.map_eq_some'] at h
  obtain ⟨dr, -, rfl⟩ := h
  simp

theorem rollback_slv (ar : Arith α) (P : Problem α) (f : Frame α) (a : AddResult α)
    (nx : Next α) (h : rollback ar P f a = some nx) :
    nx.frame.slv.iter = f.slv.iter ∧ nx.frame.slv.m_maxIter = f.slv.m_maxIter ∧
      nx.status = none := by
  unfold rollback at h
  dsimp only at h
  split_ifs at h
  simp only [Option.bind_eq_some, Option.map_eq_some'] at h
  obtain ⟨dr, -, r, -, rfl⟩ := h
  simp [Next.frame, Next.status]

theorem step_l2_slv (P : Problem α) (f : Frame α) (nx : Next α) (h : step_l2 P f = some nx) :
    nx.frame.slv.iter = f.slv.iter ∧ nx.frame.slv.m_maxIter = f.slv.m_maxIter ∧
      nx.status ≠ some Status.EIQUADPROG_FAST_MAX_ITER_REACHED := by
  unfold step_l2 at h
  dsimp only at h
  split_ifs at h <;> simp at h <;> subst h <;> simp [Next.frame, Next.status]

theorem primal_dual_step_slv (ar : Arith α) (P : Problem α) (f : Frame α) (t1 : Option α)
    (l : Int) (b : α) (nx : Next α) (h : primal_dual_step ar P f t1 l b = some nx) :
    nx.frame.slv.iter = f.slv.iter ∧ nx.frame.slv.m_maxIter = f.slv.m_maxIter ∧
      nx.status = none := by
  unfold primal_dual_step at h
  dsimp only at h
  split_ifs at h
  · simp only [Option.bind_eq_some] at h
    obtain ⟨a, -, h⟩ := h
    split_ifs at h
    · simp at h; subst h; simp [Next.frame, Next.status]
    · have := rollback_slv ar P _ _ nx h
      simpa using this
  · simp only [Option.map_eq_some'] at h
    obtain ⟨f3, hd, rfl⟩ := h
    have := drop_l_slv ar P _ _ _ _ hd
    simpa [Next.frame, Next.status] using this

theorem step_2c_slv (ar : Arith α) (P : Problem α) (f : Frame α) (t1 : Option α)
    (l : Int) (t2 : Option α) (nx : Next α) (h : step_2c ar P f t1 l t2 = some nx) :
    nx.frame.slv.iter = f.slv.iter ∧ nx.frame.slv.m_maxIter = f.slv.m_maxIter ∧
      nx.status ≠ some Status.EIQUADPROG_FAST_MAX_ITER_REACHED := by
  unfold step_2c at h
  split at h
  · split at h
    · simp at h; subst h; simp [Next.frame, Next.status]
    · split_ifs at h
      simp only [Option.map_eq_some'] at h
      obtain ⟨f2, hd, rfl⟩ := h
      have := drop_l_slv ar P _ _ _ _ hd
      simpa [Next.frame, Next.status] using this
  · split_ifs at h
    have := primal_dual_step_slv ar P _ _ _ _ nx h
    simp [this.1, this.2.1, this.2.2]

theorem step_l2a_slv (ar : Arith α) (P : Problem α) (f : Frame α) (nx : Next α)
    (h : step_l2a ar P f = some nx) :
    nx.frame.slv.iter = f.slv.iter ∧ nx.frame.slv.m_maxIter = f.slv.m_maxIter ∧
      nx.status ≠ some Status.EIQUADPROG_FAST_MAX_ITER_REACHED := by
  unfold step_l2a at h
  dsimp only at h
  split_ifs at h
  have := step_2c_slv ar P _ _ _ _ nx h
  simpa [direction] using this

/-- What the iteration counter satisfies at a program point (`iter < m_maxIter`, or no pass
of `l1` has been made) and at a return. -/
theorem counter_step_l1 (ar : Arith α) (P : Problem α) (f : Frame α) (nx : Next α)
    (h : step_l1 ar P f = some nx) :
    nx.frame.slv.m_maxIter = f.slv.m_maxIter ∧ nx.frame.slv.iter = f.slv.iter + 1 ∧
      (nx.status = some Status.EIQUADPROG_FAST_MAX_ITER_REACHED →
        f.slv.m_maxIter ≤ f.slv.iter + 1) ∧
      (nx.status ≠ some Status.EIQUADPROG_FAST_MAX_ITER_REACHED →
        f.slv.iter + 1 < f.slv.m_maxIter) := by
  unfold step_l1 at h
  dsimp only at h
  split_ifs at h with h1 h2 h3
  · simp at h; subst h; simp [Next.frame, Next.status, h1]
  · simp only [Option.map_eq_some'] at h
    obtain ⟨iai, -, rfl⟩ := h
    simp [Next.frame, Next.status]; omega
  · simp only [Option.map_eq_some'] at h
    obtain ⟨iai, -, rfl⟩ := h
    simp [Next.frame, Next.status]; omega

omit [LinearOrderedField α] in
theorem Outcome.check_iff {o : Outcome α} {p : Status → Frame α → Bool} :
    o.check p = true ↔ ∃ st f, o = Outcome.done st f ∧ p st f = true := by
  cases o with
  | done st f =>
    simp only [Outcome.check]
    constructor
    · intro h; exact ⟨st, f, rfl, h⟩
    · rintro ⟨st1, f1, h1, h2⟩
      cases h1
      exact h2
  | fault => simp [Outcome.check]
  | out_of_fuel => simp [Outcome.check]

theorem eq_step_slv (ar : Arith α) (P : Problem α) (i : Nat) (f f1 : Frame α) (b : Bool)
    (h : eq_step ar P i f = some (b, f1)) :
    f1.slv.iter = f.slv.iter ∧ f1.slv.m_maxIter = f.slv.m_maxIter ∧ f1.slv.q = f.slv.q := by
  unfold eq_step at h
  dsimp only at h
  split_ifs at h
  simp only [Option.map_eq_some', Prod.mk.injEq] at h
  obtain ⟨a, -, -, rfl⟩ := h
  simp

theorem eq_loop_slv (ar : Arith α) (P : Problem α) (cnt : Nat) :
    ∀ (i : Nat) (f f1 : Frame α) (b : Bool), eq_loop ar P i cnt f = some (b, f1) →
      f1.slv.iter = f.slv.iter ∧ f1.slv.m_maxIter = f.slv.m_maxIter ∧ f1.slv.q = f.slv.q := by
  induction cnt with
  | zero =>
    intro i f f1 b h
    simp [eq_loop] at h
    obtain ⟨-, rfl⟩ := h
    simp
  | succ c ih =>
    intro i f f1 b h
    simp only [eq_loop] at h
    split at h
    · simp at h
    · rename_i f2 hs
      simp at h
      obtain ⟨-, rfl⟩ := h
      exact eq_step_slv ar P i f _ _ hs
    · rename_i f2 hs
      have h1 := eq_step_slv ar P i f _ _ hs
      have h2 := ih _ _ _ _ h
      exact ⟨h2.1.trans h1.1, h2.2.1.trans h1.2.1, h2.2.2.trans h1.2.2⟩

theorem preprocess_slv (ar : Arith α) (slv : Solver α) (P : Problem α) :
    (preprocess ar slv P).slv.iter = 0 ∧ (preprocess ar slv P).slv.m_maxIter = slv.m_maxIter ∧
      (preprocess ar slv P).slv.q = slv.q := by
  unfold preprocess resized
  dsimp only
  split_ifs <;> simp [reset]

theorem start_slv (ar : Arith α) (slv : Solver α) (P : Problem α) (nx : Next α)
    (h : start ar slv P = some nx) :
    nx.frame.slv.iter = 0 ∧ nx.frame.slv.m_maxIter = slv.m_maxIter ∧
      nx.status ≠ some Status.EIQUADPROG_FAST_MAX_ITER_REACHED := by
  unfold start at h
  have hp := preprocess_slv ar slv P
  split at h
  · simp at h
  · rename_i f he
    have := eq_loop_slv ar P _ _ _ _ _ he
    simp at h; subst h
    simp [Next.frame, Next.status, this.1, this.2.1, hp.1, hp.2.1]
  · rename_i f he
    have := eq_loop_slv ar P _ _ _ _ _ he
    simp at h; subst h
    simp [Next.frame, Next.status, this.1, this.2.1, hp.1, hp.2.1]

/-- The counter property carried along a run with cap `M`: at a jump `iter < M` or no pass
of `l1` was made yet; at a return with `EIQUADPROG_FAST_MAX_ITER_REACHED` the counter is
`max M 1`. -/
theorem counter_run (ar : Arith α) (P : Problem α) (M : Nat) (fuel : Nat) (nx : Next α)
    (hM : nx.frame.slv.m_maxIter = M) (hst : nx.status = none)
    (hi : nx.frame.slv.iter < M ∨ nx.frame.slv.iter = 0) (st : Status) (f : Frame α)
    (h : run ar P fuel nx = Outcome.done st f) :
    st = Status.EIQUADPROG_FAST_MAX_ITER_REACHED → f.slv.iter = max M 1 := by
  have key := run_invariant ar P
    (fun nx => nx.frame.slv.m_maxIter = M ∧
      (nx.status = none → nx.frame.slv.iter < M ∨ nx.frame.slv.iter = 0) ∧
      (nx.status = some Status.EIQUADPROG_FAST_MAX_ITER_REACHED → nx.frame.slv.iter = max M 1))
    ?_ ?_ ?_ fuel nx ⟨hM, fun _ => hi, by simp [hst]⟩ st f h
  · intro hs
    exact key.2.2 (by simp [Next.status, hs])
  · intro f1 nx1 hQ hs
    obtain ⟨hm, hc, -⟩ := hQ
    have := counter_step_l1 ar P f1 nx1 hs
    simp only [Next.frame, Next.status, true_implies] at hm hc
    refine ⟨this.1.trans hm, ?_, ?_⟩
    · intro hn
      have h4 := this.2.2.2 (by simp [hn])
      left; rw [this.2.1]; omega
    · intro hn
      have h3 := this.2.2.1 hn
      rw [this.2.1]
      rcases hc with hc | hc
      · have : M = f1.slv.iter + 1 := by omega
        rw [this]; simp
      · rw [hc] at h3 ⊢
        have : M ≤ 1 := by omega
        simp [this]
  · intro f1 nx1 hQ hs
    obtain ⟨hm, hc, -⟩ := hQ
    have := step_l2_slv P f1 nx1 hs
    simp only [Next.frame, Next.status, true_implies] at hm hc
    refine ⟨this.2.1.trans hm, ?_, ?_⟩
    · intro _; rw [this.1]; exact hc
    · intro hn; exact absurd hn this.2.2
  · intro f1 nx1 hQ hs
    obtain ⟨hm, hc, -⟩ := hQ
    have := step_l2a_slv ar P f1 nx1 hs
    simp only [Next.frame, Next.status, true_implies] at hm hc
    refine ⟨this.2.1.trans hm, ?_, ?_⟩
    · intro _; rw [this.1]; exact hc
    · intro hn; exact absurd hn this.2.2

end Counter

/-- C9 (as stated, refuted): with `m_maxIter = 1` the unconstrained problem `min 0.5·x²`
returns `EIQUADPROG_FAST_MAX_ITER_REACHED` although the counter only reaches `1` and never
exceeds the configured maximum. -/
theorem max_iter_reached_without_exceeding :
    ∃ f, solve_quadprog rat_arith 1 (fresh_solver 1) qp_unconstrained
        = Outcome.done Status.EIQUADPROG_FAST_MAX_ITER_REACHED f ∧
      ¬ (fresh_solver 1).m_maxIter < f.slv.iter := by
  have h : (solve_quadprog rat_arith 1 (fresh_solver 1) qp_unconstrained).check
      (fun st f => decide (st = Status.EIQUADPROG_FAST_MAX_ITER_REACHED ∧ f.slv.iter = 1))
      = true := by decide!
  obtain ⟨st, f, hf, hp⟩ := Outcome.check_iff.mp h
  simp at hp
  obtain ⟨rfl, hi⟩ := hp
  exact ⟨f, hf, by simp [hi, fresh_solver]⟩

/-- C9 (amended): `solve_quadprog` returns `EIQUADPROG_FAST_MAX_ITER_REACHED` only when the
counter has reached the configured maximum: then `iter ≥ m_maxIter`, in fact
`iter = max(m_maxIter, 1)`; a call that returns with `iter < m_maxIter` returns one of
the other three statuses. -/
theorem max_iter_reached_only_at_cap {α : Type} [LinearOrderedField α] (ar : Arith α)
    (fuel : Nat) (slv : Solver α) (P : Problem α) (st : Status) (f : Frame α)
    (h : solve_quadprog ar fuel slv P = Outcome.done st f) :
    (st = Status.EIQUADPROG_FAST_MAX_ITER_REACHED →
      slv.m_maxIter ≤ f.slv.iter ∧ f.slv.iter = max slv.m_maxIter 1) ∧
    (f.slv.iter < slv.m_maxIter →
      st = Status.EIQUADPROG_FAST_OPTIMAL ∨ st = Status.EIQUADPROG_FAST_UNBOUNDED ∨
        st = Status.EIQUADPROG_FAST_REDUNDANT_EQUALITIES) := by
  have main : st = Status.EIQUADPROG_FAST_MAX_ITER_REACHED →
      f.slv.iter = max slv.m_maxIter 1 := by
    unfold solve_quadprog at h
    split at h
    · simp at h
    · rename_i nx hs
      have h0 := start_slv ar slv P nx hs
      cases nx with
      | ret st1 f1 =>
        rw [run_ret] at h
        simp at h
        obtain ⟨rfl, rfl⟩ := h
        intro hst
        simp [Next.status, hst] at h0
      | goto_l1 f1 =>
        exact counter_run ar P slv.m_maxIter fuel _ h0.2.1 rfl (Or.inr h0.1) st f h
      | goto_l2 f1 =>
        exact counter_run ar P slv.m_maxIter fuel _ h0.2.1 rfl (Or.inr h0.1) st f h
      | goto_l2a f1 =>
        exact counter_run ar P slv.m_maxIter fuel _ h0.2.1 rfl (Or.inr h0.1) st f h
  constructor
  · intro hst
    have := main hst
    exact ⟨by rw [this]; exact le_max_left _ _, this⟩
  · intro hlt
    cases st
    · simp
    · simp
    · have := main rfl
      rw [this] at hlt
      exact absurd hlt (not_lt.mpr (le_max_left _ _))
    · simp

/-- Witness for C9 (amended): the run with `m_maxIter = 1` on the unconstrained problem. -/
theorem max_iter_reached_only_at_cap_witness :
    ∃ f, solve_quadprog rat_arith 1 (fresh_solver 1) qp_unconstrained
        = Outcome.done Status.EIQUADPROG_FAST_MAX_ITER_REACHED f ∧
      (fresh_solver 1).m_maxIter ≤ f.slv.iter := by
  have h : (solve_quadprog rat_arith 1 (fresh_solver 1) qp_unconstrained).status
      = some Status.EIQUADPROG_FAST_MAX_ITER_REACHED := by decide!
  have hf := Outcome.eq_done_of_status (preprocess rat_arith (fresh_solver 1) qp_unconstrained) h
  exact ⟨_, hf, ((max_iter_reached_only_at_cap rat_arith 1 (fresh_solver 1) qp_unconstrained
    _ _ hf).1 rfl).1⟩

end Eiquadprog

namespace Eiquadprog

section Agreement

variable {α : Type} [LinearOrderedField α]

theorem AgreeOn.mono {β : Type} {m n : Nat} {a b : Nat → β} (h : AgreeOn n a b)
    (hmn : m ≤ n) : AgreeOn m a b :=
  fun k hk => h k (lt_of_lt_of_le hk hmn)

theorem sumTo_congr (n : Nat) (a b : Nat → α) (h : AgreeOn n a b) : sumTo n a = sumTo n b := by
  induction n with
  | zero => rfl
  | succ k ih =>
    simp only [sumTo]
    rw [ih (h.mono (Nat.le_succ k)), h k (Nat.lt_succ_self k)]

theorem mark_active_agree (n : Nat) (A B : IVec) (cnt : Nat) :
    ∀ (i : Nat) (a b : IVec), AgreeOn (i + cnt) A B → AgreeOn n a b →
      OptRel (AgreeOn n) (mark_active n A i cnt a) (mark_active n B i cnt b) := by
  induction cnt with
  | zero =>
    intro i a b _ hab
    simpa [mark_active, OptRel] using hab
  | succ c ih =>
    intro i a b hAB hab
    simp only [mark_active]
    have hi : A i = B i := hAB i (by omega)
    rw [← hi]
    split_ifs with hc
    · apply ih
      · intro k hk; exact hAB k (by omega)
      · intro k hk
        simp only [vset]
        split_ifs
        · rfl
        · exact hab k hk
    · simp [OptRel]

theorem select_agree (s t : Vec α) (a b c e : IVec) (sel : α × Nat) (n : Nat) :
    ∀ (m : Nat), m ≤ n → AgreeOn n s t → AgreeOn n a b → AgreeOn n c e →
      select s a c m sel = select t b e m sel := by
  intro m
  induction m with
  | zero => intro _ _ _ _; rfl
  | succ k ih =>
    intro hk hs ha hc
    simp only [select]
    rw [ih (by omega) hs ha hc, hs k (by omega), ha k (by omega), hc k (by omega)]

theorem ratio_loop_agree (r r1 u u1 : Vec α) (A A1 : IVec) (nEq : Nat) (cnt : Nat)
    (hr : AgreeOn (nEq + cnt) r r1) (hu : AgreeOn (nEq + cnt) u u1)
    (hA : AgreeOn (nEq + cnt) A A1) :
    ratio_loop r u A nEq cnt = ratio_loop r1 u1 A1 nEq cnt := by
  induction cnt with
  | zero => rfl
  | succ c ih =>
    simp only [ratio_loop]
    rw [ih (hr.mono (by omega)) (hu.mono (by omega)) (hA.mono (by omega)),
      hr (nEq + c) (by omega), hu (nEq + c) (by omega), hA (nEq + c) (by omega)]

theorem find_qq_agree (A B : IVec) (l : Int) (cnt : Nat) :
    ∀ (i : Nat), AgreeOn (i + cnt) A B → find_qq A l i cnt = find_qq B l i cnt := by
  induction cnt with
  | zero => intro _ _; rfl
  | succ c ih =>
    intro i h
    simp only [find_qq]
    rw [h i (by omega), ih (i + 1) (fun k hk => h k (by omega))]

theorem find_qq_lt (A : IVec) (l : Int) (cnt : Nat) :
    ∀ (i : Nat), find_qq A l i cnt = 0 ∨ (i ≤ find_qq A l i cnt ∧ find_qq A l i cnt < i + cnt) := by
  induction cnt with
  | zero => intro _; left; rfl
  | succ c ih =>
    intro i
    simp only [find_qq]
    split_ifs
    · right; omega
    · rcases ih (i + 1) with h | h
      · left; exact h
      · right; omega

omit [LinearOrderedField α] in
theorem restore_loop_agree (n : Nat) (A_old B_old : IVec) (u_old v_old : Vec α) (m : Nat)
    (cnt : Nat) :
    ∀ (i : Nat) (st st1 : IVec × IVec × Vec α), i + cnt = m →
      AgreeOn m A_old B_old → AgreeOn m u_old v_old →
      AgreeOn i st.1 st1.1 → AgreeOn n st.2.1 st1.2.1 → AgreeOn i st.2.2 st1.2.2 →
      OptRel (fun r r1 => AgreeOn m r.1 r1.1 ∧ AgreeOn n r.2.1 r1.2.1 ∧ AgreeOn m r.2.2 r1.2.2)
        (restore_loop n A_old u_old i cnt st) (restore_loop n B_old v_old i cnt st1) := by
  induction cnt with
  | zero =>
    intro i st st1 him _ _ h1 h2 h3
    have : i = m := by omega
    subst this
    simp only [restore_loop, OptRel]
    exact ⟨h1, h2, h3⟩
  | succ c ih =>
    intro i st st1 him hA hu h1 h2 h3
    simp only [restore_loop]
    have hi : A_old i = B_old i := hA i (by omega)
    have hui : u_old i = v_old i := hu i (by omega)
    rw [← hi, ← hui]
    split_ifs with hc
    · apply ih (i + 1) _ _ (by omega) hA hu
      · intro k hk
        simp only [vset]
        split_ifs
        · rfl
        · exact h1 k (by omega)
      · intro k hk
        simp only [vset]
        split_ifs
        · rfl
        · exact h2 k hk
      · intro k hk
        simp only [vset]
        split_ifs
        · rfl
        · exact h3 k (by omega)
    · simp [OptRel]

end Agreement

end Eiquadprog

namespace Eiquadprog

section Agreement2

variable {α : Type} [LinearOrderedField α]

theorem OptRel.none_left {β γ : Type} {r : β → γ → Prop} {b : Option γ}
    (h : OptRel r none b) : b = none := by
  cases b <;> simp_all [OptRel]

theorem OptRel.some_left {β γ : Type} {r : β → γ → Prop} {x : β} {b : Option γ}
    (h : OptRel r (some x) b) : ∃ y, b = some y ∧ r x y := by
  cases b with
  | none => simp [OptRel] at h
  | some y => exact ⟨y, rfl, h⟩

theorem OptRel.map {β γ β1 γ1 : Type} {r : β → γ → Prop} {r1 : β1 → γ1 → Prop}
    {a : Option β} {b : Option γ} (h : OptRel r a b) (k : β → β1) (k1 : γ → γ1)
    (hk : ∀ x y, r x y → r1 (k x) (k1 y)) : OptRel r1 (a.map k) (b.map k1) := by
  cases a with
  | none => rw [h.none_left]; trivial
  | some x =>
    obtain ⟨y, rfl, hxy⟩ := h.some_left
    exact hk x y hxy

theorem OptRel.bind {β γ β1 γ1 : Type} {r : β → γ → Prop} {r1 : β1 → γ1 → Prop}
    {a : Option β} {b : Option γ} (h : OptRel r a b) (k : β → Option β1) (k1 : γ → Option γ1)
    (hk : ∀ x y, r x y → OptRel r1 (k x) (k1 y)) : OptRel r1 (a.bind k) (b.bind k1) := by
  cases a with
  | none => rw [h.none_left]; trivial
  | some x =>
    obtain ⟨y, rfl, hxy⟩ := h.some_left
    exact hk x y hxy

theorem OptRel.refl_of {β : Type} {r : β → β → Prop} (a : Option β) (h : ∀ x, r x x) :
    OptRel r a a := by
  cases a with
  | none => trivial
  | some x => exact h x

theorem OptRel.refl_mem {β : Type} (a : Option β) :
    OptRel (fun x y => x = y ∧ a = some x) a a := by
  cases a with
  | none => trivial
  | some x => exact ⟨rfl, rfl⟩

theorem delete_constraint_iq (ar : Arith α) (nVars asz : Nat) (R J : Mat α) (A : IVec)
    (u : Vec α) (nEq iq : Nat) (l : Int) (dr : DelResult α)
    (h : delete_constraint ar nVars asz R J A u nEq iq l = some dr) :
    dr.iq + 1 = iq ∧ iq < asz ∧ iq ≤ nVars := by
  unfold delete_constraint at h
  dsimp only at h
  split_ifs at h with h1 h2 <;> simp at h <;> subst h <;> simp <;> omega

theorem delete_constraint_agree (ar : Arith α) (nVars asz : Nat) (R J : Mat α) (A B : IVec)
    (u v : Vec α) (nEq iq : Nat) (l : Int) (m : Nat) (hm : iq ≤ m)
    (hA : AgreeOn m A B) (hu : AgreeOn m u v) :
    OptRel (fun a b => a.R = b.R ∧ a.J = b.J ∧ a.iq = b.iq ∧ a.iq + 1 = iq ∧
        AgreeOn (m - 1) a.A b.A ∧ AgreeOn (m - 1) a.u b.u)
      (delete_constraint ar nVars asz R J A u nEq iq l)
      (delete_constraint ar nVars asz R J B v nEq iq l) := by
  have hq : find_qq A l nEq (iq - nEq) = find_qq B l nEq (iq - nEq) := by
    by_cases hle : iq ≤ nEq
    · rw [Nat.sub_eq_zero_of_le hle]; rfl
    · apply find_qq_agree
      exact hA.mono (by omega)
  unfold delete_constraint
  dsimp only
  rw [← hq]
  have hA1 : AgreeOn (m - 1)
      (fun i => if i = iq then 0 else
        if find_qq A l nEq (iq - nEq) ≤ i ∧ i < iq then A (i + 1) else A i)
      (fun i => if i = iq then 0 else
        if find_qq A l nEq (iq - nEq) ≤ i ∧ i < iq then B (i + 1) else B i) := by
    intro k hk
    dsimp only
    split_ifs
    · rfl
    · exact hA _ (by omega)
    · exact hA _ (by omega)
  have hu1 : AgreeOn (m - 1)
      (fun i => if i = iq then 0 else
        if find_qq A l nEq (iq - nEq) ≤ i ∧ i < iq then u (i + 1) else u i)
      (fun i => if i = iq then 0 else
        if find_qq A l nEq (iq - nEq) ≤ i ∧ i < iq then v (i + 1) else v i) := by
    intro k hk
    dsimp only
    split_ifs
    · rfl
    · exact hu _ (by omega)
    · exact hu _ (by omega)
  split_ifs with h1 h2
  · trivial
  · exact (show _ ∧ _ ∧ _ ∧ _ ∧ _ ∧ _ from ⟨rfl, rfl, rfl, by simp; omega, hA1, hu1⟩)
  · exact (show _ ∧ _ ∧ _ ∧ _ ∧ _ ∧ _ from ⟨rfl, rfl, rfl, by simp; omega, hA1, hu1⟩)

theorem direction_agree (P : Problem α) (f g : Frame α) (h : Agree2a P f g) :
    AgreeDir P (direction P f) (direction P g) := by
  have hc := h.core
  have hs := h.sel
  unfold direction
  dsimp only
  rw [← hc.J, ← hc.R, ← hc.iq, ← h.np]
  refine ⟨⟨⟨hc.maxIter, hc.iter, hc.f_value, rfl, rfl, hc.x, rfl, hc.R_norm, hc.c1, hc.c2,
    hc.A, hc.u⟩, ⟨hs.iai, hs.s, hs.iaexcl, hs.ss, hs.ip, hs.x_old, hs.A_old, hs.u_old⟩, rfl⟩,
    rfl, rfl, ?_⟩
  intro k hk
  simp only [update_r]
  rw [if_pos hk, if_pos hk]

theorem add_constraint_iq (ar : Arith α) (nVars : Nat) (R J : Mat α) (d : Vec α) (iq : Nat)
    (R_norm : α) (a : AddResult α) (h : add_constraint ar nVars R J d iq R_norm = some a) :
    a.iq = iq + 1 ∧ iq < nVars := by
  unfold add_constraint at h
  dsimp only at h
  split_ifs at h <;> simp at h <;> subst h <;> simp <;> omega

theorem drop_l_agree (ar : Arith α) (P : Problem α) (f g : Frame α) (u v : Vec α) (l : Int)
    (hb : Agree2a P f g) (hu : AgreeOn (f.iq + 1) u v) :
    OptRel (Agree2a P) (drop_l ar P f u l) (drop_l ar P g v l) := by
  have hc := hb.core
  have hs := hb.sel
  have hdel := delete_constraint_agree ar P.nVars (P.nIneqCon + P.nEqCon) f.slv.R f.slv.m_J
    f.slv.A g.slv.A u v P.nEqCon f.iq l (f.iq + 1) (by omega) hc.A hu
  unfold drop_l
  dsimp only
  rw [← hc.R, ← hc.J, ← hc.iq]
  split_ifs with hl
  · refine hdel.map _ _ ?_
    rintro dr dr1 ⟨hR, hJ, hiq, hiq1, hA, hU⟩
    simp only [Nat.add_sub_cancel] at hA hU
    refine ⟨⟨hc.maxIter, hc.iter, hc.f_value, hJ, hR, hc.x, hiq, hc.R_norm, hc.c1, hc.c2,
      ?_, ?_⟩, ⟨?_, hs.s, hs.iaexcl, hs.ss, hs.ip, hs.x_old, ?_, ?_⟩, hb.np⟩
    · exact hiq1 ▸ hA
    · exact hiq1 ▸ hU
    · intro k hk
      simp only [vset]
      split_ifs
      · rfl
      · exact hs.iai k hk
    · exact hs.A_old.mono (by simp; omega)
    · exact hs.u_old.mono (by simp; omega)
  · trivial

theorem rollback_agree (ar : Arith α) (P : Problem α) (f g : Frame α) (a : AddResult α)
    (hb : Agree2a P f g) (ha : a.iq = f.iq + 1) :
    OptRel (AgreeNext P) (rollback ar P f a) (rollback ar P g a) := by
  have hc := hb.core
  have hs := hb.sel
  have hdel := delete_constraint_agree ar P.nVars (P.nIneqCon + P.nEqCon) a.R a.J
    f.slv.A g.slv.A f.slv.u g.slv.u P.nEqCon a.iq (f.ip : Int) (f.iq + 1) (by omega) hc.A hc.u
  unfold rollback
  dsimp only
  rw [← hs.ip]
  split_ifs with hip
  · trivial
  · refine hdel.bind _ _ ?_
    rintro dr dr1 ⟨hR, hJ, hiq, hiq1, hA, hU⟩
    simp only [Nat.add_sub_cancel] at hA hU
    have e : dr.iq = f.iq := by omega
    have hres := restore_loop_agree P.nIneqCon f.slv.A_old g.slv.A_old f.slv.u_old
      g.slv.u_old dr.iq dr.iq 0
      (dr.A, (fun i => if i < P.nIneqCon then (i : Int) else f.slv.iai i), dr.u)
      (dr1.A, (fun i => if i < P.nIneqCon then (i : Int) else g.slv.iai i), dr1.u)
      (by omega) (e ▸ hs.A_old) (e ▸ hs.u_old)
      (fun k hk => absurd hk (Nat.not_lt_zero k))
      (fun k hk => by simp [hk])
      (fun k hk => absurd hk (Nat.not_lt_zero k))
    rw [← hiq]
    refine hres.map _ _ ?_
    rintro r r1 ⟨hrA, hri, hru⟩
    show Agree2 P _ _
    refine ⟨⟨hc.maxIter, hc.iter, hc.f_value, hJ, hR, hs.x_old, rfl, hc.R_norm, hc.c1,
      hc.c2, hrA, hru⟩, ⟨hri, hs.s, ?_, hs.ss, rfl, hs.x_old, ?_, ?_⟩⟩
    · intro k hk
      simp only [vset]
      split_ifs
      · rfl
      · exact hs.iaexcl k hk
    · exact hs.A_old.mono (by simp; omega)
    · exact hs.u_old.mono (by simp; omega)

theorem dual_update_agree (u v r r1 : Vec α) (iq : Nat) (t : α) (hu : AgreeOn (iq + 1) u v)
    (hr : AgreeOn iq r r1) : AgreeOn (iq + 1) (dual_update u r iq t) (dual_update v r1 iq t) := by
  intro k hk
  simp only [dual_update]
  split_ifs with h1 h2
  · rw [hu k hk, hr k h1]
  · rw [hu k hk]
  · exact hu k hk

theorem primal_dual_step_agree (ar : Arith α) (P : Problem α) (f g : Frame α) (t1 : Option α)
    (l : Int) (b : α) (hd : AgreeDir P f g) :
    OptRel (AgreeNext P) (primal_dual_step ar P f t1 l b) (primal_dual_step ar P g t1 l b) := by
  have hb := hd.base
  have hc := hb.core
  have hs := hb.sel
  have hu := dual_update_agree f.slv.u g.slv.u f.slv.r g.slv.r f.iq (step_length t1 b) hc.u hd.r
  have huiq : f.slv.u f.iq = g.slv.u f.iq := hc.u f.iq (by omega)
  unfold primal_dual_step
  dsimp only
  rw [← hc.R, ← hc.J, ← hd.d, ← hc.iq, ← hc.R_norm, ← hd.z, ← hb.np, ← hc.f_value, ← hc.x,
    ← hs.ip, ← huiq]
  split_ifs with ht
  · refine (OptRel.refl_mem _).bind _ _ ?_
    rintro a _ ⟨rfl, h1⟩
    have ha := (add_constraint_iq ar _ _ _ _ _ _ a h1).1
    by_cases hok : a.ok = true
    · rw [if_pos hok, if_pos hok]
      show Agree1 P _ _
      refine ⟨⟨hc.maxIter, hc.iter, rfl, rfl, rfl, rfl, rfl, rfl, hc.c1, hc.c2, ?_, ?_⟩, ?_⟩
      · exact ha ▸ hc.A
      · exact ha ▸ hu
      · intro k hk
        simp only [vset]
        split_ifs
        · rfl
        · exact hs.iai k hk
    · rw [if_neg hok, if_neg hok]
      refine rollback_agree ar P _ _ a ?_ ?_
      · refine ⟨?_, ?_, rfl⟩
        · constructor <;>
            first
              | rfl
              | exact hc.maxIter
              | exact hc.iter
              | exact hc.c1
              | exact hc.c2
              | exact hc.A
              | exact hu
        · constructor <;>
            first
              | rfl
              | exact hs.iai
              | exact hs.s
              | exact hs.iaexcl
              | exact hs.ss
              | exact hs.x_old
              | exact hs.A_old
              | exact hs.u_old
      · exact ha
  · refine (drop_l_agree ar P _ _ _ _ l ?_ ?_).map _ _ ?_
    · refine ⟨?_, ?_, rfl⟩
      · constructor <;>
          first
            | rfl
            | exact hc.maxIter
            | exact hc.iter
            | exact hc.c1
            | exact hc.c2
            | exact hc.A
            | exact hu
      · constructor <;>
          first
            | rfl
            | exact hs.iai
            | exact hs.s
            | exact hs.iaexcl
            | exact hs.ss
            | exact hs.x_old
            | exact hs.A_old
            | exact hs.u_old
    · exact hu
    · intro f3 g3 h3
      show Agree2a P _ _
      have hc3 := h3.core
      have hs3 := h3.sel
      refine ⟨⟨hc3.maxIter, hc3.iter, hc3.f_value, hc3.J, hc3.R, hc3.x, hc3.iq, hc3.R_norm,
        hc3.c1, hc3.c2, hc3.A, hc3.u⟩, ⟨hs3.iai, ?_, hs3.iaexcl, hs3.ss, hs3.ip, hs3.x_old,
        hs3.A_old, hs3.u_old⟩, h3.np⟩
      intro k hk
      simp only [vset]
      rw [hc3.x]
      split_ifs
      · rfl
      · exact hs3.s k hk

theorem step_2c_agree (ar : Arith α) (P : Problem α) (f g : Frame α) (t1 : Option α)
    (l : Int) (t2 : Option α) (hd : AgreeDir P f g) :
    OptRel (AgreeNext P) (step_2c ar P f t1 l t2) (step_2c ar P g t1 l t2) := by
  have hb := hd.base
  have hc := hb.core
  have hs := hb.sel
  unfold step_2c
  cases t2 with
  | none =>
    cases t1 with
    | none =>
      dsimp only
      refine ⟨rfl, hc.x, hc.f_value, hc.iter, hc.iq, ?_⟩
      exact hc.A.mono (by simp)
    | some t =>
      dsimp only
      rw [← hc.iq]
      split_ifs
      · trivial
      · refine (drop_l_agree ar P f g _ _ l hb ?_).map _ _ ?_
        · exact dual_update_agree _ _ _ _ _ _ hc.u hd.r
        · intro f2 g2 h2
          exact h2
  | some b =>
    dsimp only
    rw [← hc.iq]
    split_ifs
    · trivial
    · exact primal_dual_step_agree ar P f g t1 l b hd

theorem step_l2a_agree (ar : Arith α) (P : Problem α) (f g : Frame α) (h : Agree2a P f g) :
    OptRel (AgreeNext P) (step_l2a ar P f) (step_l2a ar P g) := by
  have hd := direction_agree P f g h
  have hc := h.core
  have hs := h.sel
  have hb := hd.base
  have hdiq : (direction P f).iq = f.iq := rfl
  have htl : ratio_loop (direction P f).slv.r (direction P f).slv.u (direction P f).slv.A
      P.nEqCon (f.iq - P.nEqCon)
      = ratio_loop (direction P g).slv.r (direction P g).slv.u (direction P g).slv.A
      P.nEqCon (f.iq - P.nEqCon) := by
    by_cases hle : f.iq ≤ P.nEqCon
    · rw [Nat.sub_eq_zero_of_le hle]; rfl
    · apply ratio_loop_agree
      · exact hd.r.mono (by rw [hdiq]; omega)
      · exact hb.core.u.mono (by rw [hdiq]; omega)
      · exact hb.core.A.mono (by rw [hdiq]; omega)
  unfold step_l2a
  dsimp only
  rw [← hc.iq, ← hs.ip, ← htl, ← hd.z, ← hb.np]
  by_cases h1 : P.nVars < f.iq ∨ P.nIneqCon + P.nEqCon < f.iq
  · rw [if_pos h1, if_pos h1]; trivial
  · rw [if_neg h1, if_neg h1]
    by_cases hz : ar.eps < |dot P.nVars (direction P f).slv.z (direction P f).slv.z|
    · by_cases hip : P.nIneqCon ≤ f.ip
      · rw [if_pos ⟨hz, hip⟩, if_pos ⟨hz, hip⟩]; trivial
      · rw [if_neg (fun hn => hip hn.2), if_neg (fun hn => hip hn.2)]
        have hsip : (direction P f).slv.s f.ip = (direction P g).slv.s f.ip :=
          hs.s f.ip (by omega)
        rw [← hsip]
        exact step_2c_agree ar P _ _ _ _ _ hd
    · rw [if_neg (fun hn => hz hn.1), if_neg (fun hn => hz hn.1)]
      simp only [full_step, if_neg hz]
      exact step_2c_agree ar P _ _ _ _ _ hd

theorem step_l2_agree (P : Problem α) (f g : Frame α) (h : Agree2 P f g) :
    OptRel (AgreeNext P) (step_l2 P f) (step_l2 P g) := by
  have hc := h.core
  have hs := h.sel
  have hsel : select f.slv.s f.slv.iai f.slv.iaexcl P.nIneqCon (f.ss, f.ip)
      = select g.slv.s g.slv.iai g.slv.iaexcl P.nIneqCon (g.ss, g.ip) := by
    rw [← hs.ss, ← hs.ip]
    exact select_agree _ _ _ _ _ _ _ P.nIneqCon P.nIneqCon (le_refl _) hs.s hs.iai hs.iaexcl
  unfold step_l2
  dsimp only
  rw [← hsel, ← hc.iq]
  split_ifs with h1 h2
  · refine ⟨rfl, hc.x, hc.f_value, hc.iter, rfl, hc.A⟩
  · trivial
  · show Agree2a P _ _
    refine ⟨?_, ?_, rfl⟩
    · constructor <;>
        first
          | rfl
          | exact hc.maxIter
          | exact hc.iter
          | exact hc.f_value
          | exact hc.J
          | exact hc.R
          | exact hc.x
          | exact hc.R_norm
          | exact hc.c1
          | exact hc.c2
          | skip
      · intro k hk
        simp only [vset]
        split_ifs
        · rfl
        · exact hc.A k (by simp at hk; omega)
      · intro k hk
        simp only [vset]
        split_ifs
        · rfl
        · exact hc.u k (by simp at hk; omega)
    · constructor <;>
        first
          | rfl
          | exact hs.iai
          | exact hs.s
          | exact hs.iaexcl
          | exact hs.x_old
          | exact hs.A_old
          | exact hs.u_old

theorem psi_sum_congr (n : Nat) (s t : Vec α) (h : AgreeOn n s t) :
    psi_sum n s = psi_sum n t := by
  unfold psi_sum
  apply sumTo_congr
  intro k hk
  simp only [h k hk]

theorem step_l1_agree (ar : Arith α) (P : Problem α) (f g : Frame α) (h : Agree1 P f g) :
    OptRel (AgreeNext P) (step_l1 ar P f) (step_l1 ar P g) := by
  have hc := h.core
  have hm : OptRel (AgreeOn P.nIneqCon)
      (mark_active P.nIneqCon f.slv.A P.nEqCon (f.iq - P.nEqCon) f.slv.iai)
      (mark_active P.nIneqCon g.slv.A P.nEqCon (f.iq - P.nEqCon) g.slv.iai) := by
    by_cases hle : f.iq ≤ P.nEqCon
    · rw [Nat.sub_eq_zero_of_le hle]
      exact h.iai
    · apply mark_active_agree
      · exact hc.A.mono (by omega)
      · exact h.iai
  have hpsi : psi_sum P.nIneqCon (fun i =>
        if i < P.nIneqCon then dot P.nVars (fun k => P.CI i k) f.x + P.ci0 i else f.slv.s i)
      = psi_sum P.nIneqCon (fun i =>
        if i < P.nIneqCon then dot P.nVars (fun k => P.CI i k) f.x + P.ci0 i else g.slv.s i) := by
    apply psi_sum_congr
    intro k hk
    simp only [if_pos hk]
  unfold step_l1
  dsimp only
  rw [← hc.maxIter, ← hc.iter, ← hc.iq, ← hc.x, ← hc.c1, ← hc.c2, ← hpsi]
  split_ifs with h1 h2 h3
  · exact ⟨rfl, rfl, hc.f_value, rfl, rfl, hc.A⟩
  · trivial
  · refine hm.map _ _ ?_
    intro iai iai1 hi
    refine ⟨rfl, rfl, hc.f_value, rfl, rfl, hc.A⟩
  · refine hm.map _ _ ?_
    intro iai iai1 hi
    show Agree2 P _ _
    refine ⟨?_, ?_⟩
    · constructor <;>
        first
          | rfl
          | exact hc.maxIter
          | exact hc.f_value
          | exact hc.J
          | exact hc.R
          | exact hc.R_norm
          | exact hc.A
          | exact hc.u
    · constructor <;>
        first
          | rfl
          | exact hi
          | skip
      · intro k hk
        simp only [if_pos hk]
      · intro k hk
        simp only [if_pos hk]
      · intro k hk
        simp only [if_pos hk]
        exact hc.A k hk
      · intro k hk
        simp only [if_pos hk]
        exact hc.u k hk

theorem run_agree (ar : Arith α) (P : Problem α) (fuel : Nat) :
    ∀ (a b : Next α), AgreeNext P a b → AgreeOutcome (run ar P fuel a) (run ar P fuel b) := by
  induction fuel with
  | zero =>
    intro a b h
    cases a <;> cases b <;> first | exact h | trivial
  | succ k ih =>
    intro a b h
    cases a with
    | ret st f =>
      cases b with
      | ret st1 g => exact h
      | goto_l1 g => exact absurd h id
      | goto_l2 g => exact absurd h id
      | goto_l2a g => exact absurd h id
    | goto_l1 f =>
      cases b with
      | ret st1 g => exact absurd h id
      | goto_l1 g =>
        have hs := step_l1_agree ar P f g h
        simp only [run]
        cases h1 : step_l1 ar P f with
        | none =>
          rw [h1] at hs
          rw [hs.none_left]
          trivial
        | some nx =>
          rw [h1] at hs
          obtain ⟨nx1, h2, h3⟩ := hs.some_left
          rw [h2]
          exact ih nx nx1 h3
      | goto_l2 g => exact absurd h id
      | goto_l2a g => exact absurd h id
    | goto_l2 f =>
      cases b with
      | ret st1 g => exact absurd h id
      | goto_l1 g => exact absurd h id
      | goto_l2 g =>
        have hs := step_l2_agree P f g h
        simp only [run]
        cases h1 : step_l2 P f with
        | none =>
          rw [h1] at hs
          rw [hs.none_left]
          trivial
        | some nx =>
          rw [h1] at hs
          obtain ⟨nx1, h2, h3⟩ := hs.some_left
          rw [h2]
          exact ih nx nx1 h3
      | goto_l2a g => exact absurd h id
    | goto_l2a f =>
      cases b with
      | ret st1 g => exact absurd h id
      | goto_l1 g => exact absurd h id
      | goto_l2 g => exact absurd h id
      | goto_l2a g =>
        have hs := step_l2a_agree ar P f g h
        simp only [run]
        cases h1 : step_l2a ar P f with
        | none =>
          rw [h1] at hs
          rw [hs.none_left]
          trivial
        | some nx =>
          rw [h1] at hs
          obtain ⟨nx1, h2, h3⟩ := hs.some_left
          rw [h2]
          exact ih nx nx1 h3

end Agreement2

end Eiquadprog

namespace Eiquadprog

section Agreement3

variable {α : Type} [LinearOrderedField α]

theorem eq_step_agree (ar : Arith α) (P : Problem α) (i : Nat) (f g : Frame α)
    (h : AgreeCore f.iq f g) (hi : f.iq = i) :
    OptRel (fun a b => a.1 = b.1 ∧ AgreeCore a.2.iq a.2 b.2 ∧ a.2.iq = i + 1)
      (eq_step ar P i f) (eq_step ar P i g) := by
  have hr : AgreeOn f.iq
      (update_r f.slv.R f.slv.r (compute_d P.nVars f.slv.m_J (fun k => P.CE i k)) f.iq)
      (update_r f.slv.R g.slv.r (compute_d P.nVars f.slv.m_J (fun k => P.CE i k)) f.iq) := by
    intro k hk
    simp only [update_r, if_pos hk]
  unfold eq_step
  dsimp only
  rw [← h.J, ← h.R, ← h.iq, ← h.R_norm, ← h.x, ← h.f_value]
  split_ifs with h1
  · trivial
  · refine (OptRel.refl_mem _).map _ _ ?_
    rintro a _ ⟨rfl, ha⟩
    have haq := (add_constraint_iq ar _ _ _ _ _ _ a ha).1
    refine ⟨rfl, ?_, ?_⟩
    · constructor <;>
        first
          | rfl
          | exact h.maxIter
          | exact h.iter
          | exact h.c1
          | exact h.c2
          | skip
      · intro k hk
        simp only [vset]
        split_ifs with hki
        · rfl
        · exact h.A k (by simp at hk; omega)
      · intro k hk
        dsimp only
        split_ifs with hk1 hk2
        · rw [h.u k hk1, hr k hk1]
        · rfl
        · exfalso; simp at hk; omega
    · simp [haq, hi]

theorem eq_loop_agree (ar : Arith α) (P : Problem α) (cnt : Nat) :
    ∀ (i : Nat) (f g : Frame α), AgreeCore f.iq f g → f.iq = i →
      OptRel (fun a b => a.1 = b.1 ∧ AgreeCore a.2.iq a.2 b.2)
        (eq_loop ar P i cnt f) (eq_loop ar P i cnt g) := by
  induction cnt with
  | zero =>
    intro i f g h _
    exact ⟨rfl, h⟩
  | succ c ih =>
    intro i f g h hi
    have hs := eq_step_agree ar P i f g h hi
    simp only [eq_loop]
    cases h1 : eq_step ar P i f with
    | none =>
      rw [h1] at hs
      rw [hs.none_left]
      trivial
    | some r =>
      rw [h1] at hs
      obtain ⟨r1, h2, h3, h4, h5⟩ := hs.some_left
      rw [h2]
      obtain ⟨b, f1⟩ := r
      obtain ⟨b1, g1⟩ := r1
      simp only at h3 h4 h5
      subst h3
      cases b with
      | false => exact ⟨rfl, h4⟩
      | true => exact ih (i + 1) f1 g1 h4 h5

theorem resized_fields (slv : Solver α) (P : Problem α) :
    (resized slv P).m_maxIter = slv.m_maxIter ∧
    (resized slv P).is_inverse_provided_ = slv.is_inverse_provided_ ∧
    (resized slv P).q = slv.q ∧ (resized slv P).A = slv.A := by
  unfold resized
  split_ifs <;> simp [reset]

theorem preprocess_agree (ar : Arith α) (P : Problem α) (slv slv1 : Solver α)
    (hm : slv.m_maxIter = slv1.m_maxIter) (h0 : slv.is_inverse_provided_ = false)
    (h1 : slv1.is_inverse_provided_ = false) :
    AgreeCore 0 (preprocess ar slv P) (preprocess ar slv1 P) ∧ (preprocess ar slv P).iq = 0 := by
  have e0 := resized_fields slv P
  have e1 := resized_fields slv1 P
  have m0 : (resized slv P).is_inverse_provided_ = false := e0.2.1.trans h0
  have m1 : (resized slv1 P).is_inverse_provided_ = false := e1.2.1.trans h1
  unfold preprocess
  dsimp only
  rw [m0, m1]
  refine ⟨?_, rfl⟩
  constructor <;>
    first
      | rfl
      | (intro k hk; exact absurd hk (Nat.not_lt_zero k))
      | skip
  exact e0.1.trans (hm.trans e1.1.symm)

theorem start_agree (ar : Arith α) (P : Problem α) (slv slv1 : Solver α)
    (hm : slv.m_maxIter = slv1.m_maxIter) (h0 : slv.is_inverse_provided_ = false)
    (h1 : slv1.is_inverse_provided_ = false) :
    OptRel (AgreeStart P) (start ar slv P) (start ar slv1 P) := by
  obtain ⟨hp, hq⟩ := preprocess_agree ar P slv slv1 hm h0 h1
  have hl := eq_loop_agree ar P P.nEqCon 0 _ _ (hq ▸ hp) hq
  unfold start
  cases h2 : eq_loop ar P 0 P.nEqCon (preprocess ar slv P) with
  | none =>
    rw [h2] at hl
    rw [hl.none_left]
    trivial
  | some r =>
    rw [h2] at hl
    obtain ⟨r1, h3, h4, h5⟩ := hl.some_left
    rw [h3]
    obtain ⟨b, f1⟩ := r
    obtain ⟨b1, g1⟩ := r1
    simp only at h4 h5
    subst h4
    cases b with
    | false => exact ⟨rfl, rfl, h5⟩
    | true =>
      show Agree1 P _ _
      refine ⟨?_, ?_⟩
      · constructor <;>
          first
            | exact h5.maxIter
            | exact h5.iter
            | exact h5.f_value
            | exact h5.J
            | exact h5.R
            | exact h5.x
            | exact h5.iq
            | exact h5.R_norm
            | exact h5.c1
            | exact h5.c2
            | exact h5.A
            | exact h5.u
      · intro k hk
        simp only [if_pos hk]

theorem drop_l_mode (ar : Arith α) (P : Problem α) (f f1 : Frame α) (u : Vec α) (l : Int)
    (h : drop_l ar P f u l = some f1) :
    f1.slv.is_inverse_provided_ = f.slv.is_inverse_provided_ := by
  unfold drop_l at h
  dsimp only at h
  split_ifs at h
  simp only [Option.map_eq_some'] at h
  obtain ⟨dr, -, rfl⟩ := h
  rfl

theorem rollback_mode (ar : Arith α) (P : Problem α) (f : Frame α) (a : AddResult α)
    (nx : Next α) (h : rollback ar P f a = some nx) :
    nx.frame.slv.is_inverse_provided_ = f.slv.is_inverse_provided_ := by
  unfold rollback at h
  dsimp only at h
  split_ifs at h
  simp only [Option.bind_eq_some, Option.map_eq_some'] at h
  obtain ⟨dr, -, r, -, rfl⟩ := h
  rfl

theorem step_l2_mode (P : Problem α) (f : Frame α) (nx : Next α) (h : step_l2 P f = some nx) :
    nx.frame.slv.is_inverse_provided_ = f.slv.is_inverse_provided_ := by
  unfold step_l2 at h
  dsimp only at h
  split_ifs at h <;> simp at h <;> subst h <;> rfl

theorem primal_dual_step_mode (ar : Arith α) (P : Problem α) (f : Frame α) (t1 : Option α)
    (l : Int) (b : α) (nx : Next α) (h : primal_dual_step ar P f t1 l b = some nx) :
    nx.frame.slv.is_inverse_provided_ = f.slv.is_inverse_provided_ := by
  unfold primal_dual_step at h
  dsimp only at h
  split_ifs at h
  · simp only [Option.bind_eq_some] at h
    obtain ⟨a, -, h⟩ := h
    split_ifs at h
    · simp at h; subst h; rfl
    · have := rollback_mode ar P _ _ nx h
      simpa using this
  · simp only [Option.map_eq_some'] at h
    obtain ⟨f3, hd, rfl⟩ := h
    have := drop_l_mode ar P _ _ _ _ hd
    simpa [Next.frame] using this

theorem step_2c_mode (ar : Arith α) (P : Problem α) (f : Frame α) (t1 : Option α)
    (l : Int) (t2 : Option α) (nx : Next α) (h : step_2c ar P f t1 l t2 = some nx) :
    nx.frame.slv.is_inverse_provided_ = f.slv.is_inverse_provided_ := by
  unfold step_2c at h
  split at h
  · split at h
    · simp at h; subst h; rfl
    · split_ifs at h
      simp only [Option.map_eq_some'] at h
      obtain ⟨f2, hd, rfl⟩ := h
      have := drop_l_mode ar P _ _ _ _ hd
      simpa [Next.frame] using this
  · split_ifs at h
    have := primal_dual_step_mode ar P _ _ _ _ nx h
    simpa using this

theorem step_l2a_mode (ar : Arith α) (P : Problem α) (f : Frame α) (nx : Next α)
    (h : step_l2a ar P f = some nx) :
    nx.frame.slv.is_inverse_provided_ = f.slv.is_inverse_provided_ := by
  unfold step_l2a at h
  dsimp only at h
  split_ifs at h
  have := step_2c_mode ar P _ _ _ _ nx h
  simpa [direction] using this

theorem step_l1_mode (ar : Arith α) (P : Problem α) (f : Frame α) (nx : Next α)
    (h : step_l1 ar P f = some nx) :
    nx.frame.slv.is_inverse_provided_ = f.slv.is_inverse_provided_ := by
  unfold step_l1 at h
  dsimp only at h
  split_ifs at h with h1 h2 h3
  · simp at h; subst h; rfl
  · simp only [Option.map_eq_some'] at h
    obtain ⟨iai, -, rfl⟩ := h
    rfl
  · simp only [Option.map_eq_some'] at h
    obtain ⟨iai, -, rfl⟩ := h
    rfl

theorem eq_step_A (ar : Arith α) (P : Problem α) (i : Nat) (f f1 : Frame α) (b : Bool)
    (h : eq_step ar P i f = some (b, f1)) :
    f1.slv.A = vset f.slv.A i (-(i : Int) - 1) ∧ f1.iq = f.iq + 1 ∧
      f1.slv.is_inverse_provided_ = f.slv.is_inverse_provided_ := by
  unfold eq_step at h
  dsimp only at h
  split_ifs at h
  simp only [Option.map_eq_some', Prod.mk.injEq] at h
  obtain ⟨a, ha, -, rfl⟩ := h
  exact ⟨rfl, (add_constraint_iq ar _ _ _ _ _ _ a ha).1, rfl⟩

theorem eq_loop_A (ar : Arith α) (P : Problem α) (cnt : Nat) :
    ∀ (i : Nat) (f f1 : Frame α) (b : Bool), eq_loop ar P i cnt f = some (b, f1) → f.iq = i →
      (f1.slv.A = fun k => if i ≤ k ∧ k < f1.iq then -(k : Int) - 1 else f.slv.A k) ∧
        i ≤ f1.iq ∧ f1.slv.is_inverse_provided_ = f.slv.is_inverse_provided_ := by
  induction cnt with
  | zero =>
    intro i f f1 b h hi
    simp [eq_loop] at h
    obtain ⟨-, rfl⟩ := h
    refine ⟨?_, by omega, rfl⟩
    funext k
    rw [if_neg]
    omega
  | succ c ih =>
    intro i f f1 b h hi
    simp only [eq_loop] at h
    split at h
    · simp at h
    · rename_i f2 hs
      simp at h
      obtain ⟨-, rfl⟩ := h
      obtain ⟨hA, hq, hmode⟩ := eq_step_A ar P i f _ _ hs
      refine ⟨?_, by omega, hmode⟩
      rw [hA]
      funext k
      simp only [vset]
      by_cases hk : k = i
      · subst hk
        rw [if_pos rfl, if_pos (by omega)]
      · rw [if_neg hk, if_neg (by omega)]
    · rename_i f2 hs
      obtain ⟨hA, hq, hmode⟩ := eq_step_A ar P i f _ _ hs
      obtain ⟨hA1, hq1, hmode1⟩ := ih (i + 1) f2 f1 b h (by omega)
      refine ⟨?_, by omega, hmode1.trans hmode⟩
      rw [hA1, hA]
      funext k
      simp only [vset]
      by_cases hk : k = i
      · subst hk
        rw [if_neg (by omega), if_pos rfl, if_pos (by omega)]
      · by_cases hk1 : i + 1 ≤ k ∧ k < f1.iq
        · rw [if_pos hk1, if_pos (by omega)]
        · rw [if_neg hk1, if_neg hk, if_neg (by omega)]

theorem preprocess_A (ar : Arith α) (slv : Solver α) (P : Problem α) :
    (preprocess ar slv P).slv.A = slv.A ∧ (preprocess ar slv P).iq = 0 ∧
      (preprocess ar slv P).slv.is_inverse_provided_ = slv.is_inverse_provided_ := by
  have e := resized_fields slv P
  unfold preprocess
  dsimp only
  exact ⟨e.2.2.2, rfl, e.2.1⟩

/-- The configuration (iteration cap, factorisation mode) is the same on return as on
entry. -/
theorem solve_config (ar : Arith α) (fuel : Nat) (slv : Solver α) (P : Problem α) (st : Status)
    (f : Frame α) (h : solve_quadprog ar fuel slv P = Outcome.done st f) :
    f.slv.m_maxIter = slv.m_maxIter ∧
      f.slv.is_inverse_provided_ = slv.is_inverse_provided_ := by
  unfold solve_quadprog at h
  split at h
  · simp at h
  · rename_i nx hs
    have h0 : nx.frame.slv.m_maxIter = slv.m_maxIter ∧
        nx.frame.slv.is_inverse_provided_ = slv.is_inverse_provided_ := by
      refine ⟨(start_slv ar slv P nx hs).2.1, ?_⟩
      unfold start at hs
      have hp := preprocess_A ar slv P
      split at hs
      · simp at hs
      · rename_i f0 he
        have := eq_loop_A ar P _ _ _ _ _ he hp.2.1
        simp at hs; subst hs
        exact this.2.2.trans hp.2.2
      · rename_i f0 he
        have := eq_loop_A ar P _ _ _ _ _ he hp.2.1
        simp at hs; subst hs
        exact this.2.2.trans hp.2.2
    exact run_invariant ar P
      (fun nx => nx.frame.slv.m_maxIter = slv.m_maxIter ∧
        nx.frame.slv.is_inverse_provided_ = slv.is_inverse_provided_)
      (fun f1 nx1 hQ hs1 => ⟨(counter_step_l1 ar P f1 nx1 hs1).1.trans hQ.1,
        (step_l1_mode ar P f1 nx1 hs1).trans hQ.2⟩)
      (fun f1 nx1 hQ hs1 => ⟨(step_l2_slv P f1 nx1 hs1).2.1.trans hQ.1,
        (step_l2_mode P f1 nx1 hs1).trans hQ.2⟩)
      (fun f1 nx1 hQ hs1 => ⟨(step_l2a_slv ar P f1 nx1 hs1).2.1.trans hQ.1,
        (step_l2a_mode ar P f1 nx1 hs1).trans hQ.2⟩)
      fuel nx h0 st f h

end Agreement3

end Eiquadprog

namespace Eiquadprog

/-- C10 (as stated, refuted): in the mode where the caller supplies the inverse factor, the
first solve rotates `m_J` in place, so the second solve of the same problem on the same
solver starts from another factor: here the first call returns after 2 iterations with one
active constraint, the second after 3 iterations with two. -/
theorem resolve_differs_in_inverse_mode :
    ∃ f1 f2, solve_quadprog rat_arith 100 inverse_mode_solver qp_two_inequalities
        = Outcome.done Status.EIQUADPROG_FAST_OPTIMAL f1 ∧
      solve_quadprog rat_arith 100 f1.slv qp_two_inequalities
        = Outcome.done Status.EIQUADPROG_FAST_OPTIMAL f2 ∧
      f1.slv.iter = 2 ∧ f2.slv.iter = 3 ∧ f1.slv.q = 1 ∧ f2.slv.q = 2 ∧ f1.x 0 ≠ f2.x 0 := by
  have h : (solve_quadprog rat_arith 100 inverse_mode_solver qp_two_inequalities).check
      (fun st f1 => decide (st = Status.EIQUADPROG_FAST_OPTIMAL ∧ f1.slv.iter = 2 ∧ f1.slv.q = 1) &&
        (solve_quadprog rat_arith 100 f1.slv qp_two_inequalities).check
          (fun st2 f2 => decide (st2 = Status.EIQUADPROG_FAST_OPTIMAL ∧ f2.slv.iter = 3 ∧
            f2.slv.q = 2 ∧ f1.x 0 ≠ f2.x 0))) = true := by decide!
  obtain ⟨st, f1, hf1, hp⟩ := Outcome.check_iff.mp h
  simp only [Bool.and_eq_true, decide_eq_true_eq] at hp
  obtain ⟨⟨rfl, hi1, hq1⟩, hp2⟩ := hp
  obtain ⟨st2, f2, hf2, hp3⟩ := Outcome.check_iff.mp hp2
  simp only [decide_eq_true_eq] at hp3
  obtain ⟨rfl, hi2, hq2, hx⟩ := hp3
  exact ⟨f1, f2, hf1, hf2, hi1, hi2, hq1, hq2, hx⟩

/-- C10 (amended): in the mode where the solver factorises `H` itself
(`is_inverse_provided_ = false`), solving the same problem twice in a row on the same solver
gives the same outputs, whatever the persistent buffers held before the first call: if the
first call returns status `st` and leaves the solver in state `f1.slv`, the second call
returns `st` with the same `x`, `f_value`, `iter`, `q` and `A[0..q)`. -/
theorem resolve_same_outputs {α : Type} [LinearOrderedField α] (ar : Arith α) (fuel : Nat)
    (slv : Solver α) (P : Problem α) (st : Status) (f1 : Frame α)
    (hmode : slv.is_inverse_provided_ = false)
    (h : solve_quadprog ar fuel slv P = Outcome.done st f1) :
    ∃ f2, solve_quadprog ar fuel f1.slv P = Outcome.done st f2 ∧ f2.x = f1.x ∧
      f2.slv.f_value = f1.slv.f_value ∧ f2.slv.iter = f1.slv.iter ∧ f2.slv.q = f1.slv.q ∧
      ∀ k, k < f1.slv.q → f2.slv.A k = f1.slv.A k := by
  obtain ⟨hmax, hmode1⟩ := solve_config ar fuel slv P st f1 h
  rw [hmode] at hmode1
  have hst := start_agree ar P slv f1.slv hmax.symm hmode hmode1
  unfold solve_quadprog at h ⊢
  cases hs : start ar slv P with
  | none => simp [hs] at h
  | some nx =>
    rw [hs] at h hst
    obtain ⟨nx1, hs1, hrel⟩ := hst.some_left
    rw [hs1]
    dsimp only at h ⊢
    cases nx with
    | ret st0 f0 =>
      rw [run_ret] at h
      simp only [Outcome.done.injEq] at h
      obtain ⟨rfl, rfl⟩ := h
      cases nx1 with
      | ret st1 g0 =>
        obtain ⟨rfl, rfl, hcore⟩ := hrel
        rw [run_ret]
        refine ⟨g0, rfl, hcore.x.symm, hcore.f_value.symm, hcore.iter.symm, ?_, ?_⟩
        · have := start_slv ar f0.slv P _ hs1
          unfold start at hs1
          split at hs1
          · simp at hs1
          · rename_i f3 he
            simp at hs1; subst hs1
            exact (eq_loop_slv ar P _ _ _ _ _ he).2.2.trans (preprocess_slv ar f0.slv P).2.2
          · simp at hs1
        · intro k _
          have hA0 : f0.slv.A = fun k => if 0 ≤ k ∧ k < f0.iq then -(k : Int) - 1 else slv.A k := by
            unfold start at hs
            split at hs
            · simp at hs
            · rename_i f3 he
              simp at hs; subst hs
              have hp := preprocess_A ar slv P
              have := (eq_loop_A ar P _ _ _ _ _ he hp.2.1).1
              rw [this, hp.1]
            · simp at hs
          have hA1 : g0.slv.A = fun k => if 0 ≤ k ∧ k < g0.iq then -(k : Int) - 1
              else f0.slv.A k := by
            unfold start at hs1
            split at hs1
            · simp at hs1
            · rename_i f3 he
              simp at hs1; subst hs1
              have hp := preprocess_A ar f0.slv P
              have := (eq_loop_A ar P _ _ _ _ _ he hp.2.1).1
              rw [this, hp.1]
            · simp at hs1
          rw [hA1, ← hcore.iq]
          dsimp only
          split_ifs with hk
          · rw [hA0]
            dsimp only
            rw [if_pos hk]
          · rfl
      | goto_l1 g0 => exact absurd hrel id
      | goto_l2 g0 => exact absurd hrel id
      | goto_l2a g0 => exact absurd hrel id
    | goto_l1 f0 =>
      cases nx1 with
      | ret st1 g0 => exact absurd hrel id
      | goto_l1 g0 =>
        have hrun := run_agree ar P fuel (Next.goto_l1 f0) (Next.goto_l1 g0) hrel
        rw [h] at hrun
        cases hr : run ar P fuel (Next.goto_l1 g0) with
        | done st2 f2 =>
          rw [hr] at hrun
          obtain ⟨rfl, ho⟩ := hrun
          exact ⟨f2, rfl, ho.x.symm, ho.f_value.symm, ho.iter.symm, ho.q.symm,
            fun k hk => (ho.A k hk).symm⟩
        | fault => rw [hr] at hrun; exact absurd hrun id
        | out_of_fuel => rw [hr] at hrun; exact absurd hrun id
      | goto_l2 g0 => exact absurd hrel id
      | goto_l2a g0 => exact absurd hrel id
    | goto_l2 f0 =>
      exfalso
      unfold start at hs
      split at hs <;> simp at hs
    | goto_l2a f0 =>
      exfalso
      unfold start at hs
      split at hs <;> simp at hs

/-- Witness for C10 (amended): the problem with the single inequality `x₀ + x₁ ≥ 1` solved
on a fresh solver with iteration cap 100. -/
theorem resolve_same_outputs_witness :
    ∃ f1 f2, solve_quadprog rat_arith 10 (fresh_solver 100) qp_two_inequalities
        = Outcome.done Status.EIQUADPROG_FAST_OPTIMAL f1 ∧
      solve_quadprog rat_arith 10 f1.slv qp_two_inequalities
        = Outcome.done Status.EIQUADPROG_FAST_OPTIMAL f2 ∧ f2.x = f1.x := by
  have h : (solve_quadprog rat_arith 10 (fresh_solver 100) qp_two_inequalities).status
      = some Status.EIQUADPROG_FAST_OPTIMAL := by decide!
  have hf := Outcome.eq_done_of_status
    (preprocess rat_arith (fresh_solver 100) qp_two_inequalities) h
  obtain ⟨f2, h2, hx, -⟩ := resolve_same_outputs rat_arith 10 (fresh_solver 100)
    qp_two_inequalities _ _ rfl hf
  exact ⟨_, f2, hf, h2, hx⟩

end Eiquadprog

namespace Eiquadprog

theorem cycle_step_l2 (f : Frame ℚ) (h : CycleState f) :
    ∃ f1, step_l2 qp_degenerate_add f = some (Next.goto_l2a f1) ∧ CycleState f1 ∧
      f1.slv.np 0 = 1 / 2 ^ 100 ∧ f1.slv.A 0 = 0 := by
  obtain ⟨hiq, hip, hss, hs0, hs1, hJ, hR⟩ := h
  have hsel : select f.slv.s f.slv.iai f.slv.iaexcl 2 ((-1 : ℚ), 0) = (-1, 0) := by
    simp [select, hs0, hs1]
  unfold step_l2
  simp only [qp_degenerate_add, hss, hip, hiq, hsel]
  norm_num
  simp [CycleState, hiq, hip, hss, hs0, hs1, hJ, hR, vset]

theorem cycle_step_l2a (f : Frame ℚ) (h : CycleState f) (hnp : f.slv.np 0 = 1 / 2 ^ 100)
    (hA : f.slv.A 0 = 0) :
    ∃ f1, step_l2a rat_arith qp_degenerate_add f = some (Next.goto_l2 f1) ∧ CycleState f1 := by
  obtain ⟨hiq, hip, hss, hs0, hs1, hJ, hR⟩ := h
  have hd0 : compute_d 1 f.slv.m_J f.slv.np 0 = 1 / 2 ^ 60 := by
    simp [compute_d, sumTo, hJ, hnp]; norm_num
  have hz0 : update_z 1 f.slv.m_J (compute_d 1 f.slv.m_J f.slv.np) 0 0 = 1 / 2 ^ 20 := by
    simp only [update_z, sumTo, hd0, hJ]; norm_num
  have hzz : dot 1 (update_z 1 f.slv.m_J (compute_d 1 f.slv.m_J f.slv.np) 0)
      (update_z 1 f.slv.m_J (compute_d 1 f.slv.m_J f.slv.np) 0) = 1 / 2 ^ 40 := by
    simp only [dot, sumTo, hz0]; norm_num
  have hznp : dot 1 (update_z 1 f.slv.m_J (compute_d 1 f.slv.m_J f.slv.np) 0) f.slv.np
      = 1 / 2 ^ 120 := by
    simp only [dot, sumTo, hz0, hnp]; norm_num
  have he1 : rat_arith.eps < |(1 : ℚ) / 2 ^ 40| := by
    rw [abs_of_pos (by norm_num)]; simp only [rat_arith]; norm_num
  have he2 : |(1 : ℚ) / 2 ^ 60| ≤ rat_arith.eps * 1 := by
    rw [abs_of_pos (by norm_num)]; simp only [rat_arith]; norm_num
  have hfs : full_step rat_arith 1 (update_z 1 f.slv.m_J (compute_d 1 f.slv.m_J f.slv.np) 0)
      f.slv.np (-1) = some (2 ^ 120) := by
    simp only [full_step, hzz, hznp, if_pos he1]
    rw [if_neg (by norm_num [abs_of_pos])]
    norm_num
  have hadd : add_constraint rat_arith 1 f.slv.R f.slv.m_J (compute_d 1 f.slv.m_J f.slv.np) 0 1
      = some ⟨false, fun i c => if c = 0 + 1 - 1 ∧ i < 0 + 1 then compute_d 1 f.slv.m_J f.slv.np i
          else f.slv.R i c, f.slv.m_J, compute_d 1 f.slv.m_J f.slv.np, 0 + 1, 1⟩ := by
    simp only [add_constraint, add_loop, hd0, if_pos he2]
    rfl
  have hdz : (direction qp_degenerate_add f).slv.z
      = update_z 1 f.slv.m_J (compute_d 1 f.slv.m_J f.slv.np) 0 := by
    simp [direction, qp_degenerate_add, hiq]
  have hdd : (direction qp_degenerate_add f).slv.d = compute_d 1 f.slv.m_J f.slv.np := rfl
  have h1 : step_l2a rat_arith qp_degenerate_add f
      = step_2c rat_arith qp_degenerate_add (direction qp_degenerate_add f) none 0
          (some (2 ^ 120)) := by
    unfold step_l2a
    have e1 : qp_degenerate_add.nVars = 1 := rfl
    have e2 : qp_degenerate_add.nIneqCon = 2 := rfl
    have e3 : qp_degenerate_add.nEqCon = 0 := rfl
    have e4 : (direction qp_degenerate_add f).slv.np = f.slv.np := rfl
    have e5 : (direction qp_degenerate_add f).slv.s = f.slv.s := rfl
    simp only [e1, e2, e3, e4, e5, hdz, hiq, hip, hs0, hfs, ratio_loop]
    norm_num
  rw [h1]
  have h2 : step_2c rat_arith qp_degenerate_add (direction qp_degenerate_add f) none 0
      (some (2 ^ 120))
      = primal_dual_step rat_arith qp_degenerate_add (direction qp_degenerate_add f) none 0
          (2 ^ 120) := by
    simp [step_2c, qp_degenerate_add, direction, hiq]
  rw [h2]
  unfold primal_dual_step
  have e6 : (direction qp_degenerate_add f).slv.R = f.slv.R := rfl
  have e7 : (direction qp_degenerate_add f).slv.m_J = f.slv.m_J := rfl
  have e8 : (direction qp_degenerate_add f).iq = 0 := hiq
  have e9 : (direction qp_degenerate_add f).R_norm = 1 := hR
  have e10 : qp_degenerate_add.nVars = 1 := rfl
  simp only [step_length, if_true, e6, e7, e8, e9, e10, hdd, hadd, Option.some_bind]
  simp only [rollback, delete_constraint, find_qq, hA, hip, restore_loop, direction,
    qp_degenerate_add, hiq]
  norm_num
  simp only [restore_loop, Option.some.injEq, Prod.mk.injEq]
  refine ⟨_, ⟨_, _, _, ⟨rfl, rfl, rfl⟩, rfl⟩, ?_⟩
  simp [CycleState, hs0, hs1, hJ, hss]

/-- On `qp_degenerate_add` the solver never leaves the cycle `l2 → l2a → l2`: from a state
reached at label `l2` after the degenerate add, every number of further blocks ends
without a return. -/
theorem cycle_runs_forever (fuel : Nat) :
    ∀ (f : Frame ℚ), CycleState f →
      run rat_arith qp_degenerate_add fuel (Next.goto_l2 f) = Outcome.out_of_fuel := by
  induction fuel using Nat.strong_induction_on with
  | _ n ih =>
    intro f hf
    obtain ⟨f1, h1, hc1, hnp, hA⟩ := cycle_step_l2 f hf
    obtain ⟨f2, h2, hc2⟩ := cycle_step_l2a f1 hc1 hnp hA
    cases n with
    | zero => rfl
    | succ m =>
      simp only [run, h1]
      cases m with
      | zero => rfl
      | succ k =>
        simp only [run, h2]
        exact ih k (by omega) f2 hc2

theorem rat_sqrt_pow80 : rat_sqrt (1 / 2 ^ 80) = 1 / 2 ^ 40 := by decide!

/-- The frame after preprocessing in the mode where the solver factorises `H` itself. -/
theorem preprocess_default {α : Type} [LinearOrderedField α] (ar : Arith α) (slv : Solver α)
    (P : Problem α) (hmode : slv.is_inverse_provided_ = false) :
    (preprocess ar slv P).slv.m_J = chol_inverse P.nVars (chol ar P.nVars P.Hess P.nVars) ∧
    (preprocess ar slv P).x =
      (if ar.OPTIMIZE_UNCONSTR_MINIM then
        chol_solve P.nVars (chol ar P.nVars P.Hess P.nVars) (fun i => -(P.g0 i))
      else fun i => -(chol_solve P.nVars (chol ar P.nVars P.Hess P.nVars) P.g0 i)) ∧
    (preprocess ar slv P).c1 = trace P.nVars P.Hess ∧
    (preprocess ar slv P).c2
      = trace P.nVars (chol_inverse P.nVars (chol ar P.nVars P.Hess P.nVars)) ∧
    (preprocess ar slv P).iq = 0 ∧ (preprocess ar slv P).R_norm = 1 ∧
    (preprocess ar slv P).slv.R = (fun _ _ => 0) ∧ (preprocess ar slv P).slv.iter = 0 ∧
    (preprocess ar slv P).slv.f_value = (1 / 2) * dot P.nVars P.g0 (preprocess ar slv P).x ∧
    (preprocess ar slv P).slv.m_maxIter = slv.m_maxIter ∧
    (preprocess ar slv P).ss = 0 ∧ (preprocess ar slv P).ip = 0 := by
  have e := resized_fields slv P
  have hm : (resized slv P).is_inverse_provided_ = false := e.2.1.trans hmode
  unfold preprocess
  dsimp only
  rw [hm]
  simp [e.1]

theorem start_degenerate_add (slv : Solver ℚ) (hmode : slv.is_inverse_provided_ = false) :
    ∃ f, start rat_arith slv qp_degenerate_add = some (Next.goto_l1 f) ∧ f.iq = 0 ∧
      f.x 0 = 0 ∧ f.slv.m_J 0 0 = 2 ^ 40 ∧ f.R_norm = 1 ∧ f.c1 = 1 / 2 ^ 80 ∧ f.c2 = 2 ^ 40 ∧
      f.slv.iter = 0 ∧ f.slv.m_maxIter = slv.m_maxIter ∧ f.slv.iai 0 = 0 ∧ f.slv.iai 1 = 1 := by
  have hL : chol rat_arith 1 (fun _ _ => (1 : ℚ) / 2 ^ 80) 1 0 0 = 1 / 2 ^ 40 := by
    simp only [chol, sumTo, sub_zero, if_true]
    exact rat_sqrt_pow80
  have hJ : chol_inverse 1 (chol rat_arith 1 (fun _ _ => (1 : ℚ) / 2 ^ 80) 1) 0 0 = 2 ^ 40 := by
    simp only [chol_inverse, back_subst, sumTo, vset, hL]
    norm_num
  have hx : chol_solve 1 (chol rat_arith 1 (fun _ _ => (1 : ℚ) / 2 ^ 80) 1) (fun _ => -(0 : ℚ)) 0
      = 0 := by
    simp only [chol_solve, back_subst, fwd_subst, sumTo, vset, hL]
    norm_num
  obtain ⟨pJ, px, pc1, pc2, piq, pR, -, pit, -, pmax, -, -⟩ :=
    preprocess_default rat_arith slv qp_degenerate_add hmode
  have e3 : qp_degenerate_add.nEqCon = 0 := rfl
  have e1 : qp_degenerate_add.nVars = 1 := rfl
  have e4 : qp_degenerate_add.Hess = fun _ _ => (1 : ℚ) / 2 ^ 80 := rfl
  have e5 : qp_degenerate_add.g0 = fun _ => (0 : ℚ) := rfl
  have e6 : rat_arith.OPTIMIZE_UNCONSTR_MINIM = true := rfl
  rw [e1, e4] at pJ pc1 pc2
  rw [e1, e4, e5, e6, if_pos rfl] at px
  unfold start
  rw [e3]
  simp only [eq_loop]
  refine ⟨_, rfl, piq, ?_, ?_, pR, ?_, ?_, pit, pmax, ?_, ?_⟩
  · show (preprocess rat_arith slv qp_degenerate_add).x 0 = 0
    rw [px, hx]
  · show (preprocess rat_arith slv qp_degenerate_add).slv.m_J 0 0 = 2 ^ 40
    rw [pJ, hJ]
  · show (preprocess rat_arith slv qp_degenerate_add).c1 = 1 / 2 ^ 80
    rw [pc1]; simp [trace, sumTo]
  · show (preprocess rat_arith slv qp_degenerate_add).c2 = 2 ^ 40
    rw [pc2]; simp only [trace, sumTo, hJ]; norm_num
  · simp [qp_degenerate_add]
  · simp [qp_degenerate_add]

theorem first_step_l1 (f : Frame ℚ) (hiq : f.iq = 0) (hx : f.x 0 = 0)
    (hJ : f.slv.m_J 0 0 = 2 ^ 40) (hR : f.R_norm = 1) (hc1 : f.c1 = 1 / 2 ^ 80)
    (hc2 : f.c2 = 2 ^ 40) (hit : f.slv.iter = 0) (hmax : 2 ≤ f.slv.m_maxIter)
    (hi0 : f.slv.iai 0 = 0) :
    ∃ f1, step_l1 rat_arith qp_degenerate_add f = some (Next.goto_l2 f1) ∧ f1.iq = 0 ∧
      f1.ip = 0 ∧ f1.ss = 0 ∧ f1.slv.s 0 = -1 ∧ f1.slv.s 1 = 1 ∧ f1.slv.m_J 0 0 = 2 ^ 40 ∧
      f1.R_norm = 1 ∧ f1.slv.iai 0 = 0 ∧ f1.slv.iaexcl 0 = 1 := by
  have hpsi : psi_sum 2 (fun i => if i < 2 then
      dot 1 (fun k => qp_degenerate_add.CI i k) f.x + qp_degenerate_add.ci0 i else f.slv.s i)
      = -1 := by
    simp [psi_sum, sumTo, dot, qp_degenerate_add, hx]
  have e1 : qp_degenerate_add.nVars = 1 := rfl
  have e2 : qp_degenerate_add.nIneqCon = 2 := rfl
  have e3 : qp_degenerate_add.nEqCon = 0 := rfl
  have hm : ¬ f.slv.m_maxIter ≤ 0 + 1 := by omega
  have htol : ¬ |(-1 : ℚ)| ≤ ((2 : ℕ) : ℚ) * rat_arith.eps * (1 / 2 ^ 80) * 2 ^ 40 * 100 := by
    simp only [rat_arith]; norm_num
  unfold step_l1
  simp only [e1, e2, e3, hiq, hit, hc1, hc2, hpsi, if_neg hm, if_neg htol, mark_active,
    Nat.sub_self, Option.map_some']
  norm_num
  simp [dot, sumTo, qp_degenerate_add, hx, hJ, hR, hi0]
  norm_num

theorem first_step_l2 (f : Frame ℚ) (hiq : f.iq = 0) (hip : f.ip = 0) (hss : f.ss = 0)
    (hs0 : f.slv.s 0 = -1) (hs1 : f.slv.s 1 = 1) (hJ : f.slv.m_J 0 0 = 2 ^ 40)
    (hR : f.R_norm = 1) (hi0 : f.slv.iai 0 = 0) (he0 : f.slv.iaexcl 0 = 1) :
    ∃ f1, step_l2 qp_degenerate_add f = some (Next.goto_l2a f1) ∧ CycleState f1 ∧
      f1.slv.np 0 = 1 / 2 ^ 100 ∧ f1.slv.A 0 = 0 := by
  have hsel : select f.slv.s f.slv.iai f.slv.iaexcl 2 ((0 : ℚ), 0) = (-1, 0) := by
    simp [select, hs0, hs1, hi0, he0]
  unfold step_l2
  simp only [qp_degenerate_add, hss, hip, hiq, hsel]
  norm_num
  simp [CycleState, hiq, hs0, hs1, hJ, hR, vset]

/-- C8 (failing input): on `qp_degenerate_add`, from any solver state in the mode where the
solver factorises `H` itself and with any iteration cap `m_maxIter ≥ 2`, `solve_quadprog`
does not return: for every number of blocks of the main loop the call is still running,
cycling through steps 2, 2a, 2b, 2c with the counter `iter` stuck at `1`. -/
theorem degenerate_add_never_returns (slv : Solver ℚ)
    (hmode : slv.is_inverse_provided_ = false) (hmax : 2 ≤ slv.m_maxIter) (fuel : Nat) :
    solve_quadprog rat_arith fuel slv qp_degenerate_add = Outcome.out_of_fuel := by
  obtain ⟨f0, h0, hiq, hx, hJ, hR, hc1, hc2, hit, hm, hi0, -⟩ := start_degenerate_add slv hmode
  obtain ⟨f1, h1, q1, q2, q3, q4, q5, q6, q7, q8, q9⟩ :=
    first_step_l1 f0 hiq hx hJ hR hc1 hc2 hit (hm ▸ hmax) hi0
  obtain ⟨f2, h2, hc, hnp, hA⟩ := first_step_l2 f1 q1 q2 q3 q4 q5 q6 q7 q8 q9
  obtain ⟨f3, h3, hc3⟩ := cycle_step_l2a f2 hc hnp hA
  unfold solve_quadprog
  rw [h0]
  dsimp only
  cases fuel with
  | zero => rfl
  | succ k =>
    simp only [run, h1]
    cases k with
    | zero => rfl
    | succ m =>
      simp only [run, h2]
      cases m with
      | zero => rfl
      | succ j =>
        simp only [run, h3]
        exact cycle_runs_forever j f3 hc3

/-- Witness for C8's failing input: a fresh solver with iteration cap 1000. -/
theorem degenerate_add_never_returns_witness :
    solve_quadprog rat_arith 100000 (fresh_solver 1000) qp_degenerate_add
      = Outcome.out_of_fuel :=
  degenerate_add_never_returns (fresh_solver 1000) rfl (by decide) 100000

end Eiquadprog

namespace Eiquadprog

section Scenarios

variable {α : Type} [LinearOrderedField α]

theorem chol_identity2 (ar : Arith α) (h1 : ar.sqrt 1 = 1) :
    chol ar 2 (identity2 α) 2 0 0 = 1 ∧ chol ar 2 (identity2 α) 2 1 0 = 0 ∧
    chol ar 2 (identity2 α) 2 0 1 = 0 ∧ chol ar 2 (identity2 α) 2 1 1 = 1 := by
  simp [chol, sumTo, identity2, h1]

theorem chol_inverse_identity2 (ar : Arith α) (h1 : ar.sqrt 1 = 1) :
    chol_inverse 2 (chol ar 2 (identity2 α) 2) 0 0 = 1 ∧
    chol_inverse 2 (chol ar 2 (identity2 α) 2) 1 0 = 0 ∧
    chol_inverse 2 (chol ar 2 (identity2 α) 2) 0 1 = 0 ∧
    chol_inverse 2 (chol ar 2 (identity2 α) 2) 1 1 = 1 := by
  obtain ⟨a, b, c, d⟩ := chol_identity2 ar h1
  simp [chol_inverse, back_subst, sumTo, vset, a, b, c, d]

theorem chol_solve_identity2_zero (ar : Arith α) (h1 : ar.sqrt 1 = 1) :
    chol_solve 2 (chol ar 2 (identity2 α) 2) (fun _ => 0) 0 = 0 ∧
    chol_solve 2 (chol ar 2 (identity2 α) 2) (fun _ => 0) 1 = 0 := by
  obtain ⟨a, b, c, d⟩ := chol_identity2 ar h1
  simp [chol_solve, back_subst, fwd_subst, sumTo, vset, a, b, c, d]

theorem preprocess_identity2 (ar : Arith α) (h1 : ar.sqrt 1 = 1) (slv : Solver α)
    (P : Problem α) (hmode : slv.is_inverse_provided_ = false) (hn : P.nVars = 2)
    (hH : P.Hess = identity2 α) (hg : P.g0 = fun _ => 0) :
    (preprocess ar slv P).slv.m_J 0 0 = 1 ∧ (preprocess ar slv P).slv.m_J 1 0 = 0 ∧
    (preprocess ar slv P).slv.m_J 0 1 = 0 ∧ (preprocess ar slv P).slv.m_J 1 1 = 1 ∧
    (preprocess ar slv P).x 0 = 0 ∧ (preprocess ar slv P).x 1 = 0 ∧
    (preprocess ar slv P).c1 = 2 ∧ (preprocess ar slv P).c2 = 2 ∧
    (preprocess ar slv P).slv.f_value = 0 := by
  obtain ⟨pJ, px, pc1, pc2, -, -, -, -, pf, -, -, -⟩ := preprocess_default ar slv P hmode
  obtain ⟨j00, j10, j01, j11⟩ := chol_inverse_identity2 ar h1
  obtain ⟨x0, x1⟩ := chol_solve_identity2_zero ar h1
  rw [hn, hH] at pJ pc2 px
  rw [hn, hH] at pc1
  rw [hg] at px
  rw [hn, hg] at pf
  have hx0 : (preprocess ar slv P).x 0 = 0 := by
    rw [px]; split_ifs <;> simp [x0]
  have hx1 : (preprocess ar slv P).x 1 = 0 := by
    rw [px]; split_ifs <;> simp [x1]
  refine ⟨by rw [pJ, j00], by rw [pJ, j10], by rw [pJ, j01], by rw [pJ, j11], hx0, hx1, ?_, ?_, ?_⟩
  · rw [pc1]; simp [trace, sumTo, identity2]; norm_num
  · rw [pc2]; simp only [trace, sumTo, j00, j11]; norm_num
  · rw [pf]; simp [dot, sumTo]

theorem distance_one_zero (ar : Arith α) (h1 : ar.sqrt 1 = 1) : distance ar 1 0 = 1 := by
  simp [distance, h1]

theorem eq_step_first_row (ar : Arith α) (h1 : ar.sqrt 1 = 1) (he1 : ar.eps < 1)
    (f : Frame α) (hiq : f.iq = 0) (hR : f.R_norm = 1)
    (j00 : f.slv.m_J 0 0 = 1) (j01 : f.slv.m_J 0 1 = 0) :
    ∃ f1, eq_step ar (qp_two_equalities α) 0 f = some (true, f1) ∧ f1.iq = 1 ∧
      f1.slv.m_J 0 1 = 0 ∧ f1.R_norm = 1 := by
  have hd0 : compute_d 2 f.slv.m_J (fun k => if k = 0 then (1 : α) else 0) 0 = 1 := by
    simp [compute_d, sumTo, j00]
  have hd1 : compute_d 2 f.slv.m_J (fun k => if k = 0 then (1 : α) else 0) 1 = 0 := by
    simp [compute_d, sumTo, j01]
  have hh := distance_one_zero ar h1
  have hne : ¬ (1 : α) ≤ ar.eps := not_le.mpr he1
  have hadd : ∃ a, add_constraint ar 2 f.slv.R f.slv.m_J
      (compute_d 2 f.slv.m_J (fun k => if k = 0 then (1 : α) else 0)) 0 1 = some a ∧
      a.ok = true ∧ a.iq = 1 ∧ a.J 0 1 = 0 ∧ a.R_norm = 1 := by
    simp only [add_constraint, add_loop, add_rot, hd0, hd1, hh]
    norm_num
    simp [vset, hne, j01]
  obtain ⟨a, ha, hok, haq, haJ, haR⟩ := hadd
  unfold eq_step
  simp only [qp_two_equalities, hiq, hR, ha]
  norm_num
  exact ⟨_, ⟨hok, rfl⟩, haq, haJ, haR⟩

theorem eq_step_second_row (ar : Arith α) (he0 : 0 ≤ ar.eps) (f : Frame α) (hiq : f.iq = 1)
    (hR : f.R_norm = 1) (j01 : f.slv.m_J 0 1 = 0) :
    ∃ f1, eq_step ar (qp_two_equalities α) 1 f = some (false, f1) := by
  have hd1 : compute_d 2 f.slv.m_J (fun k => if k = 0 then (1 : α) else 0) 1 = 0 := by
    simp [compute_d, sumTo, j01]
  have hadd : ∃ a, add_constraint ar 2 f.slv.R f.slv.m_J
      (compute_d 2 f.slv.m_J (fun k => if k = 0 then (1 : α) else 0)) 1 1 = some a ∧
      a.ok = false := by
    simp only [add_constraint, add_loop]
    norm_num [hd1, he0]
  obtain ⟨a, ha, hok⟩ := hadd
  unfold eq_step
  simp only [qp_two_equalities, hiq, hR, ha]
  norm_num
  exact hok

end Scenarios

/-- C4: for `H = I` (2×2), `g0 = [0,0]`, no inequalities and the two equalities `x₀ = 1`,
`x₀ = 2`, `solve_quadprog` returns `EIQUADPROG_FAST_REDUNDANT_EQUALITIES`: in every exact
arithmetic with `sqrt(1) = 1` and `0 ≤ ε < 1`, from every state of a solver that
factorises `H` itself, whatever its buffers hold. -/
theorem two_equalities_redundant {α : Type} [LinearOrderedField α] (ar : Arith α)
    (h1 : ar.sqrt 1 = 1) (he0 : 0 ≤ ar.eps) (he1 : ar.eps < 1) (slv : Solver α)
    (hmode : slv.is_inverse_provided_ = false) (fuel : Nat) :
    ∃ f, solve_quadprog ar fuel slv (qp_two_equalities α)
      = Outcome.done Status.EIQUADPROG_FAST_REDUNDANT_EQUALITIES f := by
  obtain ⟨j00, -, j01, -, -, -, -, -, -⟩ :=
    preprocess_identity2 ar h1 slv (qp_two_equalities α) hmode rfl rfl rfl
  obtain ⟨-, -, -, -, piq, pR, -⟩ := preprocess_default ar slv (qp_two_equalities α) hmode
  obtain ⟨f1, hs1, q1, q2, q3⟩ := eq_step_first_row ar h1 he1 _ piq pR j00 j01
  obtain ⟨f2, hs2⟩ := eq_step_second_row ar he0 f1 q1 q3 q2
  have e : (qp_two_equalities α).nEqCon = 2 := rfl
  unfold solve_quadprog start
  rw [e]
  simp only [eq_loop, hs1, hs2, run_ret]
  exact ⟨_, rfl⟩

/-- Witness for C4: rational arithmetic and a fresh solver. -/
theorem two_equalities_redundant_witness :
    ∃ f, solve_quadprog rat_arith 10 (fresh_solver 1000) (qp_two_equalities ℚ)
      = Outcome.done Status.EIQUADPROG_FAST_REDUNDANT_EQUALITIES f :=
  two_equalities_redundant rat_arith (by decide!) (by decide!) (by decide!) (fresh_solver 1000)
    rfl 10

end Eiquadprog

namespace Eiquadprog

section ScenarioOne

variable {α : Type} [LinearOrderedField α]

theorem one_ineq_start (ar : Arith α) (h1 : ar.sqrt 1 = 1) (slv : Solver α)
    (hmode : slv.is_inverse_provided_ = false) :
    ∃ f, start ar slv (qp_one_inequality α) = some (Next.goto_l1 f) ∧
      f.slv.m_J 0 0 = 1 ∧ f.slv.m_J 1 0 = 0 ∧ f.slv.m_J 0 1 = 0 ∧ f.slv.m_J 1 1 = 1 ∧
      f.x 0 = 0 ∧ f.x 1 = 0 ∧ f.c1 = 2 ∧ f.c2 = 2 ∧ f.iq = 0 ∧ f.R_norm = 1 ∧
      f.slv.iter = 0 ∧ f.slv.m_maxIter = slv.m_maxIter ∧ f.slv.iai 0 = 0 := by
  obtain ⟨j00, j10, j01, j11, x0, x1, c1, c2, -⟩ :=
    preprocess_identity2 ar h1 slv (qp_one_inequality α) hmode rfl rfl rfl
  obtain ⟨-, -, -, -, piq, pR, -, pit, -, pmax, -, -⟩ :=
    preprocess_default ar slv (qp_one_inequality α) hmode
  have e : (qp_one_inequality α).nEqCon = 0 := rfl
  unfold start
  rw [e]
  simp only [eq_loop]
  refine ⟨_, rfl, j00, j10, j01, j11, x0, x1, c1, c2, piq, pR, pit, pmax, ?_⟩
  simp [qp_one_inequality]

theorem one_ineq_first_l1 (ar : Arith α) (he : 400 * ar.eps < 1) (f : Frame α)
    (x0 : f.x 0 = 0) (x1 : f.x 1 = 0) (c1 : f.c1 = 2) (c2 : f.c2 = 2) (hiq : f.iq = 0)
    (hit : f.slv.iter = 0) (hmax : 3 ≤ f.slv.m_maxIter) (hi0 : f.slv.iai 0 = 0) :
    ∃ f1, step_l1 ar (qp_one_inequality α) f = some (Next.goto_l2 f1) ∧
      f1.slv.m_J = f.slv.m_J ∧ f1.x = f.x ∧ f1.c1 = 2 ∧ f1.c2 = 2 ∧ f1.iq = 0 ∧
      f1.R_norm = f.R_norm ∧ f1.slv.iter = 1 ∧ f1.slv.m_maxIter = f.slv.m_maxIter ∧
      f1.slv.iai 0 = 0 ∧ f1.slv.iaexcl 0 = 1 ∧ f1.slv.s 0 = -1 ∧ f1.ss = 0 ∧ f1.ip = 0 := by
  have hpsi : psi_sum 1 (fun i => if i < 1 then
      dot 2 (fun k => (qp_one_inequality α).CI i k) f.x + (qp_one_inequality α).ci0 i
      else f.slv.s i) = -1 := by
    simp [psi_sum, sumTo, dot, qp_one_inequality, x0, x1]
  have e1 : (qp_one_inequality α).nVars = 2 := rfl
  have e2 : (qp_one_inequality α).nIneqCon = 1 := rfl
  have e3 : (qp_one_inequality α).nEqCon = 0 := rfl
  have hm : ¬ f.slv.m_maxIter ≤ 0 + 1 := by omega
  have htol : ¬ |(-1 : α)| ≤ ((1 : ℕ) : α) * ar.eps * 2 * 2 * 100 := by
    rw [abs_neg, abs_one]
    push_cast
    linarith
  unfold step_l1
  simp only [e1, e2, e3, hiq, hit, c1, c2, hpsi, if_neg hm, if_neg htol, mark_active,
    Nat.sub_self, Option.map_some']
  norm_num
  simp [dot, sumTo, qp_one_inequality, x0, x1, hi0]

theorem one_ineq_l2 (f : Frame α) (hiq : f.iq = 0) (hi0 : f.slv.iai 0 = 0)
    (he0 : f.slv.iaexcl 0 = 1) (hs0 : f.slv.s 0 = -1) (hss : f.ss = 0) (hip : f.ip = 0) :
    ∃ f1, step_l2 (qp_one_inequality α) f = some (Next.goto_l2a f1) ∧
      f1.slv.m_J = f.slv.m_J ∧ f1.x = f.x ∧ f1.c1 = f.c1 ∧ f1.c2 = f.c2 ∧ f1.iq = 0 ∧
      f1.R_norm = f.R_norm ∧ f1.slv.iter = f.slv.iter ∧
      f1.slv.m_maxIter = f.slv.m_maxIter ∧ f1.slv.s 0 = -1 ∧ f1.ip = 0 ∧
      f1.slv.np 0 = 1 ∧ f1.slv.np 1 = 1 ∧ f1.slv.A 0 = 0 ∧ f1.slv.u 0 = 0 := by
  have hsel : select f.slv.s f.slv.iai f.slv.iaexcl 1 ((0 : α), 0) = (-1, 0) := by
    simp [select, hs0, hi0, he0]
  unfold step_l2
  simp only [qp_one_inequality, hss, hip, hiq, hsel]
  norm_num
  simp [vset, hs0]

theorem distance_one_one (ar : Arith α) : distance ar 1 1 = ar.sqrt 2 := by
  simp [distance]

theorem one_ineq_l2a (ar : Arith α) (he0 : 0 ≤ ar.eps) (he : 400 * ar.eps < 1)
    (hw : ar.eps < ar.sqrt 2) (f : Frame α)
    (j00 : f.slv.m_J 0 0 = 1) (j10 : f.slv.m_J 1 0 = 0) (j01 : f.slv.m_J 0 1 = 0)
    (j11 : f.slv.m_J 1 1 = 1) (x0 : f.x 0 = 0) (x1 : f.x 1 = 0) (hiq : f.iq = 0)
    (hR : f.R_norm = 1) (hs0 : f.slv.s 0 = -1) (hip : f.ip = 0) (np0 : f.slv.np 0 = 1)
    (np1 : f.slv.np 1 = 1) (hA : f.slv.A 0 = 0) :
    ∃ f1, step_l2a ar (qp_one_inequality α) f = some (Next.goto_l1 f1) ∧
      f1.x 0 = 1 / 2 ∧ f1.x 1 = 1 / 2 ∧ f1.c1 = f.c1 ∧ f1.c2 = f.c2 ∧ f1.iq = 1 ∧
      f1.slv.iter = f.slv.iter ∧ f1.slv.m_maxIter = f.slv.m_maxIter ∧ f1.slv.A 0 = 0 := by
  have hd0 : compute_d 2 f.slv.m_J f.slv.np 0 = 1 := by
    simp [compute_d, sumTo, j00, j10, np0, np1]
  have hd1 : compute_d 2 f.slv.m_J f.slv.np 1 = 1 := by
    simp [compute_d, sumTo, j01, j11, np0, np1]
  have hz0 : update_z 2 f.slv.m_J (compute_d 2 f.slv.m_J f.slv.np) 0 0 = 1 := by
    simp [update_z, sumTo, hd0, hd1, j00, j01]
  have hz1 : update_z 2 f.slv.m_J (compute_d 2 f.slv.m_J f.slv.np) 0 1 = 1 := by
    simp [update_z, sumTo, hd0, hd1, j10, j11]
  have hzz : dot 2 (update_z 2 f.slv.m_J (compute_d 2 f.slv.m_J f.slv.np) 0)
      (update_z 2 f.slv.m_J (compute_d 2 f.slv.m_J f.slv.np) 0) = 2 := by
    simp only [dot, sumTo, hz0, hz1]; norm_num
  have hznp : dot 2 (update_z 2 f.slv.m_J (compute_d 2 f.slv.m_J f.slv.np) 0) f.slv.np = 2 := by
    simp only [dot, sumTo, hz0, hz1, np0, np1]; norm_num
  have he2 : ar.eps < |(2 : α)| := by
    rw [abs_of_pos (by norm_num)]; linarith
  have hfs : full_step ar 2 (update_z 2 f.slv.m_J (compute_d 2 f.slv.m_J f.slv.np) 0)
      f.slv.np (-1) = some (1 / 2) := by
    simp only [full_step, hzz, hznp, if_pos he2]
    rw [if_neg (by norm_num [abs_of_pos])]
    norm_num
  have hwpos : 0 < ar.sqrt 2 := lt_of_le_of_lt he0 hw
  have hadd : ∃ a, add_constraint ar 2 f.slv.R f.slv.m_J (compute_d 2 f.slv.m_J f.slv.np) 0 1
      = some a ∧ a.ok = true ∧ a.iq = 1 := by
    simp only [add_constraint, add_loop, add_rot, hd0, hd1, distance_one_one]
    have h1 : ¬ (1 / ar.sqrt 2 < 0) := not_lt.mpr (by positivity)
    have h2 : ¬ |ar.sqrt 2| ≤ ar.eps * 1 := by
      rw [abs_of_pos hwpos, mul_one]; exact not_le.mpr hw
    have h3 : ¬ (ar.sqrt 2 < 0) := not_lt.mpr hwpos.le
    norm_num [hwpos.ne', h1, h3, vset, abs_of_pos hwpos, not_le.mpr hw]
  obtain ⟨a, ha, hok, haq⟩ := hadd
  have hdz : (direction (qp_one_inequality α) f).slv.z
      = update_z 2 f.slv.m_J (compute_d 2 f.slv.m_J f.slv.np) 0 := by
    simp [direction, qp_one_inequality, hiq]
  have hdd : (direction (qp_one_inequality α) f).slv.d = compute_d 2 f.slv.m_J f.slv.np := rfl
  have e1 : (qp_one_inequality α).nVars = 2 := rfl
  have e2 : (qp_one_inequality α).nIneqCon = 1 := rfl
  have e3 : (qp_one_inequality α).nEqCon = 0 := rfl
  have e4 : (direction (qp_one_inequality α) f).slv.np = f.slv.np := rfl
  have e5 : (direction (qp_one_inequality α) f).slv.s = f.slv.s := rfl
  have e6 : (direction (qp_one_inequality α) f).slv.R = f.slv.R := rfl
  have e7 : (direction (qp_one_inequality α) f).slv.m_J = f.slv.m_J := rfl
  have e8 : (direction (qp_one_inequality α) f).iq = 0 := hiq
  have e9 : (direction (qp_one_inequality α) f).R_norm = 1 := hR
  have e10 : (direction (qp_one_inequality α) f).x = f.x := rfl
  have e11 : (direction (qp_one_inequality α) f).slv.A = f.slv.A := rfl
  have h1 : step_l2a ar (qp_one_inequality α) f
      = step_2c ar (qp_one_inequality α) (direction (qp_one_inequality α) f) none 0
          (some (1 / 2)) := by
    unfold step_l2a
    simp only [e1, e2, e3, e4, e5, hdz, hiq, hip, hs0, hfs, ratio_loop]
    norm_num
  rw [h1]
  have h2 : step_2c ar (qp_one_inequality α) (direction (qp_one_inequality α) f) none 0
      (some (1 / 2))
      = primal_dual_step ar (qp_one_inequality α) (direction (qp_one_inequality α) f) none 0
          (1 / 2) := by
    simp [step_2c, e1, e2, e3, e8]
  rw [h2]
  unfold primal_dual_step
  simp only [step_length, if_true, e1, e6, e7, e8, e9, e10, e11, hdd, hdz, ha,
    Option.some_bind, hok]
  refine ⟨_, rfl, ?_⟩
  simp [hz0, hz1, x0, x1, haq, hA]
  exact ⟨rfl, rfl, rfl, rfl⟩

theorem one_ineq_second_l1 (ar : Arith α) (he0 : 0 ≤ ar.eps) (f : Frame α)
    (x0 : f.x 0 = 1 / 2) (x1 : f.x 1 = 1 / 2) (c1 : f.c1 = 2) (c2 : f.c2 = 2)
    (hiq : f.iq = 1) (hit : f.slv.iter = 1) (hmax : 3 ≤ f.slv.m_maxIter)
    (hA : f.slv.A 0 = 0) :
    ∃ f1, step_l1 ar (qp_one_inequality α) f
        = some (Next.ret Status.EIQUADPROG_FAST_OPTIMAL f1) ∧
      f1.x = f.x ∧ f1.slv.q = 1 ∧ f1.slv.A = f.slv.A ∧ f1.slv.iter = 2 := by
  have hpsi : psi_sum 1 (fun i => if i < 1 then
      dot 2 (fun k => (qp_one_inequality α).CI i k) f.x + (qp_one_inequality α).ci0 i
      else f.slv.s i) = 0 := by
    simp [psi_sum, sumTo, dot, qp_one_inequality, x0, x1]
    norm_num
  have e1 : (qp_one_inequality α).nVars = 2 := rfl
  have e2 : (qp_one_inequality α).nIneqCon = 1 := rfl
  have e3 : (qp_one_inequality α).nEqCon = 0 := rfl
  have hm : ¬ f.slv.m_maxIter ≤ 1 + 1 := by omega
  have htol : |(0 : α)| ≤ ((1 : ℕ) : α) * ar.eps * 2 * 2 * 100 := by
    rw [abs_zero]
    push_cast
    linarith
  unfold step_l1
  simp only [e1, e2, e3, hiq, hit, c1, c2, hpsi, if_neg hm, if_pos htol, mark_active, hA,
    Option.map_some']
  norm_num

end ScenarioOne

/-- C3: for `H = I` (2×2), `g0 = [0,0]`, no equalities and the single inequality
`x₀ + x₁ ≥ 1`, `solve_quadprog` returns `EIQUADPROG_FAST_OPTIMAL` with `x = [1/2, 1/2]`,
active-set size `q = 1` and `A(0) = 0`, after two iterations: in every exact arithmetic with
`sqrt(1) = 1` and `0 ≤ ε < sqrt(2)`, `400·ε < 1`, from every state of a solver that
factorises `H` itself and allows at least three iterations, once four blocks of the main
loop may run. -/
theorem one_inequality_optimal {α : Type} [LinearOrderedField α] (ar : Arith α)
    (h1 : ar.sqrt 1 = 1) (he0 : 0 ≤ ar.eps) (he : 400 * ar.eps < 1)
    (hw : ar.eps < ar.sqrt 2) (slv : Solver α) (hmode : slv.is_inverse_provided_ = false)
    (hmax : 3 ≤ slv.m_maxIter) (k : Nat) :
    ∃ f, solve_quadprog ar (k + 4) slv (qp_one_inequality α)
        = Outcome.done Status.EIQUADPROG_FAST_OPTIMAL f ∧
      f.x 0 = 1 / 2 ∧ f.x 1 = 1 / 2 ∧ f.slv.q = 1 ∧ f.slv.A 0 = 0 ∧ f.slv.iter = 2 := by
  obtain ⟨f0, hs0, j00, j10, j01, j11, x0, x1, c1, c2, hiq, hR, hit, hmx, hi0⟩ :=
    one_ineq_start ar h1 slv hmode
  obtain ⟨f1, hs1, a1, a2, a3, a4, a5, a6, a7, a8, a9, a10, a11, a12, a13⟩ :=
    one_ineq_first_l1 ar he f0 x0 x1 c1 c2 hiq hit (hmx ▸ hmax) hi0
  obtain ⟨f2, hs2, b1, b2, b3, b4, b5, b6, b7, b8, b9, b10, b11, b12, b13, -⟩ :=
    one_ineq_l2 f1 a5 a9 a10 a11 a12 a13
  obtain ⟨f3, hs3, d1, d2, d3, d4, d5, d6, d7, d8⟩ :=
    one_ineq_l2a ar he0 he hw f2 (by rw [b1, a1]; exact j00) (by rw [b1, a1]; exact j10)
      (by rw [b1, a1]; exact j01) (by rw [b1, a1]; exact j11) (by rw [b2, a2]; exact x0)
      (by rw [b2, a2]; exact x1) b5 (by rw [b6, a6]; exact hR) b9 b10 b11 b12 b13
  obtain ⟨f4, hs4, g1, g2, g3, g4⟩ :=
    one_ineq_second_l1 ar he0 f3 d1 d2 (by rw [d3, b3]; exact a3) (by rw [d4, b4]; exact a4)
      d5 (by rw [d6, b7]; exact a7) (by rw [d7, b8, a8, hmx]; exact hmax) d8
  refine ⟨f4, ?_, by rw [g1]; exact d1, by rw [g1]; exact d2, g2, by rw [g3]; exact d8, g4⟩
  unfold solve_quadprog
  rw [hs0]
  simp only [run, hs1, hs2, hs3, hs4, run_ret]

/-- Witness for C3: rational arithmetic and a fresh solver. -/
theorem one_inequality_optimal_witness :
    ∃ f, solve_quadprog rat_arith (0 + 4) (fresh_solver 1000) (qp_one_inequality ℚ)
        = Outcome.done Status.EIQUADPROG_FAST_OPTIMAL f ∧
      f.x 0 = 1 / 2 ∧ f.x 1 = 1 / 2 ∧ f.slv.q = 1 ∧ f.slv.A 0 = 0 ∧ f.slv.iter = 2 :=
  one_inequality_optimal rat_arith (by decide!) (by decide!) (by decide!) (by decide!)
    (fresh_solver 1000) rfl (by decide) 0

end Eiquadprog

namespace Eiquadprog

section Unbounded

variable {α : Type} [LinearOrderedField α]

theorem ratio_loop_none (r u : Vec α) (A : IVec) (n : Nat) :
    ∀ c, (ratio_loop r u A n c).1 = none → ∀ k, n ≤ k → k < n + c → r k ≤ 0 := by
  intro c
  induction c with
  | zero => intro _ k h1 h2; omega
  | succ c ih =>
    intro h k h1 h2
    simp only [ratio_loop] at h
    by_cases hr : 0 < r (n + c)
    · rw [if_pos hr] at h
      cases hp : (ratio_loop r u A n c).1 with
      | none => rw [hp] at h; simp at h
      | some t =>
        rw [hp] at h
        dsimp only at h
        split_ifs at h
        rw [hp] at h
        simp at h
    · rw [if_neg hr] at h
      by_cases hk : k = n + c
      · rw [hk]; exact not_lt.mp hr
      · exact ih h k h1 (by omega)

theorem rollback_goto (ar : Arith α) (P : Problem α) (f : Frame α) (a : AddResult α)
    (nx : Next α) (h : rollback ar P f a = some nx) : ∃ g, nx = Next.goto_l2 g := by
  unfold rollback at h
  dsimp only at h
  split_ifs at h
  simp only [Option.bind_eq_some, Option.map_eq_some'] at h
  obtain ⟨dr, -, r, -, rfl⟩ := h
  exact ⟨_, rfl⟩

theorem primal_dual_step_goto (ar : Arith α) (P : Problem α) (f : Frame α) (t1 : Option α)
    (l : Int) (b : α) (st : Status) (g : Frame α) :
    primal_dual_step ar P f t1 l b ≠ some (Next.ret st g) := by
  intro h
  unfold primal_dual_step at h
  dsimp only at h
  split_ifs at h
  · simp only [Option.bind_eq_some] at h
    obtain ⟨a, -, h⟩ := h
    split_ifs at h
    · simp at h
    · obtain ⟨g1, hg⟩ := rollback_goto ar P _ a _ h
      simp at hg
  · simp only [Option.map_eq_some'] at h
    obtain ⟨f3, -, h⟩ := h
    simp at h

theorem step_2c_ret (ar : Arith α) (P : Problem α) (f : Frame α) (t1 : Option α) (l : Int)
    (t2 : Option α) (st : Status) (g : Frame α)
    (h : step_2c ar P f t1 l t2 = some (Next.ret st g)) :
    st = Status.EIQUADPROG_FAST_UNBOUNDED ∧ t1 = none ∧ t2 = none ∧
      g = { f with slv := { f.slv with q := f.iq } } := by
  unfold step_2c at h
  cases t2 with
  | none =>
    cases t1 with
    | none =>
      simp at h
      exact ⟨h.1.symm, rfl, rfl, h.2.symm⟩
    | some t =>
      dsimp only at h
      split_ifs at h
      simp only [Option.map_eq_some'] at h
      obtain ⟨f3, -, h⟩ := h
      simp at h
  | some b =>
    dsimp only at h
    split_ifs at h
    exact absurd h (primal_dual_step_goto ar P f t1 l b st g)

theorem step_l2a_ret (ar : Arith α) (P : Problem α) (f : Frame α) (st : Status) (g : Frame α)
    (h : step_l2a ar P f = some (Next.ret st g)) :
    st = Status.EIQUADPROG_FAST_UNBOUNDED ∧
      g = { direction P f with slv := { (direction P f).slv with q := f.iq } } ∧
      full_step ar P.nVars (direction P f).slv.z (direction P f).slv.np
        ((direction P f).slv.s f.ip) = none ∧
      ∀ k, P.nEqCon ≤ k → k < f.iq → (direction P f).slv.r k ≤ 0 := by
  unfold step_l2a at h
  dsimp only at h
  split_ifs at h
  obtain ⟨h1, h2, h3, h4⟩ := step_2c_ret ar P _ _ _ _ st g h
  refine ⟨h1, h4, h3, ?_⟩
  intro k hk1 hk2
  exact ratio_loop_none _ _ _ _ _ h2 k hk1 (by omega)

theorem step_l1_ret (ar : Arith α) (P : Problem α) (f : Frame α) (st : Status) (g : Frame α)
    (h : step_l1 ar P f = some (Next.ret st g)) :
    st = Status.EIQUADPROG_FAST_MAX_ITER_REACHED ∨ st = Status.EIQUADPROG_FAST_OPTIMAL := by
  unfold step_l1 at h
  dsimp only at h
  split_ifs at h
  · simp at h
    exact Or.inl h.1.symm
  · simp only [Option.map_eq_some'] at h
    obtain ⟨iai, -, h⟩ := h
    simp at h
    exact Or.inr h.1.symm
  · simp only [Option.map_eq_some'] at h
    obtain ⟨iai, -, h⟩ := h
    simp at h

theorem step_l2_ret (P : Problem α) (f : Frame α) (st : Status) (g : Frame α)
    (h : step_l2 P f = some (Next.ret st g)) : st = Status.EIQUADPROG_FAST_OPTIMAL := by
  unfold step_l2 at h
  dsimp only at h
  split_ifs at h
  · simp at h
    exact h.1.symm
  · simp at h

theorem start_ret (ar : Arith α) (slv : Solver α) (P : Problem α) (st : Status) (g : Frame α)
    (h : start ar slv P = some (Next.ret st g)) :
    st = Status.EIQUADPROG_FAST_REDUNDANT_EQUALITIES := by
  unfold start at h
  split at h
  · simp at h
  · simp at h
    exact h.1.symm
  · simp at h

theorem start_cases (ar : Arith α) (slv : Solver α) (P : Problem α) (nx : Next α)
    (h : start ar slv P = some nx) :
    (∃ g, nx = Next.goto_l1 g) ∨
      ∃ g, nx = Next.ret Status.EIQUADPROG_FAST_REDUNDANT_EQUALITIES g := by
  unfold start at h
  split at h
  · simp at h
  · simp at h
    exact Or.inr ⟨_, h.symm⟩
  · simp at h
    exact Or.inl ⟨_, h.symm⟩

theorem step_l2_goto (P : Problem α) (f g : Frame α)
    (h : step_l2 P f = some (Next.goto_l2a g)) :
    g.ip < P.nIneqCon ∧ g.slv.np = (fun k => P.CI g.ip k) ∧ g.ss < 0 := by
  unfold step_l2 at h
  dsimp only at h
  split_ifs at h with h1 h2
  · simp at h
  · simp only [Option.some.injEq, Next.goto_l2a.injEq] at h
    subst h
    exact ⟨by dsimp only; omega, rfl, not_le.mp h1⟩

theorem drop_l_keeps (ar : Arith α) (P : Problem α) (f g : Frame α) (u : Vec α) (l : Int)
    (h : drop_l ar P f u l = some g) :
    g.ip = f.ip ∧ g.slv.np = f.slv.np ∧ g.ss = f.ss := by
  unfold drop_l at h
  dsimp only at h
  split_ifs at h
  simp only [Option.map_eq_some'] at h
  obtain ⟨dr, -, rfl⟩ := h
  exact ⟨rfl, rfl, rfl⟩

theorem step_l2a_goto (ar : Arith α) (P : Problem α) (f g : Frame α)
    (h : step_l2a ar P f = some (Next.goto_l2a g)) :
    g.ip = f.ip ∧ g.slv.np = f.slv.np ∧ g.ss = f.ss := by
  unfold step_l2a at h
  dsimp only at h
  split_ifs at h
  unfold step_2c at h
  split at h
  · split at h
    · simp at h
    · split_ifs at h
      simp only [Option.map_eq_some'] at h
      obtain ⟨f3, h3, h⟩ := h
      simp only [Next.goto_l2a.injEq] at h
      subst h
      have k := drop_l_keeps ar P _ _ _ _ h3
      exact k
  · split_ifs at h
    unfold primal_dual_step at h
    dsimp only at h
    split_ifs at h
    · simp only [Option.bind_eq_some] at h
      obtain ⟨a, -, h⟩ := h
      split_ifs at h
      · simp at h
      · obtain ⟨g1, hg⟩ := rollback_goto ar P _ a _ h
        simp at hg
    · simp only [Option.map_eq_some'] at h
      obtain ⟨f3, h3, h⟩ := h
      simp only [Next.goto_l2a.injEq] at h
      subst h
      have k := drop_l_keeps ar P _ _ _ _ h3
      exact k

end Unbounded

end Eiquadprog

namespace Eiquadprog

section Redundant

variable {α : Type} [LinearOrderedField α]

theorem add_constraint_not_ok (ar : Arith α) (nVars : Nat) (R J : Mat α) (d : Vec α)
    (iq : Nat) (R_norm : α) (a : AddResult α)
    (h : add_constraint ar nVars R J d iq R_norm = some a) (hok : a.ok = false) :
    |a.d iq| ≤ ar.eps * R_norm := by
  unfold add_constraint at h
  dsimp only at h
  split_ifs at h with h1 h2
  · simp only [Option.some.injEq] at h
    subst h
    simpa using h2
  · simp only [Option.some.injEq] at h
    subst h
    simp at hok

theorem eq_step_not_ok (ar : Arith α) (P : Problem α) (i : Nat) (f f1 : Frame α)
    (h : eq_step ar P i f = some (false, f1)) :
    ∃ a, add_constraint ar P.nVars f.slv.R f.slv.m_J
        (compute_d P.nVars f.slv.m_J (fun k => P.CE i k)) f.iq f.R_norm = some a ∧
      |a.d f.iq| ≤ ar.eps * f.R_norm := by
  unfold eq_step at h
  dsimp only at h
  split_ifs at h
  simp only [Option.map_eq_some', Prod.mk.injEq] at h
  obtain ⟨a, ha, hok, -⟩ := h
  exact ⟨a, ha, add_constraint_not_ok ar _ _ _ _ _ _ a ha hok⟩

theorem eq_step_iq (ar : Arith α) (P : Problem α) (i : Nat) (f f1 : Frame α) (b : Bool)
    (h : eq_step ar P i f = some (b, f1)) : f1.iq = f.iq + 1 := by
  unfold eq_step at h
  dsimp only at h
  split_ifs at h
  simp only [Option.map_eq_some', Prod.mk.injEq] at h
  obtain ⟨a, ha, -, rfl⟩ := h
  exact (add_constraint_iq ar _ _ _ _ _ _ a ha).1

/-- A degenerate add in the equality loop happens at a row `i + j` that is reached after
`j` successful adds. -/
theorem eq_loop_not_ok (ar : Arith α) (P : Problem α) (cnt : Nat) :
    ∀ (i : Nat) (f f1 : Frame α), eq_loop ar P i cnt f = some (false, f1) →
      ∃ j g, j < cnt ∧ eq_loop ar P i j f = some (true, g) ∧ g.iq = f.iq + j ∧
        eq_step ar P (i + j) g = some (false, f1) := by
  induction cnt with
  | zero =>
    intro i f f1 h
    simp [eq_loop] at h
  | succ c ih =>
    intro i f f1 h
    simp only [eq_loop] at h
    split at h
    · simp at h
    · rename_i f2 hs
      simp only [Option.some.injEq, Prod.mk.injEq, true_and] at h
      subst h
      exact ⟨0, f, by omega, rfl, rfl, hs⟩
    · rename_i f2 hs
      obtain ⟨j, g, hj, hl, hq, hst⟩ := ih (i + 1) f2 f1 h
      refine ⟨j + 1, g, by omega, ?_, ?_, ?_⟩
      · simp only [eq_loop, hs]
        exact hl
      · rw [hq, eq_step_iq ar P i f f2 true hs]
        omega
      · rw [show i + (j + 1) = i + 1 + j by omega]
        exact hst

theorem run_not_redundant (ar : Arith α) (P : Problem α) (fuel : Nat) (g : Frame α)
    (st : Status) (f : Frame α) (h : run ar P fuel (Next.goto_l1 g) = Outcome.done st f) :
    st ≠ Status.EIQUADPROG_FAST_REDUNDANT_EQUALITIES := by
  have key := run_invariant ar P
    (fun nx => ∀ st g, nx = Next.ret st g → st ≠ Status.EIQUADPROG_FAST_REDUNDANT_EQUALITIES)
    ?_ ?_ ?_ fuel (Next.goto_l1 g) ?_ st f h
  · exact key st f rfl
  · intro g nx _ hst st1 g1 e
    subst e
    rcases step_l1_ret ar P g st1 g1 hst with h1 | h1 <;> rw [h1] <;> simp
  · intro g nx _ hst st1 g1 e
    subst e
    rw [step_l2_ret P g st1 g1 hst]
    simp
  · intro g nx _ hst st1 g1 e
    subst e
    rw [(step_l2a_ret ar P g st1 g1 hst).1]
    simp
  · intro st1 g1 e
    simp at e

end Redundant

/-- C6 (as stated, refuted): for `H = [1]` and the single equality `2^-60·x = 1`, whose
matrix `CE = [2^-60]` has full row rank, `solve_quadprog` returns
`EIQUADPROG_FAST_REDUNDANT_EQUALITIES`: `|d(0)| = 2^-60 ≤ ε·R_norm = 2^-52`. -/
theorem redundant_with_full_row_rank :
    SymPosDef 1 qp_tiny_equality.Hess ∧ RowsIndependent 1 1 qp_tiny_equality.CE ∧
    ∃ f, solve_quadprog rat_arith 10 (fresh_solver 1000) qp_tiny_equality
      = Outcome.done Status.EIQUADPROG_FAST_REDUNDANT_EQUALITIES f := by
  refine ⟨⟨fun _ _ _ _ => rfl, ?_⟩, ?_, ?_⟩
  · rintro v ⟨i, hi, hv⟩
    have hi0 : i = 0 := by omega
    subst hi0
    have : dot 1 v (fun i => dot 1 (qp_tiny_equality.Hess i) v) = v 0 * v 0 := by
      simp [dot, sumTo, qp_tiny_equality]
    rw [this]
    exact mul_self_pos.mpr hv
  · intro c hc i hi
    have hi0 : i = 0 := by omega
    subst hi0
    have := hc 0 (by omega)
    simpa [sumTo, qp_tiny_equality] using this
  · have h : (solve_quadprog rat_arith 10 (fresh_solver 1000) qp_tiny_equality).check
        (fun st _ => decide (st = Status.EIQUADPROG_FAST_REDUNDANT_EQUALITIES)) = true := by
      decide!
    obtain ⟨st, f, hf, hp⟩ := Outcome.check_iff.mp h
    simp at hp
    subst hp
    exact ⟨f, hf⟩

/-- C6 (amended): `solve_quadprog` returns `EIQUADPROG_FAST_REDUNDANT_EQUALITIES` only from
the equality phase, at an equality row `i` reached after rows `0, ..., i-1` were added,
when `add_constraint` finds the rotated `d = Jᵀ·CE.row(i)` degenerate by its threshold:
`|d(i)| ≤ ε·R_norm`.  The main loop never returns this status. -/
theorem redundant_only_below_threshold {α : Type} [LinearOrderedField α] (ar : Arith α)
    (fuel : Nat) (slv : Solver α) (P : Problem α) (f : Frame α)
    (h : solve_quadprog ar fuel slv P
      = Outcome.done Status.EIQUADPROG_FAST_REDUNDANT_EQUALITIES f) :
    ∃ i g a, i < P.nEqCon ∧ eq_loop ar P 0 i (preprocess ar slv P) = some (true, g) ∧
      g.iq = i ∧
      add_constraint ar P.nVars g.slv.R g.slv.m_J
        (compute_d P.nVars g.slv.m_J (fun k => P.CE i k)) i g.R_norm = some a ∧
      |a.d i| ≤ ar.eps * g.R_norm := by
  unfold solve_quadprog at h
  split at h
  · simp at h
  · rename_i nx hs
    unfold start at hs
    split at hs
    · simp at hs
    · rename_i f1 hl
      obtain ⟨j, g, hj, hlj, hq, hst⟩ := eq_loop_not_ok ar P P.nEqCon 0 _ f1 hl
      have hq0 : g.iq = j := by
        rw [hq]
        simp [preprocess]
      obtain ⟨a, ha, hd⟩ := eq_step_not_ok ar P (0 + j) g f1 hst
      rw [Nat.zero_add] at ha
      rw [hq0] at ha hd
      exact ⟨j, g, a, hj, hlj, hq0, ha, hd⟩
    · rename_i f1 hl
      simp only [Option.some.injEq] at hs
      subst hs
      exact absurd rfl (run_not_redundant ar P fuel _ _ f h)

/-- Witness for the amended C6: the one-variable problem with the tiny equality row. -/
theorem redundant_only_below_threshold_witness :
    ∃ i g a, i < qp_tiny_equality.nEqCon ∧
      eq_loop rat_arith qp_tiny_equality 0 i (preprocess rat_arith (fresh_solver 1000)
        qp_tiny_equality) = some (true, g) ∧
      g.iq = i ∧
      add_constraint rat_arith qp_tiny_equality.nVars g.slv.R g.slv.m_J
        (compute_d qp_tiny_equality.nVars g.slv.m_J (fun k => qp_tiny_equality.CE i k)) i
        g.R_norm = some a ∧
      |a.d i| ≤ rat_arith.eps * g.R_norm :=
  redundant_only_below_threshold rat_arith 10 (fresh_solver 1000) qp_tiny_equality _
    (Outcome.eq_done_of_status
      (preprocess rat_arith (fresh_solver 1000) qp_tiny_equality) (by decide!))

end Eiquadprog

namespace Eiquadprog

section Optimal

variable {α : Type} [LinearOrderedField α]

theorem select_le (s : Vec α) (iai iaexcl : IVec) (sel : α × Nat) :
    ∀ n, (select s iai iaexcl n sel).1 ≤ sel.1 := by
  intro n
  induction n with
  | zero => exact le_refl _
  | succ k ih =>
    simp only [select]
    split_ifs with h
    · exact le_trans (le_of_lt h.1) ih
    · exact ih

theorem select_lower (s : Vec α) (iai iaexcl : IVec) (sel : α × Nat) :
    ∀ n k, k < n → iai k ≠ -1 → iaexcl k ≠ 0 → (select s iai iaexcl n sel).1 ≤ s k := by
  intro n
  induction n with
  | zero => intro k hk; omega
  | succ m ih =>
    intro k hk h1 h2
    simp only [select]
    by_cases hkm : k = m
    · subst hkm
      split_ifs with h
      · exact le_refl _
      · by_contra hc
        exact h ⟨not_le.mp hc, h1, h2⟩
    · have := ih k (by omega) h1 h2
      split_ifs with h
      · exact le_trans (le_of_lt h.1) this
      · exact this

theorem step_l1_optimal (ar : Arith α) (P : Problem α) (f g : Frame α)
    (h : step_l1 ar P f = some (Next.ret Status.EIQUADPROG_FAST_OPTIMAL g)) :
    ResidualsCurrent P g ∧
      |psi_sum P.nIneqCon g.slv.s| ≤ (P.nIneqCon : α) * ar.eps * g.c1 * g.c2 * 100 := by
  unfold step_l1 at h
  dsimp only at h
  split_ifs at h with h1 h2 h3
  · simp at h
  · simp only [Option.map_eq_some'] at h
    obtain ⟨iai, -, h⟩ := h
    simp only [Next.ret.injEq, true_and] at h
    subst h
    refine ⟨?_, h3⟩
    intro i hi
    simp [hi]
  · simp only [Option.map_eq_some'] at h
    obtain ⟨iai, -, h⟩ := h
    simp at h

theorem step_l1_goto (ar : Arith α) (P : Problem α) (f : Frame α) (nx : Next α)
    (h : step_l1 ar P f = some nx) :
    (∃ st g, nx = Next.ret st g) ∨
      ∃ g, nx = Next.goto_l2 g ∧ ResidualsCurrent P g ∧ g.ss = 0 ∧
        ∀ i, i < P.nIneqCon → g.slv.iaexcl i ≠ 0 := by
  unfold step_l1 at h
  dsimp only at h
  split_ifs at h with h1 h2 h3
  · simp only [Option.some.injEq] at h
    exact Or.inl ⟨_, _, h.symm⟩
  · simp only [Option.map_eq_some'] at h
    obtain ⟨iai, -, h⟩ := h
    exact Or.inl ⟨_, _, h.symm⟩
  · simp only [Option.map_eq_some'] at h
    obtain ⟨iai, -, h⟩ := h
    refine Or.inr ⟨_, h.symm, ?_, rfl, ?_⟩
    · intro i hi
      simp [hi]
    · intro i hi
      simp [hi]

theorem step_l2_optimal (P : Problem α) (f : Frame α) (st : Status) (g : Frame α)
    (h : step_l2 P f = some (Next.ret st g)) :
    g.slv.s = f.slv.s ∧ g.x = f.x ∧ g.slv.iai = f.slv.iai ∧
      0 ≤ (select f.slv.s f.slv.iai f.slv.iaexcl P.nIneqCon (f.ss, f.ip)).1 := by
  unfold step_l2 at h
  dsimp only at h
  split_ifs at h with h1 h2
  · simp only [Option.some.injEq, Next.ret.injEq] at h
    obtain ⟨-, rfl⟩ := h
    exact ⟨rfl, rfl, rfl, h1⟩
  · simp at h

theorem step_l2_cases (P : Problem α) (f : Frame α) (nx : Next α)
    (h : step_l2 P f = some nx) :
    (∃ st g, nx = Next.ret st g) ∨ ∃ g, nx = Next.goto_l2a g := by
  unfold step_l2 at h
  dsimp only at h
  split_ifs at h with h1 h2
  · simp only [Option.some.injEq] at h
    exact Or.inl ⟨_, _, h.symm⟩
  · simp only [Option.some.injEq] at h
    exact Or.inr ⟨_, h.symm⟩

theorem rollback_ss (ar : Arith α) (P : Problem α) (f : Frame α) (a : AddResult α)
    (g : Frame α) (h : rollback ar P f a = some (Next.goto_l2 g)) : g.ss = f.ss := by
  unfold rollback at h
  dsimp only at h
  split_ifs at h
  simp only [Option.bind_eq_some, Option.map_eq_some'] at h
  obtain ⟨dr, -, r, -, h⟩ := h
  simp only [Next.goto_l2.injEq] at h
  subst h
  rfl

theorem step_l2a_goto_l2 (ar : Arith α) (P : Problem α) (f g : Frame α)
    (h : step_l2a ar P f = some (Next.goto_l2 g)) : g.ss = f.ss := by
  unfold step_l2a at h
  dsimp only at h
  split_ifs at h
  unfold step_2c at h
  split at h
  · split at h
    · simp at h
    · split_ifs at h
      simp only [Option.map_eq_some'] at h
      obtain ⟨f3, h3, h⟩ := h
      simp at h
  · split_ifs at h
    unfold primal_dual_step at h
    dsimp only at h
    split_ifs at h
    · simp only [Option.bind_eq_some] at h
      obtain ⟨a, -, h⟩ := h
      split_ifs at h
      · simp at h
      · have k := rollback_ss ar P _ a g h
        exact k
    · simp only [Option.map_eq_some'] at h
      obtain ⟨f3, h3, h⟩ := h
      simp at h

end Optimal

/-- On a return with `EIQUADPROG_FAST_OPTIMAL` the residuals in `s` are those of the
returned `x` and passed the test of step 1 (with the locals `c1`, `c2`) or of step 2. -/
theorem optimal_tested_frame {α : Type} [LinearOrderedField α] (ar : Arith α)
    (fuel : Nat) (slv : Solver α) (P : Problem α) (f : Frame α)
    (h : solve_quadprog ar fuel slv P = Outcome.done Status.EIQUADPROG_FAST_OPTIMAL f) :
    ResidualsCurrent P f ∧
    (|psi_sum P.nIneqCon f.slv.s| ≤ (P.nIneqCon : α) * ar.eps * f.c1 * f.c2 * 100 ∨
      ∀ i, i < P.nIneqCon → f.slv.iai i ≠ -1 → 0 ≤ f.slv.s i) := by
  unfold solve_quadprog at h
  split at h
  · simp at h
  · rename_i nx hs
    have key := run_invariant ar P
      (fun nx => match nx with
        | Next.goto_l1 _ => True
        | Next.goto_l2 g =>
          (ResidualsCurrent P g ∧ g.ss = 0 ∧ ∀ i, i < P.nIneqCon → g.slv.iaexcl i ≠ 0) ∨
            g.ss < 0
        | Next.goto_l2a g => g.ss < 0
        | Next.ret st g => st = Status.EIQUADPROG_FAST_OPTIMAL →
            ResidualsCurrent P g ∧
            (|psi_sum P.nIneqCon g.slv.s| ≤ (P.nIneqCon : α) * ar.eps * g.c1 * g.c2 * 100 ∨
              ∀ i, i < P.nIneqCon → g.slv.iai i ≠ -1 → 0 ≤ g.slv.s i))
      ?_ ?_ ?_ fuel nx ?_ _ f h
    · exact key rfl
    · intro g nx1 _ hst
      rcases step_l1_goto ar P g nx1 hst with ⟨st, g1, rfl⟩ | ⟨g1, rfl, h1, h2, h3⟩
      · intro ho
        subst ho
        obtain ⟨k1, k2⟩ := step_l1_optimal ar P g g1 hst
        exact ⟨k1, Or.inl k2⟩
      · exact Or.inl ⟨h1, h2, h3⟩
    · intro g nx1 hq hst
      rcases step_l2_cases P g nx1 hst with ⟨st, g1, rfl⟩ | ⟨g1, rfl⟩
      · intro _
        obtain ⟨e1, e2, e3, e4⟩ := step_l2_optimal P g st g1 hst
        rcases hq with ⟨q1, q2, q3⟩ | q
        · refine ⟨?_, Or.inr ?_⟩
          · intro i hi
            rw [e1, e2]
            exact q1 i hi
          · intro i hi hia
            rw [e1]
            rw [e3] at hia
            exact le_trans e4 (select_lower _ _ _ _ _ i hi hia (q3 i hi))
        · exact absurd (lt_of_le_of_lt (le_trans e4 (select_le _ _ _ _ _)) q) (lt_irrefl 0)
      · exact (step_l2_goto P g g1 hst).2.2
    · intro g nx1 hq hst
      cases nx1 with
      | goto_l1 g1 => trivial
      | goto_l2 g1 =>
        have e := step_l2a_goto_l2 ar P g g1 hst
        have hq1 : g.ss < 0 := hq
        exact Or.inr (by rw [e]; exact hq1)
      | goto_l2a g1 =>
        have e := (step_l2a_goto ar P g g1 hst).2.2
        have hq1 : g.ss < 0 := hq
        show g1.ss < 0
        rw [e]
        exact hq1
      | ret st g1 =>
        intro ho
        rw [(step_l2a_ret ar P g st g1 hst).1] at ho
        simp at ho
    · rcases start_cases ar slv P nx hs with ⟨g, rfl⟩ | ⟨g, rfl⟩
      · trivial
      · intro hu
        simp at hu

end Eiquadprog

namespace Eiquadprog

section Cholesky

variable {α : Type} [LinearOrderedField α]

theorem sumTo_eq_sum (n : Nat) (f : Nat → α) : sumTo n f = ∑ i ∈ Finset.range n, f i := by
  induction n with
  | zero => simp [sumTo]
  | succ k ih => rw [sumTo, ih, Finset.sum_range_succ]

theorem chol_col_ge (ar : Arith α) (n : Nat) (H : Mat α) :
    ∀ m i c, m ≤ c → chol ar n H m i c = 0 := by
  intro m
  induction m with
  | zero => intro i c _; rfl
  | succ k ih =>
    intro i c hc
    simp only [chol]
    rw [if_neg (by omega)]
    exact ih i c (by omega)

theorem chol_col_stable (ar : Arith α) (n : Nat) (H : Mat α) (c : Nat) :
    ∀ m i, c < m → chol ar n H m i c = chol ar n H (c + 1) i c := by
  intro m
  induction m with
  | zero => intro i h; omega
  | succ k ih =>
    intro i h
    by_cases hk : c = k
    · subst hk; rfl
    · have : chol ar n H (k + 1) i c = chol ar n H k i c := by
        simp only [chol]
        rw [if_neg hk]
      rw [this]
      exact ih i (by omega)

theorem chol_sum_stable (ar : Arith α) (n : Nat) (H : Mat α) (k m i i2 : Nat) (hk : k ≤ m) :
    sumTo k (fun j => chol ar n H k i j * chol ar n H k i2 j)
      = sumTo k (fun j => chol ar n H m i j * chol ar n H m i2 j) := by
  apply sumTo_congr
  intro j hj
  simp only
  rw [chol_col_stable ar n H j k i hj, chol_col_stable ar n H j k i2 hj,
    chol_col_stable ar n H j m i (by omega), chol_col_stable ar n H j m i2 (by omega)]

/-- The factor `L = chol n` satisfies the defining recurrences of the Cholesky
factorisation, column by column. -/
theorem chol_spec (ar : Arith α) (n : Nat) (H : Mat α) :
    (∀ k, k < n → chol ar n H n k k
      = ar.sqrt (H k k - sumTo k (fun j => chol ar n H n k j * chol ar n H n k j))) ∧
    (∀ k i, k < i → i < n → chol ar n H n i k
      = (H i k - sumTo k (fun j => chol ar n H n i j * chol ar n H n k j))
          / chol ar n H n k k) ∧
    (∀ i k, i < k → chol ar n H n i k = 0) := by
  refine ⟨?_, ?_, ?_⟩
  · intro k hk
    rw [chol_col_stable ar n H k n k hk, ← chol_sum_stable ar n H k n k k (by omega)]
    simp [chol]
  · intro k i hki hin
    rw [chol_col_stable ar n H k n i (by omega), chol_col_stable ar n H k n k (by omega),
      ← chol_sum_stable ar n H k n i k (by omega)]
    simp only [chol]
    have h1 : ¬ i = k := by omega
    simp [h1, hki, hin]
  · intro i k hik
    by_cases hk : k < n
    · rw [chol_col_stable ar n H k n i hk]
      simp only [chol]
      have h1 : ¬ i = k := by omega
      have h2 : ¬ k < i := by omega
      simp [h1, h2]
    · exact chol_col_ge ar n H n i k (by omega)

theorem back_subst_stable (n : Nat) (U : Mat α) (b : Vec α) (m0 : Nat) :
    ∀ m, m0 ≤ m → m ≤ n → ∀ i, n - m0 ≤ i →
      back_subst n U b m i = back_subst n U b m0 i := by
  intro m
  induction m with
  | zero =>
    intro h0 _ i _
    have : m0 = 0 := by omega
    subst this
    rfl
  | succ k ih =>
    intro h0 hn i hi
    by_cases hk : m0 = k + 1
    · subst hk; rfl
    · have hne : ¬ i = n - (k + 1) := by omega
      simp only [back_subst, vset, if_neg hne]
      exact ih (by omega) (by omega) i hi

/-- Back substitution solves the upper-triangular system `U·x = b` (the entries of `U`
below the diagonal are not read). -/
theorem back_subst_spec (n : Nat) (U : Mat α) (b : Vec α) (hd : ∀ i, i < n → U i i ≠ 0)
    (i : Nat) (hi : i < n) :
    U i i * back_subst n U b n i
      + sumTo n (fun j => if i < j then U i j * back_subst n U b n j else 0) = b i := by
  obtain ⟨k, hk⟩ : ∃ k, n = i + (k + 1) := ⟨n - 1 - i, by omega⟩
  have e1 : back_subst n U b n i = back_subst n U b (k + 1) i :=
    back_subst_stable n U b (k + 1) n (by omega) (le_refl n) i (by omega)
  have e2 : sumTo n (fun j => if i < j then U i j * back_subst n U b n j else 0)
      = sumTo n (fun j => if i < j then U i j * back_subst n U b k j else 0) := by
    apply sumTo_congr
    intro j _
    simp only
    by_cases hj : i < j
    · rw [if_pos hj, if_pos hj,
        back_subst_stable n U b k n (by omega) (le_refl n) j (by omega)]
    · rw [if_neg hj, if_neg hj]
  have hin : n - (k + 1) = i := by omega
  have e3 : back_subst n U b (k + 1) i
      = (b i - sumTo n (fun j => if i < j then U i j * back_subst n U b k j else 0))
          / U i i := by
    simp only [back_subst, vset, hin, if_true]
  rw [e1, e2, e3]
  field_simp [hd i hi]

theorem fwd_subst_stable (L : Mat α) (b : Vec α) (m0 : Nat) :
    ∀ m, m0 ≤ m → ∀ i, i < m0 → fwd_subst L b m i = fwd_subst L b m0 i := by
  intro m
  induction m with
  | zero =>
    intro h0 i hi
    omega
  | succ k ih =>
    intro h0 i hi
    by_cases hk : m0 = k + 1
    · subst hk; rfl
    · have hne : ¬ i = k := by omega
      simp only [fwd_subst, vset, if_neg hne]
      exact ih (by omega) i hi

/-- Forward substitution solves the lower-triangular system `L·y = b`. -/
theorem fwd_subst_spec (n : Nat) (L : Mat α) (b : Vec α) (hd : ∀ i, i < n → L i i ≠ 0)
    (k : Nat) (hk : k < n) :
    sumTo k (fun j => L k j * fwd_subst L b n j) + L k k * fwd_subst L b n k = b k := by
  have e1 : fwd_subst L b n k = fwd_subst L b (k + 1) k :=
    fwd_subst_stable L b (k + 1) n (by omega) k (by omega)
  have e2 : sumTo k (fun j => L k j * fwd_subst L b n j)
      = sumTo k (fun j => L k j * fwd_subst L b k j) := by
    apply sumTo_congr
    intro j hj
    simp only
    rw [fwd_subst_stable L b (j + 1) n (by omega) j (by omega),
      fwd_subst_stable L b (j + 1) k (by omega) j (by omega)]
  have e3 : fwd_subst L b (k + 1) k
      = (b k - sumTo k (fun j => L k j * fwd_subst L b k j)) / L k k := by
    simp only [fwd_subst, vset, if_true]
  rw [e1, e2, e3]
  field_simp [hd k hk]

theorem chol_rec (ar : Arith α) (n : Nat) (H : Mat α) : CholRec ar n H (chol ar n H n) :=
  chol_spec ar n H

theorem sum_truncate (m n : Nat) (hmn : m ≤ n) (f : Nat → α) (hf : ∀ j, m ≤ j → f j = 0) :
    ∑ j ∈ Finset.range n, f j = ∑ j ∈ Finset.range m, f j := by
  symm
  apply Finset.sum_subset (Finset.range_subset.mpr hmn)
  intro j _ hj
  exact hf j (by simpa using hj)

theorem sum_factor (k : Nat) (Lm : Mat α) (w l a r : Vec α)
    (hr : ∀ j, j < k → r j = ∑ c ∈ Finset.range k, a c * Lm j c)
    (hw : ∀ c, c < k → ∑ i ∈ Finset.range k, Lm i c * w i = l c) :
    ∑ j ∈ Finset.range k, r j * w j = ∑ c ∈ Finset.range k, a c * l c := by
  calc ∑ j ∈ Finset.range k, r j * w j
      = ∑ j ∈ Finset.range k, ∑ c ∈ Finset.range k, a c * (Lm j c * w j) := by
        apply Finset.sum_congr rfl
        intro j hj
        rw [hr j (Finset.mem_range.mp hj), Finset.sum_mul]
        apply Finset.sum_congr rfl
        intro c _
        ring
    _ = ∑ c ∈ Finset.range k, ∑ j ∈ Finset.range k, a c * (Lm j c * w j) := Finset.sum_comm
    _ = ∑ c ∈ Finset.range k, a c * l c := by
        apply Finset.sum_congr rfl
        intro c hc
        rw [← Finset.mul_sum, hw c (Finset.mem_range.mp hc)]

theorem quad_form_schur (k : Nat) (Hm : Mat α) (w : Vec α) (S : α)
    (hT1 : ∑ i ∈ Finset.range k, w i * ∑ j ∈ Finset.range k, Hm i j * w j = S)
    (hT2 : ∑ i ∈ Finset.range k, w i * Hm i k = S)
    (hT3 : ∑ j ∈ Finset.range k, Hm k j * w j = S) (v : Vec α)
    (hv1 : ∀ i, i < k → v i = - w i) (hv2 : v k = 1) :
    ∑ i ∈ Finset.range (k + 1), v i * ∑ j ∈ Finset.range (k + 1), Hm i j * v j
      = Hm k k - S := by
  have inner : ∀ i, ∑ j ∈ Finset.range (k + 1), Hm i j * v j
      = - (∑ j ∈ Finset.range k, Hm i j * w j) + Hm i k := by
    intro i
    rw [Finset.sum_range_succ, hv2, mul_one, ← Finset.sum_neg_distrib]
    congr 1
    apply Finset.sum_congr rfl
    intro j hj
    rw [hv1 j (Finset.mem_range.mp hj)]
    ring
  rw [Finset.sum_range_succ, hv2, one_mul, inner k, hT3]
  have outer : ∑ i ∈ Finset.range k, v i * ∑ j ∈ Finset.range (k + 1), Hm i j * v j
      = ∑ i ∈ Finset.range k, w i * ∑ j ∈ Finset.range k, Hm i j * w j
        - ∑ i ∈ Finset.range k, w i * Hm i k := by
    rw [← Finset.sum_sub_distrib]
    apply Finset.sum_congr rfl
    intro i hi
    rw [inner i, hv1 i (Finset.mem_range.mp hi)]
    ring
  rw [outer, hT1, hT2]
  ring

theorem sum_lower_col (k : Nat) (Lm : Mat α) (w : Vec α) (hz : ∀ i j, i < j → Lm i j = 0)
    (j : Nat) (hj : j < k) :
    ∑ i ∈ Finset.range k, Lm i j * w i
      = Lm j j * w j + ∑ i ∈ Finset.range k, (if j < i then Lm i j * w i else 0) := by
  have h1 : ∀ i, i ∈ Finset.range k → Lm i j * w i
      = (if i = j then Lm j j * w j else 0) + (if j < i then Lm i j * w i else 0) := by
    intro i _
    rcases Nat.lt_trichotomy i j with h | h | h
    · rw [hz i j h, if_neg (by omega), if_neg (by omega)]
      ring
    · subst h
      simp
    · rw [if_neg (by omega), if_pos h]
      ring
  rw [Finset.sum_congr rfl h1, Finset.sum_add_distrib, Finset.sum_ite_eq']
  simp [hj]

/-- With positive pivots below column `k`, the columns below `k` reproduce `H`. -/
theorem chol_columns_below (ar : Arith α) (hex : ar.exact_sqrt) (n : Nat) (H L : Mat α)
    (hsym : ∀ i j, i < n → j < n → H i j = H j i) (hL : CholRec ar n H L) (k : Nat)
    (hk : k ≤ n) (hp : ∀ c, c < k → 0 < H c c - sumTo c (fun j => L c j * L c j)) :
    (∀ c, c < k → 0 < L c c) ∧
    ∀ c i m, c < k → i < n → c < m → ∑ j ∈ Finset.range m, L i j * L c j = H i c := by
  obtain ⟨hd, ho, hz⟩ := hL
  have hpos : ∀ c, c < k → 0 < L c c := by
    intro c hc
    rw [hd c (by omega)]
    exact (hex _ (hp c hc)).1
  have hsq : ∀ c, c < k → L c c * L c c = H c c - sumTo c (fun j => L c j * L c j) := by
    intro c hc
    rw [hd c (by omega)]
    exact (hex _ (hp c hc)).2
  have he : ∀ c i, c < k → c ≤ i → i < n →
      ∑ j ∈ Finset.range (c + 1), L i j * L c j = H i c := by
    intro c i hc hci hin
    rw [Finset.sum_range_succ, ← sumTo_eq_sum]
    rcases Nat.eq_or_lt_of_le hci with h | h
    · subst h
      rw [hsq c hc]
      ring
    · rw [ho c i h hin]
      field_simp [(hpos c hc).ne']
  refine ⟨hpos, ?_⟩
  intro c i m hc hin hcm
  by_cases hci : c ≤ i
  · rw [← he c i hc hci hin]
    exact sum_truncate (c + 1) m (by omega) _ (fun j hj => by rw [hz c j (by omega), mul_zero])
  · have hic : i < c := by omega
    rw [hsym i c hin (by omega), ← he i c (by omega) (by omega) (by omega)]
    rw [sum_truncate (i + 1) m (by omega) _ (fun j hj => by rw [hz i j (by omega), zero_mul])]
    apply Finset.sum_congr rfl
    intro j _
    ring

/-- Every pivot of the factorisation of a symmetric positive definite matrix is positive
(the Schur complement argument). -/
theorem chol_pivot_pos (ar : Arith α) (hex : ar.exact_sqrt) (n : Nat) (H L : Mat α)
    (hH : SymPosDef n H) (hL : CholRec ar n H L) :
    ∀ k, k < n → 0 < H k k - sumTo k (fun j => L k j * L k j) := by
  intro k
  induction k using Nat.strong_induction_on with
  | _ k ih =>
    intro hk
    obtain ⟨hpos, hF⟩ := chol_columns_below ar hex n H L hH.1 hL k (by omega)
      (fun c hc => ih c hc (by omega))
    have hz := hL.2.2
    have hw : ∀ c, c < k → ∑ i ∈ Finset.range k,
        L i c * back_subst k (fun a b => L b a) (fun j => L k j) k i = L k c := by
      intro c hc
      have h1 := back_subst_spec k (fun a b => L b a) (fun j => L k j)
        (fun i hi => (hpos i hi).ne') c hc
      rw [sumTo_eq_sum] at h1
      rw [sum_lower_col k L _ hz c hc]
      exact h1
    have hT3 : ∑ j ∈ Finset.range k,
        H k j * back_subst k (fun a b => L b a) (fun j => L k j) k j
        = ∑ c ∈ Finset.range k, L k c * L k c :=
      sum_factor k L _ (fun j => L k j) (fun j => L k j) (fun j => H k j)
        (fun j hj => (hF j k k hj hk hj).symm) hw
    have hT2 : ∑ i ∈ Finset.range k,
        back_subst k (fun a b => L b a) (fun j => L k j) k i * H i k
        = ∑ c ∈ Finset.range k, L k c * L k c := by
      rw [← hT3]
      apply Finset.sum_congr rfl
      intro i hi
      rw [hH.1 i k (by have := Finset.mem_range.mp hi; omega) hk]
      ring
    have hT1 : ∑ i ∈ Finset.range k,
        back_subst k (fun a b => L b a) (fun j => L k j) k i
          * ∑ j ∈ Finset.range k,
              H i j * back_subst k (fun a b => L b a) (fun j => L k j) k j
        = ∑ c ∈ Finset.range k, L k c * L k c := by
      have hin : ∀ i, i ∈ Finset.range k → back_subst k (fun a b => L b a) (fun j => L k j) k i
          * ∑ j ∈ Finset.range k,
              H i j * back_subst k (fun a b => L b a) (fun j => L k j) k j
          = ∑ c ∈ Finset.range k,
              L k c * (L i c * back_subst k (fun a b => L b a) (fun j => L k j) k i) := by
        intro i hi
        have hi1 := Finset.mem_range.mp hi
        rw [sum_factor k L _ (fun j => L k j) (fun c => L i c) (fun j => H i j)
          (fun j hj => (hF j i k hj (by omega) hj).symm) hw, Finset.mul_sum]
        apply Finset.sum_congr rfl
        intro c _
        ring
      rw [Finset.sum_congr rfl hin, Finset.sum_comm]
      apply Finset.sum_congr rfl
      intro c hc
      rw [← Finset.mul_sum, hw c (Finset.mem_range.mp hc)]
    have hq := quad_form_schur k H _ _ hT1 hT2 hT3
      (fun i => if i < k then - back_subst k (fun a b => L b a) (fun j => L k j) k i
        else if i = k then 1 else 0)
      (fun i hi => by simp [hi]) (by simp)
    have hpd := hH.2
      (fun i => if i < k then - back_subst k (fun a b => L b a) (fun j => L k j) k i
        else if i = k then 1 else 0) ⟨k, hk, by simp⟩
    simp only [dot, sumTo_eq_sum] at hpd
    rw [sum_truncate (k + 1) n (by omega) _ (fun j hj => by
      have h1 : ¬ j < k := by omega
      have h2 : ¬ j = k := by omega
      simp [h1, h2])] at hpd
    have hinner : ∀ i, ∑ j ∈ Finset.range n, H i j *
        (if j < k then - back_subst k (fun a b => L b a) (fun j => L k j) k j
          else if j = k then 1 else 0)
        = ∑ j ∈ Finset.range (k + 1), H i j *
        (if j < k then - back_subst k (fun a b => L b a) (fun j => L k j) k j
          else if j = k then 1 else 0) := by
      intro i
      exact sum_truncate (k + 1) n (by omega) _ (fun j hj => by
        have h1 : ¬ j < k := by omega
        have h2 : ¬ j = k := by omega
        simp [h1, h2])
    simp only [hinner] at hpd
    rw [hq] at hpd
    rw [sumTo_eq_sum]
    exact hpd

/-- The library solve `chol_.solve(g)` returns a solution of `H·x = g` when `H` is
symmetric positive definite and the square root is exact. -/
theorem chol_solve_spec (ar : Arith α) (hex : ar.exact_sqrt) (n : Nat) (H : Mat α)
    (hH : SymPosDef n H) (g : Vec α) (i : Nat) (hi : i < n) :
    dot n (H i) (chol_solve n (chol ar n H n) g) = g i := by
  have hL := chol_rec ar n H
  obtain ⟨hpos, hF⟩ := chol_columns_below ar hex n H _ hH.1 hL n (le_refl n)
    (chol_pivot_pos ar hex n H _ hH hL)
  have hz := hL.2.2
  have hx : ∀ c, c < n → ∑ j ∈ Finset.range n,
      chol ar n H n j c * chol_solve n (chol ar n H n) g j
      = fwd_subst (chol ar n H n) g n c := by
    intro c hc
    have h1 := back_subst_spec n (fun a b => chol ar n H n b a)
      (fun k => fwd_subst (chol ar n H n) g n k) (fun i hi => (hpos i hi).ne') c hc
    rw [sumTo_eq_sum] at h1
    rw [sum_lower_col n (chol ar n H n) _ hz c hc]
    exact h1
  have hy : ∑ j ∈ Finset.range n, chol ar n H n i j * fwd_subst (chol ar n H n) g n j
      = g i := by
    have h1 := fwd_subst_spec n (chol ar n H n) g (fun i hi => (hpos i hi).ne') i hi
    rw [sum_truncate (i + 1) n (by omega) _
      (fun j hj => by rw [hz i j (by omega), zero_mul]), Finset.sum_range_succ,
      ← sumTo_eq_sum]
    exact h1
  simp only [dot, sumTo_eq_sum]
  rw [sum_factor n (chol ar n H n) _ (fun c => fwd_subst (chol ar n H n) g n c)
    (fun c => chol ar n H n i c) (fun c => H i c)
    (fun c hc => (hF c i n hc hi hc).symm) hx]
  exact hy

/-- A symmetric positive definite system has at most one solution. -/
theorem spd_unique (n : Nat) (H : Mat α) (hH : SymPosDef n H) (x y : Vec α)
    (h : ∀ i, i < n → dot n (H i) y = dot n (H i) x) : ∀ i, i < n → y i = x i := by
  by_contra hne
  push_neg at hne
  obtain ⟨i, hi, hyx⟩ := hne
  have hpd := hH.2 (fun k => y k - x k) ⟨i, hi, sub_ne_zero.mpr hyx⟩
  have h0 : dot n (fun k => y k - x k) (fun i => dot n (H i) (fun k => y k - x k)) = 0 := by
    simp only [dot, sumTo_eq_sum]
    apply Finset.sum_eq_zero
    intro a ha
    have ha1 := Finset.mem_range.mp ha
    have := h a ha1
    simp only [dot, sumTo_eq_sum] at this
    have e : ∑ j ∈ Finset.range n, H a j * (y j - x j)
        = ∑ j ∈ Finset.range n, H a j * y j - ∑ j ∈ Finset.range n, H a j * x j := by
      rw [← Finset.sum_sub_distrib]
      apply Finset.sum_congr rfl
      intro j _
      ring
    rw [e, this]
    ring
  rw [h0] at hpd
  exact lt_irrefl 0 hpd

theorem unconstrained_first_l1 (ar : Arith α) (P : Problem α) (f : Frame α)
    (hE : P.nEqCon = 0) (hI : P.nIneqCon = 0) (hiq : f.iq = 0) (hit : f.slv.iter = 0)
    (hmax : 1 < f.slv.m_maxIter) :
    ∃ g, step_l1 ar P f = some (Next.ret Status.EIQUADPROG_FAST_OPTIMAL g) ∧ g.x = f.x ∧
      g.slv.f_value = f.slv.f_value ∧ g.slv.q = 0 ∧ g.slv.iter = 1 := by
  have hm : ¬ f.slv.m_maxIter ≤ 0 + 1 := by omega
  unfold step_l1
  simp only [hE, hI, hiq, hit, if_neg hm, mark_active, psi_sum, sumTo, Nat.sub_self,
    Option.map_some']
  norm_num

end Cholesky

/-- C2 (the mode in which the solver factorises `H` itself): for a symmetric positive
definite `H` and any `g0`, without constraints and with an iteration cap `m_maxIter > 1`,
`solve_quadprog` (in exact arithmetic with an exact square root) returns `EIQUADPROG_FAST_OPTIMAL` with
`x = -H⁻¹·g0`, that is, `x` is the one solution of `H·x = -g0`, with
`f_value = 0.5·g0ᵀ·x` and active-set size `q = 0`, as soon as one block of the main loop
may run. -/
theorem unconstrained_minimiser {α : Type} [LinearOrderedField α] (ar : Arith α)
    (hex : ar.exact_sqrt) (slv : Solver α) (hmode : slv.is_inverse_provided_ = false)
    (hmax : 1 < slv.m_maxIter) (P : Problem α) (hH : SymPosDef P.nVars P.Hess)
    (hE : P.nEqCon = 0) (hI : P.nIneqCon = 0) (k : Nat) :
    ∃ f, solve_quadprog ar (k + 1) slv P = Outcome.done Status.EIQUADPROG_FAST_OPTIMAL f ∧
      (∀ i, i < P.nVars → dot P.nVars (P.Hess i) f.x = -(P.g0 i)) ∧
      (∀ y : Vec α, (∀ i, i < P.nVars → dot P.nVars (P.Hess i) y = -(P.g0 i)) →
        ∀ i, i < P.nVars → y i = f.x i) ∧
      f.slv.f_value = (1 / 2) * dot P.nVars P.g0 f.x ∧ f.slv.q = 0 := by
  obtain ⟨-, px, -, -, piq, -, -, pit, pf, pmax, -, -⟩ := preprocess_default ar slv P hmode
  have hsol : ∀ i, i < P.nVars → dot P.nVars (P.Hess i) (preprocess ar slv P).x = -(P.g0 i) := by
    intro i hi
    rw [px]
    split_ifs
    · exact chol_solve_spec ar hex P.nVars P.Hess hH (fun i => -(P.g0 i)) i hi
    · have := chol_solve_spec ar hex P.nVars P.Hess hH P.g0 i hi
      rw [← this]
      simp only [dot, sumTo_eq_sum]
      rw [← Finset.sum_neg_distrib]
      apply Finset.sum_congr rfl
      intro j _
      ring
  obtain ⟨g, hg, gx, gf, gq, -⟩ := unconstrained_first_l1 ar P
    { preprocess ar slv P with slv := { (preprocess ar slv P).slv with
        iai := fun i => if i < P.nIneqCon then (i : Int) else (preprocess ar slv P).slv.iai i } }
    hE hI piq pit (by rw [show _ = (preprocess ar slv P).slv.m_maxIter from rfl, pmax]; exact hmax)
  have hgx : g.x = (preprocess ar slv P).x := gx
  refine ⟨g, ?_, ?_, ?_, ?_, gq⟩
  · unfold solve_quadprog start
    rw [hE]
    simp only [eq_loop, run, hg, run_ret]
  · intro i hi
    rw [hgx]
    exact hsol i hi
  · intro y hy
    rw [hgx]
    exact spd_unique P.nVars P.Hess hH _ y (fun i hi => by rw [hy i hi, hsol i hi])
  · rw [hgx, show g.slv.f_value = (preprocess ar slv P).slv.f_value from gf, pf]

/-- Witness for C2 in the mode in which the solver factorises `H` itself: the real numbers
with `Real.sqrt`, a new solver, `H = [[2,1],[1,2]]` and `g0 = [1,-1]`. -/
theorem unconstrained_minimiser_witness :
    ∃ f, solve_quadprog ⟨Real.sqrt, 1 / 2 ^ 52, true⟩ (0 + 1) (new_solver ℝ 1000)
        (qp_two_unconstrained ℝ) = Outcome.done Status.EIQUADPROG_FAST_OPTIMAL f ∧
      (∀ i, i < (qp_two_unconstrained ℝ).nVars →
        dot (qp_two_unconstrained ℝ).nVars ((qp_two_unconstrained ℝ).Hess i) f.x
          = -((qp_two_unconstrained ℝ).g0 i)) ∧
      (∀ y : Vec ℝ, (∀ i, i < (qp_two_unconstrained ℝ).nVars →
          dot (qp_two_unconstrained ℝ).nVars ((qp_two_unconstrained ℝ).Hess i) y
            = -((qp_two_unconstrained ℝ).g0 i)) →
        ∀ i, i < (qp_two_unconstrained ℝ).nVars → y i = f.x i) ∧
      f.slv.f_value
        = (1 / 2) * dot (qp_two_unconstrained ℝ).nVars (qp_two_unconstrained ℝ).g0 f.x ∧
      f.slv.q = 0 :=
  unconstrained_minimiser ⟨Real.sqrt, 1 / 2 ^ 52, true⟩
    (fun a ha => ⟨Real.sqrt_pos.mpr ha, Real.mul_self_sqrt ha.le⟩) (new_solver ℝ 1000) rfl
    (by decide) (qp_two_unconstrained ℝ)
    ⟨fun i j hi hj => by
        simp only [qp_two_unconstrained]
        by_cases h : i = j
        · subst h; rfl
        · rw [if_neg h, if_neg (fun e => h e.symm)],
      fun v hv => by
        obtain ⟨i, hi, hvi⟩ := hv
        have e : dot (qp_two_unconstrained ℝ).nVars v
            (fun i => dot (qp_two_unconstrained ℝ).nVars ((qp_two_unconstrained ℝ).Hess i) v)
            = v 0 * v 0 + v 1 * v 1 + (v 0 + v 1) * (v 0 + v 1) := by
          simp [dot, sumTo, qp_two_unconstrained]
          ring
        rw [e]
        have hi2 : i = 0 ∨ i = 1 := by
          have : i < 2 := hi
          omega
        rcases hi2 with h | h <;> subst h
        · have := mul_self_pos.mpr hvi
          nlinarith [mul_self_nonneg (v 1), mul_self_nonneg (v 0 + v 1)]
        · have := mul_self_pos.mpr hvi
          nlinarith [mul_self_nonneg (v 0), mul_self_nonneg (v 0 + v 1)]⟩
    rfl rfl 0

end Eiquadprog

namespace Eiquadprog

section Rotation

variable {α : Type} [LinearOrderedField α]

theorem sumTo_lin (n : Nat) (a b p : Vec α) (x y : α) :
    sumTo n (fun k => (a k * x + b k * y) * p k)
      = sumTo n (fun k => a k * p k) * x + sumTo n (fun k => b k * p k) * y := by
  simp only [sumTo_eq_sum]
  rw [Finset.sum_mul, Finset.sum_mul, ← Finset.sum_add_distrib]
  apply Finset.sum_congr rfl
  intro k _
  ring

/-- The vector `Jᵀ·p` after the column rotation of `add_constraint` at index `j`. -/
theorem compute_d_rot (n j : Nat) (J : Mat α) (p : Vec α) (cc ss xny : α) (c : Nat) :
    compute_d n (fun k c =>
      if k < n then
        if c = j - 1 then J k (j - 1) * cc + J k j * ss
        else if c = j then xny * (J k (j - 1) + (J k (j - 1) * cc + J k j * ss)) - J k j
        else J k c
      else J k c) p c
    = if c = j - 1 then compute_d n J p (j - 1) * cc + compute_d n J p j * ss
      else if c = j then
        xny * (compute_d n J p (j - 1)
          + (compute_d n J p (j - 1) * cc + compute_d n J p j * ss)) - compute_d n J p j
      else compute_d n J p c := by
  unfold compute_d
  by_cases h1 : c = j - 1
  · rw [if_pos h1, ← sumTo_lin]
    apply sumTo_congr
    intro k hk
    simp only [if_pos hk, if_pos h1]
  · rw [if_neg h1]
    by_cases h2 : c = j
    · rw [if_pos h2]
      have e : xny * (sumTo n (fun k => J k (j - 1) * p k)
          + (sumTo n (fun k => J k (j - 1) * p k) * cc + sumTo n (fun k => J k j * p k) * ss))
          - sumTo n (fun k => J k j * p k)
          = sumTo n (fun k => J k (j - 1) * p k) * (xny * (1 + cc))
            + sumTo n (fun k => J k j * p k) * (xny * ss - 1) := by ring
      rw [e, ← sumTo_lin]
      apply sumTo_congr
      intro k hk
      simp only [if_pos hk, if_neg h1, if_pos h2]
      ring
    · rw [if_neg h2]
      apply sumTo_congr
      intro k hk
      simp only [if_pos hk, if_neg h1, if_neg h2]

theorem distance_exact (ar : Arith α) (hex : ar.exact_sqrt) (a b : α) :
    0 ≤ distance ar a b ∧ distance ar a b * distance ar a b = a * a + b * b := by
  unfold distance
  dsimp only
  have ha : |a| * |a| = a * a := abs_mul_abs_self a
  have hb : |b| * |b| = b * b := abs_mul_abs_self b
  split_ifs with h1 h2
  · have hpos : 0 < |a| := lt_of_le_of_lt (abs_nonneg b) h1
    have hq : 0 < 1 + |b| / |a| * (|b| / |a|) := by positivity
    obtain ⟨s1, s2⟩ := hex _ hq
    refine ⟨by positivity, ?_⟩
    calc |a| * ar.sqrt (1 + |b| / |a| * (|b| / |a|))
          * (|a| * ar.sqrt (1 + |b| / |a| * (|b| / |a|)))
        = |a| * |a| * (ar.sqrt (1 + |b| / |a| * (|b| / |a|))
            * ar.sqrt (1 + |b| / |a| * (|b| / |a|))) := by ring
      _ = |a| * |a| * (1 + |b| / |a| * (|b| / |a|)) := by rw [s2]
      _ = a * a + b * b := by
        have ha0 : a ≠ 0 := abs_pos.mp hpos
        rw [div_mul_div_comm, ha, hb]
        field_simp
  · have hpos : 0 < |b| := lt_of_le_of_lt (abs_nonneg a) h2
    have hq : 0 < 1 + |a| / |b| * (|a| / |b|) := by positivity
    obtain ⟨s1, s2⟩ := hex _ hq
    refine ⟨by positivity, ?_⟩
    calc |b| * ar.sqrt (1 + |a| / |b| * (|a| / |b|))
          * (|b| * ar.sqrt (1 + |a| / |b| * (|a| / |b|)))
        = |b| * |b| * (ar.sqrt (1 + |a| / |b| * (|a| / |b|))
            * ar.sqrt (1 + |a| / |b| * (|a| / |b|))) := by ring
      _ = |b| * |b| * (1 + |a| / |b| * (|a| / |b|)) := by rw [s2]
      _ = a * a + b * b := by
        have hb0 : b ≠ 0 := abs_pos.mp hpos
        rw [div_mul_div_comm, ha, hb]
        field_simp
        ring
  · have hab : |a| = |b| := le_antisymm (not_lt.mp h1) (not_lt.mp h2)
    obtain ⟨s1, s2⟩ := hex 2 (by norm_num)
    refine ⟨mul_nonneg (abs_nonneg a) s1.le, ?_⟩
    calc |a| * ar.sqrt 2 * (|a| * ar.sqrt 2)
        = |a| * |a| * (ar.sqrt 2 * ar.sqrt 2) := by ring
      _ = |a| * |a| + |a| * |a| := by rw [s2]; ring
      _ = a * a + b * b := by
        have e : a * a = b * b := by rw [← ha, ← hb, hab]
        rw [ha, ← e]

theorem distance_zero (ar : Arith α) : distance ar 0 0 = 0 := by
  simp [distance]

/-- The rotation at index `j` leaves `Jᵀ·p` unchanged when its entries `j - 1` and `j`
are zero. -/
theorem add_rot_zero (ar : Arith α) (n j : Nat) (J : Mat α) (d p : Vec α)
    (h0 : compute_d n J p (j - 1) = 0) (h1 : compute_d n J p j = 0) (c : Nat) :
    compute_d n (add_rot ar n j (J, d)).1 p c = compute_d n J p c := by
  unfold add_rot
  dsimp only
  split_ifs with hh hc
  · rfl
  · rw [compute_d_rot, h0, h1]
    split_ifs with e1 e2
    · rw [e1, h0]; ring
    · rw [e2, h1]; ring
    · rfl
  · rw [compute_d_rot, h0, h1]
    split_ifs with e1 e2
    · rw [e1, h0]; ring
    · rw [e2, h1]; ring
    · rfl

theorem rot_alg_pos (a b h : α) (hpos : 0 < h) (hsq : h * h = a * a + b * b)
    (hc : 0 ≤ a / h) :
    a * (a / h) + b * (b / h) = h ∧
    b / h / (1 + a / h) * (a + (a * (a / h) + b * (b / h))) - b = 0 := by
  have e1 : a * (a / h) + b * (b / h) = h := by
    rw [← mul_div_assoc, ← mul_div_assoc, ← add_div, ← hsq, mul_div_assoc,
      div_self hpos.ne', mul_one]
  refine ⟨e1, ?_⟩
  rw [e1]
  have h1 : 1 + a / h ≠ 0 := by linarith
  have h2 : h + a ≠ 0 := by
    intro e
    apply h1
    field_simp
    exact e
  field_simp
  ring

theorem rot_alg_neg (a b h : α) (hpos : 0 < h) (hsq : h * h = a * a + b * b)
    (hc : a / h < 0) :
    a * -(a / h) + b * -(b / h) = -h ∧
    -(b / h) / (1 + -(a / h)) * (a + (a * -(a / h) + b * -(b / h))) - b = 0 := by
  have e0 : a * (a / h) + b * (b / h) = h := by
    rw [← mul_div_assoc, ← mul_div_assoc, ← add_div, ← hsq, mul_div_assoc,
      div_self hpos.ne', mul_one]
  have e1 : a * -(a / h) + b * -(b / h) = -h := by
    have e : a * -(a / h) + b * -(b / h) = -(a * (a / h) + b * (b / h)) := by ring
    rw [e, e0]
  refine ⟨e1, ?_⟩
  rw [e1]
  have h1 : 1 + -(a / h) ≠ 0 := by linarith
  have h2 : h - a ≠ 0 := by
    intro e
    apply h1
    field_simp
    linarith
  have h3 : h + -a ≠ 0 := by
    rw [← sub_eq_add_neg]
    exact h2
  field_simp
  ring

/-- The rotation at index `j` keeps the tracked vector `d` equal to `Jᵀ·p` and clears
its entry `j`, when the hypotenuse is exact. -/
theorem add_rot_track (ar : Arith α) (hex : ar.exact_sqrt) (n j : Nat) (J : Mat α)
    (d p : Vec α) (hj1 : 1 ≤ j) (hjn : j < n)
    (hd : ∀ t, t < n → d t = compute_d n J p t) :
    (∀ t, t < n → (add_rot ar n j (J, d)).2 t = compute_d n (add_rot ar n j (J, d)).1 p t) ∧
    (add_rot ar n j (J, d)).2 j = 0 ∧
    ∀ t, j < t → (add_rot ar n j (J, d)).2 t = d t := by
  obtain ⟨hnn, hsq⟩ := distance_exact ar hex (d (j - 1)) (d j)
  have hne : j - 1 ≠ j := by omega
  unfold add_rot
  dsimp only
  by_cases hh : distance ar (d (j - 1)) (d j) = 0
  · rw [if_pos hh]
    dsimp only
    refine ⟨hd, ?_, fun _ _ => rfl⟩
    rw [hh] at hsq
    have h2 : d j * d j = 0 := by
      nlinarith [mul_self_nonneg (d (j - 1)), mul_self_nonneg (d j)]
    exact mul_self_eq_zero.mp h2
  · rw [if_neg hh]
    have hpos : 0 < distance ar (d (j - 1)) (d j) := lt_of_le_of_ne hnn (Ne.symm hh)
    have ea := hd (j - 1) (by omega)
    have eb := hd j hjn
    by_cases hc : d (j - 1) / distance ar (d (j - 1)) (d j) < 0
    · simp only [if_pos hc]
      obtain ⟨q1, q2⟩ := rot_alg_neg (d (j - 1)) (d j) _ hpos hsq hc
      refine ⟨?_, by simp [vset, hne.symm], fun t ht => by
        have h1 : ¬ t = j := by omega
        have h2 : ¬ t = j - 1 := by omega
        simp [vset, h1, h2]⟩
      intro t ht
      rw [compute_d_rot, ← ea, ← eb]
      by_cases e1 : t = j - 1
      · rw [if_pos e1]
        simp only [vset, if_pos e1]
        exact q1.symm
      · rw [if_neg e1]
        by_cases e2 : t = j
        · rw [if_pos e2]
          simp only [vset, if_neg e1, if_pos e2]
          exact q2.symm
        · rw [if_neg e2]
          simp only [vset, if_neg e1, if_neg e2]
          exact hd t ht
    · simp only [if_neg hc]
      have hcc : 0 ≤ d (j - 1) / distance ar (d (j - 1)) (d j) := not_lt.mp hc
      obtain ⟨q1, q2⟩ := rot_alg_pos (d (j - 1)) (d j) _ hpos hsq hcc
      refine ⟨?_, by simp [vset, hne.symm], fun t ht => by
        have h1 : ¬ t = j := by omega
        have h2 : ¬ t = j - 1 := by omega
        simp [vset, h1, h2]⟩
      intro t ht
      rw [compute_d_rot, ← ea, ← eb]
      by_cases e1 : t = j - 1
      · rw [if_pos e1]
        simp only [vset, if_pos e1]
        exact q1.symm
      · rw [if_neg e1]
        by_cases e2 : t = j
        · rw [if_pos e2]
          simp only [vset, if_neg e1, if_pos e2]
          exact q2.symm
        · rw [if_neg e2]
          simp only [vset, if_neg e1, if_neg e2]
          exact hd t ht

theorem add_loop_zero (ar : Arith α) (n iq : Nat) (p : Vec α) :
    ∀ (cnt : Nat) (Jd : Mat α × Vec α),
      (∀ t, iq ≤ t → t < n → compute_d n Jd.1 p t = 0) → iq + cnt < n →
      ∀ c, compute_d n (add_loop ar n iq cnt Jd).1 p c = compute_d n Jd.1 p c := by
  intro cnt
  induction cnt with
  | zero => intro Jd _ _ c; rfl
  | succ m ih =>
    intro Jd hz hlt c
    have h1 : ∀ c, compute_d n (add_rot ar n (iq + m + 1) Jd).1 p c = compute_d n Jd.1 p c :=
      add_rot_zero ar n (iq + m + 1) Jd.1 Jd.2 p (hz _ (by omega) (by omega))
        (hz _ (by omega) (by omega))
    simp only [add_loop]
    rw [ih (add_rot ar n (iq + m + 1) Jd) (fun t ht1 ht2 => by rw [h1]; exact hz t ht1 ht2)
      (by omega) c]
    exact h1 c

theorem add_loop_track (ar : Arith α) (hex : ar.exact_sqrt) (n iq : Nat) (p : Vec α) :
    ∀ (cnt : Nat) (Jd : Mat α × Vec α),
      (∀ t, t < n → Jd.2 t = compute_d n Jd.1 p t) →
      (∀ t, iq + cnt < t → t < n → Jd.2 t = 0) → iq + cnt < n →
      (∀ t, t < n → (add_loop ar n iq cnt Jd).2 t
        = compute_d n (add_loop ar n iq cnt Jd).1 p t) ∧
      ∀ t, iq < t → t < n → (add_loop ar n iq cnt Jd).2 t = 0 := by
  intro cnt
  induction cnt with
  | zero => intro Jd hd h2 _; exact ⟨hd, h2⟩
  | succ m ih =>
    intro Jd hd h2 hlt
    obtain ⟨k1, k2, k3⟩ := add_rot_track ar hex n (iq + m + 1) Jd.1 Jd.2 p (by omega)
      (by omega) hd
    simp only [add_loop]
    refine ih (add_rot ar n (iq + m + 1) Jd) k1 ?_ (by omega)
    intro t ht1 ht2
    by_cases e : t = iq + m + 1
    · rw [e]; exact k2
    · have := k3 t (by omega)
      have h3 : (add_rot ar n (iq + m + 1) Jd).2 t = Jd.2 t := this
      rw [h3]
      exact h2 t (by omega) ht2

theorem add_loop_fix (ar : Arith α) (n iq : Nat) :
    ∀ (cnt : Nat) (Jd : Mat α × Vec α),
      (∀ t, iq ≤ t → t < n → Jd.2 t = 0) → iq + cnt < n → add_loop ar n iq cnt Jd = Jd := by
  intro cnt
  induction cnt with
  | zero => intro Jd _ _; rfl
  | succ m ih =>
    intro Jd hz hlt
    have h1 : add_rot ar n (iq + m + 1) Jd = Jd := by
      unfold add_rot
      simp [hz (iq + m) (by omega) (by omega), hz (iq + m + 1) (by omega) (by omega),
        distance_zero]
    simp only [add_loop]
    rw [h1]
    exact ih Jd hz (by omega)

theorem compute_d_comb (n m : Nat) (J M : Mat α) (cf : Vec α) (t : Nat) :
    compute_d n J (fun c => sumTo m (fun r => cf r * M r c)) t
      = sumTo m (fun r => cf r * compute_d n J (fun c => M r c) t) := by
  simp only [compute_d, sumTo_eq_sum]
  calc ∑ k ∈ Finset.range n, J k t * ∑ r ∈ Finset.range m, cf r * M r k
      = ∑ k ∈ Finset.range n, ∑ r ∈ Finset.range m, cf r * (J k t * M r k) := by
        apply Finset.sum_congr rfl
        intro k _
        rw [Finset.mul_sum]
        apply Finset.sum_congr rfl
        intro r _
        ring
    _ = ∑ r ∈ Finset.range m, ∑ k ∈ Finset.range n, cf r * (J k t * M r k) := Finset.sum_comm
    _ = ∑ r ∈ Finset.range m, cf r * ∑ k ∈ Finset.range n, J k t * M r k := by
        apply Finset.sum_congr rfl
        intro r _
        rw [Finset.mul_sum]

theorem add_constraint_some (ar : Arith α) (n : Nat) (R J : Mat α) (d : Vec α) (iq : Nat)
    (R_norm : α) (hiq : iq < n) :
    ∃ a, add_constraint ar n R J d iq R_norm = some a ∧
      a.J = (add_loop ar n iq (n - 1 - iq) (J, d)).1 ∧
      a.d = (add_loop ar n iq (n - 1 - iq) (J, d)).2 ∧ R_norm ≤ a.R_norm ∧
      (|a.d iq| ≤ ar.eps * R_norm → a.ok = false) := by
  unfold add_constraint
  dsimp only
  rw [if_neg (by omega)]
  split_ifs with h
  · exact ⟨_, rfl, rfl, rfl, le_refl _, fun _ => rfl⟩
  · refine ⟨_, rfl, rfl, rfl, le_max_left _ _, fun h1 => ?_⟩
    exact absurd h1 h

theorem eq_step_of_add (ar : Arith α) (P : Problem α) (i : Nat) (f : Frame α)
    (a : AddResult α) (hiq : f.iq < P.nVars) (hasz : f.iq < P.nIneqCon + P.nEqCon)
    (ha : add_constraint ar P.nVars f.slv.R f.slv.m_J
      (compute_d P.nVars f.slv.m_J (fun k => P.CE i k)) f.iq f.R_norm = some a) :
    ∃ f1, eq_step ar P i f = some (a.ok, f1) ∧ f1.slv.m_J = a.J ∧ f1.iq = a.iq ∧
      f1.R_norm = a.R_norm := by
  unfold eq_step
  dsimp only
  rw [if_neg (by omega), ha]
  exact ⟨_, rfl, rfl, rfl, rfl⟩

/-- One pass of the equality loop keeps the rows added so far cleared below the new size
of the active set, clears the row it adds, and does not fault. -/
theorem eq_step_cleared (ar : Arith α) (hex : ar.exact_sqrt) (P : Problem α) (i : Nat)
    (f : Frame α) (hiq : f.iq < P.nVars) (hasz : f.iq < P.nIneqCon + P.nEqCon)
    (hinv : ∀ k, k < i → ∀ t, f.iq ≤ t → t < P.nVars →
      compute_d P.nVars f.slv.m_J (fun c => P.CE k c) t = 0) :
    ∃ b f1, eq_step ar P i f = some (b, f1) ∧ f1.iq = f.iq + 1 ∧ f.R_norm ≤ f1.R_norm ∧
      ∀ k, k < i + 1 → ∀ t, f.iq + 1 ≤ t → t < P.nVars →
        compute_d P.nVars f1.slv.m_J (fun c => P.CE k c) t = 0 := by
  obtain ⟨a, ha, aJ, ad, aR, -⟩ := add_constraint_some ar P.nVars f.slv.R f.slv.m_J
    (compute_d P.nVars f.slv.m_J (fun k => P.CE i k)) f.iq f.R_norm hiq
  have aiq := (add_constraint_iq ar _ _ _ _ _ _ a ha).1
  obtain ⟨t1, t2⟩ := add_loop_track ar hex P.nVars f.iq (fun c => P.CE i c)
    (P.nVars - 1 - f.iq) (f.slv.m_J, compute_d P.nVars f.slv.m_J (fun k => P.CE i k))
    (fun t _ => rfl) (fun t h1 h2 => by omega) (by omega)
  obtain ⟨f1, hf1, eJ, eq1, eR⟩ := eq_step_of_add ar P i f a hiq hasz ha
  refine ⟨a.ok, f1, hf1, by rw [eq1, aiq], by rw [eR]; exact aR, ?_⟩
  · intro k hk t ht1 ht2
    rw [eJ, aJ]
    by_cases hki : k = i
    · rw [hki, ← t1 t ht2]
      exact t2 t (by omega) ht2
    · rw [add_loop_zero ar P.nVars f.iq (fun c => P.CE k c) (P.nVars - 1 - f.iq)
        (f.slv.m_J, compute_d P.nVars f.slv.m_J (fun k => P.CE i k))
        (fun t h1 h2 => hinv k (by omega) t h1 h2) (by omega) t]
      exact hinv k (by omega) t (by omega) ht2

/-- A row that is a combination of rows already added fails the degeneracy test. -/
theorem eq_step_dependent (ar : Arith α) (he : 0 ≤ ar.eps) (P : Problem α) (i : Nat)
    (f : Frame α) (hiq : f.iq < P.nVars) (hasz : f.iq < P.nIneqCon + P.nEqCon)
    (hR : 0 ≤ f.R_norm) (cf : Vec α)
    (hdep : ∀ c, c < P.nVars → P.CE i c = sumTo i (fun r => cf r * P.CE r c))
    (hinv : ∀ k, k < i → ∀ t, f.iq ≤ t → t < P.nVars →
      compute_d P.nVars f.slv.m_J (fun c => P.CE k c) t = 0) :
    ∃ f1, eq_step ar P i f = some (false, f1) := by
  have hz : ∀ t, f.iq ≤ t → t < P.nVars →
      compute_d P.nVars f.slv.m_J (fun k => P.CE i k) t = 0 := by
    intro t ht1 ht2
    have e : compute_d P.nVars f.slv.m_J (fun k => P.CE i k) t
        = compute_d P.nVars f.slv.m_J (fun c => sumTo i (fun r => cf r * P.CE r c)) t := by
      unfold compute_d
      apply sumTo_congr
      intro c hc
      simp only
      rw [hdep c hc]
    rw [e, compute_d_comb, sumTo_eq_sum]
    apply Finset.sum_eq_zero
    intro r hr
    rw [hinv r (Finset.mem_range.mp hr) t ht1 ht2, mul_zero]
  obtain ⟨a, ha, -, ad, -, aok⟩ := add_constraint_some ar P.nVars f.slv.R f.slv.m_J
    (compute_d P.nVars f.slv.m_J (fun k => P.CE i k)) f.iq f.R_norm hiq
  have hfix := add_loop_fix ar P.nVars f.iq (P.nVars - 1 - f.iq)
    (f.slv.m_J, compute_d P.nVars f.slv.m_J (fun k => P.CE i k)) hz (by omega)
  have hd0 : a.d f.iq = 0 := by
    rw [ad, hfix]
    exact hz f.iq (le_refl _) hiq
  have hok : a.ok = false := aok (by rw [hd0, abs_zero]; exact mul_nonneg he hR)
  obtain ⟨f1, hf1, -⟩ := eq_step_of_add ar P i f a hiq hasz ha
  rw [hok] at hf1
  exact ⟨f1, hf1⟩

theorem eq_loop_dependent (ar : Arith α) (hex : ar.exact_sqrt) (he : 0 ≤ ar.eps)
    (P : Problem α) (hn : P.nEqCon ≤ P.nVars) (i : Nat) (cf : Vec α)
    (hdep : ∀ c, c < P.nVars → P.CE i c = sumTo i (fun r => cf r * P.CE r c)) :
    ∀ (cnt i0 : Nat) (f : Frame α), f.iq = i0 → i0 ≤ i → i < i0 + cnt →
      i0 + cnt ≤ P.nEqCon → 0 ≤ f.R_norm →
      (∀ k, k < i0 → ∀ t, i0 ≤ t → t < P.nVars →
        compute_d P.nVars f.slv.m_J (fun c => P.CE k c) t = 0) →
      ∃ f1, eq_loop ar P i0 cnt f = some (false, f1) := by
  intro cnt
  induction cnt with
  | zero => intro i0 f _ h1 h2; omega
  | succ m ih =>
    intro i0 f hq h1 h2 h3 hR hinv
    by_cases hi : i0 = i
    · subst hi
      obtain ⟨f1, hf1⟩ := eq_step_dependent ar he P i0 f (by omega) (by omega) hR cf hdep
        (fun k hk t ht1 ht2 => hinv k hk t (by omega) ht2)
      exact ⟨f1, by simp only [eq_loop, hf1]⟩
    · obtain ⟨b, f1, hf1, q1, q2, q3⟩ := eq_step_cleared ar hex P i0 f (by omega) (by omega)
        (fun k hk t ht1 ht2 => hinv k hk t (by omega) ht2)
      cases b with
      | false => exact ⟨f1, by simp only [eq_loop, hf1]⟩
      | true =>
        obtain ⟨f2, hf2⟩ := ih (i0 + 1) f1 (by omega) (by omega) (by omega) (by omega)
          (le_trans hR q2) (fun k hk t ht1 ht2 => q3 k hk t (by omega) ht2)
        exact ⟨f2, by simp only [eq_loop, hf1]; exact hf2⟩

end Rotation

/-- C5 (amended): in exact arithmetic with an exact square root and `ε ≥ 0`, when
`nEqCon ≤ nVars` and some row `i` of `CE` is a linear combination of the rows before it,
`solve_quadprog` returns `EIQUADPROG_FAST_REDUNDANT_EQUALITIES`, whatever `g0`, `ce0` and
the inequalities are, from every solver state and for every fuel (the return is in the
equality phase).  The Hessian plays no part in the argument, so the statement holds for
every `H`, the symmetric positive definite ones among them. -/
theorem dependent_row_redundant {α : Type} [LinearOrderedField α] (ar : Arith α)
    (hex : ar.exact_sqrt) (he : 0 ≤ ar.eps) (slv : Solver α) (P : Problem α)
    (hn : P.nEqCon ≤ P.nVars) (i : Nat) (hi : i < P.nEqCon) (cf : Vec α)
    (hdep : ∀ c, c < P.nVars → P.CE i c = sumTo i (fun r => cf r * P.CE r c))
    (fuel : Nat) :
    ∃ f, solve_quadprog ar fuel slv P
      = Outcome.done Status.EIQUADPROG_FAST_REDUNDANT_EQUALITIES f := by
  obtain ⟨f1, hf1⟩ := eq_loop_dependent ar hex he P hn i cf hdep P.nEqCon 0
    (preprocess ar slv P) rfl (by omega) (by omega) (by omega)
    (by simp [preprocess]) (fun k hk => by omega)
  refine ⟨f1, ?_⟩
  unfold solve_quadprog start
  rw [hf1]
  exact run_ret ar P fuel _ f1

/-- Witness for the amended C5: the real numbers with `Real.sqrt`, a new solver, and the
two equalities `x₀ + x₁ = 1`, `4·x₀ + 4·x₁ = 8`, whose first add rotates `J`. -/
theorem dependent_row_redundant_witness :
    ∃ f, solve_quadprog ⟨Real.sqrt, 1 / 2 ^ 52, true⟩ 10 (new_solver ℝ 1000)
        (qp_scaled_rows ℝ)
      = Outcome.done Status.EIQUADPROG_FAST_REDUNDANT_EQUALITIES f :=
  dependent_row_redundant ⟨Real.sqrt, 1 / 2 ^ 52, true⟩
    (fun a ha => ⟨Real.sqrt_pos.mpr ha, Real.mul_self_sqrt ha.le⟩) (by norm_num)
    (new_solver ℝ 1000) (qp_scaled_rows ℝ) (le_refl 2) 1 (by decide) (fun _ => 4)
    (fun c _ => by simp [sumTo, qp_scaled_rows]) 10

end Eiquadprog

namespace Eiquadprog

section Traces

variable {α : Type} [LinearOrderedField α]

theorem drop_l_traces (ar : Arith α) (P : Problem α) (f f1 : Frame α) (u : Vec α) (l : Int)
    (h : drop_l ar P f u l = some f1) : f1.c1 = f.c1 ∧ f1.c2 = f.c2 := by
  unfold drop_l at h
  dsimp only at h
  split_ifs at h
  simp only [Option.map_eq_some'] at h
  obtain ⟨dr, -, rfl⟩ := h
  exact ⟨rfl, rfl⟩

theorem rollback_traces (ar : Arith α) (P : Problem α) (f : Frame α) (a : AddResult α)
    (nx : Next α) (h : rollback ar P f a = some nx) :
    nx.frame.c1 = f.c1 ∧ nx.frame.c2 = f.c2 := by
  unfold rollback at h
  dsimp only at h
  split_ifs at h
  simp only [Option.bind_eq_some, Option.map_eq_some'] at h
  obtain ⟨dr, -, r, -, rfl⟩ := h
  exact ⟨rfl, rfl⟩

theorem primal_dual_step_traces (ar : Arith α) (P : Problem α) (f : Frame α)
    (t1 : Option α) (l : Int) (b : α) (nx : Next α)
    (h : primal_dual_step ar P f t1 l b = some nx) :
    nx.frame.c1 = f.c1 ∧ nx.frame.c2 = f.c2 := by
  unfold primal_dual_step at h
  dsimp only at h
  split_ifs at h
  · simp only [Option.bind_eq_some] at h
    obtain ⟨a, -, h⟩ := h
    split_ifs at h
    · simp only [Option.some.injEq] at h
      subst h
      exact ⟨rfl, rfl⟩
    · have k := rollback_traces ar P _ a nx h
      exact k
  · simp only [Option.map_eq_some'] at h
    obtain ⟨f3, h3, rfl⟩ := h
    have k := drop_l_traces ar P _ _ _ _ h3
    exact k

theorem step_l2a_traces (ar : Arith α) (P : Problem α) (f : Frame α) (nx : Next α)
    (h : step_l2a ar P f = some nx) : nx.frame.c1 = f.c1 ∧ nx.frame.c2 = f.c2 := by
  unfold step_l2a at h
  dsimp only at h
  split_ifs at h
  unfold step_2c at h
  split at h
  · split at h
    · simp only [Option.some.injEq] at h
      subst h
      exact ⟨rfl, rfl⟩
    · split_ifs at h
      simp only [Option.map_eq_some'] at h
      obtain ⟨f3, h3, rfl⟩ := h
      have k := drop_l_traces ar P _ _ _ _ h3
      exact k
  · split_ifs at h
    have k := primal_dual_step_traces ar P _ _ _ _ nx h
    exact k

theorem step_l2_traces (P : Problem α) (f : Frame α) (nx : Next α)
    (h : step_l2 P f = some nx) : nx.frame.c1 = f.c1 ∧ nx.frame.c2 = f.c2 := by
  unfold step_l2 at h
  dsimp only at h
  split_ifs at h <;> simp only [Option.some.injEq] at h <;> subst h <;> exact ⟨rfl, rfl⟩

theorem step_l1_traces (ar : Arith α) (P : Problem α) (f : Frame α) (nx : Next α)
    (h : step_l1 ar P f = some nx) : nx.frame.c1 = f.c1 ∧ nx.frame.c2 = f.c2 := by
  unfold step_l1 at h
  dsimp only at h
  split_ifs at h
  · simp only [Option.some.injEq] at h
    subst h
    exact ⟨rfl, rfl⟩
  · simp only [Option.map_eq_some'] at h
    obtain ⟨iai, -, rfl⟩ := h
    exact ⟨rfl, rfl⟩
  · simp only [Option.map_eq_some'] at h
    obtain ⟨iai, -, rfl⟩ := h
    exact ⟨rfl, rfl⟩

theorem eq_step_traces (ar : Arith α) (P : Problem α) (i : Nat) (f f1 : Frame α) (b : Bool)
    (h : eq_step ar P i f = some (b, f1)) : f1.c1 = f.c1 ∧ f1.c2 = f.c2 := by
  unfold eq_step at h
  dsimp only at h
  split_ifs at h
  simp only [Option.map_eq_some', Prod.mk.injEq] at h
  obtain ⟨a, -, -, rfl⟩ := h
  exact ⟨rfl, rfl⟩

theorem eq_loop_traces (ar : Arith α) (P : Problem α) (cnt : Nat) :
    ∀ (i : Nat) (f f1 : Frame α) (b : Bool), eq_loop ar P i cnt f = some (b, f1) →
      f1.c1 = f.c1 ∧ f1.c2 = f.c2 := by
  induction cnt with
  | zero =>
    intro i f f1 b h
    simp only [eq_loop, Option.some.injEq, Prod.mk.injEq] at h
    obtain ⟨-, rfl⟩ := h
    exact ⟨rfl, rfl⟩
  | succ c ih =>
    intro i f f1 b h
    simp only [eq_loop] at h
    split at h
    · simp at h
    · rename_i f2 hs
      simp only [Option.some.injEq, Prod.mk.injEq] at h
      obtain ⟨-, rfl⟩ := h
      exact eq_step_traces ar P i f _ false hs
    · rename_i f2 hs
      obtain ⟨e1, e2⟩ := eq_step_traces ar P i f f2 true hs
      obtain ⟨k1, k2⟩ := ih (i + 1) f2 f1 b h
      exact ⟨k1.trans e1, k2.trans e2⟩

/-- The traces `c1`, `c2` of a returned frame are those of the preprocessing phase:
`c1 = trace(H)` and `c2 = trace(J)` for the `J` that preprocessing leaves. -/
theorem solve_traces (ar : Arith α) (fuel : Nat) (slv : Solver α) (P : Problem α)
    (st : Status) (f : Frame α) (h : solve_quadprog ar fuel slv P = Outcome.done st f) :
    f.c1 = trace P.nVars P.Hess ∧ f.c2 = trace P.nVars (preprocess ar slv P).slv.m_J := by
  have hp : (preprocess ar slv P).c1 = trace P.nVars P.Hess ∧
      (preprocess ar slv P).c2 = trace P.nVars (preprocess ar slv P).slv.m_J := by
    unfold preprocess
    exact ⟨rfl, rfl⟩
  unfold solve_quadprog at h
  split at h
  · simp at h
  · rename_i nx hs
    have h0 : nx.frame.c1 = (preprocess ar slv P).c1 ∧
        nx.frame.c2 = (preprocess ar slv P).c2 := by
      unfold start at hs
      split at hs
      · simp at hs
      · rename_i f1 hl
        simp only [Option.some.injEq] at hs
        subst hs
        have k := eq_loop_traces ar P _ _ _ _ _ hl
        exact k
      · rename_i f1 hl
        simp only [Option.some.injEq] at hs
        subst hs
        have k := eq_loop_traces ar P _ _ _ _ _ hl
        exact k
    have key := run_invariant ar P
      (fun nx => nx.frame.c1 = (preprocess ar slv P).c1 ∧
        nx.frame.c2 = (preprocess ar slv P).c2)
      (fun g nx1 hq hst => by
        obtain ⟨e1, e2⟩ := step_l1_traces ar P g nx1 hst
        exact ⟨e1.trans hq.1, e2.trans hq.2⟩)
      (fun g nx1 hq hst => by
        obtain ⟨e1, e2⟩ := step_l2_traces P g nx1 hst
        exact ⟨e1.trans hq.1, e2.trans hq.2⟩)
      (fun g nx1 hq hst => by
        obtain ⟨e1, e2⟩ := step_l2a_traces ar P g nx1 hst
        exact ⟨e1.trans hq.1, e2.trans hq.2⟩)
      fuel nx h0 st f h
    exact ⟨key.1.trans hp.1, key.2.trans hp.2⟩

end Traces

end Eiquadprog

namespace Eiquadprog

section Deletion

variable {α : Type} [LinearOrderedField α]

omit [LinearOrderedField α] in
/-- The search of `delete_constraint` returns the first position of `l` in
`A[i .. i + cnt)`. -/
theorem find_qq_first (A : IVec) (l : Int) (cnt : Nat) :
    ∀ (i p : Nat), i ≤ p → p < i + cnt → A p = l → (∀ k, i ≤ k → k < p → A k ≠ l) →
      find_qq A l i cnt = p := by
  induction cnt with
  | zero => intro i p h1 h2; omega
  | succ c ih =>
    intro i p h1 h2 hp hf
    simp only [find_qq]
    by_cases hip : i = p
    · subst hip
      rw [if_pos hp]
    · rw [if_neg (hf i (le_refl i) (by omega))]
      exact ih (i + 1) p (by omega) (by omega) hp (fun k hk1 hk2 => hf k (by omega) hk2)

omit [LinearOrderedField α] in
/-- When `l` occurs in `A[i .. i + cnt)`, the search returns a position that holds it. -/
theorem find_qq_mem (A : IVec) (l : Int) (cnt : Nat) :
    ∀ (i p : Nat), i ≤ p → p < i + cnt → A p = l →
      i ≤ find_qq A l i cnt ∧ find_qq A l i cnt ≤ p ∧ A (find_qq A l i cnt) = l := by
  induction cnt with
  | zero => intro i p h1 h2; omega
  | succ c ih =>
    intro i p h1 h2 hp
    simp only [find_qq]
    by_cases hi : A i = l
    · rw [if_pos hi]
      exact ⟨le_refl i, h1, hi⟩
    · rw [if_neg hi]
      have hip : i ≠ p := fun e => hi (e ▸ hp)
      obtain ⟨q1, q2, q3⟩ := ih (i + 1) p (by omega) (by omega) hp
      exact ⟨by omega, q2, q3⟩

/-- What `delete_constraint` leaves in `A`, `u` and `iq`, in terms of the position `qq`
found by its search. -/
theorem delete_constraint_shift (ar : Arith α) (nVars asz : Nat) (R J : Mat α) (A : IVec)
    (u : Vec α) (nEqCon iq : Nat) (l : Int) (h1 : 1 ≤ iq) (h2 : iq < asz) (h3 : iq ≤ nVars) :
    ∃ dr, delete_constraint ar nVars asz R J A u nEqCon iq l = some dr ∧ dr.iq = iq - 1 ∧
      (dr.A = fun i => if i = iq then 0
        else if find_qq A l nEqCon (iq - nEqCon) ≤ i ∧ i < iq then A (i + 1) else A i) ∧
      (dr.u = fun i => if i = iq then 0
        else if find_qq A l nEqCon (iq - nEqCon) ≤ i ∧ i < iq then u (i + 1) else u i) ∧
      (iq = 1 → dr.J = J) := by
  unfold delete_constraint
  dsimp only
  rw [if_neg (by omega)]
  split_ifs with h
  · exact ⟨_, rfl, rfl, rfl, rfl, fun _ => rfl⟩
  · exact ⟨_, rfl, rfl, rfl, rfl, fun e => absurd (by omega) h⟩

/-- What `add_constraint` returns for `iq < nVars`. -/
theorem add_constraint_result (ar : Arith α) (nVars : Nat) (R J : Mat α) (d : Vec α)
    (iq : Nat) (R_norm : α) (hiq : iq < nVars) :
    ∃ a, add_constraint ar nVars R J d iq R_norm = some a ∧
      a.d = (add_loop ar nVars iq (nVars - 1 - iq) (J, d)).2 ∧
      a.J = (add_loop ar nVars iq (nVars - 1 - iq) (J, d)).1 ∧
      (a.R = fun i c => if c = iq ∧ i < iq + 1 then a.d i else R i c) ∧ a.iq = iq + 1 ∧
      (a.ok = false ↔ |a.d iq| ≤ ar.eps * R_norm) ∧
      (a.ok = true → a.R_norm = max R_norm |a.d iq|) ∧
      (a.ok = false → a.R_norm = R_norm) := by
  unfold add_constraint
  dsimp only
  rw [if_neg (by omega)]
  split_ifs with h
  · refine ⟨_, rfl, rfl, rfl, rfl, rfl, ?_, ?_, ?_⟩
    · simpa using h
    · intro e; simp at e
    · intro _; rfl
  · refine ⟨_, rfl, rfl, rfl, rfl, rfl, ?_, ?_, ?_⟩
    · simpa using h
    · intro _; simp
    · intro e; simp at e

end Deletion

/-- C15: for `iq < nVars`, `add_constraint` returns `false` exactly when
`|d'(iq)| ≤ ε·R_norm`, where `d'` is `d` after the rotations and `iq` the value on entry;
when it returns `true` the new `R_norm` is `max(R_norm, |d'(iq)|)`, and when it returns
`false` `R_norm` is unchanged. -/
theorem add_constraint_threshold {α : Type} [LinearOrderedField α] (ar : Arith α)
    (nVars : Nat) (R J : Mat α) (d : Vec α) (iq : Nat) (R_norm : α) (hiq : iq < nVars) :
    ∃ a, add_constraint ar nVars R J d iq R_norm = some a ∧
      a.d = (add_loop ar nVars iq (nVars - 1 - iq) (J, d)).2 ∧
      (a.ok = false ↔ |a.d iq| ≤ ar.eps * R_norm) ∧
      (a.ok = true → a.R_norm = max R_norm |a.d iq|) ∧
      (a.ok = false → a.R_norm = R_norm) := by
  obtain ⟨a, h1, h2, -, -, -, h3, h4, h5⟩ := add_constraint_result ar nVars R J d iq R_norm hiq
  exact ⟨a, h1, h2, h3, h4, h5⟩

/-- Witness for C15: two variables, `J = I`, `d = [1, 1]`, `iq = 0`, `R_norm = 1`. -/
theorem add_constraint_threshold_witness :
    ∃ a, add_constraint rat_arith 2 (fun _ _ => 0) (fun i j => if i = j then 1 else 0)
        (fun _ => 1) 0 1 = some a ∧
      a.d = (add_loop rat_arith 2 0 (2 - 1 - 0)
        ((fun i j => if i = j then (1 : ℚ) else 0), (fun _ => (1 : ℚ)))).2 ∧
      (a.ok = false ↔ |a.d 0| ≤ rat_arith.eps * 1) ∧
      (a.ok = true → a.R_norm = max 1 |a.d 0|) ∧
      (a.ok = false → a.R_norm = 1) :=
  add_constraint_threshold rat_arith 2 (fun _ _ => 0) (fun i j => if i = j then 1 else 0)
    (fun _ => 1) 0 1 (by decide)

/-- C16 (as stated, refuted): `add_constraint` changes `iq` itself.  With one variable,
`J = [1]`, `iq = 0` and `R_norm = 1`, the call with `d = [1]` succeeds and the call with
`d = [0]` fails, and both leave `iq = 1`. -/
theorem add_constraint_changes_iq :
    (∃ a, add_constraint rat_arith 1 (fun _ _ => 0) (fun _ _ => 1) (fun _ => 1) 0 1 = some a ∧
      a.ok = true ∧ a.iq = 1) ∧
    (∃ a, add_constraint rat_arith 1 (fun _ _ => 0) (fun _ _ => 1) (fun _ => 0) 0 1 = some a ∧
      a.ok = false ∧ a.iq = 1) := by
  constructor
  · obtain ⟨a, h1, h2, -, -, h3, h4, -⟩ := add_constraint_result rat_arith 1 (fun _ _ => 0)
      (fun _ _ => 1) (fun _ => 1) 0 1 (by decide)
    refine ⟨a, h1, ?_, h3⟩
    have hd : a.d 0 = 1 := by rw [h2]; rfl
    by_contra hc
    have hf : a.ok = false := by simpa using hc
    have := h4.mp hf
    rw [hd] at this
    exact absurd this (by decide!)
  · obtain ⟨a, h1, h2, -, -, h3, h4, -⟩ := add_constraint_result rat_arith 1 (fun _ _ => 0)
      (fun _ _ => 1) (fun _ => 0) 0 1 (by decide)
    refine ⟨a, h1, ?_, h3⟩
    have hd : a.d 0 = 0 := by rw [h2]; rfl
    apply h4.mpr
    rw [hd]
    decide!

/-- C16 (amended): `add_constraint` increments `iq` by one itself (`iq++`, through the
reference parameter), whether the call succeeds or fails; the caller takes the new value
and makes no increment of its own. -/
theorem add_constraint_increments_iq {α : Type} [LinearOrderedField α] (ar : Arith α)
    (nVars : Nat) (R J : Mat α) (d : Vec α) (iq : Nat) (R_norm : α) (hiq : iq < nVars) :
    ∃ a, add_constraint ar nVars R J d iq R_norm = some a ∧ a.iq = iq + 1 := by
  obtain ⟨a, h1, -, -, -, h2, -⟩ := add_constraint_result ar nVars R J d iq R_norm hiq
  exact ⟨a, h1, h2⟩

/-- Witness for the amended C16: one variable, `iq = 0`. -/
theorem add_constraint_increments_iq_witness :
    ∃ a, add_constraint rat_arith 1 (fun _ _ => 0) (fun _ _ => 1) (fun _ => 1) 0 1 = some a ∧
      a.iq = 0 + 1 :=
  add_constraint_increments_iq rat_arith 1 (fun _ _ => 0) (fun _ _ => 1) (fun _ => 1) 0 1
    (by decide)

/-- C19: when `l` occurs in `A` at the position `p` that the search finds (its first
position in `A[nEqCon .. iq)`), and `iq` is a valid index of `A` and `u` (and
`iq ≤ nVars`, for the write to `R`), `delete_constraint` decrements `iq` by one, leaves
`A(0..p)` and `u(0..p)` unchanged, shifts the rest down by one slot, `A'(k) = A(k+1)` and
`u'(k) = u(k+1)` for `p ≤ k < iq`, so that slot `iq - 1` receives the pending entry of
slot `iq`, and sets slot `iq` to `0`; the same holds when the active set becomes empty,
where `J` is left as it is. -/
theorem delete_constraint_shifts_down {α : Type} [LinearOrderedField α] (ar : Arith α)
    (nVars asz : Nat) (R J : Mat α) (A : IVec) (u : Vec α) (nEqCon iq : Nat) (l : Int)
    (p : Nat) (hp1 : nEqCon ≤ p) (hp2 : p < iq) (hp : A p = l)
    (hfirst : ∀ k, nEqCon ≤ k → k < p → A k ≠ l) (h2 : iq < asz) (h3 : iq ≤ nVars) :
    ∃ dr, delete_constraint ar nVars asz R J A u nEqCon iq l = some dr ∧ dr.iq + 1 = iq ∧
      (∀ k, k < p → dr.A k = A k ∧ dr.u k = u k) ∧
      (∀ k, p ≤ k → k < iq → dr.A k = A (k + 1) ∧ dr.u k = u (k + 1)) ∧
      dr.A iq = 0 ∧ dr.u iq = 0 ∧ (iq = 1 → dr.J = J) := by
  obtain ⟨dr, hdr, e1, e2, e3, e4⟩ :=
    delete_constraint_shift ar nVars asz R J A u nEqCon iq l (by omega) h2 h3
  have hq : find_qq A l nEqCon (iq - nEqCon) = p :=
    find_qq_first A l (iq - nEqCon) nEqCon p hp1 (by omega) hp hfirst
  rw [hq] at e2 e3
  refine ⟨dr, hdr, by omega, ?_, ?_, ?_, ?_, e4⟩
  · intro k hk
    have n1 : ¬ k = iq := by omega
    have n2 : ¬ (p ≤ k ∧ k < iq) := by omega
    rw [e2, e3]
    simp only [if_neg n1, if_neg n2, and_self]
  · intro k hk1 hk2
    have n1 : ¬ k = iq := by omega
    rw [e2, e3]
    simp only [if_neg n1, if_pos (And.intro hk1 hk2), and_self]
  · rw [e2]
    simp
  · rw [e3]
    simp

/-- Witness for C19: `A = [3, 5, 7]` with the pending entry `7` in slot `iq = 2`, and
`l = 3` removed from position `0`. -/
theorem delete_constraint_shifts_down_witness :
    ∃ dr, delete_constraint rat_arith 3 4 (fun _ _ => 0) (fun _ _ => 0)
        (fun i => if i = 0 then 3 else if i = 1 then 5 else 7) (fun _ => 0) 0 2 3 = some dr ∧
      dr.iq + 1 = 2 ∧
      (∀ k, k < 0 → dr.A k = (fun i => if i = 0 then (3 : Int) else if i = 1 then 5 else 7) k ∧
        dr.u k = (fun _ => (0 : ℚ)) k) ∧
      (∀ k, 0 ≤ k → k < 2 →
        dr.A k = (fun i => if i = 0 then (3 : Int) else if i = 1 then 5 else 7) (k + 1) ∧
        dr.u k = (fun _ => (0 : ℚ)) (k + 1)) ∧
      dr.A 2 = 0 ∧ dr.u 2 = 0 ∧ (2 = 1 → dr.J = fun _ _ => 0) :=
  delete_constraint_shifts_down rat_arith 3 4 (fun _ _ => 0) (fun _ _ => 0)
    (fun i => if i = 0 then 3 else if i = 1 then 5 else 7) (fun _ => 0) 0 2 3 0
    (le_refl 0) (by decide) rfl (fun k _ hk => absurd hk (Nat.not_lt_zero k)) (by decide)
    (by decide)

end Eiquadprog

namespace Eiquadprog

section Cascade

variable {α : Type} [LinearOrderedField α]

/-- One rotation of `add_constraint` at index `j`: entry `j` of `d` is cleared, entry
`j - 1` takes the hypotenuse (up to sign), the other entries of `d` and the other columns
of `J` are kept. -/
theorem add_rot_effect (ar : Arith α) (hex : ar.exact_sqrt) (n j : Nat) (Jd : Mat α × Vec α)
    (hj : 1 ≤ j) :
    (add_rot ar n j Jd).2 j = 0 ∧
    (add_rot ar n j Jd).2 (j - 1) * (add_rot ar n j Jd).2 (j - 1)
      = Jd.2 (j - 1) * Jd.2 (j - 1) + Jd.2 j * Jd.2 j ∧
    (∀ t, t ≠ j → t ≠ j - 1 → (add_rot ar n j Jd).2 t = Jd.2 t) ∧
    ∀ k c, c ≠ j → c ≠ j - 1 → (add_rot ar n j Jd).1 k c = Jd.1 k c := by
  obtain ⟨hnn, hsq⟩ := distance_exact ar hex (Jd.2 (j - 1)) (Jd.2 j)
  have hne : j ≠ j - 1 := by omega
  unfold add_rot
  dsimp only
  by_cases hh : distance ar (Jd.2 (j - 1)) (Jd.2 j) = 0
  · rw [if_pos hh]
    rw [hh] at hsq
    have h2 : Jd.2 j * Jd.2 j = 0 := by
      nlinarith [mul_self_nonneg (Jd.2 (j - 1)), mul_self_nonneg (Jd.2 j)]
    have h1 : Jd.2 (j - 1) * Jd.2 (j - 1) = 0 := by
      nlinarith [mul_self_nonneg (Jd.2 (j - 1)), mul_self_nonneg (Jd.2 j)]
    exact ⟨mul_self_eq_zero.mp h2, by rw [h1, h2, add_zero], fun _ _ _ => rfl,
      fun _ _ _ _ => rfl⟩
  · rw [if_neg hh]
    dsimp only
    refine ⟨?_, ?_, ?_, ?_⟩
    · split_ifs <;> simp [vset, hne]
    · split_ifs <;> (simp only [vset, if_true]; rw [← hsq]; try ring)
    · intro t h1 h2
      split_ifs <;> simp [vset, h1, h2]
    · intro k c h1 h2
      simp only [if_neg h1, if_neg h2, ite_self]

/-- The cascade of `add_constraint` on `d`: the entries above `iq` are cleared, the
entries outside `[iq, iq + cnt]` are kept, the square of entry `iq` collects the squares
of the entries `iq, ..., iq + cnt`, and the columns of `J` outside that range are kept. -/
theorem add_loop_effect (ar : Arith α) (hex : ar.exact_sqrt) (n iq : Nat) :
    ∀ (cnt : Nat) (Jd : Mat α × Vec α),
      (∀ t, iq < t → t ≤ iq + cnt → (add_loop ar n iq cnt Jd).2 t = 0) ∧
      (∀ t, (t < iq ∨ iq + cnt < t) → (add_loop ar n iq cnt Jd).2 t = Jd.2 t) ∧
      (add_loop ar n iq cnt Jd).2 iq * (add_loop ar n iq cnt Jd).2 iq
        = sumTo (cnt + 1) (fun j => Jd.2 (iq + j) * Jd.2 (iq + j)) ∧
      ∀ k c, (c < iq ∨ iq + cnt < c) → (add_loop ar n iq cnt Jd).1 k c = Jd.1 k c := by
  intro cnt
  induction cnt with
  | zero =>
    intro Jd
    refine ⟨fun t h1 h2 => by omega, fun _ _ => rfl, ?_, fun _ _ _ => rfl⟩
    simp [add_loop, sumTo]
  | succ m ih =>
    intro Jd
    obtain ⟨r1, r2, r3, r4⟩ := add_rot_effect ar hex n (iq + m + 1) Jd (by omega)
    obtain ⟨i1, i2, i3, i4⟩ := ih (add_rot ar n (iq + m + 1) Jd)
    have e : iq + m + 1 - 1 = iq + m := by omega
    rw [e] at r2 r3 r4
    simp only [add_loop]
    refine ⟨?_, ?_, ?_, ?_⟩
    · intro t h1 h2
      by_cases ht : t = iq + m + 1
      · rw [ht, i2 (iq + m + 1) (Or.inr (by omega))]
        exact r1
      · exact i1 t h1 (by omega)
    · intro t ht
      rw [i2 t (by omega)]
      exact r3 t (by omega) (by omega)
    · rw [i3]
      have hs : sumTo (m + 1) (fun j => (add_rot ar n (iq + m + 1) Jd).2 (iq + j)
            * (add_rot ar n (iq + m + 1) Jd).2 (iq + j))
          = sumTo m (fun j => Jd.2 (iq + j) * Jd.2 (iq + j))
            + (add_rot ar n (iq + m + 1) Jd).2 (iq + m)
              * (add_rot ar n (iq + m + 1) Jd).2 (iq + m) := by
        rw [sumTo]
        congr 1
        apply sumTo_congr
        intro j hj
        simp only
        rw [r3 (iq + j) (by omega) (by omega)]
      rw [hs, r2]
      simp only [sumTo]
      rw [show iq + (m + 1) = iq + m + 1 by omega]
      ring
    · intro k c hc
      rw [i4 k c (by omega)]
      exact r4 k c (by omega) (by omega)

theorem sumTo_zero (n : Nat) (f : Nat → α) (h : ∀ k, k < n → f k = 0) : sumTo n f = 0 := by
  rw [sumTo_eq_sum]
  exact Finset.sum_eq_zero (fun k hk => h k (Finset.mem_range.mp hk))

theorem sumTo_tail (iq : Nat) (f : Nat → α) :
    ∀ m, sumTo (iq + m) (fun j => if iq ≤ j then f j else 0) = sumTo m (fun j => f (iq + j)) := by
  intro m
  induction m with
  | zero =>
    simp only [Nat.add_zero, sumTo]
    exact sumTo_zero iq _ (fun k hk => by rw [if_neg (by omega)])
  | succ k ih =>
    rw [show iq + (k + 1) = (iq + k) + 1 by omega, sumTo, ih, sumTo, if_pos (by omega)]

end Cascade

/-- C17: for `iq < nVars`, in exact arithmetic with an exact square root, `add_constraint`
reduces `d` by its rotation cascade so that `d'(j) = 0` for every `iq < j < nVars`,
`d'(k) = d(k)` for every `k < iq`, `d'(iq)² = Σ_{iq ≤ j < nVars} d(j)²`, column `iq` of `R`
holds `d'(0..iq)` in its first `iq + 1` rows (the other entries of `R` are kept), and the
columns `0..iq-1` of `J` are unchanged. -/
theorem add_constraint_cascade {α : Type} [LinearOrderedField α] (ar : Arith α)
    (hex : ar.exact_sqrt) (nVars : Nat) (R J : Mat α) (d : Vec α) (iq : Nat) (R_norm : α)
    (hiq : iq < nVars) :
    ∃ a, add_constraint ar nVars R J d iq R_norm = some a ∧
      (∀ j, iq < j → j < nVars → a.d j = 0) ∧
      (∀ k, k < iq → a.d k = d k) ∧
      a.d iq * a.d iq = sumTo nVars (fun j => if iq ≤ j then d j * d j else 0) ∧
      (∀ i, i ≤ iq → a.R i iq = a.d i) ∧
      (∀ i c, c ≠ iq → a.R i c = R i c) ∧
      (∀ k c, c < iq → a.J k c = J k c) := by
  obtain ⟨a, h1, h2, h3, h4, -⟩ := add_constraint_result ar nVars R J d iq R_norm hiq
  obtain ⟨e1, e2, e3, e4⟩ := add_loop_effect ar hex nVars iq (nVars - 1 - iq) (J, d)
  refine ⟨a, h1, ?_, ?_, ?_, ?_, ?_, ?_⟩
  · intro j hj1 hj2
    rw [h2]
    exact e1 j hj1 (by omega)
  · intro k hk
    rw [h2]
    exact e2 k (Or.inl hk)
  · rw [h2, e3]
    have := sumTo_tail iq (fun j => d j * d j) (nVars - 1 - iq + 1)
    rw [show iq + (nVars - 1 - iq + 1) = nVars by omega] at this
    rw [this]
  · intro i hi
    rw [h4]
    simp only [true_and]
    rw [if_pos (by omega)]
  · intro i c hc
    rw [h4]
    simp only [hc, false_and, if_false]
  · intro k c hc
    rw [h3]
    exact e4 k c (Or.inl hc)

/-- Witness for C17: the real numbers with `Real.sqrt`, three variables, `J = I`,
`d = [1, 3, 4]` and `iq = 1`. -/
theorem add_constraint_cascade_witness :
    ∃ a, add_constraint ⟨Real.sqrt, 1 / 2 ^ 52, true⟩ 3 (fun _ _ => 0)
        (fun i j => if i = j then 1 else 0) (fun i => if i = 0 then 1 else if i = 1 then 3 else 4)
        1 1 = some a ∧
      (∀ j, 1 < j → j < 3 → a.d j = 0) ∧
      (∀ k, k < 1 → a.d k = (fun i => if i = 0 then (1 : ℝ) else if i = 1 then 3 else 4) k) ∧
      a.d 1 * a.d 1 = sumTo 3 (fun j => if 1 ≤ j then
        (fun i => if i = 0 then (1 : ℝ) else if i = 1 then 3 else 4) j
          * (fun i => if i = 0 then (1 : ℝ) else if i = 1 then 3 else 4) j else 0) ∧
      (∀ i, i ≤ 1 → a.R i 1 = a.d i) ∧
      (∀ i c, c ≠ 1 → a.R i c = (fun _ _ => (0 : ℝ)) i c) ∧
      (∀ k c, c < 1 → a.J k c = (fun i j => if i = j then (1 : ℝ) else 0) k c) :=
  add_constraint_cascade ⟨Real.sqrt, 1 / 2 ^ 52, true⟩
    (fun a ha => ⟨Real.sqrt_pos.mpr ha, Real.mul_self_sqrt ha.le⟩) 3 (fun _ _ => 0)
    (fun i j => if i = j then 1 else 0) (fun i => if i = 0 then 1 else if i = 1 then 3 else 4)
    1 1 (by decide)

end Eiquadprog

namespace Eiquadprog

section Gram

variable {α : Type} [LinearOrderedField α]

/-- Replacing the columns `j1`, `j2` of `J` by their images under the orthogonal matrix
`[[cc, ss], [ss, -cc]]` keeps `J·Jᵀ`. -/
theorem gram_rot (n : Nat) (J J2 : Mat α) (j1 j2 : Nat) (h12 : j1 ≠ j2) (hj1 : j1 < n)
    (hj2 : j2 < n) (cc ss : α) (hcs : cc * cc + ss * ss = 1)
    (h1 : ∀ k, k < n → J2 k j1 = J k j1 * cc + J k j2 * ss)
    (h2 : ∀ k, k < n → J2 k j2 = J k j1 * ss - J k j2 * cc)
    (h3 : ∀ k c, k < n → c ≠ j1 → c ≠ j2 → J2 k c = J k c) (a b : Nat) (ha : a < n)
    (hb : b < n) : gram n J2 a b = gram n J a b := by
  unfold gram
  rw [← sub_eq_zero, sumTo_eq_sum, sumTo_eq_sum, ← Finset.sum_sub_distrib]
  rw [Finset.sum_eq_add_of_mem j1 j2 (Finset.mem_range.mpr hj1) (Finset.mem_range.mpr hj2)
    h12 (fun c _ hc => by rw [h3 a c ha hc.1 hc.2, h3 b c hb hc.1 hc.2, sub_self])]
  rw [h1 a ha, h1 b hb, h2 a ha, h2 b hb]
  linear_combination (J a j1 * J b j1 + J a j2 * J b j2) * hcs

/-- The shortcut `xny = ss / (1 + cc)` of the source computes the second column of the
rotation `[[cc, ss], [ss, -cc]]`. -/
theorem xny_shortcut (cc ss x1 x2 : α) (hcs : cc * cc + ss * ss = 1) (hc : 1 + cc ≠ 0) :
    ss / (1 + cc) * (x1 + (x1 * cc + x2 * ss)) - x2 = x1 * ss - x2 * cc := by
  field_simp
  linear_combination x2 * hcs

/-- The normalised pair `(cc, ss)` of a rotation: `cc ≥ 0` and `cc² + ss² = 1`. -/
theorem rot_pair (a b h : α) (hpos : 0 < h) (hsq : h * h = a * a + b * b) :
    ((if a / h < 0 then -(a / h) else a / h) * (if a / h < 0 then -(a / h) else a / h)
      + (if a / h < 0 then -(b / h) else b / h) * (if a / h < 0 then -(b / h) else b / h) = 1) ∧
    1 + (if a / h < 0 then -(a / h) else a / h) ≠ 0 := by
  have e : a / h * (a / h) + b / h * (b / h) = 1 := by
    field_simp
    linarith
  split_ifs with hc
  · refine ⟨?_, ?_⟩
    · rw [← e]; ring
    · have : 0 < -(a / h) := neg_pos.mpr hc
      linarith
  · refine ⟨e, ?_⟩
    have : 0 ≤ a / h := not_lt.mp hc
    linarith

theorem add_rot_gram (ar : Arith α) (hex : ar.exact_sqrt) (n j : Nat) (Jd : Mat α × Vec α)
    (hj1 : 1 ≤ j) (hjn : j < n) (a b : Nat) (ha : a < n) (hb : b < n) :
    gram n (add_rot ar n j Jd).1 a b = gram n Jd.1 a b := by
  obtain ⟨hnn, hsq⟩ := distance_exact ar hex (Jd.2 (j - 1)) (Jd.2 j)
  unfold add_rot
  dsimp only
  by_cases hh : distance ar (Jd.2 (j - 1)) (Jd.2 j) = 0
  · rw [if_pos hh]
  · rw [if_neg hh]
    dsimp only
    have hpos : 0 < distance ar (Jd.2 (j - 1)) (Jd.2 j) := lt_of_le_of_ne hnn (Ne.symm hh)
    obtain ⟨p1, p2⟩ := rot_pair (Jd.2 (j - 1)) (Jd.2 j) _ hpos hsq
    have hne : j ≠ j - 1 := by omega
    refine gram_rot n Jd.1 _ (j - 1) j (Ne.symm hne) (by omega) hjn _ _ p1 ?_ ?_ ?_ a b ha hb
    · intro k hk
      simp only [if_pos hk, if_true]
    · intro k hk
      simp only [if_pos hk, if_neg hne, if_true]
      exact xny_shortcut _ _ _ _ p1 p2
    · intro k c hk hc1 hc2
      simp only [if_pos hk, if_neg hc1, if_neg hc2]

theorem add_loop_gram (ar : Arith α) (hex : ar.exact_sqrt) (n iq : Nat) (a b : Nat)
    (ha : a < n) (hb : b < n) :
    ∀ (cnt : Nat) (Jd : Mat α × Vec α), iq + cnt < n →
      gram n (add_loop ar n iq cnt Jd).1 a b = gram n Jd.1 a b := by
  intro cnt
  induction cnt with
  | zero => intro Jd _; rfl
  | succ m ih =>
    intro Jd hlt
    simp only [add_loop]
    rw [ih (add_rot ar n (iq + m + 1) Jd) (by omega)]
    exact add_rot_gram ar hex n (iq + m + 1) Jd (by omega) (by omega) a b ha hb

/-- `add_constraint` keeps `J·Jᵀ`. -/
theorem add_constraint_gram (ar : Arith α) (hex : ar.exact_sqrt) (n : Nat) (R J : Mat α)
    (d : Vec α) (iq : Nat) (R_norm : α) (r : AddResult α)
    (h : add_constraint ar n R J d iq R_norm = some r) (a b : Nat) (ha : a < n) (hb : b < n) :
    gram n r.J a b = gram n J a b := by
  have hiq := (add_constraint_iq ar n R J d iq R_norm r h).2
  obtain ⟨r1, h1, -, h3, -⟩ := add_constraint_result ar n R J d iq R_norm hiq
  rw [h1] at h
  simp only [Option.some.injEq] at h
  subst h
  rw [h3]
  exact add_loop_gram ar hex n iq a b ha hb (n - 1 - iq) (J, d) (by omega)

theorem del_rot_gram (ar : Arith α) (hex : ar.exact_sqrt) (n iq j : Nat)
    (RJ : Mat α × Mat α) (hjn : j + 1 < n) (a b : Nat) (ha : a < n) (hb : b < n) :
    gram n (del_rot ar n iq j RJ).2 a b = gram n RJ.2 a b := by
  obtain ⟨hnn, hsq⟩ := distance_exact ar hex (RJ.1 j j) (RJ.1 (j + 1) j)
  unfold del_rot
  dsimp only
  by_cases hh : distance ar (RJ.1 j j) (RJ.1 (j + 1) j) = 0
  · rw [if_pos hh]
  · rw [if_neg hh]
    dsimp only
    have hpos : 0 < distance ar (RJ.1 j j) (RJ.1 (j + 1) j) := lt_of_le_of_ne hnn (Ne.symm hh)
    obtain ⟨p1, p2⟩ := rot_pair (RJ.1 j j) (RJ.1 (j + 1) j) _ hpos hsq
    have hne : j + 1 ≠ j := by omega
    refine gram_rot n RJ.2 _ j (j + 1) (Ne.symm hne) (by omega) hjn _ _ p1 ?_ ?_ ?_ a b ha hb
    · intro k hk
      simp only [if_pos hk, if_true]
    · intro k hk
      simp only [if_pos hk, if_neg hne, if_true]
      rw [add_comm (RJ.2 k j * _ + _) (RJ.2 k j)]
      exact xny_shortcut _ _ _ _ p1 p2
    · intro k c hk hc1 hc2
      simp only [if_pos hk, if_neg hc1, if_neg hc2]

theorem del_loop_gram (ar : Arith α) (hex : ar.exact_sqrt) (n iq : Nat) (a b : Nat)
    (ha : a < n) (hb : b < n) :
    ∀ (cnt j : Nat) (RJ : Mat α × Mat α), j + cnt < n →
      gram n (del_loop ar n iq j cnt RJ).2 a b = gram n RJ.2 a b := by
  intro cnt
  induction cnt with
  | zero => intro j RJ _; rfl
  | succ m ih =>
    intro j RJ hlt
    simp only [del_loop]
    rw [ih (j + 1) (del_rot ar n iq j RJ) (by omega)]
    exact del_rot_gram ar hex n iq j RJ (by omega) a b ha hb

/-- `delete_constraint` keeps `J·Jᵀ`. -/
theorem delete_constraint_gram (ar : Arith α) (hex : ar.exact_sqrt) (n asz : Nat)
    (R J : Mat α) (A : IVec) (u : Vec α) (nEqCon iq : Nat) (l : Int) (dr : DelResult α)
    (h : delete_constraint ar n asz R J A u nEqCon iq l = some dr) (a b : Nat) (ha : a < n)
    (hb : b < n) : gram n dr.J a b = gram n J a b := by
  unfold delete_constraint at h
  dsimp only at h
  split_ifs at h with h1 h2
  · simp only [Option.some.injEq] at h
    subst h
    rfl
  · simp only [Option.some.injEq] at h
    subst h
    have hq : find_qq A l nEqCon (iq - nEqCon) + (iq - 1 - find_qq A l nEqCon (iq - nEqCon))
        < n := by
      rcases find_qq_lt A l (iq - nEqCon) nEqCon with e | e
      · rw [e]; omega
      · omega
    exact del_loop_gram ar hex n (iq - 1) a b ha hb _ _ _ hq

theorem drop_l_gram (ar : Arith α) (hex : ar.exact_sqrt) (P : Problem α) (f f1 : Frame α)
    (u : Vec α) (l : Int) (h : drop_l ar P f u l = some f1) (a b : Nat) (ha : a < P.nVars)
    (hb : b < P.nVars) : gram P.nVars f1.slv.m_J a b = gram P.nVars f.slv.m_J a b := by
  unfold drop_l at h
  dsimp only at h
  split_ifs at h
  simp only [Option.map_eq_some'] at h
  obtain ⟨dr, hd, rfl⟩ := h
  exact delete_constraint_gram ar hex _ _ _ _ _ _ _ _ _ dr hd a b ha hb

theorem rollback_gram (ar : Arith α) (hex : ar.exact_sqrt) (P : Problem α) (f : Frame α)
    (r : AddResult α) (nx : Next α) (h : rollback ar P f r = some nx) (a b : Nat)
    (ha : a < P.nVars) (hb : b < P.nVars) :
    gram P.nVars nx.frame.slv.m_J a b = gram P.nVars r.J a b := by
  unfold rollback at h
  dsimp only at h
  split_ifs at h
  simp only [Option.bind_eq_some, Option.map_eq_some'] at h
  obtain ⟨dr, hd, q, -, rfl⟩ := h
  exact delete_constraint_gram ar hex _ _ _ _ _ _ _ _ _ dr hd a b ha hb

theorem primal_dual_step_gram (ar : Arith α) (hex : ar.exact_sqrt) (P : Problem α)
    (f : Frame α) (t1 : Option α) (l : Int) (t : α) (nx : Next α)
    (h : primal_dual_step ar P f t1 l t = some nx) (a b : Nat) (ha : a < P.nVars)
    (hb : b < P.nVars) :
    gram P.nVars nx.frame.slv.m_J a b = gram P.nVars f.slv.m_J a b := by
  unfold primal_dual_step at h
  dsimp only at h
  split_ifs at h
  · simp only [Option.bind_eq_some] at h
    obtain ⟨r, hr, h⟩ := h
    have hg := add_constraint_gram ar hex _ _ _ _ _ _ r hr a b ha hb
    split_ifs at h
    · simp only [Option.some.injEq] at h
      subst h
      exact hg
    · rw [rollback_gram ar hex P _ r nx h a b ha hb]
      exact hg
  · simp only [Option.map_eq_some'] at h
    obtain ⟨f3, h3, rfl⟩ := h
    have k := drop_l_gram ar hex P _ _ _ _ h3 a b ha hb
    exact k

theorem step_l2a_gram (ar : Arith α) (hex : ar.exact_sqrt) (P : Problem α) (f : Frame α)
    (nx : Next α) (h : step_l2a ar P f = some nx) (a b : Nat) (ha : a < P.nVars)
    (hb : b < P.nVars) :
    gram P.nVars nx.frame.slv.m_J a b = gram P.nVars f.slv.m_J a b := by
  unfold step_l2a at h
  dsimp only at h
  split_ifs at h
  unfold step_2c at h
  split at h
  · split at h
    · simp only [Option.some.injEq] at h
      subst h
      rfl
    · split_ifs at h
      simp only [Option.map_eq_some'] at h
      obtain ⟨f3, h3, rfl⟩ := h
      have k := drop_l_gram ar hex P _ _ _ _ h3 a b ha hb
      exact k
  · split_ifs at h
    have k := primal_dual_step_gram ar hex P _ _ _ _ nx h a b ha hb
    exact k

theorem step_l2_factor (P : Problem α) (f : Frame α) (nx : Next α)
    (h : step_l2 P f = some nx) : nx.frame.slv.m_J = f.slv.m_J := by
  unfold step_l2 at h
  dsimp only at h
  split_ifs at h <;> simp only [Option.some.injEq] at h <;> subst h <;> rfl

theorem step_l1_factor (ar : Arith α) (P : Problem α) (f : Frame α) (nx : Next α)
    (h : step_l1 ar P f = some nx) : nx.frame.slv.m_J = f.slv.m_J := by
  unfold step_l1 at h
  dsimp only at h
  split_ifs at h
  · simp only [Option.some.injEq] at h
    subst h
    rfl
  · simp only [Option.map_eq_some'] at h
    obtain ⟨iai, -, rfl⟩ := h
    rfl
  · simp only [Option.map_eq_some'] at h
    obtain ⟨iai, -, rfl⟩ := h
    rfl

theorem eq_step_gram (ar : Arith α) (hex : ar.exact_sqrt) (P : Problem α) (i : Nat)
    (f f1 : Frame α) (ok : Bool) (h : eq_step ar P i f = some (ok, f1)) (a b : Nat)
    (ha : a < P.nVars) (hb : b < P.nVars) :
    gram P.nVars f1.slv.m_J a b = gram P.nVars f.slv.m_J a b := by
  unfold eq_step at h
  dsimp only at h
  split_ifs at h
  simp only [Option.map_eq_some', Prod.mk.injEq] at h
  obtain ⟨r, hr, -, rfl⟩ := h
  exact add_constraint_gram ar hex _ _ _ _ _ _ r hr a b ha hb

theorem eq_loop_gram (ar : Arith α) (hex : ar.exact_sqrt) (P : Problem α) (a b : Nat)
    (ha : a < P.nVars) (hb : b < P.nVars) (cnt : Nat) :
    ∀ (i : Nat) (f f1 : Frame α) (ok : Bool), eq_loop ar P i cnt f = some (ok, f1) →
      gram P.nVars f1.slv.m_J a b = gram P.nVars f.slv.m_J a b := by
  induction cnt with
  | zero =>
    intro i f f1 ok h
    simp only [eq_loop, Option.some.injEq, Prod.mk.injEq] at h
    obtain ⟨-, rfl⟩ := h
    rfl
  | succ c ih =>
    intro i f f1 ok h
    simp only [eq_loop] at h
    split at h
    · simp at h
    · rename_i f2 hs
      simp only [Option.some.injEq, Prod.mk.injEq] at h
      obtain ⟨-, rfl⟩ := h
      exact eq_step_gram ar hex P i f _ false hs a b ha hb
    · rename_i f2 hs
      rw [ih (i + 1) f2 f1 ok h]
      exact eq_step_gram ar hex P i f f2 true hs a b ha hb

/-- Along a call of `solve_quadprog` the product `J·Jᵀ` stays that of the factor `J` left
by the preprocessing phase. -/
theorem solve_gram (ar : Arith α) (hex : ar.exact_sqrt) (fuel : Nat) (slv : Solver α)
    (P : Problem α) (st : Status) (f : Frame α)
    (h : solve_quadprog ar fuel slv P = Outcome.done st f) (a b : Nat) (ha : a < P.nVars)
    (hb : b < P.nVars) :
    gram P.nVars f.slv.m_J a b = gram P.nVars (preprocess ar slv P).slv.m_J a b := by
  unfold solve_quadprog at h
  split at h
  · simp at h
  · rename_i nx hs
    have h0 : gram P.nVars nx.frame.slv.m_J a b
        = gram P.nVars (preprocess ar slv P).slv.m_J a b := by
      unfold start at hs
      split at hs
      · simp at hs
      · rename_i f1 hl
        simp only [Option.some.injEq] at hs
        subst hs
        have k := eq_loop_gram ar hex P a b ha hb _ _ _ _ _ hl
        exact k
      · rename_i f1 hl
        simp only [Option.some.injEq] at hs
        subst hs
        have k := eq_loop_gram ar hex P a b ha hb _ _ _ _ _ hl
        exact k
    exact run_invariant ar P
      (fun nx => gram P.nVars nx.frame.slv.m_J a b
        = gram P.nVars (preprocess ar slv P).slv.m_J a b)
      (fun g nx1 hq hst => by
        have e := step_l1_factor ar P g nx1 hst
        show gram P.nVars nx1.frame.slv.m_J a b = _
        rw [e]
        exact hq)
      (fun g nx1 hq hst => by
        have e := step_l2_factor P g nx1 hst
        show gram P.nVars nx1.frame.slv.m_J a b = _
        rw [e]
        exact hq)
      (fun g nx1 hq hst => by
        have e := step_l2a_gram ar hex P g nx1 hst a b ha hb
        show gram P.nVars nx1.frame.slv.m_J a b = _
        rw [e]
        exact hq)
      fuel nx h0 st f h

/-- A property of the program points that every block preserves holds at every point
that is reached. -/
theorem advance_invariant (ar : Arith α) (P : Problem α) (Q : Next α → Prop)
    (h1 : ∀ f nx, Q (Next.goto_l1 f) → step_l1 ar P f = some nx → Q nx)
    (h2 : ∀ f nx, Q (Next.goto_l2 f) → step_l2 P f = some nx → Q nx)
    (h2a : ∀ f nx, Q (Next.goto_l2a f) → step_l2a ar P f = some nx → Q nx) :
    ∀ (k : Nat) (nx : Next α), Q nx → ∀ nx1, advance ar P k nx = some nx1 → Q nx1 := by
  intro k
  induction k with
  | zero =>
    intro nx hQ nx1 h
    simp only [advance, Option.some.injEq] at h
    exact h ▸ hQ
  | succ m ih =>
    intro nx hQ nx1 h
    cases nx with
    | ret st f =>
      simp only [advance, Option.some.injEq] at h
      exact h ▸ hQ
    | goto_l1 f =>
      simp only [advance, Option.bind_eq_some] at h
      obtain ⟨nx2, hs, h⟩ := h
      exact ih nx2 (h1 f nx2 hQ hs) nx1 h
    | goto_l2 f =>
      simp only [advance, Option.bind_eq_some] at h
      obtain ⟨nx2, hs, h⟩ := h
      exact ih nx2 (h2 f nx2 hQ hs) nx1 h
    | goto_l2a f =>
      simp only [advance, Option.bind_eq_some] at h
      obtain ⟨nx2, hs, h⟩ := h
      exact ih nx2 (h2a f nx2 hQ hs) nx1 h

theorem start_gram (ar : Arith α) (hex : ar.exact_sqrt) (slv : Solver α) (P : Problem α)
    (nx : Next α) (hs : start ar slv P = some nx) (a b : Nat) (ha : a < P.nVars)
    (hb : b < P.nVars) :
    gram P.nVars nx.frame.slv.m_J a b = gram P.nVars (preprocess ar slv P).slv.m_J a b := by
  unfold start at hs
  split at hs
  · simp at hs
  · rename_i f1 hl
    simp only [Option.some.injEq] at hs
    subst hs
    have k := eq_loop_gram ar hex P a b ha hb _ _ _ _ _ hl
    exact k
  · rename_i f1 hl
    simp only [Option.some.injEq] at hs
    subst hs
    have k := eq_loop_gram ar hex P a b ha hb _ _ _ _ _ hl
    exact k

/-- At every program point of a call of `solve_quadprog` the product `J·Jᵀ` is that of the
factor `J` left by the preprocessing phase. -/
theorem advance_gram (ar : Arith α) (hex : ar.exact_sqrt) (slv : Solver α) (P : Problem α)
    (nx0 : Next α) (hs : start ar slv P = some nx0) (k : Nat) (nx : Next α)
    (h : advance ar P k nx0 = some nx) (a b : Nat) (ha : a < P.nVars) (hb : b < P.nVars) :
    gram P.nVars nx.frame.slv.m_J a b = gram P.nVars (preprocess ar slv P).slv.m_J a b :=
  advance_invariant ar P
    (fun nx => gram P.nVars nx.frame.slv.m_J a b
      = gram P.nVars (preprocess ar slv P).slv.m_J a b)
    (fun g nx1 hq hst => by
      have e := step_l1_factor ar P g nx1 hst
      show gram P.nVars nx1.frame.slv.m_J a b = _
      rw [e]
      exact hq)
    (fun g nx1 hq hst => by
      have e := step_l2_factor P g nx1 hst
      show gram P.nVars nx1.frame.slv.m_J a b = _
      rw [e]
      exact hq)
    (fun g nx1 hq hst => by
      have e := step_l2a_gram ar hex P g nx1 hst a b ha hb
      show gram P.nVars nx1.frame.slv.m_J a b = _
      rw [e]
      exact hq)
    k nx0 (start_gram ar hex slv P nx0 hs a b ha hb) nx h

end Gram

section Inverse

variable {α : Type} [LinearOrderedField α]

/-- The factor `J₀ = L⁻ᵀ` of the preprocessing phase satisfies `Lᵀ·J₀ = I`. -/
theorem chol_inverse_spec (ar : Arith α) (hex : ar.exact_sqrt) (n : Nat) (H : Mat α)
    (hH : SymPosDef n H) (i c : Nat) (hi : i < n) :
    ∑ j ∈ Finset.range n, chol ar n H n j i * chol_inverse n (chol ar n H n) j c
      = if i = c then 1 else 0 := by
  have hL := chol_rec ar n H
  obtain ⟨hpos, -⟩ := chol_columns_below ar hex n H _ hH.1 hL n (le_refl n)
    (chol_pivot_pos ar hex n H _ hH hL)
  have h1 := back_subst_spec n (fun a b => chol ar n H n b a)
    (fun k => if k = c then 1 else 0) (fun i hi => (hpos i hi).ne') i hi
  rw [sumTo_eq_sum] at h1
  rw [sum_lower_col n (chol ar n H n) (fun j => chol_inverse n (chol ar n H n) j c) hL.2.2 i hi]
  exact h1

/-- With `J₀ = L⁻ᵀ` for the Cholesky factor `L` of a symmetric positive definite `H`, the
product `J₀·J₀ᵀ` is the inverse of `H`: `(J₀·J₀ᵀ)·H = I`. -/
theorem chol_inverse_gram (ar : Arith α) (hex : ar.exact_sqrt) (n : Nat) (H : Mat α)
    (hH : SymPosDef n H) (a b : Nat) (ha : a < n) (hb : b < n) :
    sumTo n (fun c => gram n (chol_inverse n (chol ar n H n)) a c * H c b)
      = if a = b then 1 else 0 := by
  have hL := chol_rec ar n H
  obtain ⟨-, hF⟩ := chol_columns_below ar hex n H _ hH.1 hL n (le_refl n)
    (chol_pivot_pos ar hex n H _ hH hL)
  have h1 : (Matrix.of fun (i j : Fin n) => chol ar n H n j i)
      * (Matrix.of fun (i j : Fin n) => chol_inverse n (chol ar n H n) i j) = 1 := by
    ext i c
    rw [Matrix.mul_apply, Matrix.one_apply]
    simp only [Matrix.of_apply]
    rw [← Finset.sum_range (fun j => chol ar n H n j i * chol_inverse n (chol ar n H n) j c)]
    rw [chol_inverse_spec ar hex n H hH i c i.2]
    simp only [Fin.ext_iff]
  have h2 := Matrix.mul_eq_one_comm.mp h1
  have h3 : (Matrix.of fun (i j : Fin n) => chol_inverse n (chol ar n H n) j i)
      * (Matrix.of fun (i j : Fin n) => chol ar n H n i j) = 1 := by
    have := congrArg Matrix.transpose h1
    rw [Matrix.transpose_mul, Matrix.transpose_one] at this
    exact this
  have key : ((Matrix.of fun (i j : Fin n) => chol_inverse n (chol ar n H n) i j)
      * (Matrix.of fun (i j : Fin n) => chol_inverse n (chol ar n H n) j i))
      * ((Matrix.of fun (i j : Fin n) => chol ar n H n i j)
        * (Matrix.of fun (i j : Fin n) => chol ar n H n j i)) = 1 := by
    rw [Matrix.mul_assoc, ← Matrix.mul_assoc _ (Matrix.of fun (i j : Fin n) => chol ar n H n i j),
      h3, Matrix.one_mul]
    exact h2
  have e := congrFun (congrFun key ⟨a, ha⟩) ⟨b, hb⟩
  simp only [Matrix.mul_apply, Matrix.of_apply, Matrix.one_apply, Fin.mk.injEq] at e
  rw [← e, sumTo_eq_sum, Finset.sum_range]
  apply Finset.sum_congr rfl
  intro c _
  congr 1
  · unfold gram
    rw [sumTo_eq_sum, Finset.sum_range]
  · rw [← hF b c n hb c.2 hb, Finset.sum_range]

end Inverse

/-- C18: in exact arithmetic with an exact square root, `J·Jᵀ` is the same before and
after `add_constraint` and before and after `delete_constraint` (each column-pair update
with the shortcut `xny = ss/(1+cc)` is the multiplication by the orthogonal matrix
`[[cc, ss], [ss, -cc]]`, `cc² + ss² = 1`); hence at every program point of
`solve_quadprog`, and on return, `J·Jᵀ` is that of the factor `J₀` of the preprocessing
phase, which is the inverse of `H` when the solver factorises a symmetric positive
definite `H` itself: `(J·Jᵀ)·H = I`. -/
theorem gram_invariant {α : Type} [LinearOrderedField α] (ar : Arith α)
    (hex : ar.exact_sqrt) :
    (∀ (n : Nat) (R J : Mat α) (d : Vec α) (iq : Nat) (R_norm : α) (r : AddResult α),
      add_constraint ar n R J d iq R_norm = some r →
      ∀ a b, a < n → b < n → gram n r.J a b = gram n J a b) ∧
    (∀ (n asz : Nat) (R J : Mat α) (A : IVec) (u : Vec α) (nEqCon iq : Nat) (l : Int)
      (dr : DelResult α), delete_constraint ar n asz R J A u nEqCon iq l = some dr →
      ∀ a b, a < n → b < n → gram n dr.J a b = gram n J a b) ∧
    (∀ (slv : Solver α) (P : Problem α) (nx0 : Next α) (k : Nat) (nx : Next α),
      start ar slv P = some nx0 → advance ar P k nx0 = some nx →
      (∀ a b, a < P.nVars → b < P.nVars →
        gram P.nVars nx.frame.slv.m_J a b = gram P.nVars (preprocess ar slv P).slv.m_J a b) ∧
      (slv.is_inverse_provided_ = false → SymPosDef P.nVars P.Hess →
        ∀ a b, a < P.nVars → b < P.nVars →
          sumTo P.nVars (fun c => gram P.nVars nx.frame.slv.m_J a c * P.Hess c b)
            = if a = b then 1 else 0)) ∧
    (∀ (fuel : Nat) (slv : Solver α) (P : Problem α) (st : Status) (f : Frame α),
      solve_quadprog ar fuel slv P = Outcome.done st f →
      ∀ a b, a < P.nVars → b < P.nVars →
        gram P.nVars f.slv.m_J a b = gram P.nVars (preprocess ar slv P).slv.m_J a b) := by
  refine ⟨?_, ?_, ?_, ?_⟩
  · intro n R J d iq R_norm r h a b ha hb
    exact add_constraint_gram ar hex n R J d iq R_norm r h a b ha hb
  · intro n asz R J A u nEqCon iq l dr h a b ha hb
    exact delete_constraint_gram ar hex n asz R J A u nEqCon iq l dr h a b ha hb
  · intro slv P nx0 k nx hs h
    refine ⟨fun a b ha hb => advance_gram ar hex slv P nx0 hs k nx h a b ha hb, ?_⟩
    intro hmode hH a b ha hb
    have e : sumTo P.nVars (fun c => gram P.nVars nx.frame.slv.m_J a c * P.Hess c b)
        = sumTo P.nVars (fun c => gram P.nVars (preprocess ar slv P).slv.m_J a c
            * P.Hess c b) := by
      apply sumTo_congr
      intro c hc
      simp only
      rw [advance_gram ar hex slv P nx0 hs k nx h a c ha hc]
    rw [e, (preprocess_default ar slv P hmode).1]
    exact chol_inverse_gram ar hex P.nVars P.Hess hH a b ha hb
  · intro fuel slv P st f h a b ha hb
    exact solve_gram ar hex fuel slv P st f h a b ha hb

/-- Witness for C18: the real numbers with `Real.sqrt`; `add_constraint` on two variables
with `J = [[1, 2], [0, 1]]`, `d = [3, 4]`, `iq = 0`, and the first program point of the
solve of the problem with the single inequality `x₀ + x₁ ≥ 1` on a new solver. -/
theorem gram_invariant_witness :
    (∃ r, add_constraint ⟨Real.sqrt, 1 / 2 ^ 52, true⟩ 2 (fun _ _ => 0)
        (fun i j => if i = j then 1 else if i = 0 then 2 else 0)
        (fun i => if i = 0 then 3 else 4) 0 1 = some r ∧
      ∀ a b, a < 2 → b < 2 →
        gram 2 r.J a b
          = gram 2 (fun i j => if i = j then (1 : ℝ) else if i = 0 then 2 else 0) a b) ∧
    (∃ nx0, start ⟨Real.sqrt, 1 / 2 ^ 52, true⟩ (new_solver ℝ 1000) (qp_one_inequality ℝ)
        = some nx0 ∧
      ∀ a b, a < 2 → b < 2 →
        sumTo 2 (fun c => gram 2 nx0.frame.slv.m_J a c * (qp_one_inequality ℝ).Hess c b)
          = if a = b then 1 else 0) := by
  have hex : Arith.exact_sqrt (⟨Real.sqrt, 1 / 2 ^ 52, true⟩ : Arith ℝ) :=
    fun a ha => ⟨Real.sqrt_pos.mpr ha, Real.mul_self_sqrt ha.le⟩
  have hH : SymPosDef 2 (qp_one_inequality ℝ).Hess := by
    refine ⟨fun i j _ _ => ?_, fun v hv => ?_⟩
    · simp only [qp_one_inequality, identity2]
      by_cases h : i = j
      · subst h; rfl
      · rw [if_neg h, if_neg (fun e => h e.symm)]
    · obtain ⟨i, hi, hvi⟩ := hv
      have e : dot 2 v (fun i => dot 2 ((qp_one_inequality ℝ).Hess i) v)
          = v 0 * v 0 + v 1 * v 1 := by
        simp [dot, sumTo, qp_one_inequality, identity2]
      rw [e]
      have hi2 : i = 0 ∨ i = 1 := by omega
      rcases hi2 with h | h <;> subst h
      · have := mul_self_pos.mpr hvi
        nlinarith [mul_self_nonneg (v 1)]
      · have := mul_self_pos.mpr hvi
        nlinarith [mul_self_nonneg (v 0)]
  obtain ⟨g1, g2, g3, -⟩ := gram_invariant (⟨Real.sqrt, 1 / 2 ^ 52, true⟩ : Arith ℝ) hex
  constructor
  · obtain ⟨r, hr, -⟩ := add_constraint_result (⟨Real.sqrt, 1 / 2 ^ 52, true⟩ : Arith ℝ) 2
      (fun _ _ => 0) (fun i j => if i = j then 1 else if i = 0 then 2 else 0)
      (fun i => if i = 0 then 3 else 4) 0 1 (by decide)
    exact ⟨r, hr, g1 2 _ _ _ 0 1 r hr⟩
  · obtain ⟨f, hf, -⟩ := one_ineq_start (⟨Real.sqrt, 1 / 2 ^ 52, true⟩ : Arith ℝ)
      Real.sqrt_one (new_solver ℝ 1000) rfl
    exact ⟨_, hf, (g3 (new_solver ℝ 1000) (qp_one_inequality ℝ) _ 0 _ hf rfl).2 rfl hH⟩

end Eiquadprog

namespace Eiquadprog

section Triangular

variable {α : Type} [LinearOrderedField α]

/-- One rotation of `delete_constraint` at index `j`: the columns before `j` stay
upper-triangular, column `j` becomes so, and the later columns keep their zeros below the
first subdiagonal. -/
theorem del_rot_triangular (ar : Arith α) (hex : ar.exact_sqrt) (n iq j : Nat)
    (RJ : Mat α × Mat α)
    (ha : ∀ k, k < j → ∀ i, k < i → RJ.1 i k = 0)
    (hb : ∀ k, j ≤ k → k < iq → ∀ i, k + 1 < i → RJ.1 i k = 0) (hj : j < iq) :
    (∀ k, k < j + 1 → ∀ i, k < i → (del_rot ar n iq j RJ).1 i k = 0) ∧
    ∀ k, j + 1 ≤ k → k < iq → ∀ i, k + 1 < i → (del_rot ar n iq j RJ).1 i k = 0 := by
  obtain ⟨hnn, hsq⟩ := distance_exact ar hex (RJ.1 j j) (RJ.1 (j + 1) j)
  unfold del_rot
  dsimp only
  by_cases hh : distance ar (RJ.1 j j) (RJ.1 (j + 1) j) = 0
  · rw [if_pos hh]
    rw [hh] at hsq
    have h2 : RJ.1 (j + 1) j * RJ.1 (j + 1) j = 0 := by
      nlinarith [mul_self_nonneg (RJ.1 j j), mul_self_nonneg (RJ.1 (j + 1) j)]
    refine ⟨?_, fun k h1 h2 i hi => hb k (by omega) h2 i hi⟩
    intro k hk i hi
    by_cases hkj : k = j
    · subst hkj
      by_cases hi1 : i = k + 1
      · subst hi1
        exact mul_self_eq_zero.mp h2
      · exact hb k (le_refl k) hj i (by omega)
    · exact ha k (by omega) i hi
  · rw [if_neg hh]
    dsimp only
    refine ⟨?_, ?_⟩
    · intro k hk i hi
      have n1 : ¬ (j + 1 ≤ k ∧ k < iq) := by omega
      rw [if_neg n1]
      by_cases hkj : k = j
      · subst hkj
        by_cases hi1 : i = k + 1
        · subst hi1
          split_ifs <;> simp [mset]
        · have e := hb k (le_refl k) hj i (by omega)
          have n2 : ¬ i = k := by omega
          split_ifs <;> simp [mset, hi1, n2, e]
      · have e := ha k (by omega) i hi
        split_ifs <;> simp [mset, hkj, e]
    · intro k hk1 hk2 i hi
      rw [if_pos ⟨hk1, hk2⟩]
      have n1 : ¬ i = j := by omega
      have n2 : ¬ i = j + 1 := by omega
      rw [if_neg n1, if_neg n2]
      have e := hb k (by omega) hk2 i hi
      have n3 : ¬ k = j := by omega
      split_ifs <;> simp [mset, n3, e]

theorem del_loop_triangular (ar : Arith α) (hex : ar.exact_sqrt) (n iq : Nat) :
    ∀ (cnt j : Nat) (RJ : Mat α × Mat α),
      (∀ k, k < j → ∀ i, k < i → RJ.1 i k = 0) →
      (∀ k, j ≤ k → k < iq → ∀ i, k + 1 < i → RJ.1 i k = 0) → j + cnt = iq →
      ∀ k, k < iq → ∀ i, k < i → (del_loop ar n iq j cnt RJ).1 i k = 0 := by
  intro cnt
  induction cnt with
  | zero =>
    intro j RJ ha _ hj k hk i hi
    exact ha k (by omega) i hi
  | succ m ih =>
    intro j RJ ha hb hj k hk i hi
    obtain ⟨a1, b1⟩ := del_rot_triangular ar hex n iq j RJ ha hb (by omega)
    simp only [del_loop]
    exact ih (j + 1) (del_rot ar n iq j RJ) a1 b1 (by omega) k hk i hi

end Triangular

/-- C20: in exact arithmetic with an exact square root, `delete_constraint` keeps `R`
upper-triangular: when the first `iq` columns of `R` are zero below the diagonal, the
first `iq' = iq - 1` columns of the resulting `R` are zero below the diagonal,
`R'(i,k) = 0` for all `k < iq'` and `i > k` (for `1 ≤ iq ≤ nVars` and `iq` a valid index of
`A` and `u`, wherever the search finds `l`). -/
theorem delete_constraint_triangular {α : Type} [LinearOrderedField α] (ar : Arith α)
    (hex : ar.exact_sqrt) (nVars asz : Nat) (R J : Mat α) (A : IVec) (u : Vec α)
    (nEqCon iq : Nat) (l : Int) (h1 : 1 ≤ iq) (h2 : iq < asz) (h3 : iq ≤ nVars)
    (hR : ∀ k, k < iq → ∀ i, k < i → R i k = 0) :
    ∃ dr, delete_constraint ar nVars asz R J A u nEqCon iq l = some dr ∧ dr.iq + 1 = iq ∧
      ∀ k, k < dr.iq → ∀ i, k < i → dr.R i k = 0 := by
  have hq : find_qq A l nEqCon (iq - nEqCon) ≤ iq - 1 := by
    rcases find_qq_lt A l (iq - nEqCon) nEqCon with e | e
    · rw [e]; omega
    · omega
  unfold delete_constraint
  dsimp only
  rw [if_neg (by omega)]
  split_ifs with h0
  · exact ⟨_, rfl, by dsimp only; omega, fun k hk => by dsimp only at hk; omega⟩
  · refine ⟨_, rfl, by dsimp only; omega, ?_⟩
    dsimp only
    apply del_loop_triangular ar hex nVars (iq - 1) _ _ _ _ _ (by omega)
    · intro k hk i hi
      have n1 : ¬ (k = iq - 1 ∧ i < iq) := by omega
      have n2 : ¬ (find_qq A l nEqCon (iq - nEqCon) ≤ k ∧ k < iq - 1) := by omega
      simp only [if_neg n1, if_neg n2]
      exact hR k (by omega) i hi
    · intro k hk1 hk2 i hi
      have n1 : ¬ (k = iq - 1 ∧ i < iq) := by omega
      simp only [if_neg n1, if_pos (And.intro hk1 hk2)]
      exact hR (k + 1) (by omega) i hi

/-- Witness for C20: the real numbers with `Real.sqrt`, the upper-triangular
`R = [[1, 2, 3], [0, 4, 5], [0, 0, 6]]` with `iq = 3`, and `l = 7` removed from position
`0` of `A = [7, 8, 9]`. -/
theorem delete_constraint_triangular_witness :
    ∃ dr, delete_constraint ⟨Real.sqrt, 1 / 2 ^ 52, true⟩ 3 5
        (fun i k => if k < i then 0 else (3 * i + k + 1 : ℝ)) (fun _ _ => 0)
        (fun i => if i = 0 then 7 else if i = 1 then 8 else 9) (fun _ => 0) 0 3 7 = some dr ∧
      dr.iq + 1 = 3 ∧ ∀ k, k < dr.iq → ∀ i, k < i → dr.R i k = 0 :=
  delete_constraint_triangular ⟨Real.sqrt, 1 / 2 ^ 52, true⟩
    (fun a ha => ⟨Real.sqrt_pos.mpr ha, Real.mul_self_sqrt ha.le⟩) 3 5
    (fun i k => if k < i then 0 else (3 * i + k + 1 : ℝ)) (fun _ _ => 0)
    (fun i => if i = 0 then 7 else if i = 1 then 8 else 9) (fun _ => 0) 0 3 7 (by decide)
    (by decide) (by decide) (fun k _ i hi => if_pos hi)

end Eiquadprog

namespace Eiquadprog

section Bounds

variable {α : Type} [LinearOrderedField α]

/-- The equality phase has no guard of its own: with `iq = nVars` the pass for the next row
calls `add_constraint`, whose write of column `iq` of `R` is out of range. -/
theorem eq_step_at_nvars (ar : Arith α) (P : Problem α) (i : Nat) (f : Frame α)
    (h : f.iq = P.nVars) : eq_step ar P i f = none := by
  unfold eq_step
  dsimp only
  split_ifs
  · rfl
  · simp [add_constraint, h]

/-- A jump from `l2a` back to `l2` is the rollback after a failed `add_constraint`: the
candidate `ip` is kept and its flag `iaexcl(ip)` is cleared. -/
theorem step_l2a_goto_l2_excluded (ar : Arith α) (P : Problem α) (f g : Frame α)
    (h : step_l2a ar P f = some (Next.goto_l2 g)) :
    (∃ a, add_constraint ar P.nVars (direction P f).slv.R (direction P f).slv.m_J
        (direction P f).slv.d f.iq f.R_norm = some a ∧ a.ok = false) ∧
      g.slv.iaexcl f.ip = 0 ∧ g.ip = f.ip := by
  unfold step_l2a at h
  dsimp only at h
  split_ifs at h
  unfold step_2c at h
  split at h
  · split at h
    · simp at h
    · split_ifs at h
      simp only [Option.map_eq_some'] at h
      obtain ⟨f3, h3, h⟩ := h
      simp at h
  · split_ifs at h
    unfold primal_dual_step at h
    dsimp only at h
    split_ifs at h
    · simp only [Option.bind_eq_some] at h
      obtain ⟨a, ha, h⟩ := h
      split_ifs at h with hok
      · simp at h
      · refine ⟨⟨a, ha, by simpa using hok⟩, ?_⟩
        unfold rollback at h
        dsimp only at h
        split_ifs at h
        simp only [Option.bind_eq_some, Option.map_eq_some'] at h
        obtain ⟨dr, -, r, -, h⟩ := h
        simp only [Next.goto_l2.injEq] at h
        subst h
        exact ⟨by simp [vset, direction], rfl⟩
    · simp only [Option.map_eq_some'] at h
      obtain ⟨f3, h3, h⟩ := h
      simp at h

end Bounds

/-- C12 (failing input): on `qp_overdetermined` (`nVars = 1`, two equalities) the equality
phase adds row 0, which leaves `iq = 1 = nVars`, and then calls `add_constraint` for row 1
with `iq = nVars`: the function increments `iq` to `nVars + 1` and writes column `nVars` of
`R`, outside the matrix, so the call makes an out-of-range access instead of keeping
`iq ≤ nVars`. -/
theorem equality_phase_exceeds_nvars :
    ∃ f1, eq_step rat_arith qp_overdetermined 0
        (preprocess rat_arith (fresh_solver 1000) qp_overdetermined) = some (true, f1) ∧
      f1.iq = qp_overdetermined.nVars ∧
      add_constraint rat_arith qp_overdetermined.nVars f1.slv.R f1.slv.m_J
        (compute_d qp_overdetermined.nVars f1.slv.m_J (fun k => qp_overdetermined.CE 1 k))
        f1.iq f1.R_norm = none ∧
      ∀ fuel, solve_quadprog rat_arith fuel (fresh_solver 1000) qp_overdetermined
        = Outcome.fault := by
  have h : (eq_step rat_arith qp_overdetermined 0
      (preprocess rat_arith (fresh_solver 1000) qp_overdetermined)).map
        (fun p => (p.1, p.2.iq)) = some (true, 1) := by decide!
  simp only [Option.map_eq_some'] at h
  obtain ⟨⟨b, f1⟩, h1, h2⟩ := h
  simp only [Prod.mk.injEq] at h2
  obtain ⟨rfl, hiq⟩ := h2
  refine ⟨f1, h1, hiq, ?_, ?_⟩
  · simp [add_constraint, hiq, qp_overdetermined]
  · intro fuel
    have h3 := eq_step_at_nvars rat_arith qp_overdetermined 1 f1 hiq
    have e : qp_overdetermined.nEqCon = 2 := rfl
    simp only [solve_quadprog, start, e, eq_loop, h1, h3]

/-- C13 (failing input): on `qp_degenerate_add`, from any solver state in the mode where
the solver factorises `H` itself and with `m_maxIter ≥ 2`, the second block after the start
selects `ip = 0`, step 2c fails to add it (`add_constraint` returns `false`) and rolls back
with `iaexcl(0) = 0`, and the selection of step 2 that follows chooses the same `ip = 0`
again. -/
theorem excluded_constraint_reselected (slv : Solver ℚ)
    (hmode : slv.is_inverse_provided_ = false) (hmax : 2 ≤ slv.m_maxIter) :
    ∃ nx0 f2 f3 f4, start rat_arith slv qp_degenerate_add = some nx0 ∧
      advance rat_arith qp_degenerate_add 2 nx0 = some (Next.goto_l2a f2) ∧ f2.ip = 0 ∧
      (∃ a, add_constraint rat_arith qp_degenerate_add.nVars
          (direction qp_degenerate_add f2).slv.R (direction qp_degenerate_add f2).slv.m_J
          (direction qp_degenerate_add f2).slv.d f2.iq f2.R_norm = some a ∧ a.ok = false) ∧
      step_l2a rat_arith qp_degenerate_add f2 = some (Next.goto_l2 f3) ∧
      f3.slv.iaexcl 0 = 0 ∧
      step_l2 qp_degenerate_add f3 = some (Next.goto_l2a f4) ∧ f4.ip = 0 := by
  obtain ⟨f0, h0, hiq, hx, hJ, hR, hc1, hc2, hit, hm, hi0, -⟩ := start_degenerate_add slv hmode
  obtain ⟨f1, h1, q1, q2, q3, q4, q5, q6, q7, q8, q9⟩ :=
    first_step_l1 f0 hiq hx hJ hR hc1 hc2 hit (hm ▸ hmax) hi0
  obtain ⟨f2, h2, hc, hnp, hA⟩ := first_step_l2 f1 q1 q2 q3 q4 q5 q6 q7 q8 q9
  obtain ⟨f3, h3, hc3⟩ := cycle_step_l2a f2 hc hnp hA
  obtain ⟨f4, h4, hc4, -, -⟩ := cycle_step_l2 f3 hc3
  obtain ⟨ha, he, -⟩ := step_l2a_goto_l2_excluded rat_arith qp_degenerate_add f2 f3 h3
  have hip : f2.ip = 0 := hc.2.1
  rw [hip] at he
  refine ⟨_, f2, f3, f4, h0, ?_, hip, ha, h3, he, h4, hc4.2.1⟩
  simp [advance, h1, h2]

/-- Witness for C13's failing input: a fresh solver with iteration cap 1000. -/
theorem excluded_constraint_reselected_witness :
    ∃ nx0 f2 f3 f4, start rat_arith (fresh_solver 1000) qp_degenerate_add = some nx0 ∧
      advance rat_arith qp_degenerate_add 2 nx0 = some (Next.goto_l2a f2) ∧ f2.ip = 0 ∧
      (∃ a, add_constraint rat_arith qp_degenerate_add.nVars
          (direction qp_degenerate_add f2).slv.R (direction qp_degenerate_add f2).slv.m_J
          (direction qp_degenerate_add f2).slv.d f2.iq f2.R_norm = some a ∧ a.ok = false) ∧
      step_l2a rat_arith qp_degenerate_add f2 = some (Next.goto_l2 f3) ∧
      f3.slv.iaexcl 0 = 0 ∧
      step_l2 qp_degenerate_add f3 = some (Next.goto_l2a f4) ∧ f4.ip = 0 :=
  excluded_constraint_reselected (fresh_solver 1000) rfl (by decide)

end Eiquadprog

namespace Eiquadprog

theorem restore_loop_spec {α : Type} (n : Nat) (A_old : IVec) (u_old : Vec α) :
    ∀ (cnt i : Nat) (st r : IVec × IVec × Vec α),
      restore_loop n A_old u_old i cnt st = some r →
      (∀ k, i ≤ k → k < i + cnt → 0 ≤ A_old k ∧ A_old k < (n : Int) ∧ r.1 k = A_old k) ∧
      (∀ k, k < i → r.1 k = st.1 k) ∧
      ∀ j : Nat, r.2.1 j = -1 →
        st.2.1 j = -1 ∨ ∃ k, i ≤ k ∧ k < i + cnt ∧ A_old k = (j : Int) := by
  intro cnt
  induction cnt with
  | zero =>
    intro i st r h
    simp only [restore_loop, Option.some.injEq] at h
    subst h
    exact ⟨fun k h1 h2 => by omega, fun k _ => rfl, fun j hj => Or.inl hj⟩
  | succ c ih =>
    intro i st r h
    simp only [restore_loop] at h
    split_ifs at h with hv
    obtain ⟨e1, e2, e3⟩ := ih (i + 1) _ r h
    refine ⟨?_, ?_, ?_⟩
    · intro k h1 h2
      by_cases hk : k = i
      · subst hk
        refine ⟨hv.1, hv.2, ?_⟩
        rw [e2 k (by omega)]
        simp [vset]
      · exact e1 k (by omega) (by omega)
    · intro k hk
      rw [e2 k (by omega)]
      simp [vset, Nat.ne_of_lt hk]
    · intro j hj
      rcases e3 j hj with h1 | ⟨k, k1, k2, k3⟩
      · by_cases hji : j = (A_old i).toNat
        · refine Or.inr ⟨i, le_refl i, by omega, ?_⟩
          rw [hji, Int.toNat_of_nonneg hv.1]
        · left
          simpa [vset, hji] using h1
      · exact Or.inr ⟨k, by omega, by omega, k3⟩

section Active

variable {α : Type} [LinearOrderedField α]

theorem eq_loop_active (ar : Arith α) (P : Problem α) (cnt : Nat) :
    ∀ (i : Nat) (f g : Frame α), eq_loop ar P i cnt f = some (true, g) →
      g.iq = f.iq + cnt ∧ (∀ k, i ≤ k → k < i + cnt → g.slv.A k = -(k : Int) - 1) ∧
        ∀ k, k < i → g.slv.A k = f.slv.A k := by
  induction cnt with
  | zero =>
    intro i f g h
    simp only [eq_loop, Option.some.injEq, Prod.mk.injEq, true_and] at h
    subst h
    exact ⟨rfl, fun k h1 h2 => by omega, fun k _ => rfl⟩
  | succ c ih =>
    intro i f g h
    simp only [eq_loop] at h
    split at h
    · simp at h
    · simp at h
    · rename_i f1 hs
      obtain ⟨e1, e2, e3⟩ := ih (i + 1) f1 g h
      have hq := eq_step_iq ar P i f f1 true hs
      have hA := (eq_step_A ar P i f f1 true hs).1
      refine ⟨by omega, ?_, ?_⟩
      · intro k h1 h2
        by_cases hk : k = i
        · subst hk
          rw [e3 k (by omega), hA]
          simp [vset]
        · exact e2 k (by omega) (by omega)
      · intro k hk
        rw [e3 k (by omega), hA]
        simp [vset, Nat.ne_of_lt hk]

theorem start_active (ar : Arith α) (slv : Solver α) (P : Problem α) (nx : Next α)
    (h : start ar slv P = some nx) : ActiveInv P nx := by
  unfold start at h
  split at h
  · simp at h
  · simp only [Option.some.injEq] at h
    subst h
    intro hne
    exact absurd rfl hne
  · rename_i f hs
    simp only [Option.some.injEq] at h
    subst h
    obtain ⟨e1, e2, -⟩ := eq_loop_active ar P P.nEqCon 0 _ f hs
    have e0 : (preprocess ar slv P).iq = 0 := rfl
    refine ⟨by show P.nEqCon ≤ f.iq; omega, ?_, ?_, ?_⟩
    · intro i hi
      exact e2 i (by omega) (by omega)
    · intro k h1 h2
      have : f.iq = P.nEqCon := by omega
      have h3 : k < f.iq := h2
      omega
    · intro i hi hm
      have hm1 : (if i < P.nIneqCon then (i : Int) else f.slv.iai i) = -1 := hm
      rw [if_pos hi] at hm1
      omega

theorem mark_active_spec (n : Nat) (A : IVec) :
    ∀ (cnt i : Nat) (iai r : IVec), mark_active n A i cnt iai = some r →
      ∀ j : Nat, r j = -1 → iai j = -1 ∨ ∃ k, i ≤ k ∧ k < i + cnt ∧ A k = (j : Int) := by
  intro cnt
  induction cnt with
  | zero =>
    intro i iai r h j hj
    simp only [mark_active, Option.some.injEq] at h
    subst h
    exact Or.inl hj
  | succ c ih =>
    intro i iai r h j hj
    simp only [mark_active] at h
    split_ifs at h with hv
    rcases ih (i + 1) _ r h j hj with h1 | ⟨k, k1, k2, k3⟩
    · by_cases hji : j = (A i).toNat
      · refine Or.inr ⟨i, le_refl i, by omega, ?_⟩
        rw [hji, Int.toNat_of_nonneg hv.1]
      · left
        simpa [vset, hji] using h1
    · exact Or.inr ⟨k, by omega, by omega, k3⟩

theorem ratio_loop_mem (r u : Vec α) (A : IVec) (n : Nat) :
    ∀ c, (ratio_loop r u A n c).1 ≠ none →
      ∃ k, n ≤ k ∧ k < n + c ∧ (ratio_loop r u A n c).2 = A k := by
  intro c
  induction c with
  | zero => intro h; simp [ratio_loop] at h
  | succ c ih =>
    intro h
    simp only [ratio_loop] at h ⊢
    by_cases hr : 0 < r (n + c)
    · rw [if_pos hr] at h ⊢
      cases hp : (ratio_loop r u A n c).1 with
      | none => exact ⟨n + c, by omega, by omega, rfl⟩
      | some t =>
        dsimp only
        by_cases hlt : u (n + c) / r (n + c) < t
        · rw [if_pos hlt]
          exact ⟨n + c, by omega, by omega, rfl⟩
        · rw [if_neg hlt]
          obtain ⟨k, k1, k2, k3⟩ := ih (by rw [hp]; simp)
          exact ⟨k, k1, by omega, k3⟩
    · rw [if_neg hr] at h ⊢
      obtain ⟨k, k1, k2, k3⟩ := ih h
      exact ⟨k, k1, by omega, k3⟩

end Active

end Eiquadprog

namespace Eiquadprog

section ActiveSteps

variable {α : Type} [LinearOrderedField α]

theorem step_l1_active (ar : Arith α) (P : Problem α) (f : Frame α) (nx : Next α)
    (hq : ActiveInv P (Next.goto_l1 f)) (h : step_l1 ar P f = some nx) : ActiveInv P nx := by
  have hq1 : ActiveSet P f.slv.A f.slv.iai f.iq := hq
  obtain ⟨a1, a2, a3, a4⟩ := hq1
  have hmark : ∀ iai, mark_active P.nIneqCon f.slv.A P.nEqCon (f.iq - P.nEqCon) f.slv.iai
      = some iai → ActiveSet P f.slv.A iai f.iq := by
    intro iai hm
    refine ⟨a1, a2, a3, ?_⟩
    intro i hi hm1
    rcases mark_active_spec _ _ _ _ _ _ hm i hm1 with e | ⟨k, k1, k2, k3⟩
    · exact a4 i hi e
    · exact ⟨k, k1, by omega, k3⟩
  unfold step_l1 at h
  dsimp only at h
  split_ifs at h with h1 h2 h3
  · simp only [Option.some.injEq] at h
    subst h
    intro _
    exact ⟨a1, a2, a3, a4⟩
  · simp only [Option.map_eq_some'] at h
    obtain ⟨iai, hm, h⟩ := h
    subst h
    intro _
    exact hmark iai hm
  · simp only [Option.map_eq_some'] at h
    obtain ⟨iai, hm, h⟩ := h
    subst h
    refine ⟨hmark iai hm, ?_⟩
    intro i hi
    show (if i < f.iq then f.slv.A i else f.slv.A_old i) = -(i : Int) - 1
    rw [if_pos (by omega)]
    exact a2 i hi

theorem step_l2_active (P : Problem α) (f : Frame α) (nx : Next α)
    (hq : ActiveInv P (Next.goto_l2 f)) (h : step_l2 P f = some nx) : ActiveInv P nx := by
  have hq1 : ActiveSet P f.slv.A f.slv.iai f.iq ∧
      ∀ i, i < P.nEqCon → f.slv.A_old i = -(i : Int) - 1 := hq
  obtain ⟨⟨a1, a2, a3, a4⟩, ho⟩ := hq1
  unfold step_l2 at h
  dsimp only at h
  split_ifs at h with h1 h2
  · simp only [Option.some.injEq] at h
    subst h
    intro _
    exact ⟨a1, a2, a3, a4⟩
  · simp only [Option.some.injEq] at h
    subst h
    refine ⟨⟨a1, ?_, ?_, ?_⟩, ho, ?_, ?_⟩
    · intro i hi
      show vset f.slv.A f.iq _ i = _
      simp only [vset, if_neg (show ¬ i = f.iq by omega)]
      exact a2 i hi
    · intro k k1 k2
      show 0 ≤ vset f.slv.A f.iq _ k ∧ vset f.slv.A f.iq _ k < _
      have k3 : k < f.iq := k2
      simp only [vset, if_neg (show ¬ k = f.iq by omega)]
      exact a3 k k1 k3
    · intro i hi hm
      obtain ⟨k, k1, k2, k3⟩ := a4 i hi hm
      refine ⟨k, k1, k2, ?_⟩
      show vset f.slv.A f.iq _ k = _
      simp only [vset, if_neg (show ¬ k = f.iq by omega)]
      exact k3
    · show vset f.slv.A f.iq _ f.iq = _
      simp [vset]
    · show (select f.slv.s f.slv.iai f.slv.iaexcl P.nIneqCon (f.ss, f.ip)).2 < P.nIneqCon
      omega

theorem drop_l_active (ar : Arith α) (P : Problem α) (f g : Frame α) (u : Vec α) (l : Int)
    (ha : ActiveSet P f.slv.A f.slv.iai f.iq)
    (hl : ∃ k, P.nEqCon ≤ k ∧ k < f.iq ∧ f.slv.A k = l) (h : drop_l ar P f u l = some g) :
    ActiveSet P g.slv.A g.slv.iai g.iq ∧ g.slv.A g.iq = f.slv.A f.iq ∧
      g.slv.A_old = f.slv.A_old ∧ g.ip = f.ip := by
  obtain ⟨a1, a2, a3, a4⟩ := ha
  obtain ⟨p, p1, p2, p3⟩ := hl
  unfold drop_l at h
  dsimp only at h
  split_ifs at h with hv
  simp only [Option.map_eq_some'] at h
  obtain ⟨dr, hd, rfl⟩ := h
  obtain ⟨d1, d2, d3⟩ := delete_constraint_iq ar _ _ _ _ _ _ _ _ _ dr hd
  obtain ⟨dr1, hd1, e1, e2, -, -⟩ := delete_constraint_shift ar P.nVars (P.nIneqCon + P.nEqCon)
    f.slv.R f.slv.m_J f.slv.A u P.nEqCon f.iq l (by omega) d2 d3
  rw [hd] at hd1
  simp only [Option.some.injEq] at hd1
  subst hd1
  obtain ⟨q1, q2, q3⟩ := find_qq_mem f.slv.A l (f.iq - P.nEqCon) P.nEqCon p p1 (by omega) p3
  refine ⟨⟨?_, ?_, ?_, ?_⟩, ?_, rfl, rfl⟩
  · show P.nEqCon ≤ dr.iq
    omega
  · intro i hi
    show dr.A i = _
    rw [e2]
    dsimp only
    rw [if_neg (by omega), if_neg (by omega)]
    exact a2 i hi
  · intro k k1 k2
    have k3 : k < dr.iq := k2
    show 0 ≤ dr.A k ∧ dr.A k < _
    rw [e2]
    dsimp only
    rw [if_neg (by omega)]
    split_ifs with hc
    · exact a3 (k + 1) (by omega) (by omega)
    · exact a3 k k1 (by omega)
  · intro i hi hm
    have hm1 : vset f.slv.iai l.toNat l i = -1 := hm
    have hne : ¬ i = l.toNat := by
      intro e
      rw [e] at hm1
      simp only [vset, if_true] at hm1
      omega
    simp only [vset, if_neg hne] at hm1
    obtain ⟨k, k1, k2, k3⟩ := a4 i hi hm1
    have hkq : k ≠ find_qq f.slv.A l P.nEqCon (f.iq - P.nEqCon) := by
      intro e
      rw [e, q3] at k3
      apply hne
      rw [k3]
      rfl
    show ∃ k, P.nEqCon ≤ k ∧ k < dr.iq ∧ dr.A k = (i : Int)
    rw [e2]
    dsimp only
    by_cases hlt : k < find_qq f.slv.A l P.nEqCon (f.iq - P.nEqCon)
    · refine ⟨k, k1, by omega, ?_⟩
      rw [if_neg (by omega), if_neg (by omega)]
      exact k3
    · refine ⟨k - 1, by omega, by omega, ?_⟩
      rw [if_neg (by omega), if_pos (by omega)]
      rw [show k - 1 + 1 = k by omega]
      exact k3
  · show dr.A dr.iq = f.slv.A f.iq
    rw [e2]
    dsimp only
    rw [if_neg (by omega), if_pos (by omega)]
    rw [show dr.iq + 1 = f.iq by omega]

theorem rollback_active (ar : Arith α) (P : Problem α) (f : Frame α) (a : AddResult α)
    (nx : Next α) (hN : P.nEqCon ≤ f.iq)
    (ho : ∀ i, i < P.nEqCon → f.slv.A_old i = -(i : Int) - 1) (haq : a.iq = f.iq + 1)
    (h : rollback ar P f a = some nx) : ActiveInv P nx := by
  unfold rollback at h
  dsimp only at h
  split_ifs at h
  simp only [Option.bind_eq_some, Option.map_eq_some'] at h
  obtain ⟨dr, hd, r, hr, h⟩ := h
  subst h
  obtain ⟨d1, -, -⟩ := delete_constraint_iq ar _ _ _ _ _ _ _ _ _ dr hd
  obtain ⟨r1, r2, r3⟩ := restore_loop_spec _ _ _ _ _ _ _ hr
  have hz : P.nEqCon = 0 := by
    by_contra hne
    have := (r1 0 (le_refl 0) (by omega)).1
    rw [ho 0 (by omega)] at this
    simp at this
  refine ⟨⟨by show P.nEqCon ≤ dr.iq; omega, ?_, ?_, ?_⟩, ho⟩
  · intro i hi
    omega
  · intro k _ k2
    have k3 : k < dr.iq := k2
    obtain ⟨b1, b2, b3⟩ := r1 k (Nat.zero_le k) (by omega)
    show 0 ≤ r.1 k ∧ r.1 k < _
    rw [b3]
    exact ⟨b1, b2⟩
  · intro i hi hm
    have hm1 : r.2.1 i = -1 := hm
    rcases r3 i hm1 with e | ⟨k, -, k2, k3⟩
    · dsimp only at e
      rw [if_pos hi] at e
      omega
    · refine ⟨k, by omega, (by omega : k < dr.iq), ?_⟩
      show r.1 k = _
      rw [(r1 k (Nat.zero_le k) k2).2.2]
      exact k3

theorem primal_dual_step_active (ar : Arith α) (P : Problem α) (f : Frame α) (t1 : Option α)
    (l : Int) (b : α) (nx : Next α) (ha : ActiveSet P f.slv.A f.slv.iai f.iq)
    (ho : ∀ i, i < P.nEqCon → f.slv.A_old i = -(i : Int) - 1)
    (hA : f.slv.A f.iq = (f.ip : Int)) (hip : f.ip < P.nIneqCon)
    (hl : t1 ≠ none → ∃ k, P.nEqCon ≤ k ∧ k < f.iq ∧ f.slv.A k = l)
    (h : primal_dual_step ar P f t1 l b = some nx) : ActiveInv P nx := by
  unfold primal_dual_step at h
  dsimp only at h
  split_ifs at h with ht
  · simp only [Option.bind_eq_some] at h
    obtain ⟨a, haa, h⟩ := h
    obtain ⟨q1, q2⟩ := add_constraint_iq ar _ _ _ _ _ _ a haa
    split_ifs at h with hok
    · simp only [Option.some.injEq] at h
      subst h
      obtain ⟨a1, a2, a3, a4⟩ := ha
      refine ⟨by show P.nEqCon ≤ a.iq; omega, a2, ?_, ?_⟩
      · intro k k1 k2
        have k3 : k < a.iq := k2
        by_cases hk : k = f.iq
        · subst hk
          show 0 ≤ f.slv.A f.iq ∧ f.slv.A f.iq < _
          rw [hA]
          omega
        · exact a3 k k1 (by omega)
      · intro i hi hm
        have hm1 : vset f.slv.iai f.ip (-1) i = -1 := hm
        by_cases hii : i = f.ip
        · exact ⟨f.iq, a1, (by omega : f.iq < a.iq), by rw [hii]; exact hA⟩
        · simp only [vset, if_neg hii] at hm1
          obtain ⟨k, k1, k2, k3⟩ := a4 i hi hm1
          exact ⟨k, k1, (by omega : k < a.iq), k3⟩
    · have key := fun x y z => rollback_active ar P _ a nx x y z h
      exact key ha.1 ho q1
  · simp only [Option.map_eq_some'] at h
    obtain ⟨f3, h3, h⟩ := h
    subst h
    have ht1 : t1 ≠ none := by
      intro e
      subst e
      exact ht rfl
    have key := fun x y => drop_l_active ar P _ f3 _ l x y h3
    obtain ⟨b1, b2, b3, b4⟩ := key ha (hl ht1)
    refine ⟨b1, ?_, ?_, ?_⟩
    · intro i hi
      show f3.slv.A_old i = _
      rw [b3]
      exact ho i hi
    · show f3.slv.A f3.iq = (f3.ip : Int)
      rw [b2, b4]
      exact hA
    · show f3.ip < _
      rw [b4]
      exact hip

theorem step_2c_active (ar : Arith α) (P : Problem α) (f : Frame α) (t1 : Option α)
    (l : Int) (t2 : Option α) (nx : Next α) (ha : ActiveSet P f.slv.A f.slv.iai f.iq)
    (ho : ∀ i, i < P.nEqCon → f.slv.A_old i = -(i : Int) - 1)
    (hA : f.slv.A f.iq = (f.ip : Int)) (hip : f.ip < P.nIneqCon)
    (hl : t1 ≠ none → ∃ k, P.nEqCon ≤ k ∧ k < f.iq ∧ f.slv.A k = l)
    (h : step_2c ar P f t1 l t2 = some nx) : ActiveInv P nx := by
  unfold step_2c at h
  cases t2 with
  | none =>
    cases t1 with
    | none =>
      simp only [Option.some.injEq] at h
      subst h
      intro _
      exact ha
    | some t =>
      dsimp only at h
      split_ifs at h
      simp only [Option.map_eq_some'] at h
      obtain ⟨f3, h3, h⟩ := h
      subst h
      obtain ⟨b1, b2, b3, b4⟩ := drop_l_active ar P f f3 _ l ha (hl (by simp)) h3
      exact ⟨b1, fun i hi => by rw [b3]; exact ho i hi, by rw [b2, b4]; exact hA,
        by rw [b4]; exact hip⟩
  | some b =>
    dsimp only at h
    split_ifs at h
    exact primal_dual_step_active ar P f t1 l b nx ha ho hA hip hl h

theorem step_l2a_active (ar : Arith α) (P : Problem α) (f : Frame α) (nx : Next α)
    (hq : ActiveInv P (Next.goto_l2a f)) (h : step_l2a ar P f = some nx) :
    ActiveInv P nx := by
  have hq1 : ActiveSet P f.slv.A f.slv.iai f.iq ∧
      (∀ i, i < P.nEqCon → f.slv.A_old i = -(i : Int) - 1) ∧
      f.slv.A f.iq = (f.ip : Int) ∧ f.ip < P.nIneqCon := hq
  obtain ⟨ha, ho, hA, hip⟩ := hq1
  unfold step_l2a at h
  dsimp only at h
  split_ifs at h
  refine step_2c_active ar P (direction P f) _ _ _ nx ha ho hA hip ?_ h
  intro hne
  obtain ⟨k, k1, k2, k3⟩ := ratio_loop_mem _ _ _ _ _ hne
  have := ha.1
  exact ⟨k, k1, (by omega : k < f.iq), k3.symm⟩

/-- Every return of `solve_quadprog` other than `EIQUADPROG_FAST_REDUNDANT_EQUALITIES`
reports a well formed active set. -/
theorem solve_active_set (ar : Arith α) (fuel : Nat) (slv : Solver α) (P : Problem α)
    (st : Status) (f : Frame α) (h : solve_quadprog ar fuel slv P = Outcome.done st f)
    (hst : st ≠ Status.EIQUADPROG_FAST_REDUNDANT_EQUALITIES) :
    ActiveSet P f.slv.A f.slv.iai f.slv.q := by
  unfold solve_quadprog at h
  split at h
  · simp at h
  · rename_i nx hs
    exact run_invariant ar P (ActiveInv P) (step_l1_active ar P) (step_l2_active P)
      (step_l2a_active ar P) fuel nx (start_active ar slv P nx hs) st f h hst

end ActiveSteps

/-- C11: equality constraints are never dropped and stay distinctly encoded: whenever
`solve_quadprog` returns a status other than `EIQUADPROG_FAST_REDUNDANT_EQUALITIES`, the
reported active-set size satisfies `q ≥ nEqCon`, `A(i) = -(i+1)` for every `i < nEqCon`,
and every `A(k)` with `nEqCon ≤ k < q` is an inequality index in `[0, nIneqCon)`. -/
theorem equalities_never_dropped {α : Type} [LinearOrderedField α] (ar : Arith α)
    (fuel : Nat) (slv : Solver α) (P : Problem α) (st : Status) (f : Frame α)
    (h : solve_quadprog ar fuel slv P = Outcome.done st f)
    (hst : st ≠ Status.EIQUADPROG_FAST_REDUNDANT_EQUALITIES) :
    P.nEqCon ≤ f.slv.q ∧ (∀ i, i < P.nEqCon → f.slv.A i = -((i : Int) + 1)) ∧
      ∀ k, P.nEqCon ≤ k → k < f.slv.q → 0 ≤ f.slv.A k ∧ f.slv.A k < (P.nIneqCon : Int) := by
  obtain ⟨a1, a2, a3, -⟩ := solve_active_set ar fuel slv P st f h hst
  refine ⟨a1, ?_, a3⟩
  intro i hi
  rw [a2 i hi]
  ring

/-- Witness for C11: on `qp_mixed` the solver returns `EIQUADPROG_FAST_OPTIMAL` with the
equality in slot 0 and the inequality in slot 1. -/
theorem equalities_never_dropped_witness :
    ∃ f, solve_quadprog rat_arith 10 (fresh_solver 1000) qp_mixed
        = Outcome.done Status.EIQUADPROG_FAST_OPTIMAL f ∧
      f.slv.q = 2 ∧ f.slv.A 0 = -1 ∧ f.slv.A 1 = 0 ∧
      qp_mixed.nEqCon ≤ f.slv.q ∧ (∀ i, i < qp_mixed.nEqCon → f.slv.A i = -((i : Int) + 1)) ∧
      ∀ k, qp_mixed.nEqCon ≤ k → k < f.slv.q →
        0 ≤ f.slv.A k ∧ f.slv.A k < (qp_mixed.nIneqCon : Int) := by
  have h : (solve_quadprog rat_arith 10 (fresh_solver 1000) qp_mixed).check
      (fun st f => decide (st = Status.EIQUADPROG_FAST_OPTIMAL ∧ f.slv.q = 2 ∧
        f.slv.A 0 = -1 ∧ f.slv.A 1 = 0)) = true := by
    decide!
  obtain ⟨st, f, hf, hp⟩ := Outcome.check_iff.mp h
  simp only [decide_eq_true_eq] at hp
  obtain ⟨rfl, h1, h2, h3⟩ := hp
  exact ⟨f, hf, h1, h2, h3,
    equalities_never_dropped rat_arith 10 (fresh_solver 1000) qp_mixed _ f hf (by decide)⟩

end Eiquadprog

namespace Eiquadprog

section Slack

variable {α : Type} [LinearOrderedField α]

theorem psi_sum_le (s : Vec α) :
    ∀ n, psi_sum n s ≤ 0 ∧ ∀ i, i < n → psi_sum n s ≤ s i := by
  intro n
  induction n with
  | zero => exact ⟨le_refl _, fun i hi => by omega⟩
  | succ k ih =>
    have e : psi_sum (k + 1) s = psi_sum k s + min 0 (s k) := rfl
    have h0 : min 0 (s k) ≤ 0 := min_le_left _ _
    have h1 : min 0 (s k) ≤ s k := min_le_right _ _
    rw [e]
    refine ⟨by linarith [ih.1], ?_⟩
    intro i hi
    by_cases hik : i = k
    · subst hik
      linarith [ih.1]
    · linarith [ih.2 i (by omega)]

theorem sumTo_nonneg (n : Nat) (f : Nat → α) (h : ∀ k, k < n → 0 ≤ f k) : 0 ≤ sumTo n f := by
  rw [sumTo_eq_sum]
  exact Finset.sum_nonneg (fun k hk => h k (Finset.mem_range.mp hk))

/-- The factor `J₀ = L⁻ᵀ` is upper-triangular. -/
theorem chol_inverse_upper (ar : Arith α) (hex : ar.exact_sqrt) (n : Nat) (H : Mat α)
    (hH : SymPosDef n H) (c : Nat) :
    ∀ d i, i < n → c < i → n - i ≤ d → chol_inverse n (chol ar n H n) i c = 0 := by
  have hL := chol_rec ar n H
  obtain ⟨hpos, -⟩ := chol_columns_below ar hex n H _ hH.1 hL n (le_refl n)
    (chol_pivot_pos ar hex n H _ hH hL)
  intro d
  induction d with
  | zero => intro i h1 _ h3; omega
  | succ d ih =>
    intro i h1 h2 h3
    have s := back_subst_spec n (fun a b => chol ar n H n b a)
      (fun k => if k = c then 1 else 0) (fun i hi => (hpos i hi).ne') i h1
    have hz : sumTo n (fun j => if i < j then (fun a b => chol ar n H n b a) i j
        * back_subst n (fun a b => chol ar n H n b a) (fun k => if k = c then 1 else 0) n j
        else 0) = 0 := by
      apply sumTo_zero
      intro j hj
      by_cases hij : i < j
      · rw [if_pos hij]
        have e : chol_inverse n (chol ar n H n) j c = 0 := ih j hj (by omega) (by omega)
        have e1 : back_subst n (fun a b => chol ar n H n b a)
            (fun k => if k = c then 1 else 0) n j = 0 := e
        rw [e1, mul_zero]
      · rw [if_neg hij]
    rw [hz, add_zero] at s
    dsimp only at s
    rw [if_neg (show ¬ i = c by omega)] at s
    exact (mul_eq_zero.mp s).resolve_left (hpos i h1).ne'

/-- The diagonal of `J₀ = L⁻ᵀ` is positive. -/
theorem chol_inverse_diag_pos (ar : Arith α) (hex : ar.exact_sqrt) (n : Nat) (H : Mat α)
    (hH : SymPosDef n H) (c : Nat) (hc : c < n) :
    0 < chol_inverse n (chol ar n H n) c c := by
  have hL := chol_rec ar n H
  obtain ⟨hpos, -⟩ := chol_columns_below ar hex n H _ hH.1 hL n (le_refl n)
    (chol_pivot_pos ar hex n H _ hH hL)
  have s := back_subst_spec n (fun a b => chol ar n H n b a)
    (fun k => if k = c then 1 else 0) (fun i hi => (hpos i hi).ne') c hc
  have hz : sumTo n (fun j => if c < j then (fun a b => chol ar n H n b a) c j
      * back_subst n (fun a b => chol ar n H n b a) (fun k => if k = c then 1 else 0) n j
      else 0) = 0 := by
    apply sumTo_zero
    intro j hj
    by_cases hij : c < j
    · rw [if_pos hij]
      have e : chol_inverse n (chol ar n H n) j c = 0 :=
        chol_inverse_upper ar hex n H hH c n j hj hij (by omega)
      have e1 : back_subst n (fun a b => chol ar n H n b a)
          (fun k => if k = c then 1 else 0) n j = 0 := e
      rw [e1, mul_zero]
    · rw [if_neg hij]
  rw [hz, add_zero] at s
  dsimp only at s
  rw [if_pos rfl] at s
  have s1 : chol ar n H n c c * chol_inverse n (chol ar n H n) c c = 1 := s
  by_contra hn
  have := mul_nonpos_of_nonneg_of_nonpos (hpos c hc).le (not_lt.mp hn)
  rw [s1] at this
  linarith

/-- In the mode where the solver factorises `H` itself, with an exact square root,
`ε ≥ 0` and a symmetric positive definite `H`, the tolerance of step 1 is non-negative. -/
theorem psi_tolerance_nonneg (ar : Arith α) (slv : Solver α) (P : Problem α)
    (hmode : slv.is_inverse_provided_ = false) (hex : ar.exact_sqrt) (he : 0 ≤ ar.eps)
    (hH : SymPosDef P.nVars P.Hess) : 0 ≤ psi_tolerance ar slv P := by
  have hL := chol_rec ar P.nVars P.Hess
  obtain ⟨-, hF⟩ := chol_columns_below ar hex P.nVars P.Hess _ hH.1 hL P.nVars (le_refl _)
    (chol_pivot_pos ar hex P.nVars P.Hess _ hH hL)
  have h1 : 0 ≤ trace P.nVars P.Hess := by
    apply sumTo_nonneg
    intro k hk
    rw [← hF k k (k + 1) hk hk (by omega)]
    exact Finset.sum_nonneg (fun j _ => mul_self_nonneg _)
  have h2 : 0 ≤ trace P.nVars (preprocess ar slv P).slv.m_J := by
    rw [(preprocess_default ar slv P hmode).1]
    apply sumTo_nonneg
    intro k hk
    exact (chol_inverse_diag_pos ar hex P.nVars P.Hess hH k hk).le
  unfold psi_tolerance
  exact mul_nonneg (mul_nonneg (mul_nonneg (mul_nonneg (Nat.cast_nonneg _) he) h1) h2)
    (by norm_num)

end Slack

/-- C14 (as stated, refuted): on `qp_boundary` with the caller-supplied factor `J = [-1]`
(`J·Jᵀ = H⁻¹`), `solve_quadprog` returns `EIQUADPROG_FAST_OPTIMAL` at step 2 with `x = 0`
and an empty active set; the tolerance `τ = nIneqCon·ε·trace(H)·trace(J₀)·100` is negative
there, and the slack `0` of the inactive inequality is below `-τ`. -/
theorem optimal_slack_below_tolerance :
    ∃ f, solve_quadprog rat_arith 10 inverse_negative_solver qp_boundary
        = Outcome.done Status.EIQUADPROG_FAST_OPTIMAL f ∧
      f.slv.q = 0 ∧
      dot 1 (fun k => qp_boundary.CI 0 k) f.x + qp_boundary.ci0 0 = 0 ∧
      ¬ (-(psi_tolerance rat_arith inverse_negative_solver qp_boundary)
          ≤ dot 1 (fun k => qp_boundary.CI 0 k) f.x + qp_boundary.ci0 0) := by
  have h : (solve_quadprog rat_arith 10 inverse_negative_solver qp_boundary).check
      (fun st f => decide (st = Status.EIQUADPROG_FAST_OPTIMAL ∧ f.slv.q = 0 ∧ f.x 0 = 0))
      = true := by
    decide!
  have ht : psi_tolerance rat_arith inverse_negative_solver qp_boundary < 0 := by decide!
  obtain ⟨st, f, hf, hp⟩ := Outcome.check_iff.mp h
  simp only [decide_eq_true_eq] at hp
  obtain ⟨rfl, hq, hx⟩ := hp
  have hs : dot 1 (fun k => qp_boundary.CI 0 k) f.x + qp_boundary.ci0 0 = 0 := by
    simp [dot, sumTo, qp_boundary, hx]
  refine ⟨f, hf, hq, hs, ?_⟩
  rw [hs]
  linarith

/-- C14 (amended): whenever `solve_quadprog` returns `EIQUADPROG_FAST_OPTIMAL`, either the
return was taken at step 1 and every inequality has slack `CI_i·x + ci0_i ≥ -τ`, or it was
taken at step 2 and every inequality outside the returned active set `A[nEqCon..q)` has
slack `≥ 0`; here `τ = nIneqCon·ε·trace(H)·trace(J₀)·100` with `J₀` the factor after
preprocessing.  Hence the slack of an inactive inequality is `≥ -τ` whenever `τ ≥ 0`, and
`τ ≥ 0` holds when the solver factorises a symmetric positive definite `H` itself (exact
square root, `ε ≥ 0`). -/
theorem optimal_inactive_slack {α : Type} [LinearOrderedField α] (ar : Arith α)
    (fuel : Nat) (slv : Solver α) (P : Problem α) (f : Frame α)
    (h : solve_quadprog ar fuel slv P = Outcome.done Status.EIQUADPROG_FAST_OPTIMAL f) :
    ((∀ i, i < P.nIneqCon →
        -(psi_tolerance ar slv P) ≤ dot P.nVars (fun k => P.CI i k) f.x + P.ci0 i) ∨
      (∀ i, i < P.nIneqCon → (∀ k, P.nEqCon ≤ k → k < f.slv.q → f.slv.A k ≠ (i : Int)) →
        0 ≤ dot P.nVars (fun k => P.CI i k) f.x + P.ci0 i)) ∧
    (0 ≤ psi_tolerance ar slv P →
      ∀ i, i < P.nIneqCon → (∀ k, P.nEqCon ≤ k → k < f.slv.q → f.slv.A k ≠ (i : Int)) →
        -(psi_tolerance ar slv P) ≤ dot P.nVars (fun k => P.CI i k) f.x + P.ci0 i) ∧
    (slv.is_inverse_provided_ = false → ar.exact_sqrt → 0 ≤ ar.eps →
      SymPosDef P.nVars P.Hess → 0 ≤ psi_tolerance ar slv P) := by
  obtain ⟨hres, htest⟩ := optimal_tested_frame ar fuel slv P f h
  obtain ⟨e1, e2⟩ := solve_traces ar fuel slv P _ f h
  obtain ⟨-, -, -, a4⟩ := solve_active_set ar fuel slv P _ f h (by decide)
  have hcase : (∀ i, i < P.nIneqCon →
        -(psi_tolerance ar slv P) ≤ dot P.nVars (fun k => P.CI i k) f.x + P.ci0 i) ∨
      (∀ i, i < P.nIneqCon → (∀ k, P.nEqCon ≤ k → k < f.slv.q → f.slv.A k ≠ (i : Int)) →
        0 ≤ dot P.nVars (fun k => P.CI i k) f.x + P.ci0 i) := by
    rcases htest with h1 | h2
    · left
      intro i hi
      rw [← hres i hi]
      have k1 := (psi_sum_le f.slv.s P.nIneqCon).2 i hi
      have k2 := neg_abs_le (psi_sum P.nIneqCon f.slv.s)
      rw [e1, e2] at h1
      unfold psi_tolerance
      linarith
    · right
      intro i hi hin
      rw [← hres i hi]
      apply h2 i hi
      intro hm
      obtain ⟨k, k1, k2, k3⟩ := a4 i hi hm
      exact hin k k1 k2 k3
  refine ⟨hcase, ?_, psi_tolerance_nonneg ar slv P⟩
  intro ht i hi hin
  rcases hcase with h1 | h2
  · exact h1 i hi
  · linarith [h2 i hi hin]

/-- Witness for the amended C14: on `qp_two_inequalities` with a fresh solver the tolerance
is non-negative and the returned point satisfies every inactive inequality up to it. -/
theorem optimal_inactive_slack_witness :
    0 ≤ psi_tolerance rat_arith (fresh_solver 100) qp_two_inequalities ∧
    ∀ i, i < qp_two_inequalities.nIneqCon →
      (∀ k, qp_two_inequalities.nEqCon ≤ k →
        k < ((solve_quadprog rat_arith 10 (fresh_solver 100) qp_two_inequalities).frame
          (preprocess rat_arith (fresh_solver 100) qp_two_inequalities)).slv.q →
        ((solve_quadprog rat_arith 10 (fresh_solver 100) qp_two_inequalities).frame
          (preprocess rat_arith (fresh_solver 100) qp_two_inequalities)).slv.A k ≠ (i : Int)) →
      -(psi_tolerance rat_arith (fresh_solver 100) qp_two_inequalities)
        ≤ dot qp_two_inequalities.nVars (fun k => qp_two_inequalities.CI i k)
            ((solve_quadprog rat_arith 10 (fresh_solver 100) qp_two_inequalities).frame
              (preprocess rat_arith (fresh_solver 100) qp_two_inequalities)).x
          + qp_two_inequalities.ci0 i :=
  ⟨by decide!,
    (optimal_inactive_slack rat_arith 10 (fresh_solver 100) qp_two_inequalities _
      (Outcome.eq_done_of_status _ (by decide!))).2.1 (by decide!)⟩

end Eiquadprog

namespace Eiquadprog

/-- The loop of the rollback indexes `iai` with `A_old(0)` in its first pass. -/
theorem restore_loop_fault {α : Type} (n : Nat) (A_old : IVec) (u_old : Vec α) (c : Nat)
    (st : IVec × IVec × Vec α) (h : A_old 0 < 0) :
    restore_loop n A_old u_old 0 (c + 1) st = none := by
  simp only [restore_loop]
  rw [if_neg (by omega)]

section Faults

variable {α : Type} [LinearOrderedField α]

/-- Running `k + m` blocks is running `m` blocks from the program point reached after
`k`. -/
theorem run_advance (ar : Arith α) (P : Problem α) :
    ∀ (k : Nat) (nx nx1 : Next α) (m : Nat), advance ar P k nx = some nx1 →
      run ar P (k + m) nx = run ar P m nx1 := by
  intro k
  induction k with
  | zero =>
    intro nx nx1 m h
    simp only [advance, Option.some.injEq] at h
    subst h
    rw [Nat.zero_add]
  | succ k ih =>
    intro nx nx1 m h
    rw [show k + 1 + m = (k + m) + 1 by omega]
    cases nx with
    | ret st f =>
      simp only [advance, Option.some.injEq] at h
      subst h
      rw [run_ret, run_ret]
    | goto_l1 f =>
      simp only [advance, Option.bind_eq_some] at h
      obtain ⟨nx2, h1, h2⟩ := h
      simp only [run, h1]
      exact ih nx2 nx1 m h2
    | goto_l2 f =>
      simp only [advance, Option.bind_eq_some] at h
      obtain ⟨nx2, h1, h2⟩ := h
      simp only [run, h1]
      exact ih nx2 nx1 m h2
    | goto_l2a f =>
      simp only [advance, Option.bind_eq_some] at h
      obtain ⟨nx2, h1, h2⟩ := h
      simp only [run, h1]
      exact ih nx2 nx1 m h2

/-- A call that reaches label `l2a` after `k` blocks in a frame whose block makes an
out-of-range access ends in that access, whatever fuel is left. -/
theorem solve_faults (ar : Arith α) (slv : Solver α) (P : Problem α) (k : Nat)
    (nx0 : Next α) (f : Frame α) (h0 : start ar slv P = some nx0)
    (h1 : advance ar P k nx0 = some (Next.goto_l2a f)) (h2 : step_l2a ar P f = none)
    (m : Nat) : solve_quadprog ar (k + (m + 1)) slv P = Outcome.fault := by
  unfold solve_quadprog
  rw [h0]
  dsimp only
  rw [run_advance ar P k nx0 _ (m + 1) h1]
  simp only [run, h2]

end Faults

/-- C21 (failing inputs): two calls with a symmetric positive definite `H` and a freshly
constructed solver make an out-of-range access on the degenerate-add rollback path.

On `qp_equality_degenerate` (one equality, two inequalities) the main loop reaches step 2
with `ip = 0`, `add_constraint` fails, `delete_constraint` succeeds and leaves `iq = 1`,
and the first pass of the loop that restores `A` from `A_old` indexes `iai` with the
equality code `A_old(0) = -1`.

On `qp_full_degenerate` (a single inequality) the failed `add_constraint` leaves
`iq = 1 = nEqCon + nIneqCon`, so the reads of `A(iq)` and `u(iq)` in `delete_constraint`
are past the end of both vectors. -/
theorem rollback_out_of_range :
    (SymPosDef 2 qp_equality_degenerate.Hess ∧
      ∃ nx0 f a, start rat_arith (fresh_solver 1000) qp_equality_degenerate = some nx0 ∧
        advance rat_arith qp_equality_degenerate 2 nx0 = some (Next.goto_l2a f) ∧
        f.iq = 1 ∧ f.ip = 0 ∧
        add_constraint rat_arith 2 (direction qp_equality_degenerate f).slv.R
          (direction qp_equality_degenerate f).slv.m_J
          (direction qp_equality_degenerate f).slv.d f.iq f.R_norm = some a ∧
        a.ok = false ∧
        (∀ u, ∃ dr, delete_constraint rat_arith 2 (2 + 1) a.R a.J f.slv.A u 1 a.iq (f.ip : Int)
          = some dr ∧ dr.iq = 1) ∧
        f.slv.A_old 0 = -1 ∧
        (∀ st, restore_loop 2 f.slv.A_old f.slv.u_old 0 1 st = none) ∧
        step_l2a rat_arith qp_equality_degenerate f = none ∧
        ∀ m, solve_quadprog rat_arith (m + 3) (fresh_solver 1000) qp_equality_degenerate
          = Outcome.fault) ∧
    (SymPosDef 1 qp_full_degenerate.Hess ∧
      ∃ nx0 f a, start rat_arith (fresh_solver 1000) qp_full_degenerate = some nx0 ∧
        advance rat_arith qp_full_degenerate 2 nx0 = some (Next.goto_l2a f) ∧
        f.iq = 0 ∧ f.ip = 0 ∧
        add_constraint rat_arith 1 (direction qp_full_degenerate f).slv.R
          (direction qp_full_degenerate f).slv.m_J
          (direction qp_full_degenerate f).slv.d f.iq f.R_norm = some a ∧
        a.ok = false ∧ a.iq = qp_full_degenerate.nIneqCon + qp_full_degenerate.nEqCon ∧
        (∀ u, delete_constraint rat_arith 1 (1 + 0) a.R a.J f.slv.A u 0 a.iq (f.ip : Int)
          = none) ∧
        step_l2a rat_arith qp_full_degenerate f = none ∧
        ∀ m, solve_quadprog rat_arith (m + 3) (fresh_solver 1000) qp_full_degenerate
          = Outcome.fault) := by
  refine ⟨⟨⟨?_, ?_⟩, ?_⟩, ⟨⟨fun _ _ _ _ => rfl, ?_⟩, ?_⟩⟩
  · intro i j _ _
    by_cases hij : i = j
    · subst hij; rfl
    · simp [qp_equality_degenerate, hij, Ne.symm hij]
  · rintro v ⟨i, hi, hv⟩
    have e : dot 2 v (fun i => dot 2 (qp_equality_degenerate.Hess i) v)
        = v 0 * v 0 + 1 / 2 ^ 80 * (v 1 * v 1) := by
      simp [dot, sumTo, qp_equality_degenerate]
      ring
    rw [e]
    have h0 := mul_self_nonneg (v 0)
    have h1 := mul_self_nonneg (v 1)
    have hp := mul_self_pos.mpr hv
    have hi2 : i = 0 ∨ i = 1 := by omega
    rcases hi2 with rfl | rfl
    · positivity
    · positivity
  · have h : ((start rat_arith (fresh_solver 1000) qp_equality_degenerate).bind
          (advance rat_arith qp_equality_degenerate 2)).bind
        (fun nx => match nx with
          | Next.goto_l2a f => some (f.iq, f.ip, f.slv.A_old 0,
              (step_l2a rat_arith qp_equality_degenerate f).isNone,
              (add_constraint rat_arith 2 (direction qp_equality_degenerate f).slv.R
                (direction qp_equality_degenerate f).slv.m_J
                (direction qp_equality_degenerate f).slv.d f.iq f.R_norm).map (fun a => a.ok))
          | _ => none) = some (1, 0, -1, true, some false) := by
      decide!
    simp only [Option.bind_eq_some] at h
    obtain ⟨nx, ⟨nx0, hs, ha⟩, h⟩ := h
    cases nx with
    | goto_l2a f =>
      simp only [Option.some.injEq, Prod.mk.injEq, Option.map_eq_some',
        Option.isNone_iff_eq_none] at h
      obtain ⟨hiq, hip, hold, hnone, a, hadd, hok⟩ := h
      have haq := (add_constraint_iq rat_arith _ _ _ _ _ _ a hadd).1
      refine ⟨nx0, f, a, hs, ha, hiq, hip, hadd, hok, ?_, hold, ?_, hnone, ?_⟩
      · intro u
        obtain ⟨dr, hd, e, -⟩ := delete_constraint_shift rat_arith 2 (2 + 1) a.R a.J f.slv.A u 1
          a.iq (f.ip : Int) (by omega) (by omega) (by omega)
        exact ⟨dr, hd, by omega⟩
      · intro st
        exact restore_loop_fault 2 f.slv.A_old f.slv.u_old 0 st (by omega)
      · intro m
        rw [show m + 3 = 2 + (m + 1) by omega]
        exact solve_faults rat_arith _ _ 2 nx0 f hs ha hnone m
    | goto_l1 f => simp at h
    | goto_l2 f => simp at h
    | ret st f => simp at h
  · rintro v ⟨i, hi, hv⟩
    have hi0 : i = 0 := by omega
    subst hi0
    have e : dot 1 v (fun i => dot 1 (qp_full_degenerate.Hess i) v)
        = 1 / 2 ^ 80 * (v 0 * v 0) := by
      simp [dot, sumTo, qp_full_degenerate]
      ring
    rw [e]
    have hp := mul_self_pos.mpr hv
    positivity
  · have h : ((start rat_arith (fresh_solver 1000) qp_full_degenerate).bind
          (advance rat_arith qp_full_degenerate 2)).bind
        (fun nx => match nx with
          | Next.goto_l2a f => some (f.iq, f.ip,
              (step_l2a rat_arith qp_full_degenerate f).isNone,
              (add_constraint rat_arith 1 (direction qp_full_degenerate f).slv.R
                (direction qp_full_degenerate f).slv.m_J
                (direction qp_full_degenerate f).slv.d f.iq f.R_norm).map (fun a => a.ok))
          | _ => none) = some (0, 0, true, some false) := by
      decide!
    simp only [Option.bind_eq_some] at h
    obtain ⟨nx, ⟨nx0, hs, ha⟩, h⟩ := h
    cases nx with
    | goto_l2a f =>
      simp only [Option.some.injEq, Prod.mk.injEq, Option.map_eq_some',
        Option.isNone_iff_eq_none] at h
      obtain ⟨hiq, hip, hnone, a, hadd, hok⟩ := h
      have haq := (add_constraint_iq rat_arith _ _ _ _ _ _ a hadd).1
      have haq1 : a.iq = 1 := by omega
      refine ⟨nx0, f, a, hs, ha, hiq, hip, hadd, hok, haq1, ?_, hnone, ?_⟩
      · intro u
        simp [delete_constraint, haq1]
      · intro m
        rw [show m + 3 = 2 + (m + 1) by omega]
        exact solve_faults rat_arith _ _ 2 nx0 f hs ha hnone m
    | goto_l1 f => simp at h
    | goto_l2 f => simp at h
    | ret st f => simp at h

end Eiquadprog

namespace Eiquadprog

/-- C2 (failing input): with the caller-supplied factor `J = [1]` for `H = [1]` and
`g0 = [1]`, no constraints, and the build switch `OPTIMIZE_UNCONSTR_MINIM` on,
`solve_quadprog` returns `EIQUADPROG_FAST_OPTIMAL` with `x = +1 = +H⁻¹·g0` and
`f_value = +1/2`, where `H·x = -g0` fails: the branch `x = m_J·(m_Jᵀ·g0)` of lines 270-271
is not negated.  With the switch off the same call returns `x = -1`, and so does the call
in which the solver factorises `H` itself. -/
theorem unconstrained_sign_in_inverse_mode :
    SymPosDef 1 qp_unit_gradient.Hess ∧
    (∃ f, solve_quadprog rat_arith 10 inverse_unit_solver qp_unit_gradient
        = Outcome.done Status.EIQUADPROG_FAST_OPTIMAL f ∧
      f.x 0 = 1 ∧ f.slv.f_value = 1 / 2 ∧ f.slv.q = 0 ∧
      dot 1 (qp_unit_gradient.Hess 0) f.x ≠ -(qp_unit_gradient.g0 0)) ∧
    (∃ f, solve_quadprog { rat_arith with OPTIMIZE_UNCONSTR_MINIM := false } 10
        inverse_unit_solver qp_unit_gradient
        = Outcome.done Status.EIQUADPROG_FAST_OPTIMAL f ∧ f.x 0 = -1) ∧
    (∃ f, solve_quadprog rat_arith 10 (fresh_solver 100) qp_unit_gradient
        = Outcome.done Status.EIQUADPROG_FAST_OPTIMAL f ∧ f.x 0 = -1) := by
  refine ⟨⟨fun _ _ _ _ => rfl, ?_⟩, ?_, ?_, ?_⟩
  · rintro v ⟨i, hi, hv⟩
    have hi0 : i = 0 := by omega
    subst hi0
    have e : dot 1 v (fun i => dot 1 (qp_unit_gradient.Hess i) v) = v 0 * v 0 := by
      simp [dot, sumTo, qp_unit_gradient]
    rw [e]
    exact mul_self_pos.mpr hv
  · have h : (solve_quadprog rat_arith 10 inverse_unit_solver qp_unit_gradient).check
        (fun st f => decide (st = Status.EIQUADPROG_FAST_OPTIMAL ∧ f.x 0 = 1 ∧
          f.slv.f_value = 1 / 2 ∧ f.slv.q = 0)) = true := by
      decide!
    obtain ⟨st, f, hf, hp⟩ := Outcome.check_iff.mp h
    simp only [decide_eq_true_eq] at hp
    obtain ⟨rfl, hx, hv, hq⟩ := hp
    refine ⟨f, hf, hx, hv, hq, ?_⟩
    simp [dot, sumTo, qp_unit_gradient, hx]
    norm_num
  · have h : (solve_quadprog { rat_arith with OPTIMIZE_UNCONSTR_MINIM := false } 10
          inverse_unit_solver qp_unit_gradient).check
        (fun st f => decide (st = Status.EIQUADPROG_FAST_OPTIMAL ∧ f.x 0 = -1)) = true := by
      decide!
    obtain ⟨st, f, hf, hp⟩ := Outcome.check_iff.mp h
    simp only [decide_eq_true_eq] at hp
    obtain ⟨rfl, hx⟩ := hp
    exact ⟨f, hf, hx⟩
  · have h : (solve_quadprog rat_arith 10 (fresh_solver 100) qp_unit_gradient).check
        (fun st f => decide (st = Status.EIQUADPROG_FAST_OPTIMAL ∧ f.x 0 = -1)) = true := by
      decide!
    obtain ⟨st, f, hf, hp⟩ := Outcome.check_iff.mp h
    simp only [decide_eq_true_eq] at hp
    obtain ⟨rfl, hx⟩ := hp
    exact ⟨f, hf, hx⟩

/-- C5 (as stated, refuted): on `qp_dependent_rows`, whose second equality row is `2²⁰`
times the first and contradicts it, `solve_quadprog` with the rounded square root returns
`EIQUADPROG_FAST_OPTIMAL` with `x = [1/2, 1/2]`: the rotation of the first add is computed
from a rounded `sqrt`, the second row leaves a residual `|d(1)|` above `ε·R_norm`, so
`add_constraint` accepts it, and the second equality is violated by `2²⁰`. -/
theorem dependent_row_not_detected :
    SymPosDef 2 qp_dependent_rows.Hess ∧
    (∀ c, qp_dependent_rows.CE 1 c = 2 ^ 20 * qp_dependent_rows.CE 0 c) ∧
    ∃ f, solve_quadprog rat_arith 10 (fresh_solver 1000) qp_dependent_rows
        = Outcome.done Status.EIQUADPROG_FAST_OPTIMAL f ∧
      f.x 0 = 1 / 2 ∧ f.x 1 = 1 / 2 ∧ f.slv.q = 2 ∧
      dot 2 (fun k => qp_dependent_rows.CE 1 k) f.x + qp_dependent_rows.ce0 1 = -(2 ^ 20) := by
  refine ⟨⟨?_, ?_⟩, ?_, ?_⟩
  · intro i j _ _
    by_cases hij : i = j
    · subst hij; rfl
    · simp [qp_dependent_rows, hij, Ne.symm hij]
  · rintro v ⟨i, hi, hv⟩
    have e : dot 2 v (fun i => dot 2 (qp_dependent_rows.Hess i) v)
        = v 0 * v 0 + v 1 * v 1 := by
      simp [dot, sumTo, qp_dependent_rows]
    rw [e]
    have h0 := mul_self_nonneg (v 0)
    have h1 := mul_self_nonneg (v 1)
    have hp := mul_self_pos.mpr hv
    have hi2 : i = 0 ∨ i = 1 := by omega
    rcases hi2 with rfl | rfl
    · linarith
    · linarith
  · intro c
    simp [qp_dependent_rows]
  · have h : (solve_quadprog rat_arith 10 (fresh_solver 1000) qp_dependent_rows).check
        (fun st f => decide (st = Status.EIQUADPROG_FAST_OPTIMAL ∧ f.x 0 = 1 / 2 ∧
          f.x 1 = 1 / 2 ∧ f.slv.q = 2)) = true := by
      decide!
    obtain ⟨st, f, hf, hp⟩ := Outcome.check_iff.mp h
    simp only [decide_eq_true_eq] at hp
    obtain ⟨rfl, hx0, hx1, hq⟩ := hp
    refine ⟨f, hf, hx0, hx1, hq, ?_⟩
    simp [dot, sumTo, qp_dependent_rows, hx0, hx1]
    norm_num

end Eiquadprog

namespace Eiquadprog

section LinearAlgebra

variable {α : Type} [LinearOrderedField α]

end LinearAlgebra

end Eiquadprog

namespace Eiquadprog

section FactorUpdates

variable {α : Type} [LinearOrderedField α]

end FactorUpdates

end Eiquadprog

namespace Eiquadprog

section DirectionIdentity

variable {α : Type} [LinearOrderedField α]

end DirectionIdentity

end Eiquadprog

namespace Eiquadprog

section EqualityPhase

variable {α : Type} [LinearOrderedField α]

end EqualityPhase

end Eiquadprog

namespace Eiquadprog

section StateSteps

variable {α : Type} [LinearOrderedField α]

end StateSteps

end Eiquadprog

namespace Eiquadprog

section MainStep

variable {α : Type} [LinearOrderedField α]

end MainStep

end Eiquadprog

namespace Eiquadprog

section MainStepPrimal

variable {α : Type} [LinearOrderedField α]

end MainStepPrimal

end Eiquadprog

namespace Eiquadprog

section MainStepDual

variable {α : Type} [LinearOrderedField α]

end MainStepDual

end Eiquadprog

namespace Eiquadprog

section Returns

variable {α : Type} [LinearOrderedField α]

end Returns

end Eiquadprog

namespace Eiquadprog

section Multipliers

variable {α : Type} [LinearOrderedField α]

end Multipliers

section StartConditions

variable {α : Type} [LinearOrderedField α]

end StartConditions

end Eiquadprog

namespace Eiquadprog

section ScenarioGuards

variable {α : Type} [LinearOrderedField α]

end ScenarioGuards

end Eiquadprog

namespace Eiquadprog

section ScenarioContradictory

variable {α : Type} [LinearOrderedField α]

end ScenarioContradictory

end Eiquadprog

namespace Eiquadprog

/-- A return with `EIQUADPROG_FAST_UNBOUNDED` on a feasible problem although the step
direction passes the guard: for `H = [1]` and the inequality `2^-20·x ≥ 2^1000` the
direction is `z = 2^-20`, `z·z = 2^-40 > ε`, and the quotient `-s(ip) / z·np = 2^1040` has
no finite double, so the full step length is `+inf`. -/
theorem unbounded_by_overflow :
    SymPosDef 1 qp_overflow.Hess ∧ Feasible qp_overflow (fun _ => 2 ^ 1020) ∧
    ∃ f, solve_quadprog rat_arith 10 (fresh_solver 1000) qp_overflow
        = Outcome.done Status.EIQUADPROG_FAST_UNBOUNDED f ∧
      rat_arith.eps < |dot 1 f.slv.z f.slv.z| := by
  refine ⟨⟨fun _ _ _ _ => rfl, ?_⟩, ⟨?_, ?_⟩, ?_⟩
  · rintro v ⟨i, hi, hv⟩
    have hi0 : i = 0 := by omega
    subst hi0
    have : dot 1 v (fun i => dot 1 (qp_overflow.Hess i) v) = v 0 * v 0 := by
      simp [dot, sumTo, qp_overflow]
    rw [this]
    exact mul_self_pos.mpr hv
  · intro i hi
    simp [qp_overflow] at hi
  · intro i _
    simp only [qp_overflow, dot, sumTo]
    norm_num
  · have h : (solve_quadprog rat_arith 10 (fresh_solver 1000) qp_overflow).check
        (fun st f => decide (st = Status.EIQUADPROG_FAST_UNBOUNDED ∧ f.slv.z 0 = 1 / 2 ^ 20))
        = true := by decide!
    obtain ⟨st, f, hf, hp⟩ := Outcome.check_iff.mp h
    simp only [decide_eq_true_eq] at hp
    obtain ⟨rfl, hz⟩ := hp
    refine ⟨f, hf, ?_⟩
    simp only [dot, sumTo, hz, rat_arith]
    norm_num [abs_of_pos]

/-- A return with `EIQUADPROG_FAST_UNBOUNDED` on a feasible problem with a step direction
that is exactly zero: for `H = [2^60]`, the equality `x = 1` and the inequality `x ≥ 1/2`,
the equality phase adds the equality without moving `x` (its direction has
`z·z = 2^-120 ≤ ε`), so the active equality does not hold at `x = 0`; the inequality is
violated there and no step is left. -/
theorem unbounded_with_untight_equality :
    SymPosDef 1 qp_stiff_mixed.Hess ∧ Feasible qp_stiff_mixed (fun _ => 1) ∧
    ∃ f, solve_quadprog rat_arith 10 (fresh_solver 1000) qp_stiff_mixed
        = Outcome.done Status.EIQUADPROG_FAST_UNBOUNDED f ∧
      f.slv.z 0 = 0 ∧
      dot 1 (fun k => qp_stiff_mixed.CE 0 k) f.x + qp_stiff_mixed.ce0 0 = -1 := by
  refine ⟨⟨fun _ _ _ _ => rfl, ?_⟩, ⟨?_, ?_⟩, ?_⟩
  · rintro v ⟨i, hi, hv⟩
    have hi0 : i = 0 := by omega
    subst hi0
    have : dot 1 v (fun i => dot 1 (qp_stiff_mixed.Hess i) v) = 2 ^ 60 * (v 0 * v 0) := by
      simp [dot, sumTo, qp_stiff_mixed]
      ring
    rw [this]
    have := mul_self_pos.mpr hv
    positivity
  · intro i _
    simp [qp_stiff_mixed, dot, sumTo]
  · intro i _
    simp only [qp_stiff_mixed, dot, sumTo]
    norm_num
  · have h : (solve_quadprog rat_arith 10 (fresh_solver 1000) qp_stiff_mixed).check
        (fun st f => decide (st = Status.EIQUADPROG_FAST_UNBOUNDED ∧ f.slv.z 0 = 0 ∧
          f.x 0 = 0)) = true := by decide!
    obtain ⟨st, f, hf, hp⟩ := Outcome.check_iff.mp h
    simp only [decide_eq_true_eq] at hp
    obtain ⟨rfl, hz, hx⟩ := hp
    refine ⟨f, hf, hz, ?_⟩
    simp [dot, sumTo, qp_stiff_mixed, hx]

end Eiquadprog

namespace Eiquadprog

/-- The matrix `c·I` with `c > 0` is symmetric positive definite on two variables. -/
theorem sym_pos_def_scalar2 {α : Type} [LinearOrderedField α] (c : α) (hc : 0 < c) :
    SymPosDef 2 (fun i j => if i = j then c else 0) := by
  refine ⟨fun i j _ _ => ?_, ?_⟩
  · by_cases h : i = j
    · subst h; rfl
    · show (if i = j then c else 0) = (if j = i then c else 0)
      rw [if_neg h, if_neg (fun e => h e.symm)]
  · rintro v ⟨i, hi, hv⟩
    have e : dot 2 v (fun i => dot 2 ((fun i j => if i = j then c else 0) i) v)
        = c * (v 0 * v 0 + v 1 * v 1) := by
      simp [dot, sumTo]
      ring
    rw [e]
    apply mul_pos hc
    have h0 := mul_self_nonneg (v 0)
    have h1 := mul_self_nonneg (v 1)
    have hi2 : i = 0 ∨ i = 1 := by omega
    rcases hi2 with rfl | rfl
    · have := mul_self_pos.mpr hv
      linarith
    · have := mul_self_pos.mpr hv
      linarith

/-- A return with `EIQUADPROG_FAST_OPTIMAL` of a point that is not the minimiser, caused by
a step that the guard `|z·z| > ε` skipped: on `qp_skipped_step` (symmetric positive
definite, strictly feasible) no block rolls back, the second inequality is met at label
`l2a` with `z = (0, 2^-27)`, so that `t2 = +inf` and only the multipliers are updated, and
the call returns `(33/17, 4/17)` although the feasible point `(32/17, 8/17)` has a smaller
objective. -/
theorem optimal_after_skipped_step :
    SymPosDef 2 qp_skipped_step.Hess ∧ StrictlyFeasible qp_skipped_step (fun _ => 4) ∧
    Feasible qp_skipped_step (fun i => if i = 0 then 32 / 17 else 8 / 17) ∧
    ¬ StepGuards rat_arith (fresh_solver 1000) qp_skipped_step ∧
    ∃ f, solve_quadprog rat_arith 10 (fresh_solver 1000) qp_skipped_step
        = Outcome.done Status.EIQUADPROG_FAST_OPTIMAL f ∧
      f.x 0 = 33 / 17 ∧ f.x 1 = 4 / 17 ∧
      objective qp_skipped_step (fun i => if i = 0 then 32 / 17 else 8 / 17)
        < objective qp_skipped_step f.x := by
  refine ⟨sym_pos_def_scalar2 _ (by norm_num), ⟨?_, ?_⟩, ⟨?_, ?_⟩, ?_, ?_⟩
  · intro i hi
    simp [qp_skipped_step] at hi
  · intro i hi
    have hi2 : i = 0 ∨ i = 1 := by
      have : i < 2 := hi
      omega
    rcases hi2 with rfl | rfl
    · norm_num [qp_skipped_step, dot, sumTo]
    · norm_num [qp_skipped_step, dot, sumTo]
  · intro i hi
    simp [qp_skipped_step] at hi
  · intro i hi
    have hi2 : i = 0 ∨ i = 1 := by
      have : i < 2 := hi
      omega
    rcases hi2 with rfl | rfl
    · norm_num [qp_skipped_step, dot, sumTo]
    · norm_num [qp_skipped_step, dot, sumTo]
  · intro hsg
    have h : (match (start rat_arith (fresh_solver 1000) qp_skipped_step).bind
          (advance rat_arith qp_skipped_step 5) with
        | some (Next.goto_l2a f) =>
          decide (full_step rat_arith qp_skipped_step.nVars (direction qp_skipped_step f).slv.z
              (direction qp_skipped_step f).slv.np ((direction qp_skipped_step f).slv.s f.ip)
                = none ∧
            (direction qp_skipped_step f).slv.z 1 = 1 / 2 ^ 27)
        | _ => false) = true := by decide!
    cases hs : start rat_arith (fresh_solver 1000) qp_skipped_step with
    | none => rw [hs] at h; simp at h
    | some nx0 =>
      rw [hs] at h
      simp only [Option.some_bind] at h
      cases ha : advance rat_arith qp_skipped_step 5 nx0 with
      | none => rw [ha] at h; simp at h
      | some nx =>
        rw [ha] at h
        cases nx with
        | goto_l2a f =>
          simp only [decide_eq_true_eq] at h
          have hz := hsg nx0 5 f hs ha h.1 1 (by decide)
          rw [h.2] at hz
          norm_num at hz
        | goto_l1 f => simp at h
        | goto_l2 f => simp at h
        | ret st f => simp at h
  · have h : (solve_quadprog rat_arith 10 (fresh_solver 1000) qp_skipped_step).check
        (fun st f => decide (st = Status.EIQUADPROG_FAST_OPTIMAL ∧ f.x 0 = 33 / 17 ∧
          f.x 1 = 4 / 17)) = true := by decide!
    obtain ⟨st, f, hf, hp⟩ := Outcome.check_iff.mp h
    simp only [decide_eq_true_eq] at hp
    obtain ⟨rfl, h0, h1⟩ := hp
    refine ⟨f, hf, h0, h1, ?_⟩
    simp only [objective, qp_skipped_step, dot, sumTo, h0, h1]
    norm_num

end Eiquadprog

namespace Eiquadprog

/-- A return with `EIQUADPROG_FAST_OPTIMAL` of a point that is not the minimiser, caused by
the rollback of a degenerate add: on `qp_stale_rollback` (symmetric positive definite,
strictly feasible) the block at label `l2a` reached after nine blocks rolls back; `A(0)`
and `u(0)` are restored from the snapshot while `R` and `m_J` keep the factorisation of
the other constraint, and the call returns a point near `(2, 2^32 + 2^10)` although the
feasible point `(1 + 2^20, 2^32)` has a smaller objective. -/
theorem optimal_after_rollback :
    SymPosDef 2 qp_stale_rollback.Hess ∧
    StrictlyFeasible qp_stale_rollback (fun i => if i = 0 then 2 ^ 21 else 2 ^ 33) ∧
    Feasible qp_stale_rollback (fun i => if i = 0 then 1 + 2 ^ 20 else 2 ^ 32) ∧
    ¬ NoRollback rat_arith (fresh_solver 1000) qp_stale_rollback ∧
    ∃ f, solve_quadprog rat_arith 20 (fresh_solver 1000) qp_stale_rollback
        = Outcome.done Status.EIQUADPROG_FAST_OPTIMAL f ∧
      f.x 0 = 562950221856769 / 281475245146112 ∧
      f.x 1 = 1237941515024906171663253503 / 288230651029618688 ∧
      objective qp_stale_rollback (fun i => if i = 0 then 1 + 2 ^ 20 else 2 ^ 32)
        < objective qp_stale_rollback f.x := by
  have h3 : ∀ i, i < 3 → i = 0 ∨ i = 1 ∨ i = 2 := fun i hi => by omega
  refine ⟨sym_pos_def_scalar2 _ (by norm_num), ⟨?_, ?_⟩, ⟨?_, ?_⟩, ?_, ?_⟩
  · intro i hi
    simp [qp_stale_rollback] at hi
  · intro i hi
    rcases h3 i hi with rfl | rfl | rfl
    · norm_num [qp_stale_rollback, dot, sumTo]
    · norm_num [qp_stale_rollback, dot, sumTo]
    · norm_num [qp_stale_rollback, dot, sumTo]
  · intro i hi
    simp [qp_stale_rollback] at hi
  · intro i hi
    rcases h3 i hi with rfl | rfl | rfl
    · norm_num [qp_stale_rollback, dot, sumTo]
    · norm_num [qp_stale_rollback, dot, sumTo]
    · norm_num [qp_stale_rollback, dot, sumTo]
  · intro hnr
    have h : (match (start rat_arith (fresh_solver 1000) qp_stale_rollback).bind
          (advance rat_arith qp_stale_rollback 9) with
        | some (Next.goto_l2a f) =>
          (match step_l2a rat_arith qp_stale_rollback f with
           | some (Next.goto_l2 _) => true
           | _ => false)
        | _ => false) = true := by decide!
    cases hs : start rat_arith (fresh_solver 1000) qp_stale_rollback with
    | none => rw [hs] at h; simp at h
    | some nx0 =>
      rw [hs] at h
      simp only [Option.some_bind] at h
      cases ha : advance rat_arith qp_stale_rollback 9 nx0 with
      | none => rw [ha] at h; simp at h
      | some nx =>
        rw [ha] at h
        cases nx with
        | goto_l2a f =>
          dsimp only at h
          cases hst : step_l2a rat_arith qp_stale_rollback f with
          | none => rw [hst] at h; simp at h
          | some nx1 =>
            rw [hst] at h
            cases nx1 with
            | goto_l2 g => exact hnr nx0 9 f g hs ha hst
            | goto_l1 g => simp at h
            | goto_l2a g => simp at h
            | ret st g => simp at h
        | goto_l1 f => simp at h
        | goto_l2 f => simp at h
        | ret st f => simp at h
  · have h : (solve_quadprog rat_arith 20 (fresh_solver 1000) qp_stale_rollback).check
        (fun st f => decide (st = Status.EIQUADPROG_FAST_OPTIMAL ∧
          f.x 0 = 562950221856769 / 281475245146112 ∧
          f.x 1 = 1237941515024906171663253503 / 288230651029618688)) = true := by decide!
    obtain ⟨st, f, hf, hp⟩ := Outcome.check_iff.mp h
    simp only [decide_eq_true_eq] at hp
    obtain ⟨rfl, h0, h1⟩ := hp
    refine ⟨f, hf, h0, h1, ?_⟩
    simp only [objective, qp_stale_rollback, dot, sumTo, h0, h1]
    norm_num

end Eiquadprog

namespace Eiquadprog

section CertLemmas

variable {α : Type} [LinearOrderedField α]

end CertLemmas

end Eiquadprog

namespace Eiquadprog

section CertSteps

variable {α : Type} [LinearOrderedField α]

end CertSteps

end Eiquadprog

namespace Eiquadprog

section CertMain

variable {α : Type} [LinearOrderedField α]

end CertMain

end Eiquadprog

namespace Eiquadprog

section CertReturn

variable {α : Type} [LinearOrderedField α]

end CertReturn

end Eiquadprog

namespace Eiquadprog

section Objective

variable {α : Type} [LinearOrderedField α]

end Objective

end Eiquadprog

namespace Eiquadprog

section Progress

variable {α : Type} [LinearOrderedField α]

end Progress

end Eiquadprog

namespace Eiquadprog

section Visits

variable {α : Type} [LinearOrderedField α]

end Visits

section ObjectiveSteps

variable {α : Type} [LinearOrderedField α]

end ObjectiveSteps

section VisitSteps

variable {α : Type} [LinearOrderedField α]

end VisitSteps

end Eiquadprog

namespace Eiquadprog

section Termination

variable {α : Type} [LinearOrderedField α]

end Termination

end Eiquadprog
